import Mathlib

/-!
# Mining tick and Ethereum distribution of the freezer miner

A shallow embedding of `src/miner/mining.go` (`mine`, `historyPart`) and of
`src/miner/ethereum_distribution.go` (`processEthereumCoinDistribution` and the
eligibility helpers around it).

Modelling conventions.

* `float64` values are exact rationals (`ℚ`): no rounding, no NaN, no infinities. Statements
  about the embedding follow the operations of the source one for one; where a claim depends
  on rounding, the lines concerned are replayed with `roundFloat64`, the IEEE 754 rounding
  to nearest, after each operation (namespace `float64`).
* An instant (`*time.Time`, always UTC) is a number of nanoseconds since the Unix
  epoch; a nil pointer is `none`.
* A nil-pointer dereference (a Go panic) is the outer `none` of an `Option` result.
* Functions defined in other files and packages (`resurrect`,
  `changeT0AndTMinus1Referrals`, the `coindistribution` predicates) are parameters,
  bundled in `Helpers` and `Collaborators`; `tokenomics.ApplyPreStaking` follows the
  formula of the specification.
-/

namespace Freezer

/-! ## Time -/

/-- Nanoseconds since the Unix epoch (UTC). -/
abbrev Time := Int

/-- A `time.Duration`: signed nanoseconds. -/
abbrev Duration := Int

def nanosPerSecond : Int := 1000000000

def nanosPerHour : Int := 3600000000000

def maxDuration : Int := 9223372036854775807

def minDuration : Int := -9223372036854775808

/-- The method `Time.Sub`: the difference of two instants, saturated to the range of an `int64`. -/
def Time.Sub (t u : Time) : Duration :=
  if t - u > maxDuration then maxDuration
  else if t - u < minDuration then minDuration
  else t - u

/-- The method `Duration.Hours`: the duration as a number of hours. -/
def Duration.Hours (d : Duration) : ℚ := (d : ℚ) / (nanosPerHour : ℚ)

def unixSeconds (t : Time) : Int := t / nanosPerSecond

def unixDays (t : Time) : Int := unixSeconds t / 86400

/-- Civil date (year, month, day) of a day count since 1970-01-01, proleptic Gregorian calendar. -/
def civilFromDays (days : Int) : Int × Int × Int :=
  let z := days + 719468
  let era := z / 146097
  let doe := z - era * 146097
  let yoe := (doe - doe / 1460 + doe / 36524 - doe / 146096) / 365
  let doy := doe - (365 * yoe + yoe / 4 - yoe / 100)
  let mp := (5 * doy + 2) / 153
  let d := doy - (153 * mp + 2) / 5 + 1
  let m := if mp < 10 then mp + 3 else mp - 9
  let y := yoe + era * 400
  (if m ≤ 2 then y + 1 else y, m, d)

/-- Day count since 1970-01-01 of the first of January of a year. -/
def daysOfNewYear (year : Int) : Int :=
  let y := year - 1
  let era := y / 400
  let yoe := y - era * 400
  era * 146097 + (yoe * 365 + yoe / 4 - yoe / 100 + 306) - 719468

def Time.Year (t : Time) : Int := (civilFromDays (unixDays t)).1

def Time.Month (t : Time) : Int := (civilFromDays (unixDays t)).2.1

def Time.Day (t : Time) : Int := (civilFromDays (unixDays t)).2.2

def Time.YearDay (t : Time) : Int := unixDays t - daysOfNewYear (Time.Year t) + 1

def Time.Hour (t : Time) : Int := (unixSeconds t % 86400) / 3600

def Time.Minute (t : Time) : Int := (unixSeconds t % 3600) / 60

/-- Decimal rendering of a number, left-padded with zeros to a width. -/
def padZero (width : Nat) (n : Int) : String :=
  let s := toString n.toNat
  String.mk (List.replicate (width - s.length) '0') ++ s

/-- The layout `2006-01-02T15` of `Time.Format`. -/
def formatHour (t : Time) : String :=
  padZero 4 (Time.Year t) ++ "-" ++ padZero 2 (Time.Month t) ++ "-" ++ padZero 2 (Time.Day t)
    ++ "T" ++ padZero 2 (Time.Hour t)

/-- The layout `2006-01-02T15:04` of `Time.Format`. -/
def formatMinute (t : Time) : String :=
  formatHour t ++ ":" ++ padZero 2 (Time.Minute t)

/-! ## Data model -/

/-- The KYC state of an account; the core only hands it to the external eligibility predicate. -/
abbrev KYCState := Nat

/-- The record `user` of `contract.go`, flattened, with the fields the two functions touch. -/
structure user where
  ID : Int
  UserID : String
  Username : String
  Country : String
  KYCState : KYCState
  MiningBlockchainAccountAddress : String
  IDT0 : Int
  IDTMinus1 : Int
  HistoryPart : String
  MiningSessionSoloLastStartedAt : Option Time
  MiningSessionSoloStartedAt : Option Time
  MiningSessionSoloEndedAt : Option Time
  MiningSessionSoloPreviouslyEndedAt : Option Time
  ExtraBonusStartedAt : Option Time
  BalanceLastUpdatedAt : Option Time
  ResurrectSoloUsedAt : Option Time
  ResurrectT0UsedAt : Option Time
  ResurrectTMinus1UsedAt : Option Time
  BalanceTotalStandard : ℚ
  BalanceTotalPreStaking : ℚ
  BalanceTotalMinted : ℚ
  BalanceTotalSlashed : ℚ
  BalanceSoloPending : ℚ
  BalanceT1Pending : ℚ
  BalanceT2Pending : ℚ
  BalanceSoloPendingApplied : ℚ
  BalanceT1PendingApplied : ℚ
  BalanceT2PendingApplied : ℚ
  BalanceSolo : ℚ
  BalanceT0 : ℚ
  BalanceT1 : ℚ
  BalanceT2 : ℚ
  BalanceForT0 : ℚ
  BalanceForTMinus1 : ℚ
  SlashingRateSolo : ℚ
  SlashingRateT0 : ℚ
  SlashingRateT1 : ℚ
  SlashingRateT2 : ℚ
  SlashingRateForT0 : ℚ
  SlashingRateForTMinus1 : ℚ
  ActiveT1Referrals : Int
  ActiveT2Referrals : Int
  PreStakingBonus : ℚ
  PreStakingAllocation : ℚ
  ExtraBonus : ℚ
  BalanceSoloEthereum : ℚ
  BalanceT0Ethereum : ℚ
  BalanceT1Ethereum : ℚ
  BalanceT2Ethereum : ℚ
  BalanceForT0Ethereum : ℚ
  BalanceForTMinus1Ethereum : ℚ
  BalanceSoloEthereumPending : Option ℚ
  BalanceT0EthereumPending : Option ℚ
  BalanceT1EthereumPending : Option ℚ
  BalanceT2EthereumPending : Option ℚ
  SoloLastEthereumCoinDistributionProcessedAt : Option Time
  ForT0LastEthereumCoinDistributionProcessedAt : Option Time
  ForTMinus1LastEthereumCoinDistributionProcessedAt : Option Time
deriving DecidableEq

/-- The record `referral`: the part of a referrer the two functions read. -/
structure referral where
  ID : Int
  UserID : String
  Username : String
  Country : String
  KYCState : KYCState
  MiningBlockchainAccountAddress : String
  IDT0 : Int
  MiningSessionSoloStartedAt : Option Time
  MiningSessionSoloEndedAt : Option Time
  MiningSessionSoloPreviouslyEndedAt : Option Time
  ResurrectSoloUsedAt : Option Time
  BalanceTotalStandard : ℚ
  BalanceSoloEthereum : ℚ
  BalanceT0Ethereum : ℚ
  BalanceT1Ethereum : ℚ
  BalanceT2Ethereum : ℚ
  PreStakingBonus : ℚ
  PreStakingAllocation : ℚ
deriving DecidableEq

/-- The collector settings snapshot loaded from `cfg.coinDistributionCollectorSettings`. -/
structure CollectorSettings where
  StartDate : Option Time
  EndDate : Option Time
  MinMiningStreaksRequired : Nat
  MinBalanceRequired : ℚ
  DeniedCountries : String
deriving DecidableEq

/-- The part of the package-level `cfg` the two functions read, and the wall clock. -/
structure config where
  Development : Bool
  ExtraBonusesDuration : Duration
  MiningSessionDurationMax : Duration
  EthereumDistributionFrequencyMin : Duration
  EthereumDistributionFrequencyMax : Duration
  coinDistributionCollectorSettings : CollectorSettings
  coinDistributionCollectorStartedAt : Option Time
  wallClock : Time

/-- The two helpers of `mine` that live in other files of the package. -/
structure Helpers where
  resurrect : Time → user → Option referral → Option referral → user
  changeT0AndTMinus1Referrals : user → user

/-- Modelled from the spec: `tokenomics.ApplyPreStaking`, defined in package `tokenomics`,
outside `src/miner`: `standard = amount − amount·allocation/100` and
`preStaking = amount·allocation/100·(1 + bonus/100)`. -/
def ApplyPreStaking (amount preStakingAllocation preStakingBonus : ℚ) : ℚ × ℚ :=
  (amount - amount * preStakingAllocation / 100,
   amount * preStakingAllocation / 100 * (1 + preStakingBonus / 100))

/-! ## `mine` -/

/-- The function `historyPart` of `mining.go`. -/
def historyPart (cfg : config) (date : Time) : String :=
  if cfg.Development then formatMinute date else formatHour date

/-- The test of line 39-42 of `mining.go`: the two instants lie in different buckets. -/
def differentBucket (cfg : config) (last now : Time) : Bool :=
  Time.Year last != Time.Year now ||
  Time.YearDay last != Time.YearDay now ||
  Time.Hour last != Time.Hour now ||
  (cfg.Development && Time.Minute last != Time.Minute now)

/-- A referrer that is present, has a session end, and whose session ends after `now`. -/
def referral.activeAt (ref : Option referral) (now : Time) : Bool :=
  match ref with
  | none => false
  | some r =>
    match r.MiningSessionSoloEndedAt with
    | none => false
    | some e => decide (e > now)

/-- A referrer that is present, has a session end, and whose session ended before `now`. -/
def referral.endedBefore (ref : Option referral) (now : Time) : Bool :=
  match ref with
  | none => false
  | some r =>
    match r.MiningSessionSoloEndedAt with
    | none => false
    | some e => decide (e < now)

/-- The condition of the idle short-circuit, lines 18-25 of `mining.go`. -/
def idleCondition (updatedUser : user) (endedAt now : Time) : Bool :=
  decide (endedAt < now) &&
  decide (updatedUser.BalanceSolo = 0) &&
  decide (updatedUser.BalanceT0 = 0) &&
  decide (updatedUser.BalanceT1 = 0) &&
  decide (updatedUser.BalanceT2 = 0) &&
  decide (updatedUser.BalanceSoloPending - updatedUser.BalanceSoloPendingApplied = 0) &&
  decide (updatedUser.BalanceForT0 = 0) &&
  decide (updatedUser.BalanceForTMinus1 = 0)

/-- The local variables of `mine` when it reaches its last line. -/
structure tickLocals where
  updatedUser : user
  history : Option user
  mintedAmount : ℚ
  slashedAmount : ℚ

/-- Lines 56 and 60: the solo balance grows by the minted amount. -/
def addSolo (u : user) (rate : ℚ) : user := { u with BalanceSolo := u.BalanceSolo + rate }

/-- Lines 65-66: what the user mints thanks to T0 goes to `BalanceForT0` and to `BalanceT0`. -/
def addT0 (u : user) (rate : ℚ) : user :=
  { u with BalanceForT0 := u.BalanceForT0 + rate, BalanceT0 := u.BalanceT0 + rate }

/-- Line 70. -/
def addForTMinus1 (u : user) (rate : ℚ) : user :=
  { u with BalanceForTMinus1 := u.BalanceForTMinus1 + rate }

/-- Lines 72-74. -/
def clampT1Referrals (u : user) : user :=
  if u.ActiveT1Referrals < 0 then { u with ActiveT1Referrals := 0 } else u

/-- Lines 75-77. -/
def clampT2Referrals (u : user) : user :=
  if u.ActiveT2Referrals < 0 then { u with ActiveT2Referrals := 0 } else u

/-- Lines 80-81. -/
def addTeam (u : user) (t1Rate t2Rate : ℚ) : user :=
  { u with BalanceT1 := u.BalanceT1 + t1Rate, BalanceT2 := u.BalanceT2 + t2Rate }

/-- Line 54: an extra bonus was started and `now` is before its end. -/
def extraBonusActive (cfg : config) (now : Time) (u : user) : Bool :=
  match u.ExtraBonusStartedAt with
  | none => false
  | some s => decide (now < s + cfg.ExtraBonusesDuration)

/-- Lines 54-82: accrual while the session is active. Returns the user and the local
`mintedAmount`. -/
def accrue (cfg : config) (baseMiningRate : ℚ) (now : Time) (hours : ℚ)
    (updatedUser : user) (t0Ref tMinus1Ref : Option referral) : user × ℚ :=
  let soloRate : ℚ :=
    if extraBonusActive cfg now updatedUser then
      (100 + updatedUser.ExtraBonus) * baseMiningRate * hours / 100
    else baseMiningRate * hours
  let u1 := addSolo updatedUser soloRate
  let t0Rate : ℚ := 25 * baseMiningRate * hours / 100
  let u2 := if referral.activeAt t0Ref now then addT0 u1 t0Rate else u1
  let m2 : ℚ := if referral.activeAt t0Ref now then 0 + soloRate + t0Rate else 0 + soloRate
  let u3 :=
    if referral.activeAt tMinus1Ref now then addForTMinus1 u2 (5 * baseMiningRate * hours / 100)
    else u2
  let u5 := clampT2Referrals (clampT1Referrals u3)
  let t1Rate : ℚ := (25 * (u5.ActiveT1Referrals : ℚ)) * baseMiningRate * hours / 100
  let t2Rate : ℚ := (5 * (u5.ActiveT2Referrals : ℚ)) * baseMiningRate * hours / 100
  (addTeam u5 t1Rate t2Rate, m2 + (t1Rate + t2Rate))

/-- Lines 84-86. -/
def armSolo (u : user) : user :=
  if u.SlashingRateSolo = 0 then { u with SlashingRateSolo := u.BalanceSolo / 60 / 24 } else u

/-- Lines 87-89. -/
def armT0 (u : user) : user :=
  if u.SlashingRateT0 = 0 then { u with SlashingRateT0 := u.BalanceT0 / 60 / 24 } else u

/-- Lines 90-92. -/
def armT1 (u : user) : user :=
  if u.SlashingRateT1 = 0 then { u with SlashingRateT1 := u.BalanceT1 / 60 / 24 } else u

/-- Lines 93-95. -/
def armT2 (u : user) : user :=
  if u.SlashingRateT2 = 0 then { u with SlashingRateT2 := u.BalanceT2 / 60 / 24 } else u

/-- Lines 53-96: accrual while the session is active, arming of the four slashing rates
otherwise. Returns the user and the local `mintedAmount`. -/
def accrueOrArm (cfg : config) (baseMiningRate : ℚ) (now : Time) (endedAt : Time) (hours : ℚ)
    (updatedUser : user) (t0Ref tMinus1Ref : Option referral) : user × ℚ :=
  if endedAt > now then accrue cfg baseMiningRate now hours updatedUser t0Ref tMinus1Ref
  else (armT2 (armT1 (armT0 (armSolo updatedUser))), 0)

/-- Lines 98-103. -/
def armForT0 (now : Time) (u : user) (t0Ref : Option referral) : user :=
  if referral.endedBefore t0Ref now && decide (u.SlashingRateForT0 = 0) then
    { u with SlashingRateForT0 := u.BalanceForT0 / 60 / 24 }
  else u

/-- Lines 105-110. -/
def armForTMinus1 (now : Time) (u : user) (tMinus1Ref : Option referral) : user :=
  if referral.endedBefore tMinus1Ref now && decide (u.SlashingRateForTMinus1 = 0) then
    { u with SlashingRateForTMinus1 := u.BalanceForTMinus1 / 60 / 24 }
  else u

/-- Lines 98-110: arming of the slashing rates of the two "for" balances. -/
def armForRates (now : Time) (updatedUser : user) (t0Ref tMinus1Ref : Option referral) : user :=
  armForTMinus1 now (armForT0 now updatedUser t0Ref) tMinus1Ref

/-- Lines 112-118: the six balances after slashing, and the local `slashedAmount`. -/
def slash (hours : ℚ) (u : user) : user × ℚ :=
  ({ u with
      BalanceSolo := u.BalanceSolo - u.SlashingRateSolo * hours,
      BalanceForTMinus1 := u.BalanceForTMinus1 - u.SlashingRateForTMinus1 * hours,
      BalanceForT0 := u.BalanceForT0 - u.SlashingRateForT0 * hours,
      BalanceT0 := u.BalanceT0 - u.SlashingRateT0 * hours,
      BalanceT1 := u.BalanceT1 - u.SlashingRateT1 * hours,
      BalanceT2 := u.BalanceT2 - u.SlashingRateT2 * hours },
    (u.SlashingRateSolo + u.SlashingRateT0 + u.SlashingRateT1 + u.SlashingRateT2) * hours)

/-- Lines 131-145: one unapplied pending amount goes to `slashedAmount` when negative and to
`mintedAmount` otherwise. Returns the new `(mintedAmount, slashedAmount)`. -/
def classifyPending (unApplied : ℚ) (ms : ℚ × ℚ) : ℚ × ℚ :=
  if unApplied < 0 then (ms.1, ms.2 + unApplied) else (ms.1 + unApplied, ms.2)

/-- The clamp of lines 146-163. -/
def clampZero (x : ℚ) : ℚ := if x < 0 then 0 else x

/-- Lines 50-183 of `mining.go`: the full path, after the history rollover, from an instant
`last` that is the value of `BalanceLastUpdatedAt` the elapsed time is measured from. -/
def mineFrom (cfg : config) (baseMiningRate : ℚ) (now : Time) (usr : user) (endedAt last : Time)
    (updatedUser : user) (history : Option user) (t0Ref tMinus1Ref : Option referral) : tickLocals :=
  let hours := Duration.Hours (Time.Sub now last)
  let acc := accrueOrArm cfg baseMiningRate now endedAt hours updatedUser t0Ref tMinus1Ref
  let armed := armForRates now acc.1 t0Ref tMinus1Ref
  let sl := slash hours armed
  let u := sl.1
  let unAppliedSoloPending := u.BalanceSoloPending - u.BalanceSoloPendingApplied
  let unAppliedT1Pending := u.BalanceT1Pending - u.BalanceT1PendingApplied
  let unAppliedT2Pending := u.BalanceT2Pending - u.BalanceT2PendingApplied
  let ms := classifyPending unAppliedT2Pending
    (classifyPending unAppliedT1Pending (classifyPending unAppliedSoloPending (acc.2, sl.2)))
  let mintedAmount := ms.1
  let slashedAmount := if usr.BalanceTotalPreStaking + usr.BalanceTotalStandard = 0 then 0 else ms.2
  let balanceSolo := clampZero (u.BalanceSolo + unAppliedSoloPending)
  let balanceT0 := clampZero u.BalanceT0
  let balanceT1 := clampZero (u.BalanceT1 + unAppliedT1Pending)
  let balanceT2 := clampZero (u.BalanceT2 + unAppliedT2Pending)
  let totalAmount := balanceSolo + balanceT0 + balanceT1 + balanceT2
  let total := ApplyPreStaking totalAmount u.PreStakingAllocation u.PreStakingBonus
  let minted := ApplyPreStaking mintedAmount u.PreStakingAllocation u.PreStakingBonus
  let slashed := ApplyPreStaking slashedAmount u.PreStakingAllocation u.PreStakingBonus
  { updatedUser :=
      { u with
        BalanceSoloPendingApplied := if unAppliedSoloPending = 0 then 0 else u.BalanceSoloPending,
        BalanceT1PendingApplied := if unAppliedT1Pending = 0 then 0 else u.BalanceT1Pending,
        BalanceT2PendingApplied := if unAppliedT2Pending = 0 then 0 else u.BalanceT2Pending,
        BalanceSolo := balanceSolo,
        BalanceT0 := balanceT0,
        BalanceT1 := balanceT1,
        BalanceT2 := balanceT2,
        BalanceForT0 := clampZero u.BalanceForT0,
        BalanceForTMinus1 := clampZero u.BalanceForTMinus1,
        BalanceTotalStandard := total.1,
        BalanceTotalPreStaking := total.2,
        BalanceTotalMinted := u.BalanceTotalMinted + (minted.1 + minted.2),
        BalanceTotalSlashed := u.BalanceTotalSlashed + (slashed.1 + slashed.2),
        BalanceLastUpdatedAt := some now },
    history := history,
    mintedAmount := mintedAmount,
    slashedAmount := slashedAmount }

/-- Lines 37-183 of `mining.go`: the history rollover, then the rest of the full path. The
result is `none` when a nil instant is dereferenced. -/
def mineFull (cfg : config) (baseMiningRate : ℚ) (now : Time) (usr : user) (endedAt : Time)
    (updatedUser : user) (t0Ref tMinus1Ref : Option referral) : Option tickLocals :=
  match updatedUser.BalanceLastUpdatedAt with
  | none =>
    match updatedUser.MiningSessionSoloStartedAt with
    | none => none
    | some startedAt =>
      some (mineFrom cfg baseMiningRate now usr endedAt startedAt
        { updatedUser with BalanceLastUpdatedAt := some startedAt } none t0Ref tMinus1Ref)
  | some last =>
    if differentBucket cfg last now then
      match usr.BalanceLastUpdatedAt with
      | none => none
      | some prior =>
        some (mineFrom cfg baseMiningRate now usr endedAt last
          { updatedUser with BalanceTotalSlashed := 0, BalanceTotalMinted := 0 }
          (some { usr with HistoryPart := historyPart cfg prior }) t0Ref tMinus1Ref)
    else
      some (mineFrom cfg baseMiningRate now usr endedAt last updatedUser none t0Ref tMinus1Ref)

/-- The clone `mine` works on: the user after `resurrect` and `changeT0AndTMinus1Referrals`
(lines 14-17). -/
def Helpers.prepare (hp : Helpers) (now : Time) (usr : user) (t0Ref tMinus1Ref : Option referral) :
    user :=
  hp.changeT0AndTMinus1Referrals (hp.resurrect now usr t0Ref tMinus1Ref)

/-- The user returned by the idle short-circuit when a T1 or T2 pending amount is unapplied
(lines 28-29). -/
def idleUpdate (updatedUser : user) : user :=
  { updatedUser with
    BalanceT1PendingApplied := updatedUser.BalanceT1Pending,
    BalanceT2PendingApplied := updatedUser.BalanceT2Pending }

/-- Lines 18-185 of `mining.go`, on the input `usr` and its prepared clone `updatedUser`. -/
def mineClone (cfg : config) (baseMiningRate : ℚ) (now : Time) (usr updatedUser : user)
    (t0Ref tMinus1Ref : Option referral) : Option (Option user × Option user) :=
  match updatedUser.MiningSessionSoloEndedAt with
  | none => none
  | some endedAt =>
    if idleCondition updatedUser endedAt now then
      if updatedUser.BalanceT1Pending - updatedUser.BalanceT1PendingApplied ≠ 0 ∨
          updatedUser.BalanceT2Pending - updatedUser.BalanceT2PendingApplied ≠ 0 then
        some (some (idleUpdate updatedUser), none)
      else some (none, none)
    else
      (mineFull cfg baseMiningRate now usr endedAt updatedUser t0Ref tMinus1Ref).map
        (fun r => (some r.updatedUser, r.history))

/-- The function `mine` of `mining.go`. The result is `(updatedUser, history)`; the outer `none`
is a nil-pointer panic. -/
def mine (cfg : config) (hp : Helpers) (baseMiningRate : ℚ) (now : Time) (usr : Option user)
    (t0Ref tMinus1Ref : Option referral) : Option (Option user × Option user) :=
  match usr with
  | none => some (none, none)
  | some usr =>
    if usr.MiningSessionSoloStartedAt.isNone || usr.MiningSessionSoloEndedAt.isNone then
      some (none, none)
    else
      mineClone cfg baseMiningRate now usr (hp.prepare now usr t0Ref tMinus1Ref) t0Ref tMinus1Ref

/-- The helpers leave the three instants `mine` dereferences as they are. -/
def Helpers.keepsTimes (hp : Helpers) : Prop :=
  ∀ (now : Time) (usr : user) (t0Ref tMinus1Ref : Option referral),
    (hp.prepare now usr t0Ref tMinus1Ref).MiningSessionSoloStartedAt = usr.MiningSessionSoloStartedAt ∧
    (hp.prepare now usr t0Ref tMinus1Ref).MiningSessionSoloEndedAt = usr.MiningSessionSoloEndedAt ∧
    (hp.prepare now usr t0Ref tMinus1Ref).BalanceLastUpdatedAt = usr.BalanceLastUpdatedAt

/-- The totals of a user agree with the pre-staking split of its four minted balances. -/
def totalsConsistent (u : user) : Prop :=
  (u.BalanceTotalStandard, u.BalanceTotalPreStaking) =
    ApplyPreStaking (u.BalanceSolo + u.BalanceT0 + u.BalanceT1 + u.BalanceT2)
      u.PreStakingAllocation u.PreStakingBonus

instance (u : user) : Decidable (totalsConsistent u) := by
  unfold totalsConsistent; infer_instance

/-! ## `processEthereumCoinDistribution` -/

/-- The record `coindistribution.ByEarnerForReview`. -/
structure ByEarnerForReview where
  CreatedAt : Time
  Username : String
  ReferredByUsername : String
  UserID : String
  EarnerUserID : String
  EthAddress : String
  InternalID : Int
  Balance : ℚ
deriving DecidableEq

/-- The functions of package `coindistribution` the processor calls; they are defined outside
`src/miner` and are parameters here. -/
structure Collaborators where
  IsCoinDistributionCollectorEnabled : Time → Duration → CollectorSettings → Bool
  IsEligibleForEthereumDistributionNow :
    Int → Time → Option Time → Option Time → Duration → Duration → Bool
  IsEligibleForEthereumDistribution :
    Nat → ℚ → ℚ → String → String → String → Time → Time → Option Time → Option Time →
      Option Time → KYCState → Duration → Duration → Duration → Bool
  CalculateEthereumDistributionICEBalance : ℚ → Duration → Duration → Time → Option Time → ℚ

/-- The constant `ethereumDistributionDryRunModeEnabled`. -/
def ethereumDistributionDryRunModeEnabled : Bool := false

/-- The method `(*referral).username`. -/
def referral.username (ref : Option referral) : String :=
  match ref with
  | some r => if r.Username ≠ "" then r.Username else "icenetwork/bogus"
  | none => "icenetwork/bogus"

/-- The function `currentCoinDistributionCollectingEndedAt`. -/
def currentCoinDistributionCollectingEndedAt (cfg : config) : Time :=
  let coinDistributionCollectorStartedAt : Time :=
    match cfg.coinDistributionCollectorStartedAt with
    | none => cfg.wallClock + -1 * 1000000
    | some t => t
  let startingWindow : Duration :=
    if cfg.Development then 10 * nanosPerSecond else 5 * (60 * nanosPerSecond)
  coinDistributionCollectorStartedAt + startingWindow

/-- The function `isCoinDistributionCollectorEnabled`. -/
def isCoinDistributionCollectorEnabled (cfg : config) (ext : Collaborators) (now : Time) : Bool :=
  ext.IsCoinDistributionCollectorEnabled now cfg.EthereumDistributionFrequencyMin
    cfg.coinDistributionCollectorSettings

/-- The method `(*referral).isEligibleForSelfForEthereumDistribution`. -/
def referral.isEligibleForSelfForEthereumDistribution (cfg : config) (ext : Collaborators)
    (ref : Option referral) (now : Time) (lastEthereumCoinDistributionProcessedAt : Option Time) :
    Bool :=
  match ref with
  | none => false
  | some ref =>
    ref.ID != 0 &&
    ext.IsEligibleForEthereumDistributionNow ref.ID now lastEthereumCoinDistributionProcessedAt
      cfg.coinDistributionCollectorSettings.StartDate
      cfg.EthereumDistributionFrequencyMin cfg.EthereumDistributionFrequencyMax &&
    ext.IsEligibleForEthereumDistribution
      cfg.coinDistributionCollectorSettings.MinMiningStreaksRequired
      (ref.BalanceTotalStandard - ref.BalanceSoloEthereum - ref.BalanceT0Ethereum -
        ref.BalanceT1Ethereum - ref.BalanceT2Ethereum)
      cfg.coinDistributionCollectorSettings.MinBalanceRequired
      ref.MiningBlockchainAccountAddress ref.Country
      cfg.coinDistributionCollectorSettings.DeniedCountries now
      (currentCoinDistributionCollectingEndedAt cfg)
      ref.MiningSessionSoloStartedAt ref.MiningSessionSoloEndedAt
      cfg.coinDistributionCollectorSettings.EndDate ref.KYCState
      cfg.MiningSessionDurationMax
      cfg.EthereumDistributionFrequencyMin cfg.EthereumDistributionFrequencyMax

/-- The method `(*referral).isEligibleForReferralForEthereumDistribution`. -/
def referral.isEligibleForReferralForEthereumDistribution (cfg : config) (ext : Collaborators)
    (ref : Option referral) (now : Time) : Bool :=
  match ref with
  | none => false
  | some ref =>
    ref.ID != 0 &&
    ext.IsEligibleForEthereumDistribution 0 (1 / 10) 0 "skip" ref.Country
      cfg.coinDistributionCollectorSettings.DeniedCountries now
      (currentCoinDistributionCollectingEndedAt cfg)
      ref.MiningSessionSoloStartedAt ref.MiningSessionSoloEndedAt
      cfg.coinDistributionCollectorSettings.EndDate ref.KYCState
      cfg.MiningSessionDurationMax
      cfg.EthereumDistributionFrequencyMin cfg.EthereumDistributionFrequencyMax

/-- The method `(*user).isEligibleForSelfForEthereumDistribution`; the receiver is not nil. -/
def user.isEligibleForSelfForEthereumDistribution (cfg : config) (ext : Collaborators)
    (u : user) (now : Time) : Bool :=
  u.ID != 0 &&
  ext.IsEligibleForEthereumDistributionNow u.ID now u.SoloLastEthereumCoinDistributionProcessedAt
    cfg.coinDistributionCollectorSettings.StartDate
    cfg.EthereumDistributionFrequencyMin cfg.EthereumDistributionFrequencyMax &&
  ext.IsEligibleForEthereumDistribution
    cfg.coinDistributionCollectorSettings.MinMiningStreaksRequired
    (u.BalanceTotalStandard - u.BalanceSoloEthereum - u.BalanceT0Ethereum -
      u.BalanceT1Ethereum - u.BalanceT2Ethereum)
    cfg.coinDistributionCollectorSettings.MinBalanceRequired
    u.MiningBlockchainAccountAddress u.Country
    cfg.coinDistributionCollectorSettings.DeniedCountries now
    (currentCoinDistributionCollectingEndedAt cfg)
    u.MiningSessionSoloStartedAt u.MiningSessionSoloEndedAt
    cfg.coinDistributionCollectorSettings.EndDate u.KYCState
    cfg.MiningSessionDurationMax
    cfg.EthereumDistributionFrequencyMin cfg.EthereumDistributionFrequencyMax

/-- The method `(*user).isEligibleForReferralForEthereumDistribution`. -/
def user.isEligibleForReferralForEthereumDistribution (cfg : config) (ext : Collaborators)
    (u : user) (now : Time) : Bool :=
  ext.IsEligibleForEthereumDistribution 0 (1 / 10) 0 "skip" u.Country
    cfg.coinDistributionCollectorSettings.DeniedCountries now
    (currentCoinDistributionCollectingEndedAt cfg)
    u.MiningSessionSoloStartedAt u.MiningSessionSoloEndedAt
    cfg.coinDistributionCollectorSettings.EndDate u.KYCState
    cfg.MiningSessionDurationMax
    cfg.EthereumDistributionFrequencyMin cfg.EthereumDistributionFrequencyMax

/-- The method `(*user).isEligibleForT0ForEthereumDistribution`. -/
def user.isEligibleForT0ForEthereumDistribution (cfg : config) (ext : Collaborators)
    (u : user) (now : Time) (idT0 : Int) : Bool :=
  u.ID != 0 &&
  ext.IsEligibleForEthereumDistributionNow idT0 now
    u.ForT0LastEthereumCoinDistributionProcessedAt
    cfg.coinDistributionCollectorSettings.StartDate
    cfg.EthereumDistributionFrequencyMin cfg.EthereumDistributionFrequencyMax &&
  user.isEligibleForReferralForEthereumDistribution cfg ext u now

/-- The method `(*user).isEligibleForTMinus1ForEthereumDistribution`. -/
def user.isEligibleForTMinus1ForEthereumDistribution (cfg : config) (ext : Collaborators)
    (u : user) (now : Time) (idTMinus1 : Int) : Bool :=
  u.ID != 0 &&
  ext.IsEligibleForEthereumDistributionNow idTMinus1 now
    u.ForTMinus1LastEthereumCoinDistributionProcessedAt
    cfg.coinDistributionCollectorSettings.StartDate
    cfg.EthereumDistributionFrequencyMin cfg.EthereumDistributionFrequencyMax &&
  user.isEligibleForReferralForEthereumDistribution cfg ext u now

/-- The test shared by both `couldHaveBeenEligibleForEthereumDistributionRecently` methods: the
session end is set and later than `now - MiningSessionDuration.Max / 8`. -/
def endedRecently (cfg : config) (endedAt : Option Time) (now : Time) : Bool :=
  match endedAt with
  | none => false
  | some e => decide (e > now + -(Int.tdiv cfg.MiningSessionDurationMax 8))

/-- The method `(*user).couldHaveBeenEligibleForEthereumDistributionRecently`. -/
def user.couldHaveBeenEligibleForEthereumDistributionRecently (cfg : config) (u : user)
    (now : Time) : Bool :=
  endedRecently cfg u.MiningSessionSoloEndedAt now

/-- The method `(*referral).couldHaveBeenEligibleForEthereumDistributionRecently`. -/
def referral.couldHaveBeenEligibleForEthereumDistributionRecently (cfg : config)
    (ref : Option referral) (now : Time) : Bool :=
  match ref with
  | none => false
  | some r => endedRecently cfg r.MiningSessionSoloEndedAt now

/-- The value `CalculateEthereumDistributionICEBalance` is called with the configured frequency
window, `now` and the collector end date. -/
def ethICE (cfg : config) (ext : Collaborators) (now : Time) (remainingStandard : ℚ) : ℚ :=
  ext.CalculateEthereumDistributionICEBalance remainingStandard
    cfg.EthereumDistributionFrequencyMin cfg.EthereumDistributionFrequencyMax now
    cfg.coinDistributionCollectorSettings.EndDate

/-- The method `processEthereumCoinDistributionForSolo`: the user and the returned amount. -/
def processEthereumCoinDistributionForSolo (cfg : config) (ext : Collaborators) (u : user)
    (now : Time) : user × ℚ :=
  let standard := (ApplyPreStaking u.BalanceSolo u.PreStakingAllocation u.PreStakingBonus).1
  let ethIce := ethICE cfg ext now (standard - u.BalanceSoloEthereum)
  if ethIce ≤ 0 then (u, 0)
  else if !ethereumDistributionDryRunModeEnabled then
    ({ u with BalanceSoloEthereumPending := some ethIce }, ethIce)
  else (u, ethIce)

/-- The method `processEthereumCoinDistributionForT0`. -/
def processEthereumCoinDistributionForT0 (cfg : config) (ext : Collaborators) (u : user)
    (now : Time) : user × ℚ :=
  let standard := (ApplyPreStaking u.BalanceT0 u.PreStakingAllocation u.PreStakingBonus).1
  let ethIce := ethICE cfg ext now (standard - u.BalanceT0Ethereum)
  if ethIce ≤ 0 then (u, 0)
  else if !ethereumDistributionDryRunModeEnabled then
    ({ u with BalanceT0EthereumPending := some ethIce }, ethIce)
  else (u, ethIce)

/-- The method `processEthereumCoinDistributionForForT0`. -/
def processEthereumCoinDistributionForForT0 (cfg : config) (ext : Collaborators) (u : user)
    (t0 : referral) (now : Time) : user × ℚ :=
  let standard := (ApplyPreStaking u.BalanceForT0 t0.PreStakingAllocation t0.PreStakingBonus).1
  let ethIce := ethICE cfg ext now (standard - u.BalanceForT0Ethereum)
  if ethIce ≤ 0 then (u, 0)
  else if !ethereumDistributionDryRunModeEnabled then
    ({ u with BalanceForT0Ethereum := u.BalanceForT0Ethereum + ethIce }, ethIce)
  else (u, ethIce)

/-- The method `processEthereumCoinDistributionForForTMinus1`. -/
def processEthereumCoinDistributionForForTMinus1 (cfg : config) (ext : Collaborators) (u : user)
    (tMinus1 : referral) (now : Time) : user × ℚ :=
  let standard :=
    (ApplyPreStaking u.BalanceForTMinus1 tMinus1.PreStakingAllocation tMinus1.PreStakingBonus).1
  let ethIce := ethICE cfg ext now (standard - u.BalanceForTMinus1Ethereum)
  if ethIce ≤ 0 then (u, 0)
  else if !ethereumDistributionDryRunModeEnabled then
    ({ u with BalanceForTMinus1Ethereum := u.BalanceForTMinus1Ethereum + ethIce }, ethIce)
  else (u, ethIce)

/-- One of the four blocks of lines 174-189: a pending amount that is present is added to its
Ethereum balance and replaced by a fresh zero. Returns the balance and the pending field. -/
def absorbPending (balance : ℚ) (pending : Option ℚ) : ℚ × Option ℚ :=
  match pending with
  | some p => (balance + p, some 0)
  | none => (balance, none)

/-- Lines 174-192: the user when the collector is not enabled. The four blocks write disjoint
fields, so they are one update. -/
def closedGate (u : user) : user :=
  { u with
    BalanceSoloEthereum := (absorbPending u.BalanceSoloEthereum u.BalanceSoloEthereumPending).1,
    BalanceSoloEthereumPending :=
      (absorbPending u.BalanceSoloEthereum u.BalanceSoloEthereumPending).2,
    BalanceT0Ethereum := (absorbPending u.BalanceT0Ethereum u.BalanceT0EthereumPending).1,
    BalanceT0EthereumPending := (absorbPending u.BalanceT0Ethereum u.BalanceT0EthereumPending).2,
    BalanceT1Ethereum := (absorbPending u.BalanceT1Ethereum u.BalanceT1EthereumPending).1,
    BalanceT1EthereumPending := (absorbPending u.BalanceT1Ethereum u.BalanceT1EthereumPending).2,
    BalanceT2Ethereum := (absorbPending u.BalanceT2Ethereum u.BalanceT2EthereumPending).1,
    BalanceT2EthereumPending := (absorbPending u.BalanceT2Ethereum u.BalanceT2EthereumPending).2,
    SoloLastEthereumCoinDistributionProcessedAt := none,
    ForT0LastEthereumCoinDistributionProcessedAt := none,
    ForTMinus1LastEthereumCoinDistributionProcessedAt := none }

/-- Lines 196-199. -/
def clearEthereumPending (u : user) : user :=
  { u with
    BalanceSoloEthereumPending := none, BalanceT0EthereumPending := none,
    BalanceT1EthereumPending := none, BalanceT2EthereumPending := none }

/-- The four record pointers of lines 201-206; `none` is a nil pointer. -/
structure stagedRecords where
  soloCD : Option ByEarnerForReview
  t0CD : Option ByEarnerForReview
  forT0CD : Option ByEarnerForReview
  forTMinus1CD : Option ByEarnerForReview

/-- The chain test of lines 220, 250 and 265: T0 is present, is not the user, and T-1 is absent
or is neither the user nor T0. -/
def pairChainOk (u : user) (t0 tMinus1 : Option referral) : Bool :=
  match t0 with
  | none => false
  | some t =>
    t.UserID != u.UserID &&
    (match tMinus1 with
     | none => true
     | some m => m.UserID != u.UserID && m.UserID != t.UserID)

/-- The chain test of lines 235 and 280: T-1 is present and is not the user, T0 is present and
T-1 is not T0. -/
def tMinus1ChainOk (u : user) (t0 tMinus1 : Option referral) : Bool :=
  match tMinus1 with
  | none => false
  | some m =>
    m.UserID != u.UserID &&
    (match t0 with
     | none => false
     | some t => m.UserID != t.UserID)

/-- A review record with only the fields lines 221-241 set; the others are zero values. -/
def referralRecord (now : Time) (userID earnerUserID : String) : ByEarnerForReview :=
  { CreatedAt := now, Username := "", ReferredByUsername := "", UserID := userID,
    EarnerUserID := earnerUserID, EthAddress := "", InternalID := 0, Balance := 0 }

/-- Lines 207-243: the records that are created, all with balance zero. -/
def stageRecords (cfg : config) (u : user) (now : Time) (t0 tMinus1 : Option referral) :
    stagedRecords :=
  let recently := user.couldHaveBeenEligibleForEthereumDistributionRecently cfg u now
  let pair : Bool :=
    recently && referral.couldHaveBeenEligibleForEthereumDistributionRecently cfg t0 now &&
      pairChainOk u t0 tMinus1
  let forTMinus1 : Bool :=
    recently && referral.couldHaveBeenEligibleForEthereumDistributionRecently cfg tMinus1 now &&
      tMinus1ChainOk u t0 tMinus1
  { soloCD :=
      if recently then
        some { CreatedAt := now, Username := u.Username,
               ReferredByUsername := referral.username t0, UserID := u.UserID,
               EarnerUserID := u.UserID, EthAddress := u.MiningBlockchainAccountAddress,
               InternalID := u.ID, Balance := 0 }
      else none,
    t0CD :=
      match t0 with
      | some t => if pair then some (referralRecord now u.UserID t.UserID) else none
      | none => none,
    forT0CD :=
      match t0 with
      | some t => if pair then some (referralRecord now t.UserID u.UserID) else none
      | none => none,
    forTMinus1CD :=
      match tMinus1 with
      | some m => if forTMinus1 then some (referralRecord now m.UserID u.UserID) else none
      | none => none }

/-- An assignment `record.Balance = balance` through a record pointer: it panics on nil. -/
def assignBalance (record : Option ByEarnerForReview) (balance : ℚ) :
    Option (Option ByEarnerForReview) :=
  match record with
  | none => none
  | some r => some (some { r with Balance := balance })

/-- Lines 256-260, 270-275 and 285-290: the mark is `now` when dry-run is off and the balance is
positive, nil otherwise. -/
def markFor (now : Time) (balance : ℚ) : Option Time :=
  if !ethereumDistributionDryRunModeEnabled && decide (balance > 0) then some now else none

/-- Lines 245-263: what the user earned for itself. -/
def selfStage (cfg : config) (ext : Collaborators) (u : user) (now : Time)
    (t0 tMinus1 : Option referral) (st : stagedRecords) : Option (user × stagedRecords) :=
  if user.isEligibleForSelfForEthereumDistribution cfg ext u now then
    let solo := processEthereumCoinDistributionForSolo cfg ext u now
    (assignBalance st.soloCD solo.2).bind fun soloCD =>
      if pairChainOk u t0 tMinus1 &&
          referral.isEligibleForReferralForEthereumDistribution cfg ext t0 now then
        let viaT0 := processEthereumCoinDistributionForT0 cfg ext solo.1 now
        (assignBalance st.t0CD viaT0.2).bind fun t0CD =>
          some ({ viaT0.1 with
                  SoloLastEthereumCoinDistributionProcessedAt := markFor now (solo.2 + viaT0.2) },
                { st with soloCD := soloCD, t0CD := t0CD })
      else
        some ({ solo.1 with SoloLastEthereumCoinDistributionProcessedAt := markFor now solo.2 },
              { st with soloCD := soloCD })
  else some ({ u with SoloLastEthereumCoinDistributionProcessedAt := none }, st)

/-- Lines 265-278: what the user earned for its T0. Returns `balanceDistributedForT0` too. -/
def forT0Stage (cfg : config) (ext : Collaborators) (u : user) (now : Time)
    (t0 tMinus1 : Option referral) (st : stagedRecords) : Option (user × stagedRecords × ℚ) :=
  match t0 with
  | some t =>
    if pairChainOk u t0 tMinus1 &&
        user.isEligibleForT0ForEthereumDistribution cfg ext u now t.ID &&
        referral.isEligibleForSelfForEthereumDistribution cfg ext t0 now
          u.ForT0LastEthereumCoinDistributionProcessedAt then
      let forT0 := processEthereumCoinDistributionForForT0 cfg ext u t now
      (assignBalance st.forT0CD forT0.2).bind fun forT0CD =>
        some ({ forT0.1 with
                ForT0LastEthereumCoinDistributionProcessedAt := markFor now forT0.2 },
              { st with forT0CD := forT0CD },
              if !ethereumDistributionDryRunModeEnabled && decide (forT0.2 > 0) then forT0.2 else 0)
    else some ({ u with ForT0LastEthereumCoinDistributionProcessedAt := none }, st, 0)
  | none => some ({ u with ForT0LastEthereumCoinDistributionProcessedAt := none }, st, 0)

/-- Lines 280-293: what the user earned for its T-1. Returns `balanceDistributedForTMinus1` too. -/
def forTMinus1Stage (cfg : config) (ext : Collaborators) (u : user) (now : Time)
    (t0 tMinus1 : Option referral) (st : stagedRecords) : Option (user × stagedRecords × ℚ) :=
  match tMinus1 with
  | some m =>
    if tMinus1ChainOk u t0 tMinus1 &&
        user.isEligibleForTMinus1ForEthereumDistribution cfg ext u now m.ID &&
        referral.isEligibleForSelfForEthereumDistribution cfg ext tMinus1 now
          u.ForTMinus1LastEthereumCoinDistributionProcessedAt then
      let forTMinus1 := processEthereumCoinDistributionForForTMinus1 cfg ext u m now
      (assignBalance st.forTMinus1CD forTMinus1.2).bind fun forTMinus1CD =>
        some ({ forTMinus1.1 with
                ForTMinus1LastEthereumCoinDistributionProcessedAt := markFor now forTMinus1.2 },
              { st with forTMinus1CD := forTMinus1CD },
              if !ethereumDistributionDryRunModeEnabled && decide (forTMinus1.2 > 0) then
                forTMinus1.2
              else 0)
    else some ({ u with ForTMinus1LastEthereumCoinDistributionProcessedAt := none }, st, 0)
  | none => some ({ u with ForTMinus1LastEthereumCoinDistributionProcessedAt := none }, st, 0)

/-- The slice `records`: the created records in the order of the three `append` calls. -/
def stagedRecords.toList (st : stagedRecords) : List ByEarnerForReview :=
  st.soloCD.toList ++ (st.t0CD.toList ++ st.forT0CD.toList) ++ st.forTMinus1CD.toList

/-- What a call of `processEthereumCoinDistribution` leaves: the user it mutated and the three
returned values; `records = none` is the nil slice. -/
structure distributionResult where
  u : user
  records : Option (List ByEarnerForReview)
  balanceDistributedForT0 : ℚ
  balanceDistributedForTMinus1 : ℚ
deriving DecidableEq

/-- The method `(*user).processEthereumCoinDistribution`. The outer `none` is a nil-pointer
panic. -/
def processEthereumCoinDistribution (cfg : config) (ext : Collaborators) (u : user) (now : Time)
    (t0 tMinus1 : Option referral) : Option distributionResult :=
  if !isCoinDistributionCollectorEnabled cfg ext now then
    some { u := closedGate u, records := none,
           balanceDistributedForT0 := 0, balanceDistributedForTMinus1 := 0 }
  else
    let u0 := clearEthereumPending u
    (selfStage cfg ext u0 now t0 tMinus1 (stageRecords cfg u0 now t0 tMinus1)).bind fun s1 =>
      (forT0Stage cfg ext s1.1 now t0 tMinus1 s1.2).bind fun s2 =>
        (forTMinus1Stage cfg ext s2.1 now t0 tMinus1 s2.2.1).bind fun s3 =>
          some { u := s3.1, records := some s3.2.1.toList,
                 balanceDistributedForT0 := s2.2.2, balanceDistributedForTMinus1 := s3.2.2 }

/-! ## `startCoinDistributionCollectionWorkerManager`

The worker manager is a loop over two channels and a context. It is modelled as a state machine
over the sequence of what it receives. A step is the receipt of one signal together with the
code that runs up to the next `select`, the tests of `ctx.Err()` included. The Slack messages,
the mutex and the stored start time do not steer the loop and are left out. -/

/-- What happens to the manager: a signal on `coinDistributionStartedSignaler`, a signal on
`coinDistributionEndedSignaler`, the cancellation of `ctx`, and the receipt of `ctx.Done()`. -/
inductive managerEvent where
  | started
  | ended
  | cancel
  | done
deriving DecidableEq

/-- The `select` the manager waits in: the outer one (line 362), the one of `outerStarted`
(line 375) with the local `workersStarted`, the one of `outerEnded` (line 394) with the local
`workersEnded`; or the manager has returned. -/
inductive managerPhase where
  | idle
  | startBarrier (workersStarted : Int)
  | endBarrier (workersEnded : Int)
  | returned
deriving DecidableEq

/-- The state of the manager. `cancelled` is `ctx.Err() != nil`. The last two fields are a log:
`cycle` holds the signals received since the current cycle began, `notified` holds, for every
call of `notifyCoinDistributionCollectionCycleEnded`, the signals of the cycle it closed. -/
structure managerState where
  phase : managerPhase
  cancelled : Bool
  cycle : List managerEvent
  notified : List (List managerEvent)
deriving DecidableEq

/-- The increment `++` of an `int64`. -/
def incr64 (n : Int) : Int :=
  (n + 1 + 9223372036854775808) % 18446744073709551616 - 9223372036854775808

/-- Lines 411-424, reached when `outerEnded` is left: a premature end when `ctx` is cancelled,
otherwise the notification, after which the outer loop waits for the next cycle. -/
def finishCycle (s : managerState) : managerState :=
  if s.cancelled then { s with phase := managerPhase.returned }
  else { s with phase := managerPhase.idle, cycle := [], notified := s.notified ++ [s.cycle] }

/-- Lines 392-394, reached when `outerStarted` is left: `workersEnded := 0`, and `outerEnded` is
entered unless `ctx` is cancelled. -/
def enterEndBarrier (s : managerState) : managerState :=
  if s.cancelled then finishCycle s else { s with phase := managerPhase.endBarrier 0 }

/-- One step of the manager with `cfg.Workers = workers`. An event the manager does not wait
for in its phase leaves the state as it is; `ctx.Done()` is only received once `ctx` is
cancelled. -/
def managerStep (workers : Int) (s : managerState) (e : managerEvent) : managerState :=
  match e with
  | managerEvent.cancel => { s with cancelled := true }
  | managerEvent.started =>
    match s.phase with
    | managerPhase.idle =>
      if s.cancelled then enterEndBarrier { s with cycle := [managerEvent.started] }
      else { s with phase := managerPhase.startBarrier 1, cycle := [managerEvent.started] }
    | managerPhase.startBarrier workersStarted =>
      if incr64 workersStarted = workers then
        enterEndBarrier { s with cycle := s.cycle ++ [managerEvent.started] }
      else if s.cancelled then
        enterEndBarrier { s with cycle := s.cycle ++ [managerEvent.started] }
      else
        { s with phase := managerPhase.startBarrier (incr64 workersStarted),
                 cycle := s.cycle ++ [managerEvent.started] }
    | _ => s
  | managerEvent.ended =>
    match s.phase with
    | managerPhase.endBarrier workersEnded =>
      if incr64 workersEnded = workers then
        finishCycle { s with cycle := s.cycle ++ [managerEvent.ended] }
      else if s.cancelled then
        finishCycle { s with cycle := s.cycle ++ [managerEvent.ended] }
      else
        { s with phase := managerPhase.endBarrier (incr64 workersEnded),
                 cycle := s.cycle ++ [managerEvent.ended] }
    | _ => s
  | managerEvent.done =>
    if s.cancelled then { s with phase := managerPhase.returned } else s

/-- The manager when it is started: it waits in the outer `select`, or has returned at once
when `ctx` was cancelled before. -/
def managerInit (cancelled : Bool) : managerState :=
  { phase := if cancelled then managerPhase.returned else managerPhase.idle,
    cancelled := cancelled, cycle := [], notified := [] }

/-- The manager after a sequence of events. -/
def managerRun (workers : Int) (s : managerState) (es : List managerEvent) : managerState :=
  es.foldl (managerStep workers) s

/-! ## The rounding of float64

The ledger arithmetic above is exact. Where a statement depends on the rounding of float64,
the operations of the source are replayed with `roundFloat64` applied to the result of each. -/

/-- The number of binary digits of `n`, by at most `fuel` halvings. -/
def bitLength : Nat → Nat → Nat
  | 0, _ => 0
  | fuel + 1, n => if n = 0 then 0 else bitLength fuel (n / 2) + 1

/-- The integer nearest to `a / b`, ties to the even one (`0 < b`). -/
def roundHalfEven (a b : Nat) : Nat :=
  if 2 * (a % b) < b then a / b
  else if b < 2 * (a % b) then a / b + 1
  else if a / b % 2 = 0 then a / b
  else a / b + 1

/-- The exponent of the unit in the last place of the float64 nearest to `n / d ≠ 0`:
`⌊log₂ (n / d)⌋ - 52`, and `-1074` in the subnormal range. -/
def ulpExponent (n d : Nat) : Int :=
  let k : Int := (bitLength n n : Int) - (bitLength d d : Int)
  let below : Bool :=
    if 0 ≤ k then decide (n < d * 2 ^ k.toNat) else decide (n * 2 ^ (-k).toNat < d)
  max ((if below then k - 1 else k) - 52) (-1074)

/-- The float64 nearest to the real `x` (IEEE 754 binary64, round to nearest, ties to even), for
`|x| < 2 ^ 1024`: the significand has 53 bits, subnormals are kept, overflow to an infinity is
not modelled. -/
def roundFloat64 (x : ℚ) : ℚ :=
  let n := x.num.natAbs
  let e := ulpExponent n x.den
  if 0 ≤ e then
    ((x.num.sign * (roundHalfEven n (x.den * 2 ^ e.toNat) * 2 ^ e.toNat : Nat) : Int) : ℚ)
  else
    ((x.num.sign * (roundHalfEven (n * 2 ^ (-e).toNat) x.den : Nat) : Int) : ℚ) /
      ((2 ^ (-e).toNat : Nat) : ℚ)

/-- The float64 sum `a + b`. -/
def float64.add (a b : ℚ) : ℚ := roundFloat64 (a + b)

/-- The float64 difference `a - b`. -/
def float64.sub (a b : ℚ) : ℚ := roundFloat64 (a - b)

/-- The float64 product `a * b`. -/
def float64.mul (a b : ℚ) : ℚ := roundFloat64 (a * b)

/-- The float64 quotient `a / b`. -/
def float64.div (a b : ℚ) : ℚ := roundFloat64 (a / b)

/-- Modelled from the spec: `tokenomics.ApplyPreStaking` in float64, each operation of the
formula `standard = amount − amount·allocation/100`,
`preStaking = amount·allocation/100·(1 + bonus/100)` rounded. -/
def float64.ApplyPreStaking (amount preStakingAllocation preStakingBonus : ℚ) : ℚ × ℚ :=
  (float64.sub amount (float64.div (float64.mul amount preStakingAllocation) 100),
   float64.mul (float64.div (float64.mul amount preStakingAllocation) 100)
     (float64.add 1 (float64.div preStakingBonus 100)))

/-- The solo channel of a tick on a session that is over, in float64 (lines 84-86, 113, 120,
127 and 146-148 of `mining.go`): the slashing rate after arming, and the balance after
slashing, the pending delta and the clamp; `hours` is `timeSpent.Hours()`. -/
def float64.slashedSolo (hours : ℚ) (u : user) : ℚ × ℚ :=
  let rate : ℚ :=
    if u.SlashingRateSolo = 0 then float64.div (float64.div u.BalanceSolo 60) 24
    else u.SlashingRateSolo
  let unAppliedSoloPending := float64.sub u.BalanceSoloPending u.BalanceSoloPendingApplied
  (rate,
   clampZero
     (float64.add (float64.sub u.BalanceSolo (float64.mul rate hours)) unAppliedSoloPending))

/-- The method `processEthereumCoinDistributionForSolo` in float64: the subtraction of line 300
is rounded. -/
def float64.processEthereumCoinDistributionForSolo (cfg : config) (ext : Collaborators)
    (u : user) (now : Time) : user × ℚ :=
  let standard :=
    (float64.ApplyPreStaking u.BalanceSolo u.PreStakingAllocation u.PreStakingBonus).1
  let ethIce := ethICE cfg ext now (float64.sub standard u.BalanceSoloEthereum)
  if ethIce ≤ 0 then (u, 0)
  else if !ethereumDistributionDryRunModeEnabled then
    ({ u with BalanceSoloEthereumPending := some ethIce }, ethIce)
  else (u, ethIce)

/-- The method `processEthereumCoinDistributionForForT0` in float64: the subtraction of line 329
and the addition of line 334 are rounded. -/
def float64.processEthereumCoinDistributionForForT0 (cfg : config) (ext : Collaborators)
    (u : user) (t0 : referral) (now : Time) : user × ℚ :=
  let standard :=
    (float64.ApplyPreStaking u.BalanceForT0 t0.PreStakingAllocation t0.PreStakingBonus).1
  let ethIce := ethICE cfg ext now (float64.sub standard u.BalanceForT0Ethereum)
  if ethIce ≤ 0 then (u, 0)
  else if !ethereumDistributionDryRunModeEnabled then
    ({ u with BalanceForT0Ethereum := float64.add u.BalanceForT0Ethereum ethIce }, ethIce)
  else (u, ethIce)

/-! ## Predicates of the claims -/

/-- The two parties of a review record: whose account it is on, and who earned it. -/
def parties (r : ByEarnerForReview) : String × String := (r.UserID, r.EarnerUserID)

/-- The parties of the four record pointers. -/
def stagedRecords.parties (st : stagedRecords) :
    Option (String × String) × Option (String × String) × Option (String × String) ×
      Option (String × String) :=
  (st.soloCD.map Freezer.parties, st.t0CD.map Freezer.parties, st.forT0CD.map Freezer.parties,
    st.forTMinus1CD.map Freezer.parties)

/-- T-1 is present and its `UserID` is the one of the user or the one of T0. -/
def tMinus1Coincides (u : user) (t0 tMinus1 : Option referral) : Prop :=
  ∃ m, tMinus1 = some m ∧ (m.UserID = u.UserID ∨ ∃ t, t0 = some t ∧ m.UserID = t.UserID)

/-- Chain safety on the parties of the four record pointers: the solo record is the user's own,
there is no referral record without it, the referral records have two distinct parties, and
there is none under the condition `coincides`. -/
def chainSafe (userID : String) (coincides : Prop)
    (ps : Option (String × String) × Option (String × String) × Option (String × String) ×
      Option (String × String)) : Prop :=
  (∀ p, ps.1 = some p → p = (userID, userID)) ∧
  (ps.1 = none → ps.2.1 = none ∧ ps.2.2.1 = none ∧ ps.2.2.2 = none) ∧
  (∀ p, ps.2.1 = some p → p.1 ≠ p.2) ∧
  (∀ p, ps.2.2.1 = some p → p.1 ≠ p.2) ∧
  (∀ p, ps.2.2.2 = some p → p.1 ≠ p.2) ∧
  (coincides → ps.2.1 = none ∧ ps.2.2.1 = none ∧ ps.2.2.2 = none)

/-- Lines 54-62: what one tick mints on the solo balance, with or without the extra bonus. -/
def soloAccrual (cfg : config) (baseMiningRate : ℚ) (now : Time) (hours : ℚ) (w : user) : ℚ :=
  if extraBonusActive cfg now w then (100 + w.ExtraBonus) * baseMiningRate * hours / 100
  else baseMiningRate * hours

/-- Lines 63-68: what one tick mints thanks to T0, nothing when T0 is not mining. -/
def t0Accrual (baseMiningRate : ℚ) (now : Time) (hours : ℚ) (t0Ref : Option referral) : ℚ :=
  if referral.activeAt t0Ref now then 25 * baseMiningRate * hours / 100 else 0

/-- Lines 69-71: what one tick adds to `BalanceForTMinus1`, nothing when T-1 is not mining. -/
def tMinus1Accrual (baseMiningRate : ℚ) (now : Time) (hours : ℚ) (tMinus1Ref : Option referral) :
    ℚ :=
  if referral.activeAt tMinus1Ref now then 5 * baseMiningRate * hours / 100 else 0

/-- Lines 72-77: an active-referral count after its clamp. -/
def clampCount (n : Int) : Int := if n < 0 then 0 else n

/-- The elapsed time of a tick in hours: `now.Sub(last).Hours()`. -/
def elapsedHours (now last : Time) : ℚ := Duration.Hours (Time.Sub now last)

/-- Lines 131-145: the part of an unapplied pending amount that goes to `mintedAmount`. -/
def mintedPart (unApplied : ℚ) : ℚ := if unApplied < 0 then 0 else unApplied

/-- Lines 131-145: the part of an unapplied pending amount that goes to `slashedAmount`: the
amount itself, with its sign, when it is negative. -/
def slashedPart (unApplied : ℚ) : ℚ := if unApplied < 0 then unApplied else 0

/-- Lines 84-110: a slashing rate after arming. A rate that is zero when its session is over
(`ended`) becomes `balance / 60 / 24`; any other rate is kept. -/
def armedRate (ended : Bool) (balance rate : ℚ) : ℚ :=
  if (ended && decide (rate = 0)) = true then balance / 60 / 24 else rate

/-- The instant the elapsed time of a tick is measured from (lines 37-38 and 50):
`BalanceLastUpdatedAt`, or the session start when that is unset. -/
def tickStart (w : user) (last : Time) : Prop :=
  w.BalanceLastUpdatedAt = some last ∨
    (w.BalanceLastUpdatedAt = none ∧ w.MiningSessionSoloStartedAt = some last)

/-- The unapplied pending amounts of a user that go to `mintedAmount`. -/
def pendingMinted (w : user) : ℚ :=
  mintedPart (w.BalanceSoloPending - w.BalanceSoloPendingApplied) +
    mintedPart (w.BalanceT1Pending - w.BalanceT1PendingApplied) +
    mintedPart (w.BalanceT2Pending - w.BalanceT2PendingApplied)

/-- The unapplied pending amounts of a user that go to `slashedAmount`, as lines 131-145 add
them. -/
def pendingSlashed (w : user) : ℚ :=
  slashedPart (w.BalanceSoloPending - w.BalanceSoloPendingApplied) +
    slashedPart (w.BalanceT1Pending - w.BalanceT1PendingApplied) +
    slashedPart (w.BalanceT2Pending - w.BalanceT2PendingApplied)

/-- What lines 53-82 mint in one tick of `hours` hours while the session is active. -/
def activeMinted (cfg : config) (baseMiningRate : ℚ) (now : Time) (hours : ℚ) (w : user)
    (t0Ref : Option referral) : ℚ :=
  soloAccrual cfg baseMiningRate now hours w + t0Accrual baseMiningRate now hours t0Ref +
    (25 * (clampCount w.ActiveT1Referrals : ℚ) * baseMiningRate * hours / 100 +
      5 * (clampCount w.ActiveT2Referrals : ℚ) * baseMiningRate * hours / 100)

/-- The balances, slashing rates and counts a tick of `hours` hours leaves in `u'`, from the
clone `w`, while the session is active (lines 53-82 and 98-163). -/
def activeTickFields (cfg : config) (baseMiningRate : ℚ) (now : Time) (hours : ℚ) (w u' : user)
    (t0Ref tMinus1Ref : Option referral) : Prop :=
  (u'.BalanceSolo = clampZero (w.BalanceSolo + soloAccrual cfg baseMiningRate now hours w -
      w.SlashingRateSolo * hours + (w.BalanceSoloPending - w.BalanceSoloPendingApplied)) ∧
    u'.BalanceT0 = clampZero (w.BalanceT0 + t0Accrual baseMiningRate now hours t0Ref -
      w.SlashingRateT0 * hours) ∧
    u'.BalanceT1 = clampZero (w.BalanceT1 +
      25 * (clampCount w.ActiveT1Referrals : ℚ) * baseMiningRate * hours / 100 -
      w.SlashingRateT1 * hours + (w.BalanceT1Pending - w.BalanceT1PendingApplied)) ∧
    u'.BalanceT2 = clampZero (w.BalanceT2 +
      5 * (clampCount w.ActiveT2Referrals : ℚ) * baseMiningRate * hours / 100 -
      w.SlashingRateT2 * hours + (w.BalanceT2Pending - w.BalanceT2PendingApplied)) ∧
    u'.BalanceForT0 = clampZero (w.BalanceForT0 + t0Accrual baseMiningRate now hours t0Ref -
      armedRate (referral.endedBefore t0Ref now)
        (w.BalanceForT0 + t0Accrual baseMiningRate now hours t0Ref) w.SlashingRateForT0 * hours) ∧
    u'.BalanceForTMinus1 =
      clampZero (w.BalanceForTMinus1 + tMinus1Accrual baseMiningRate now hours tMinus1Ref -
        armedRate (referral.endedBefore tMinus1Ref now)
          (w.BalanceForTMinus1 + tMinus1Accrual baseMiningRate now hours tMinus1Ref)
          w.SlashingRateForTMinus1 * hours)) ∧
  (u'.SlashingRateSolo = w.SlashingRateSolo ∧ u'.SlashingRateT0 = w.SlashingRateT0 ∧
    u'.SlashingRateT1 = w.SlashingRateT1 ∧ u'.SlashingRateT2 = w.SlashingRateT2 ∧
    u'.SlashingRateForT0 = armedRate (referral.endedBefore t0Ref now)
      (w.BalanceForT0 + t0Accrual baseMiningRate now hours t0Ref) w.SlashingRateForT0 ∧
    u'.SlashingRateForTMinus1 = armedRate (referral.endedBefore tMinus1Ref now)
      (w.BalanceForTMinus1 + tMinus1Accrual baseMiningRate now hours tMinus1Ref)
      w.SlashingRateForTMinus1) ∧
  (u'.ActiveT1Referrals = clampCount w.ActiveT1Referrals ∧
    u'.ActiveT2Referrals = clampCount w.ActiveT2Referrals)

/-- The balances, slashing rates and counts a tick of `hours` hours leaves in `u'`, from the
clone `w`, when the session is over (lines 83-163). -/
def endedTickFields (now : Time) (hours : ℚ) (w u' : user)
    (t0Ref tMinus1Ref : Option referral) : Prop :=
  (u'.SlashingRateSolo = armedRate true w.BalanceSolo w.SlashingRateSolo ∧
    u'.SlashingRateT0 = armedRate true w.BalanceT0 w.SlashingRateT0 ∧
    u'.SlashingRateT1 = armedRate true w.BalanceT1 w.SlashingRateT1 ∧
    u'.SlashingRateT2 = armedRate true w.BalanceT2 w.SlashingRateT2 ∧
    u'.SlashingRateForT0 =
      armedRate (referral.endedBefore t0Ref now) w.BalanceForT0 w.SlashingRateForT0 ∧
    u'.SlashingRateForTMinus1 =
      armedRate (referral.endedBefore tMinus1Ref now) w.BalanceForTMinus1
        w.SlashingRateForTMinus1) ∧
  (u'.BalanceSolo = clampZero (w.BalanceSolo - u'.SlashingRateSolo * hours +
      (w.BalanceSoloPending - w.BalanceSoloPendingApplied)) ∧
    u'.BalanceT0 = clampZero (w.BalanceT0 - u'.SlashingRateT0 * hours) ∧
    u'.BalanceT1 = clampZero (w.BalanceT1 - u'.SlashingRateT1 * hours +
      (w.BalanceT1Pending - w.BalanceT1PendingApplied)) ∧
    u'.BalanceT2 = clampZero (w.BalanceT2 - u'.SlashingRateT2 * hours +
      (w.BalanceT2Pending - w.BalanceT2PendingApplied)) ∧
    u'.BalanceForT0 = clampZero (w.BalanceForT0 - u'.SlashingRateForT0 * hours) ∧
    u'.BalanceForTMinus1 =
      clampZero (w.BalanceForTMinus1 - u'.SlashingRateForTMinus1 * hours)) ∧
  (u'.ActiveT1Referrals = w.ActiveT1Referrals ∧ u'.ActiveT2Referrals = w.ActiveT2Referrals)

/-- Two users agree on every field the balances, rates and counts of a tick are computed
from. -/
def sameTickInputs (a b : user) : Prop :=
  (a.BalanceSolo = b.BalanceSolo ∧ a.BalanceT0 = b.BalanceT0 ∧ a.BalanceT1 = b.BalanceT1 ∧
    a.BalanceT2 = b.BalanceT2 ∧ a.BalanceForT0 = b.BalanceForT0 ∧
    a.BalanceForTMinus1 = b.BalanceForTMinus1) ∧
  (a.SlashingRateSolo = b.SlashingRateSolo ∧ a.SlashingRateT0 = b.SlashingRateT0 ∧
    a.SlashingRateT1 = b.SlashingRateT1 ∧ a.SlashingRateT2 = b.SlashingRateT2 ∧
    a.SlashingRateForT0 = b.SlashingRateForT0 ∧
    a.SlashingRateForTMinus1 = b.SlashingRateForTMinus1) ∧
  (a.ActiveT1Referrals = b.ActiveT1Referrals ∧ a.ActiveT2Referrals = b.ActiveT2Referrals) ∧
  (a.BalanceSoloPending = b.BalanceSoloPending ∧ a.BalanceT1Pending = b.BalanceT1Pending ∧
    a.BalanceT2Pending = b.BalanceT2Pending ∧
    a.BalanceSoloPendingApplied = b.BalanceSoloPendingApplied ∧
    a.BalanceT1PendingApplied = b.BalanceT1PendingApplied ∧
    a.BalanceT2PendingApplied = b.BalanceT2PendingApplied) ∧
  (a.PreStakingAllocation = b.PreStakingAllocation ∧ a.PreStakingBonus = b.PreStakingBonus ∧
    a.ExtraBonus = b.ExtraBonus ∧ a.ExtraBonusStartedAt = b.ExtraBonusStartedAt ∧
    a.MiningSessionSoloStartedAt = b.MiningSessionSoloStartedAt ∧
    a.MiningSessionSoloEndedAt = b.MiningSessionSoloEndedAt)

/-- Both parts of the pre-staking split of an amount, added up (lines 179-182). -/
def splitSum (amount preStakingAllocation preStakingBonus : ℚ) : ℚ :=
  (ApplyPreStaking amount preStakingAllocation preStakingBonus).1 +
    (ApplyPreStaking amount preStakingAllocation preStakingBonus).2

/-- The aggregates and housekeeping fields the full path leaves in `u'`, from the input `usr`,
the clone `w` and the two local amounts; `rollover` tells whether a history snapshot was taken,
`slashingHours` is the elapsed time. -/
def tickAggregates (usr w u' : user) (now : Time) (rollover : Bool)
    (mintedAmount slashedAmount slashingHours : ℚ) : Prop :=
  u'.PreStakingAllocation = w.PreStakingAllocation ∧ u'.PreStakingBonus = w.PreStakingBonus ∧
  totalsConsistent u' ∧
  u'.BalanceTotalMinted = (if rollover then 0 else w.BalanceTotalMinted) +
    splitSum mintedAmount w.PreStakingAllocation w.PreStakingBonus ∧
  u'.BalanceTotalSlashed = (if rollover then 0 else w.BalanceTotalSlashed) +
    splitSum slashedAmount w.PreStakingAllocation w.PreStakingBonus ∧
  slashedAmount =
    (if usr.BalanceTotalPreStaking + usr.BalanceTotalStandard = 0 then 0
     else (u'.SlashingRateSolo + u'.SlashingRateT0 + u'.SlashingRateT1 + u'.SlashingRateT2) *
        slashingHours + pendingSlashed w) ∧
  u'.BalanceLastUpdatedAt = some now ∧
  u'.MiningSessionSoloStartedAt = w.MiningSessionSoloStartedAt ∧
  u'.MiningSessionSoloEndedAt = w.MiningSessionSoloEndedAt

/-- Pending reconciliation as the specification words it: on each of the three channels the
applied amount equals the pending amount, or both are zero. -/
def pendingReconciled (u : user) : Prop :=
  (u.BalanceSoloPendingApplied = u.BalanceSoloPending ∨
    (u.BalanceSoloPending = 0 ∧ u.BalanceSoloPendingApplied = 0)) ∧
  (u.BalanceT1PendingApplied = u.BalanceT1Pending ∨
    (u.BalanceT1Pending = 0 ∧ u.BalanceT1PendingApplied = 0)) ∧
  (u.BalanceT2PendingApplied = u.BalanceT2Pending ∨
    (u.BalanceT2Pending = 0 ∧ u.BalanceT2PendingApplied = 0))

instance (u : user) : Decidable (pendingReconciled u) := by
  unfold pendingReconciled; infer_instance

/-- Pending reconciliation as the code performs it, between the clone `w` the tick started from
and the user `u` it returns: on each channel the pending amount is left as it was, and the
applied amount equals the pending amount, or nothing was unapplied in `w` and the applied amount
alone is zero. -/
def pendingAppliedOrReset (w u : user) : Prop :=
  (u.BalanceSoloPending = w.BalanceSoloPending ∧
    (u.BalanceSoloPendingApplied = u.BalanceSoloPending ∨
      (w.BalanceSoloPending - w.BalanceSoloPendingApplied = 0 ∧ u.BalanceSoloPendingApplied = 0))) ∧
  (u.BalanceT1Pending = w.BalanceT1Pending ∧
    (u.BalanceT1PendingApplied = u.BalanceT1Pending ∨
      (w.BalanceT1Pending - w.BalanceT1PendingApplied = 0 ∧ u.BalanceT1PendingApplied = 0))) ∧
  (u.BalanceT2Pending = w.BalanceT2Pending ∧
    (u.BalanceT2PendingApplied = u.BalanceT2Pending ∨
      (w.BalanceT2Pending - w.BalanceT2PendingApplied = 0 ∧ u.BalanceT2PendingApplied = 0)))

instance (w u : user) : Decidable (pendingAppliedOrReset w u) := by
  unfold pendingAppliedOrReset; infer_instance

/-- The fields no step of `mine` before the reconciliation writes: pending and applied amounts,
the pre-staking parameters and the two accumulators. -/
def sameLedgerInputs (a b : user) : Prop :=
  a.BalanceSoloPending = b.BalanceSoloPending ∧ a.BalanceT1Pending = b.BalanceT1Pending ∧
  a.BalanceT2Pending = b.BalanceT2Pending ∧
  a.BalanceSoloPendingApplied = b.BalanceSoloPendingApplied ∧
  a.BalanceT1PendingApplied = b.BalanceT1PendingApplied ∧
  a.BalanceT2PendingApplied = b.BalanceT2PendingApplied ∧
  a.PreStakingAllocation = b.PreStakingAllocation ∧ a.PreStakingBonus = b.PreStakingBonus ∧
  a.BalanceTotalMinted = b.BalanceTotalMinted ∧ a.BalanceTotalSlashed = b.BalanceTotalSlashed

/-- Post-session slashing as the code does it, from the clone `w` to the updated user `u'` of a
tick at `now`: each of the four primary slashing rates that was zero is `balance / 60 / 24` and
any other is unchanged; without a pending delta each of the four balances is
`max 0 (balance - rate * Δh)`, with the rate the tick leaves. -/
def slashedAfterSession (now : Time) (w u' : user) : Prop :=
  ∃ last, tickStart w last ∧
    (u'.SlashingRateSolo =
        (if w.SlashingRateSolo = 0 then w.BalanceSolo / 60 / 24 else w.SlashingRateSolo) ∧
      u'.SlashingRateT0 =
        (if w.SlashingRateT0 = 0 then w.BalanceT0 / 60 / 24 else w.SlashingRateT0) ∧
      u'.SlashingRateT1 =
        (if w.SlashingRateT1 = 0 then w.BalanceT1 / 60 / 24 else w.SlashingRateT1) ∧
      u'.SlashingRateT2 =
        (if w.SlashingRateT2 = 0 then w.BalanceT2 / 60 / 24 else w.SlashingRateT2)) ∧
    ((w.BalanceSoloPending - w.BalanceSoloPendingApplied = 0 →
        u'.BalanceSolo = max 0 (w.BalanceSolo - u'.SlashingRateSolo * elapsedHours now last)) ∧
      u'.BalanceT0 = max 0 (w.BalanceT0 - u'.SlashingRateT0 * elapsedHours now last) ∧
      (w.BalanceT1Pending - w.BalanceT1PendingApplied = 0 →
        u'.BalanceT1 = max 0 (w.BalanceT1 - u'.SlashingRateT1 * elapsedHours now last)) ∧
      (w.BalanceT2Pending - w.BalanceT2PendingApplied = 0 →
        u'.BalanceT2 = max 0 (w.BalanceT2 - u'.SlashingRateT2 * elapsedHours now last)))

/-- A fresh mining user: never updated, with zero balances, minted total, slashing rates, pending
fields and active-referral counts, no extra bonus, and no pre-staking. -/
def freshUser (u : user) : Prop :=
  u.BalanceLastUpdatedAt = none ∧
  (u.BalanceSolo = 0 ∧ u.BalanceT0 = 0 ∧ u.BalanceT1 = 0 ∧ u.BalanceT2 = 0 ∧
    u.BalanceForT0 = 0 ∧ u.BalanceForTMinus1 = 0 ∧ u.BalanceTotalMinted = 0) ∧
  (u.SlashingRateSolo = 0 ∧ u.SlashingRateT0 = 0 ∧ u.SlashingRateT1 = 0 ∧
    u.SlashingRateT2 = 0 ∧ u.SlashingRateForT0 = 0 ∧ u.SlashingRateForTMinus1 = 0) ∧
  (u.BalanceSoloPending = 0 ∧ u.BalanceT1Pending = 0 ∧ u.BalanceT2Pending = 0 ∧
    u.BalanceSoloPendingApplied = 0 ∧ u.BalanceT1PendingApplied = 0 ∧
    u.BalanceT2PendingApplied = 0) ∧
  (u.ActiveT1Referrals = 0 ∧ u.ActiveT2Referrals = 0) ∧
  (u.ExtraBonus = 0 ∧ u.ExtraBonusStartedAt = none) ∧
  u.PreStakingAllocation = 0 ∧ u.PreStakingBonus = 0

instance (u : user) : Decidable (freshUser u) := by
  unfold freshUser; infer_instance

/-- Extra-bonus accrual as the code does it, from the clone `w` to the updated user `u'` of a
tick at `now` with zero solo slashing rate and zero solo pending delta: the solo balance is
`max 0` of what it was plus `(100 + ExtraBonus) * rate * Δh / 100` when `ExtraBonusStartedAt`
is set and `now` is before `ExtraBonusStartedAt + ExtraBonuses.Duration`, and plus `rate * Δh`
in every other case. -/
def extraBonusAccrued (cfg : config) (rate : ℚ) (now : Time) (w u' : user) : Prop :=
  ∃ last, tickStart w last ∧
    ((∃ s, w.ExtraBonusStartedAt = some s ∧ now < s + cfg.ExtraBonusesDuration) →
      u'.BalanceSolo =
        max 0 (w.BalanceSolo + (100 + w.ExtraBonus) * rate * elapsedHours now last / 100)) ∧
    ((¬ ∃ s, w.ExtraBonusStartedAt = some s ∧ now < s + cfg.ExtraBonusesDuration) →
      u'.BalanceSolo = max 0 (w.BalanceSolo + rate * elapsedHours now last))

/-- The six balances and the two totals of two users are equal. -/
def sameBalances (a b : user) : Prop :=
  a.BalanceSolo = b.BalanceSolo ∧ a.BalanceT0 = b.BalanceT0 ∧ a.BalanceT1 = b.BalanceT1 ∧
  a.BalanceT2 = b.BalanceT2 ∧ a.BalanceForT0 = b.BalanceForT0 ∧
  a.BalanceForTMinus1 = b.BalanceForTMinus1 ∧
  a.BalanceTotalStandard = b.BalanceTotalStandard ∧
  a.BalanceTotalPreStaking = b.BalanceTotalPreStaking

/-- An instant that is set and not after `now`. -/
def notAfter (t : Option Time) (now : Time) : Bool :=
  match t with
  | none => false
  | some l => decide (l ≤ now)

/-- The inputs on which the non-negative aggregates are claimed: no balance, aggregate or
slashing rate of the user is negative, the rate is not negative, the user was last updated at or
before `now`, the allocation is in `[0, 100]` and the bonus is not negative. -/
def nonnegLedger (rate : ℚ) (now : Time) (u : user) : Prop :=
  0 ≤ rate ∧ notAfter u.BalanceLastUpdatedAt now = true ∧
  (0 ≤ u.BalanceSolo ∧ 0 ≤ u.BalanceT0 ∧ 0 ≤ u.BalanceT1 ∧ 0 ≤ u.BalanceT2 ∧
    0 ≤ u.BalanceForT0 ∧ 0 ≤ u.BalanceForTMinus1) ∧
  (0 ≤ u.BalanceTotalStandard ∧ 0 ≤ u.BalanceTotalPreStaking ∧ 0 ≤ u.BalanceTotalMinted ∧
    0 ≤ u.BalanceTotalSlashed) ∧
  (0 ≤ u.SlashingRateSolo ∧ 0 ≤ u.SlashingRateT0 ∧ 0 ≤ u.SlashingRateT1 ∧
    0 ≤ u.SlashingRateT2 ∧ 0 ≤ u.SlashingRateForT0 ∧ 0 ≤ u.SlashingRateForTMinus1) ∧
  (0 ≤ u.PreStakingAllocation ∧ u.PreStakingAllocation ≤ 100) ∧ 0 ≤ u.PreStakingBonus

instance (rate : ℚ) (now : Time) (u : user) : Decidable (nonnegLedger rate now u) := by
  unfold nonnegLedger; infer_instance

/-- The method `(*user).isEligibleForT0ForEthereumDistribution` on a receiver that may be nil
(line 116: `u != nil`). -/
def isEligibleForT0ForEthereumDistribution (cfg : config) (ext : Collaborators)
    (u : Option user) (now : Time) (idT0 : Int) : Bool :=
  match u with
  | none => false
  | some u => user.isEligibleForT0ForEthereumDistribution cfg ext u now idT0

/-- The method `(*user).isEligibleForTMinus1ForEthereumDistribution` on a receiver that may be
nil (line 128: `u != nil`). -/
def isEligibleForTMinus1ForEthereumDistribution (cfg : config) (ext : Collaborators)
    (u : Option user) (now : Time) (idTMinus1 : Int) : Bool :=
  match u with
  | none => false
  | some u => user.isEligibleForTMinus1ForEthereumDistribution cfg ext u now idTMinus1

/-- Eligibility for T0 as the specification words it: the user exists with a non-zero ID,
`IsEligibleForEthereumDistributionNow` holds on the id of the referrer with the mark the user
keeps for T0, and the referrer passes the referral-side predicate, evaluated on the referrer. -/
def eligibleForT0AsSpecified (cfg : config) (ext : Collaborators) (u : Option user)
    (t0 : referral) (now : Time) : Bool :=
  match u with
  | none => false
  | some u =>
    u.ID != 0 &&
    ext.IsEligibleForEthereumDistributionNow t0.ID now
      u.ForT0LastEthereumCoinDistributionProcessedAt
      cfg.coinDistributionCollectorSettings.StartDate
      cfg.EthereumDistributionFrequencyMin cfg.EthereumDistributionFrequencyMax &&
    referral.isEligibleForReferralForEthereumDistribution cfg ext (some t0) now

/-- The balance of a record behind a pointer; a nil pointer counts for zero. -/
def balanceOf (record : Option ByEarnerForReview) : ℚ :=
  match record with
  | none => 0
  | some r => r.Balance

/-- The sum `totalForSelf` read off the returned slice: the balances of the records on the
account `userID`, which are the solo record and the T0 record. -/
def selfRecordsBalance (userID : String) (records : Option (List ByEarnerForReview)) : ℚ :=
  match records with
  | none => 0
  | some rs => ((rs.filter (fun r => r.UserID == userID)).map (fun r => r.Balance)).sum

/-- The solo record and the T0 record are on the account `userID`, the other two are not. -/
def ownRecords (userID : String)
    (ps : Option (String × String) × Option (String × String) × Option (String × String) ×
      Option (String × String)) : Prop :=
  (∀ p, ps.1 = some p → p.1 = userID) ∧ (∀ p, ps.2.1 = some p → p.1 = userID) ∧
  (∀ p, ps.2.2.1 = some p → p.1 ≠ userID) ∧ (∀ p, ps.2.2.2 = some p → p.1 ≠ userID)

/-- The three last-processed marks as the specification words them, on the result `r` of a call
on `u` at `now`: each mark is `now` or nil; the solo mark is `now` exactly when the user is
self-eligible and `totalForSelf` is positive; the mark for T0 and the mark for T-1 are `now`
exactly when the returned amount is positive. -/
def marksFollowBalances (cfg : config) (ext : Collaborators) (u : user) (now : Time)
    (r : distributionResult) : Prop :=
  ((r.u.SoloLastEthereumCoinDistributionProcessedAt = some now ∨
      r.u.SoloLastEthereumCoinDistributionProcessedAt = none) ∧
    (r.u.ForT0LastEthereumCoinDistributionProcessedAt = some now ∨
      r.u.ForT0LastEthereumCoinDistributionProcessedAt = none) ∧
    (r.u.ForTMinus1LastEthereumCoinDistributionProcessedAt = some now ∨
      r.u.ForTMinus1LastEthereumCoinDistributionProcessedAt = none)) ∧
  (r.u.SoloLastEthereumCoinDistributionProcessedAt = some now ↔
    user.isEligibleForSelfForEthereumDistribution cfg ext u now = true ∧
      0 < selfRecordsBalance u.UserID r.records) ∧
  (r.u.ForT0LastEthereumCoinDistributionProcessedAt = some now ↔
    0 < r.balanceDistributedForT0) ∧
  (r.u.ForTMinus1LastEthereumCoinDistributionProcessedAt = some now ↔
    0 < r.balanceDistributedForTMinus1)

/-- The signals of a full cycle: `workers` started signals followed by `workers` ended
signals. -/
def fullCycle (workers : Int) : List managerEvent :=
  List.replicate workers.toNat managerEvent.started ++
    List.replicate workers.toNat managerEvent.ended

/-- The invariant of the manager after `n` events: every notification closed a full cycle, and
in each barrier the counter is the number of signals of its kind received in the cycle. -/
def managerInv (workers : Int) (n : Nat) (s : managerState) : Prop :=
  (∀ c ∈ s.notified, c = fullCycle workers) ∧
  (match s.phase with
   | managerPhase.startBarrier k =>
     ∃ j : Nat, k = (j : Int) ∧ 1 ≤ j ∧ j ≤ n ∧
       s.cycle = List.replicate j managerEvent.started
   | managerPhase.endBarrier k =>
     ∃ j : Nat, k = (j : Int) ∧ j ≤ n ∧ 0 ≤ workers ∧
       s.cycle = List.replicate workers.toNat managerEvent.started ++
         List.replicate j managerEvent.ended
   | _ => True)

/-- Phantom-slashing suppression as the specification words it, from the clone `w` to the updated
user `u'` of a tick at `now`: the slashed total is the one of the clone, or `0` after a history
rollover, while the balances are still reduced by their slashing rates, as the fields of an
active or of an ended session are. -/
def phantomSlashingSuppressed (cfg : config) (rate : ℚ) (now endedAt : Time) (w u' : user)
    (t0 tm1 : Option referral) (rollover : Bool) : Prop :=
  u'.BalanceTotalSlashed = (if rollover then 0 else w.BalanceTotalSlashed) ∧
  ∃ last, tickStart w last ∧
    (endedAt > now → activeTickFields cfg rate now (elapsedHours now last) w u' t0 tm1) ∧
    (¬ endedAt > now → endedTickFields now (elapsedHours now last) w u' t0 tm1)

/-- The conditions of the idle short-circuit on the clone `w`: the session ended before `now`,
the six balances and the unapplied solo pending amount are zero. -/
def idleLedger (w : user) (endedAt now : Time) : Prop :=
  endedAt < now ∧ w.BalanceSolo = 0 ∧ w.BalanceT0 = 0 ∧ w.BalanceT1 = 0 ∧ w.BalanceT2 = 0 ∧
  w.BalanceForT0 = 0 ∧ w.BalanceForTMinus1 = 0 ∧
  w.BalanceSoloPending - w.BalanceSoloPendingApplied = 0

instance (w : user) (endedAt now : Time) : Decidable (idleLedger w endedAt now) := by
  unfold idleLedger; infer_instance

/-- What `CalculateEthereumDistributionICEBalance` gives for the solo balance of a user: it is
called on the standard part of the pre-staking split of `BalanceSolo`, less what was distributed
already (lines 299-300). -/
def soloEthICE (cfg : config) (ext : Collaborators) (u : user) (now : Time) : ℚ :=
  ethICE cfg ext now
    (u.BalanceSolo - u.BalanceSolo * u.PreStakingAllocation / 100 - u.BalanceSoloEthereum)

/-- The eligibility predicate of package `coindistribution`, as `processEthereumCoinDistribution`
calls it at `now`, holds only for a session end that passes
`couldHaveBeenEligibleForEthereumDistributionRecently`. -/
def eligibleOnlyRecently (cfg : config) (ext : Collaborators) (now : Time) : Prop :=
  ∀ (streaks : Nat) (balance minBalance : ℚ) (address country : String)
    (startedAt endedAt : Option Time) (kyc : KYCState),
    ext.IsEligibleForEthereumDistribution streaks balance minBalance address country
        cfg.coinDistributionCollectorSettings.DeniedCountries now
        (currentCoinDistributionCollectingEndedAt cfg) startedAt endedAt
        cfg.coinDistributionCollectorSettings.EndDate kyc cfg.MiningSessionDurationMax
        cfg.EthereumDistributionFrequencyMin cfg.EthereumDistributionFrequencyMax = true →
      endedRecently cfg endedAt now = true

/-- The call completes and returns the records created by the staging step, with only their
balances assigned. -/
def completesOnStaged (cfg : config) (ext : Collaborators) (u : user) (now : Time)
    (t0 tm1 : Option referral) : Prop :=
  ∃ (r : distributionResult) (st : stagedRecords), processEthereumCoinDistribution cfg ext u now t0 tm1 = some r ∧
    r.records = some st.toList ∧
    st.parties = (stageRecords cfg (clearEthereumPending u) now t0 tm1).parties

/-- The record for T0 is not on the account of T-1 and the record for T-1 is not on the account
of T0. -/
def referrersApart (t0 tm1 : Option referral)
    (ps : Option (String × String) × Option (String × String) × Option (String × String) ×
      Option (String × String)) : Prop :=
  (∀ p, ps.2.2.1 = some p → ∀ m, tm1 = some m → p.1 ≠ m.UserID) ∧
  (∀ p, ps.2.2.2 = some p → ∀ t, t0 = some t → p.1 ≠ t.UserID)

/-- Referral distribution conservation, on the result `r` of a call on `u`: each of the two
Ethereum balances is what it was plus the returned amount, as the `+=` of lines 334 and 348
leaves it; neither amount is negative, and a returned record on the account of a referrer
carries the amount returned for that referrer. -/
def referralAmountsConserved (u : user) (t0 tm1 : Option referral) (r : distributionResult) :
    Prop :=
  r.u.BalanceForT0Ethereum = u.BalanceForT0Ethereum + r.balanceDistributedForT0 ∧
  r.u.BalanceForTMinus1Ethereum =
    u.BalanceForTMinus1Ethereum + r.balanceDistributedForTMinus1 ∧
  0 ≤ r.balanceDistributedForT0 ∧ 0 ≤ r.balanceDistributedForTMinus1 ∧
  (∀ records t, r.records = some records → t0 = some t → t.UserID ≠ u.UserID →
    ∀ record ∈ records, parties record = (t.UserID, u.UserID) →
      record.Balance = r.balanceDistributedForT0) ∧
  (∀ records m, r.records = some records → tm1 = some m → m.UserID ≠ u.UserID →
    ∀ record ∈ records, parties record = (m.UserID, u.UserID) →
      record.Balance = r.balanceDistributedForTMinus1)

/-- The manager with one worker never leaves the start barrier for the end barrier: after `n`
events nothing was notified, and in the start barrier the counter is at least 1. -/
def managerStuck (n : Nat) (s : managerState) : Prop :=
  s.notified = [] ∧
  (match s.phase with
   | managerPhase.startBarrier k => ∃ j : Nat, k = (j : Int) ∧ 1 ≤ j ∧ j ≤ n
   | managerPhase.endBarrier _ => False
   | _ => True)

/-- The distribution upper bound as the code keeps it, on the result `r` of a call on `u`; `gate`
tells whether the collector is enabled. The four balances are untouched. With the collector not
enabled, a pending amount is moved into its Ethereum balance, which keeps
`Ethereum + EthereumPending ≤ Balance`, and the two "for" buckets are untouched. With the
collector enabled, the Ethereum balances of Solo and T0 are untouched and a pending amount that
is staged is at most the difference lines 300 and 314 compute, the standard part of the balance
less the Ethereum balance; the Ethereum balance of ForT0 and of ForTMinus1 is what it was plus
the returned amount, which is zero or at most the same difference (lines 329 and 343). The
standard part of a balance `≥ 0` at an allocation `≥ 0` is at most the balance. -/
def stagedWithinStandard (gate : Bool) (u : user) (t0 tm1 : Option referral)
    (r : distributionResult) : Prop :=
  (r.u.BalanceSolo = u.BalanceSolo ∧ r.u.BalanceT0 = u.BalanceT0 ∧
    r.u.BalanceForT0 = u.BalanceForT0 ∧ r.u.BalanceForTMinus1 = u.BalanceForTMinus1) ∧
  (gate = false →
    (u.BalanceSoloEthereum + u.BalanceSoloEthereumPending.getD 0 ≤ u.BalanceSolo →
      r.u.BalanceSoloEthereum + r.u.BalanceSoloEthereumPending.getD 0 ≤ r.u.BalanceSolo) ∧
    (u.BalanceT0Ethereum + u.BalanceT0EthereumPending.getD 0 ≤ u.BalanceT0 →
      r.u.BalanceT0Ethereum + r.u.BalanceT0EthereumPending.getD 0 ≤ r.u.BalanceT0) ∧
    r.u.BalanceForT0Ethereum = u.BalanceForT0Ethereum ∧
    r.u.BalanceForTMinus1Ethereum = u.BalanceForTMinus1Ethereum) ∧
  (gate = true →
    (r.u.BalanceSoloEthereum = u.BalanceSoloEthereum ∧
      ∀ p, r.u.BalanceSoloEthereumPending = some p →
        p ≤ (ApplyPreStaking u.BalanceSolo u.PreStakingAllocation u.PreStakingBonus).1 -
          u.BalanceSoloEthereum) ∧
    (r.u.BalanceT0Ethereum = u.BalanceT0Ethereum ∧
      ∀ p, r.u.BalanceT0EthereumPending = some p →
        p ≤ (ApplyPreStaking u.BalanceT0 u.PreStakingAllocation u.PreStakingBonus).1 -
          u.BalanceT0Ethereum) ∧
    (r.u.BalanceForT0Ethereum = u.BalanceForT0Ethereum + r.balanceDistributedForT0 ∧
      (r.balanceDistributedForT0 = 0 ∨ ∃ t, t0 = some t ∧
        r.balanceDistributedForT0 ≤
          (ApplyPreStaking u.BalanceForT0 t.PreStakingAllocation t.PreStakingBonus).1 -
            u.BalanceForT0Ethereum)) ∧
    (r.u.BalanceForTMinus1Ethereum =
        u.BalanceForTMinus1Ethereum + r.balanceDistributedForTMinus1 ∧
      (r.balanceDistributedForTMinus1 = 0 ∨ ∃ m, tm1 = some m ∧
        r.balanceDistributedForTMinus1 ≤
          (ApplyPreStaking u.BalanceForTMinus1 m.PreStakingAllocation m.PreStakingBonus).1 -
            u.BalanceForTMinus1Ethereum))) ∧
  (0 ≤ u.PreStakingAllocation →
    (0 ≤ u.BalanceSolo →
      (ApplyPreStaking u.BalanceSolo u.PreStakingAllocation u.PreStakingBonus).1 ≤
        u.BalanceSolo) ∧
    (0 ≤ u.BalanceT0 →
      (ApplyPreStaking u.BalanceT0 u.PreStakingAllocation u.PreStakingBonus).1 ≤ u.BalanceT0)) ∧
  (∀ t, t0 = some t → 0 ≤ t.PreStakingAllocation → 0 ≤ u.BalanceForT0 →
    (ApplyPreStaking u.BalanceForT0 t.PreStakingAllocation t.PreStakingBonus).1 ≤
      u.BalanceForT0) ∧
  (∀ m, tm1 = some m → 0 ≤ m.PreStakingAllocation → 0 ≤ u.BalanceForTMinus1 →
    (ApplyPreStaking u.BalanceForTMinus1 m.PreStakingAllocation m.PreStakingBonus).1 ≤
      u.BalanceForTMinus1)

/-! ## Sample inputs -/

/-- A user whose fields are all zero, empty or absent. -/
def blankUser : user :=
  { ID := 0, UserID := "", Username := "", Country := "", KYCState := 0,
    MiningBlockchainAccountAddress := "", IDT0 := 0, IDTMinus1 := 0, HistoryPart := "",
    MiningSessionSoloLastStartedAt := none, MiningSessionSoloStartedAt := none,
    MiningSessionSoloEndedAt := none, MiningSessionSoloPreviouslyEndedAt := none,
    ExtraBonusStartedAt := none, BalanceLastUpdatedAt := none, ResurrectSoloUsedAt := none,
    ResurrectT0UsedAt := none, ResurrectTMinus1UsedAt := none,
    BalanceTotalStandard := 0, BalanceTotalPreStaking := 0, BalanceTotalMinted := 0,
    BalanceTotalSlashed := 0, BalanceSoloPending := 0, BalanceT1Pending := 0,
    BalanceT2Pending := 0, BalanceSoloPendingApplied := 0, BalanceT1PendingApplied := 0,
    BalanceT2PendingApplied := 0, BalanceSolo := 0, BalanceT0 := 0, BalanceT1 := 0,
    BalanceT2 := 0, BalanceForT0 := 0, BalanceForTMinus1 := 0, SlashingRateSolo := 0,
    SlashingRateT0 := 0, SlashingRateT1 := 0, SlashingRateT2 := 0, SlashingRateForT0 := 0,
    SlashingRateForTMinus1 := 0, ActiveT1Referrals := 0, ActiveT2Referrals := 0,
    PreStakingBonus := 0, PreStakingAllocation := 0, ExtraBonus := 0,
    BalanceSoloEthereum := 0, BalanceT0Ethereum := 0, BalanceT1Ethereum := 0,
    BalanceT2Ethereum := 0, BalanceForT0Ethereum := 0, BalanceForTMinus1Ethereum := 0,
    BalanceSoloEthereumPending := none, BalanceT0EthereumPending := none,
    BalanceT1EthereumPending := none, BalanceT2EthereumPending := none,
    SoloLastEthereumCoinDistributionProcessedAt := none,
    ForT0LastEthereumCoinDistributionProcessedAt := none,
    ForTMinus1LastEthereumCoinDistributionProcessedAt := none }

/-- Helpers that leave every user as it is. -/
def idleHelpers : Helpers :=
  { resurrect := fun _ u _ _ => u, changeT0AndTMinus1Referrals := fun u => u }

/-- A production configuration: one-hour buckets, a 24 h session, collector never started. -/
def sampleConfig : config :=
  { Development := false, ExtraBonusesDuration := 3600000000000,
    MiningSessionDurationMax := 86400000000000,
    EthereumDistributionFrequencyMin := 86400000000000,
    EthereumDistributionFrequencyMax := 2419200000000000,
    coinDistributionCollectorSettings :=
      { StartDate := none, EndDate := none, MinMiningStreaksRequired := 0,
        MinBalanceRequired := 0, DeniedCountries := "" },
    coinDistributionCollectorStartedAt := none, wallClock := 0 }

/-- 2023-11-14T22:13:20Z. -/
def sampleNow : Time := 1700000000000000000

/-- A user one hour into a 24 h session, last updated one hour before `sampleNow`. -/
def miningUser : user :=
  { blankUser with
    UserID := "u", ID := 1,
    MiningSessionSoloStartedAt := some (sampleNow - nanosPerHour),
    MiningSessionSoloEndedAt := some (sampleNow + 23 * nanosPerHour),
    BalanceLastUpdatedAt := some (sampleNow - nanosPerHour) }

/-- The user `miningUser` after one tick at `sampleNow` with rate 1: one hour of solo mining. -/
def miningUserTicked : user :=
  { miningUser with
    BalanceSolo := 1, BalanceTotalStandard := 1, BalanceTotalMinted := 1,
    BalanceLastUpdatedAt := some sampleNow }

/-- The history snapshot of `miningUser` for the hour before `sampleNow`. -/
def miningUserHistory : user := { miningUser with HistoryPart := "2023-11-14T21" }

/-- A mining user whose solo pending amount 5 has already been applied in full. -/
def settledUser : user :=
  { miningUser with BalanceSoloPending := 5, BalanceSoloPendingApplied := 5 }

/-- The user `settledUser` after one tick at `sampleNow` with rate 1. -/
def settledUserTicked : user :=
  { miningUserTicked with BalanceSoloPending := 5, BalanceSoloPendingApplied := 0 }

/-- A user whose session ended an hour before `sampleNow`, with no balance left, one unapplied
T1 pending amount and a standard total of 7. -/
def idleUser : user :=
  { blankUser with
    UserID := "u", ID := 1,
    MiningSessionSoloStartedAt := some (sampleNow - 25 * nanosPerHour),
    MiningSessionSoloEndedAt := some (sampleNow - nanosPerHour),
    BalanceLastUpdatedAt := some (sampleNow - 2 * nanosPerHour),
    BalanceT1Pending := 1, BalanceTotalStandard := 7 }

/-- The user `idleUser` after the idle short-circuit: only the applied T1 amount moved. -/
def idleUserTicked : user := { idleUser with BalanceT1PendingApplied := 1 }

/-- A drained user whose session ended an hour before `sampleNow`, last updated two hours before
it, with a solo adjustment of -1 not yet applied and a T1 pending amount 5 applied in full. -/
def drainedUser : user :=
  { blankUser with
    UserID := "u", ID := 1,
    MiningSessionSoloStartedAt := some (sampleNow - 25 * nanosPerHour),
    MiningSessionSoloEndedAt := some (sampleNow - nanosPerHour),
    BalanceLastUpdatedAt := some (sampleNow - 2 * nanosPerHour),
    BalanceSoloPending := -1, BalanceT1Pending := 5, BalanceT1PendingApplied := 5 }

/-- The user `drainedUser` after a first tick at `sampleNow`. -/
def drainedUserTicked : user :=
  { drainedUser with
    BalanceSoloPendingApplied := -1, BalanceT1PendingApplied := 0,
    BalanceLastUpdatedAt := some sampleNow }

/-- The user `drainedUserTicked` after a second tick, one hour after `sampleNow`. -/
def drainedUserTickedTwice : user := { drainedUserTicked with BalanceT1PendingApplied := 5 }

/-- Collaborators for which the collector is never enabled and nobody is eligible. -/
def closedCollaborators : Collaborators :=
  { IsCoinDistributionCollectorEnabled := fun _ _ _ => false,
    IsEligibleForEthereumDistributionNow := fun _ _ _ _ _ _ => false,
    IsEligibleForEthereumDistribution := fun _ _ _ _ _ _ _ _ _ _ _ _ _ _ _ => false,
    CalculateEthereumDistributionICEBalance := fun x _ _ _ _ => x }

/-- Collaborators for which the collector is enabled, everybody is eligible and the whole
remaining standard balance is released. -/
def openCollaborators : Collaborators :=
  { IsCoinDistributionCollectorEnabled := fun _ _ _ => true,
    IsEligibleForEthereumDistributionNow := fun _ _ _ _ _ _ => true,
    IsEligibleForEthereumDistribution := fun _ _ _ _ _ _ _ _ _ _ _ _ _ _ _ => true,
    CalculateEthereumDistributionICEBalance := fun x _ _ _ _ => x }

/-- A mining user with 7 pending on the solo Ethereum bucket and a solo mark set. -/
def pendingUser : user :=
  { miningUser with
    BalanceSoloEthereum := 3, BalanceSoloEthereumPending := some 7,
    SoloLastEthereumCoinDistributionProcessedAt := some (sampleNow - nanosPerHour) }

/-- The user `pendingUser` after a call with the collector not enabled. -/
def pendingUserClosed : user :=
  { miningUser with BalanceSoloEthereum := 10, BalanceSoloEthereumPending := some 0 }

/-- A referrer "t0" with a session that ends 23 hours after `sampleNow`. -/
def sampleT0 : referral :=
  { ID := 2, UserID := "t0", Username := "t0", Country := "", KYCState := 0,
    MiningBlockchainAccountAddress := "", IDT0 := 3,
    MiningSessionSoloStartedAt := some (sampleNow - nanosPerHour),
    MiningSessionSoloEndedAt := some (sampleNow + 23 * nanosPerHour),
    MiningSessionSoloPreviouslyEndedAt := none, ResurrectSoloUsedAt := none,
    BalanceTotalStandard := 0, BalanceSoloEthereum := 0, BalanceT0Ethereum := 0,
    BalanceT1Ethereum := 0, BalanceT2Ethereum := 0, PreStakingBonus := 0,
    PreStakingAllocation := 0 }

/-- A referrer "tm1", the referrer of `sampleT0`, with the same session. -/
def sampleTMinus1 : referral := { sampleT0 with ID := 3, UserID := "tm1", Username := "tm1", IDT0 := 0 }

/-- A mining user with balances on the four distributed buckets. -/
def earningUser : user :=
  { miningUser with
    BalanceSolo := 10, BalanceT0 := 2, BalanceForT0 := 4, BalanceForTMinus1 := 1,
    BalanceTotalStandard := 12, BalanceSoloEthereumPending := some 1 }

/-- The user `earningUser` after a call with `openCollaborators`, T0 and T-1 at `sampleNow`. -/
def earningUserDistributed : user :=
  { earningUser with
    BalanceSoloEthereumPending := some 10, BalanceT0EthereumPending := some 2,
    BalanceForT0Ethereum := 4, BalanceForTMinus1Ethereum := 1,
    SoloLastEthereumCoinDistributionProcessedAt := some sampleNow,
    ForT0LastEthereumCoinDistributionProcessedAt := some sampleNow,
    ForTMinus1LastEthereumCoinDistributionProcessedAt := some sampleNow }

/-- The four records returned for `earningUser`. -/
def earningUserRecords : List ByEarnerForReview :=
  [{ CreatedAt := sampleNow, Username := "", ReferredByUsername := "t0", UserID := "u",
     EarnerUserID := "u", EthAddress := "", InternalID := 1, Balance := 10 },
   { referralRecord sampleNow "u" "t0" with Balance := 2 },
   { referralRecord sampleNow "t0" "u" with Balance := 4 },
   { referralRecord sampleNow "tm1" "u" with Balance := 1 }]

/-- A mining user with the float64 `2.98` as solo balance, of which the float64 `0.95` is
marked as distributed; nothing is pre-staked. -/
def partlyPaidUser : user :=
  { miningUser with
    BalanceSolo := roundFloat64 (298 / 100), BalanceTotalStandard := roundFloat64 (298 / 100),
    BalanceSoloEthereum := roundFloat64 (95 / 100) }

/-- Collaborators for which the collector is enabled, everybody is eligible and the float64
`0.2` is released at each call. -/
def fixedCollaborators : Collaborators :=
  { openCollaborators with
    CalculateEthereumDistributionICEBalance := fun _ _ _ _ _ => roundFloat64 (2 / 10) }

/-- A mining user with 4 on the balance earned for T0, of which the float64 `0.1` is marked as
distributed. -/
def referringUser : user :=
  { miningUser with BalanceForT0 := 4, BalanceForT0Ethereum := roundFloat64 (1 / 10) }

/-- A user whose 24 h session ended one hour before `sampleNow`, with a solo balance of 24
left. -/
def lapsedUser : user :=
  { blankUser with
    UserID := "u", ID := 1,
    MiningSessionSoloStartedAt := some (sampleNow - 25 * nanosPerHour),
    MiningSessionSoloEndedAt := some (sampleNow - nanosPerHour),
    BalanceLastUpdatedAt := some (sampleNow - nanosPerHour),
    BalanceSolo := 24, BalanceTotalStandard := 24 }

/-- The user `lapsedUser` after one tick at `sampleNow`: one hour of slashing at the rate armed
in the tick. -/
def lapsedUserTicked : user :=
  { lapsedUser with
    SlashingRateSolo := 24 / 1440, BalanceSolo := 24 - 24 / 1440,
    BalanceTotalStandard := 24 - 24 / 1440, BalanceTotalSlashed := 24 / 1440,
    BalanceLastUpdatedAt := some sampleNow }

/-- The history snapshot of `lapsedUser` taken by a tick at `sampleNow`. -/
def lapsedUserHistory : user := { lapsedUser with HistoryPart := "2023-11-14T21" }

/-- The user `lapsedUser` with negative active-referral counts. -/
def miscountedUser : user := { lapsedUser with ActiveT1Referrals := -1, ActiveT2Referrals := -2 }

/-- The user `miscountedUser` after one tick at `sampleNow`: the counts are as they came. -/
def miscountedUserTicked : user :=
  { lapsedUserTicked with ActiveT1Referrals := -1, ActiveT2Referrals := -2 }

/-- A user whose session ended 1440 hours (60 days) before `sampleNow` and who was last updated
then, with a solo balance of 24 left. -/
def dormantUser : user :=
  { blankUser with
    UserID := "u", ID := 1,
    MiningSessionSoloStartedAt := some (sampleNow - 1464 * nanosPerHour),
    MiningSessionSoloEndedAt := some (sampleNow - 1440 * nanosPerHour),
    BalanceLastUpdatedAt := some (sampleNow - 1440 * nanosPerHour),
    BalanceSolo := 24, BalanceTotalStandard := 24 }

/-- The user `dormantUser` with the float64 `1234.5678` as solo balance. -/
def residueUser : user :=
  { dormantUser with
    BalanceSolo := roundFloat64 (12345678 / 10000),
    BalanceTotalStandard := roundFloat64 (12345678 / 10000) }

/-- A fresh user whose 24 h session starts one hour after `sampleNow`. -/
def earlyUser : user :=
  { blankUser with
    UserID := "u", ID := 1,
    MiningSessionSoloStartedAt := some (sampleNow + nanosPerHour),
    MiningSessionSoloEndedAt := some (sampleNow + 25 * nanosPerHour) }

/-- The user `earlyUser` after one tick at `sampleNow` with rate 1: minus one hour was mined,
the solo balance is clamped. -/
def earlyUserTicked : user :=
  { earlyUser with BalanceTotalMinted := -1, BalanceLastUpdatedAt := some sampleNow }

/-- A fresh user one hour into a 24 h session. -/
def newUser : user :=
  { blankUser with
    UserID := "u", ID := 1,
    MiningSessionSoloStartedAt := some (sampleNow - nanosPerHour),
    MiningSessionSoloEndedAt := some (sampleNow + 23 * nanosPerHour) }

/-- A mining user with an extra bonus of 100 % whose one-hour window starts half an hour after
`sampleNow`. -/
def bonusUserEarly : user :=
  { miningUser with
    ExtraBonus := 100, ExtraBonusStartedAt := some (sampleNow + 1800000000000) }

/-- The user `bonusUserEarly` after one tick at `sampleNow` with rate 1: the bonus is paid. -/
def bonusUserEarlyTicked : user :=
  { bonusUserEarly with
    BalanceSolo := 2, BalanceTotalStandard := 2, BalanceTotalMinted := 2,
    BalanceLastUpdatedAt := some sampleNow }

/-- A mining user with an extra bonus of 100 % whose one-hour window started half an hour before
`sampleNow`. -/
def bonusUser : user :=
  { miningUser with
    ExtraBonus := 100, ExtraBonusStartedAt := some (sampleNow - 1800000000000) }

/-- The user `bonusUser` after one tick at `sampleNow` with rate 1. -/
def bonusUserTicked : user :=
  { bonusUser with
    BalanceSolo := 2, BalanceTotalStandard := 2, BalanceTotalMinted := 2,
    BalanceLastUpdatedAt := some sampleNow }

/-- A mining user last updated ten minutes before `sampleNow`, in the same hour, with a solo
balance of 10 and a solo adjustment of -5 not yet applied. -/
def adjustedUser : user :=
  { miningUser with
    BalanceLastUpdatedAt := some (sampleNow - 600000000000),
    BalanceSolo := 10, BalanceTotalStandard := 10,
    BalanceSoloPending := 0, BalanceSoloPendingApplied := 5 }

/-- The user `adjustedUser` after one tick at `sampleNow` with rate 6: one unit is mined, five
are taken back, and minus five is recorded as slashed. -/
def adjustedUserTicked : user :=
  { adjustedUser with
    BalanceSolo := 6, BalanceTotalStandard := 6, BalanceTotalMinted := 1,
    BalanceTotalSlashed := -5, BalanceSoloPendingApplied := 0,
    BalanceLastUpdatedAt := some sampleNow }

/-- The user `settledUserTicked` after a second tick at `sampleNow`: the solo pending amount 5 is
credited again. -/
def settledUserTickedTwice : user :=
  { settledUserTicked with
    BalanceSolo := 6, BalanceTotalStandard := 6, BalanceTotalMinted := 6,
    BalanceSoloPendingApplied := 5 }

/-- A configuration that denies the country "xx". -/
def denyingConfig : config :=
  { sampleConfig with
    coinDistributionCollectorSettings :=
      { StartDate := none, EndDate := none, MinMiningStreaksRequired := 0,
        MinBalanceRequired := 0, DeniedCountries := "xx" } }

/-- Collaborators for which the collector is enabled, everybody is eligible now, and the
eligibility predicate only rejects the denied country. -/
def countryCollaborators : Collaborators :=
  { IsCoinDistributionCollectorEnabled := fun _ _ _ => true,
    IsEligibleForEthereumDistributionNow := fun _ _ _ _ _ _ => true,
    IsEligibleForEthereumDistribution :=
      fun _ _ _ _ country denied _ _ _ _ _ _ _ _ _ => country != denied,
    CalculateEthereumDistributionICEBalance := fun x _ _ _ _ => x }

/-- A mining user from the denied country "xx". -/
def deniedUser : user := { miningUser with Country := "xx" }

/-- A referrer from the denied country "xx". -/
def deniedT0 : referral := { sampleT0 with Country := "xx" }

/-- A user whose session ended one hour before `sampleNow`, last updated ten minutes before it,
with a solo balance of 24, two totals of zero and 3 recorded as slashed. -/
def unbookedUser : user :=
  { blankUser with
    UserID := "u", ID := 1,
    MiningSessionSoloStartedAt := some (sampleNow - 25 * nanosPerHour),
    MiningSessionSoloEndedAt := some (sampleNow - nanosPerHour),
    BalanceLastUpdatedAt := some (sampleNow - 600000000000),
    BalanceSolo := 24, BalanceTotalSlashed := 3 }

/-- The user `unbookedUser` after one tick at `sampleNow`: ten minutes of slashing are taken from
the solo balance, and nothing is added to the slashed total. -/
def unbookedUserTicked : user :=
  { unbookedUser with
    SlashingRateSolo := 1 / 60, BalanceSolo := 24 - 1 / 360,
    BalanceTotalStandard := 24 - 1 / 360, BalanceLastUpdatedAt := some sampleNow }

/-- The user `idleUser` with its T1 pending amount applied in full. -/
def idleUserSettled : user := { idleUser with BalanceT1PendingApplied := 1 }

/-- A mining user with a solo balance of 10, half of it pre-staked. -/
def stakedUser : user :=
  { miningUser with BalanceSolo := 10, BalanceTotalStandard := 5, PreStakingAllocation := 50 }

/-- The user `stakedUser` after a call with `openCollaborators` at `sampleNow`. -/
def stakedUserDistributed : user :=
  { stakedUser with
    BalanceSoloEthereumPending := some 5,
    SoloLastEthereumCoinDistributionProcessedAt := some sampleNow }

/-- The solo record returned for `stakedUser`. -/
def stakedUserRecord : ByEarnerForReview :=
  { CreatedAt := sampleNow, Username := "", ReferredByUsername := "icenetwork/bogus",
    UserID := "u", EarnerUserID := "u", EthAddress := "", InternalID := 1, Balance := 5 }

/-- Collaborators for which the collector is enabled and exactly the sessions that ended later
than `now` less an eighth of the session duration are eligible. -/
def recentCollaborators : Collaborators :=
  { IsCoinDistributionCollectorEnabled := fun _ _ _ => true,
    IsEligibleForEthereumDistributionNow := fun _ _ _ _ _ _ => true,
    IsEligibleForEthereumDistribution :=
      fun _ _ _ _ _ _ now _ _ endedAt _ _ miningSessionDuration _ _ =>
        match endedAt with
        | none => false
        | some e => decide (e > now + -(Int.tdiv miningSessionDuration 8)),
    CalculateEthereumDistributionICEBalance := fun x _ _ _ _ => x }

/-- The user `partlyPaidUser` after `processEthereumCoinDistributionForSolo` in float64, with a
release function that returns its argument: the float64 `2.98 - 0.95`, which is
`2.0300000000000002`, is staged. -/
def partlyPaidUserStaged : user :=
  { partlyPaidUser with
    BalanceSoloEthereumPending := some (2285576810890527 / 1125899906842624) }

/-- The user `referringUser` after `processEthereumCoinDistributionForForT0` in float64 with
`fixedCollaborators`: the float64 `0.1 + 0.2`, which is `0.30000000000000004`, is marked as
distributed. -/
def referringUserPaid : user :=
  { referringUser with BalanceForT0Ethereum := 1351079888211149 / 4503599627370496 }

/-! ## Shape of the results of `mine` -/

theorem clampZero_nonneg (x : ℚ) : 0 ≤ clampZero x := by
  unfold clampZero
  split_ifs with h
  · exact le_refl 0
  · exact not_lt.mp h

/-- A call of `mine` that returns a user either took the idle short-circuit or ran the full
path on the prepared clone. -/
theorem mine_some_user {cfg : config} {hp : Helpers} {rate : ℚ} {now : Time} {usr : Option user}
    {t0 tm1 : Option referral} {u' : user} {hist : Option user}
    (h : mine cfg hp rate now usr t0 tm1 = some (some u', hist)) :
    ∃ u endedAt, usr = some u ∧
      (hp.prepare now u t0 tm1).MiningSessionSoloEndedAt = some endedAt ∧
      ((idleCondition (hp.prepare now u t0 tm1) endedAt now = true ∧
          u' = idleUpdate (hp.prepare now u t0 tm1) ∧ hist = none) ∨
       (idleCondition (hp.prepare now u t0 tm1) endedAt now = false ∧
          ∃ r, mineFull cfg rate now u endedAt (hp.prepare now u t0 tm1) t0 tm1 = some r ∧
            u' = r.updatedUser ∧ hist = r.history)) := by
  cases usr with
  | none => simp [mine] at h
  | some u =>
    by_cases hs : (u.MiningSessionSoloStartedAt.isNone || u.MiningSessionSoloEndedAt.isNone) = true
    · simp [mine, hs] at h
    · simp only [mine] at h
      rw [if_neg hs] at h
      refine ⟨u, ?_⟩
      unfold mineClone at h
      cases he : (hp.prepare now u t0 tm1).MiningSessionSoloEndedAt with
      | none => rw [he] at h; simp at h
      | some endedAt =>
        rw [he] at h
        simp only at h
        refine ⟨endedAt, rfl, rfl, ?_⟩
        by_cases hi : idleCondition (hp.prepare now u t0 tm1) endedAt now = true
        · left
          rw [if_pos hi] at h
          by_cases hp2 : (hp.prepare now u t0 tm1).BalanceT1Pending -
              (hp.prepare now u t0 tm1).BalanceT1PendingApplied ≠ 0 ∨
            (hp.prepare now u t0 tm1).BalanceT2Pending -
              (hp.prepare now u t0 tm1).BalanceT2PendingApplied ≠ 0
          · rw [if_pos hp2] at h
            simp only [Option.some.injEq, Prod.mk.injEq] at h
            exact ⟨hi, h.1.symm, h.2.symm⟩
          · rw [if_neg hp2] at h
            simp at h
        · right
          rw [if_neg hi] at h
          refine ⟨by simpa using hi, ?_⟩
          cases hr : mineFull cfg rate now u endedAt (hp.prepare now u t0 tm1) t0 tm1 with
          | none => rw [hr] at h; simp at h
          | some r =>
            rw [hr] at h
            simp only [Option.map_some', Option.some.injEq, Prod.mk.injEq] at h
            exact ⟨r, rfl, h.1.symm, h.2.symm⟩

/-- The full path always ends in `mineFrom`, run on the clone with at most the accumulators reset
and `BalanceLastUpdatedAt` initialised. -/
theorem mineFull_some {cfg : config} {rate : ℚ} {now : Time} {usr : user} {endedAt : Time}
    {w : user} {t0 tm1 : Option referral} {r : tickLocals}
    (h : mineFull cfg rate now usr endedAt w t0 tm1 = some r) :
    (∃ startedAt, w.BalanceLastUpdatedAt = none ∧ w.MiningSessionSoloStartedAt = some startedAt ∧
        r = mineFrom cfg rate now usr endedAt startedAt
          { w with BalanceLastUpdatedAt := some startedAt } none t0 tm1) ∨
    (∃ last prior, w.BalanceLastUpdatedAt = some last ∧ differentBucket cfg last now = true ∧
        usr.BalanceLastUpdatedAt = some prior ∧
        r = mineFrom cfg rate now usr endedAt last
          { w with BalanceTotalSlashed := 0, BalanceTotalMinted := 0 }
          (some { usr with HistoryPart := historyPart cfg prior }) t0 tm1) ∨
    (∃ last, w.BalanceLastUpdatedAt = some last ∧ differentBucket cfg last now = false ∧
        r = mineFrom cfg rate now usr endedAt last w none t0 tm1) := by
  unfold mineFull at h
  cases hl : w.BalanceLastUpdatedAt with
  | none =>
    rw [hl] at h
    cases hs : w.MiningSessionSoloStartedAt with
    | none => rw [hs] at h; simp at h
    | some startedAt =>
      rw [hs] at h
      simp only [Option.some.injEq] at h
      exact Or.inl ⟨startedAt, rfl, rfl, h.symm⟩
  | some last =>
    rw [hl] at h
    simp only at h
    split_ifs at h with hb
    · cases hp : usr.BalanceLastUpdatedAt with
      | none => rw [hp] at h; simp at h
      | some prior =>
        rw [hp] at h
        simp only [Option.some.injEq] at h
        exact Or.inr (Or.inl ⟨last, prior, rfl, hb, rfl, h.symm⟩)
    · simp only [Option.some.injEq] at h
      exact Or.inr (Or.inr ⟨last, rfl, by simpa using hb, h.symm⟩)

/-- The six balances written by the full path are clamped. -/
theorem mineFrom_balances_nonneg (cfg : config) (rate : ℚ) (now : Time) (usr : user)
    (endedAt last : Time) (w : user) (hist : Option user) (t0 tm1 : Option referral) :
    let u' := (mineFrom cfg rate now usr endedAt last w hist t0 tm1).updatedUser
    0 ≤ u'.BalanceSolo ∧ 0 ≤ u'.BalanceT0 ∧ 0 ≤ u'.BalanceT1 ∧ 0 ≤ u'.BalanceT2 ∧
      0 ≤ u'.BalanceForT0 ∧ 0 ≤ u'.BalanceForTMinus1 := by
  simp only [mineFrom]
  exact ⟨clampZero_nonneg _, clampZero_nonneg _, clampZero_nonneg _, clampZero_nonneg _,
    clampZero_nonneg _, clampZero_nonneg _⟩

/-- The idle condition forces the six balances and the unapplied solo pending amount to zero. -/
theorem idleCondition_true {w : user} {endedAt now : Time} (h : idleCondition w endedAt now = true) :
    endedAt < now ∧ w.BalanceSolo = 0 ∧ w.BalanceT0 = 0 ∧ w.BalanceT1 = 0 ∧ w.BalanceT2 = 0 ∧
      w.BalanceSoloPending - w.BalanceSoloPendingApplied = 0 ∧ w.BalanceForT0 = 0 ∧
      w.BalanceForTMinus1 = 0 := by
  unfold idleCondition at h
  simp only [Bool.and_eq_true, decide_eq_true_eq] at h
  obtain ⟨⟨⟨⟨⟨⟨⟨h1, h2⟩, h3⟩, h4⟩, h5⟩, h6⟩, h7⟩, h8⟩ := h
  exact ⟨h1, h2, h3, h4, h5, h6, h7, h8⟩

/-! ## Claims about `mine` -/

/-- C1. Whenever `mine` returns an updated user, on the full path as on the idle short-circuit,
its six balances `BalanceSolo`, `BalanceT0`, `BalanceT1`, `BalanceT2`, `BalanceForT0` and
`BalanceForTMinus1` are all non-negative. -/
theorem mine_balances_nonneg (cfg : config) (hp : Helpers) (rate : ℚ) (now : Time)
    (usr : Option user) (t0 tm1 : Option referral) (u' : user) (hist : Option user)
    (h : mine cfg hp rate now usr t0 tm1 = some (some u', hist)) :
    0 ≤ u'.BalanceSolo ∧ 0 ≤ u'.BalanceT0 ∧ 0 ≤ u'.BalanceT1 ∧ 0 ≤ u'.BalanceT2 ∧
      0 ≤ u'.BalanceForT0 ∧ 0 ≤ u'.BalanceForTMinus1 := by
  obtain ⟨u, endedAt, -, -, hcase⟩ := mine_some_user h
  rcases hcase with ⟨hi, hu, -⟩ | ⟨-, r, hr, hu, -⟩
  · obtain ⟨-, h1, h2, h3, h4, -, h5, h6⟩ := idleCondition_true hi
    subst hu
    simp only [idleUpdate]
    exact ⟨h1.ge, h2.ge, h3.ge, h4.ge, h5.ge, h6.ge⟩
  · subst hu
    rcases mineFull_some hr with ⟨s, -, -, hr'⟩ | ⟨l, p, -, -, -, hr'⟩ | ⟨l, -, -, hr'⟩ <;>
      · rw [hr']
        exact mineFrom_balances_nonneg _ _ _ _ _ _ _ _ _ _

unseal Rat.add Rat.mul Rat.inv Rat.sub in
theorem mine_balances_nonneg_witness :
    mine sampleConfig idleHelpers 1 sampleNow (some miningUser) none none =
        some (some miningUserTicked, some miningUserHistory) ∧
      (0 ≤ miningUserTicked.BalanceSolo ∧ 0 ≤ miningUserTicked.BalanceT0 ∧
        0 ≤ miningUserTicked.BalanceT1 ∧ 0 ≤ miningUserTicked.BalanceT2 ∧
        0 ≤ miningUserTicked.BalanceForT0 ∧ 0 ≤ miningUserTicked.BalanceForTMinus1) :=
  ⟨by decide,
   mine_balances_nonneg sampleConfig idleHelpers 1 sampleNow (some miningUser) none none
     miningUserTicked (some miningUserHistory) (by decide)⟩

/-! ### Frame of the steps before the reconciliation -/

theorem sameLedgerInputs_refl (a : user) : sameLedgerInputs a a :=
  ⟨rfl, rfl, rfl, rfl, rfl, rfl, rfl, rfl, rfl, rfl⟩

theorem sameLedgerInputs_trans {a b c : user} (h1 : sameLedgerInputs a b)
    (h2 : sameLedgerInputs b c) : sameLedgerInputs a c := by
  obtain ⟨a1, a2, a3, a4, a5, a6, a7, a8, a9, a10⟩ := h1
  obtain ⟨b1, b2, b3, b4, b5, b6, b7, b8, b9, b10⟩ := h2
  exact ⟨a1.trans b1, a2.trans b2, a3.trans b3, a4.trans b4, a5.trans b5, a6.trans b6,
    a7.trans b7, a8.trans b8, a9.trans b9, a10.trans b10⟩

theorem clampT1Referrals_frame (u : user) : sameLedgerInputs (clampT1Referrals u) u := by
  unfold clampT1Referrals
  split_ifs <;> exact ⟨rfl, rfl, rfl, rfl, rfl, rfl, rfl, rfl, rfl, rfl⟩

theorem clampT2Referrals_frame (u : user) : sameLedgerInputs (clampT2Referrals u) u := by
  unfold clampT2Referrals
  split_ifs <;> exact ⟨rfl, rfl, rfl, rfl, rfl, rfl, rfl, rfl, rfl, rfl⟩

theorem accrue_frame (cfg : config) (rate : ℚ) (now : Time) (hours : ℚ) (w : user)
    (t0 tm1 : Option referral) : sameLedgerInputs (accrue cfg rate now hours w t0 tm1).1 w := by
  unfold accrue
  refine sameLedgerInputs_trans (b := clampT2Referrals (clampT1Referrals _))
    ⟨rfl, rfl, rfl, rfl, rfl, rfl, rfl, rfl, rfl, rfl⟩ ?_
  refine sameLedgerInputs_trans (clampT2Referrals_frame _) ?_
  refine sameLedgerInputs_trans (clampT1Referrals_frame _) ?_
  split_ifs <;> exact ⟨rfl, rfl, rfl, rfl, rfl, rfl, rfl, rfl, rfl, rfl⟩

theorem armSolo_frame (u : user) : sameLedgerInputs (armSolo u) u := by
  unfold armSolo
  split_ifs <;> exact ⟨rfl, rfl, rfl, rfl, rfl, rfl, rfl, rfl, rfl, rfl⟩

theorem armT0_frame (u : user) : sameLedgerInputs (armT0 u) u := by
  unfold armT0
  split_ifs <;> exact ⟨rfl, rfl, rfl, rfl, rfl, rfl, rfl, rfl, rfl, rfl⟩

theorem armT1_frame (u : user) : sameLedgerInputs (armT1 u) u := by
  unfold armT1
  split_ifs <;> exact ⟨rfl, rfl, rfl, rfl, rfl, rfl, rfl, rfl, rfl, rfl⟩

theorem armT2_frame (u : user) : sameLedgerInputs (armT2 u) u := by
  unfold armT2
  split_ifs <;> exact ⟨rfl, rfl, rfl, rfl, rfl, rfl, rfl, rfl, rfl, rfl⟩

theorem accrueOrArm_frame (cfg : config) (rate : ℚ) (now endedAt : Time) (hours : ℚ) (w : user)
    (t0 tm1 : Option referral) :
    sameLedgerInputs (accrueOrArm cfg rate now endedAt hours w t0 tm1).1 w := by
  unfold accrueOrArm
  split_ifs
  · exact accrue_frame _ _ _ _ _ _ _
  · exact sameLedgerInputs_trans (armT2_frame _) (sameLedgerInputs_trans (armT1_frame _)
      (sameLedgerInputs_trans (armT0_frame _) (armSolo_frame _)))

theorem armForRates_frame (now : Time) (w : user) (t0 tm1 : Option referral) :
    sameLedgerInputs (armForRates now w t0 tm1) w := by
  have h1 : sameLedgerInputs (armForT0 now w t0) w := by
    unfold armForT0
    split_ifs <;> exact ⟨rfl, rfl, rfl, rfl, rfl, rfl, rfl, rfl, rfl, rfl⟩
  have h2 : sameLedgerInputs (armForTMinus1 now (armForT0 now w t0) tm1) (armForT0 now w t0) := by
    unfold armForTMinus1
    split_ifs <;> exact ⟨rfl, rfl, rfl, rfl, rfl, rfl, rfl, rfl, rfl, rfl⟩
  exact sameLedgerInputs_trans h2 h1

theorem slash_frame (hours : ℚ) (w : user) : sameLedgerInputs (slash hours w).1 w :=
  ⟨rfl, rfl, rfl, rfl, rfl, rfl, rfl, rfl, rfl, rfl⟩

/-- The user the reconciliation of `mineFrom` starts from has the ledger inputs of the clone. -/
theorem beforeReconciliation_frame (cfg : config) (rate : ℚ) (now endedAt : Time) (hours : ℚ)
    (w : user) (t0 tm1 : Option referral) :
    sameLedgerInputs
      (slash hours (armForRates now (accrueOrArm cfg rate now endedAt hours w t0 tm1).1 t0 tm1)).1
      w :=
  sameLedgerInputs_trans (slash_frame _ _)
    (sameLedgerInputs_trans (armForRates_frame _ _ _ _) (accrueOrArm_frame _ _ _ _ _ _ _ _))

/-- What the full path leaves in the pending and applied fields: the pending amounts of the
clone are kept; an applied amount becomes the pending amount, or zero when nothing was unapplied. -/
theorem mineFrom_pending (cfg : config) (rate : ℚ) (now : Time) (usr : user)
    (endedAt last : Time) (w : user) (hist : Option user) (t0 tm1 : Option referral) :
    let u' := (mineFrom cfg rate now usr endedAt last w hist t0 tm1).updatedUser
    (u'.BalanceSoloPending = w.BalanceSoloPending ∧ u'.BalanceT1Pending = w.BalanceT1Pending ∧
      u'.BalanceT2Pending = w.BalanceT2Pending) ∧
    u'.BalanceSoloPendingApplied =
      (if w.BalanceSoloPending - w.BalanceSoloPendingApplied = 0 then 0 else w.BalanceSoloPending) ∧
    u'.BalanceT1PendingApplied =
      (if w.BalanceT1Pending - w.BalanceT1PendingApplied = 0 then 0 else w.BalanceT1Pending) ∧
    u'.BalanceT2PendingApplied =
      (if w.BalanceT2Pending - w.BalanceT2PendingApplied = 0 then 0 else w.BalanceT2Pending) := by
  obtain ⟨f1, f2, f3, f4, f5, f6, -, -, -, -⟩ :=
    beforeReconciliation_frame cfg rate now endedAt (Duration.Hours (Time.Sub now last)) w t0 tm1
  simp only [mineFrom, f1, f2, f3, f4, f5, f6]
  exact ⟨⟨trivial, trivial, trivial⟩, trivial, trivial, trivial⟩

/-- The totals written by the full path are the pre-staking split of the four clamped balances. -/
theorem mineFrom_totalsConsistent (cfg : config) (rate : ℚ) (now : Time) (usr : user)
    (endedAt last : Time) (w : user) (hist : Option user) (t0 tm1 : Option referral) :
    totalsConsistent (mineFrom cfg rate now usr endedAt last w hist t0 tm1).updatedUser := by
  simp only [totalsConsistent, mineFrom]

unseal Rat.add Rat.mul Rat.inv Rat.sub in
/-- C2, as stated, fails: a user whose solo pending amount 5 was applied in full comes out of a
tick with `BalanceSoloPending = 5` and `BalanceSoloPendingApplied = 0`, neither equal nor both
zero. -/
theorem mine_pending_counterexample :
    mine sampleConfig idleHelpers 1 sampleNow (some settledUser) none none =
        some (some settledUserTicked, some { settledUser with HistoryPart := "2023-11-14T21" }) ∧
      ¬ pendingReconciled settledUserTicked := by
  decide

/-- C2, amended. Whenever `mine` returns an updated user, on each of the three pending channels
the pending amount is the one of the clone `mine` worked on (it is never written), and the
applied amount equals the pending amount, or nothing was unapplied before the tick and the
applied amount alone is reset to zero. -/
theorem mine_pending_applied (cfg : config) (hp : Helpers) (rate : ℚ) (now : Time)
    (usr : Option user) (t0 tm1 : Option referral) (u' : user) (hist : Option user)
    (h : mine cfg hp rate now usr t0 tm1 = some (some u', hist)) :
    ∃ u, usr = some u ∧ pendingAppliedOrReset (hp.prepare now u t0 tm1) u' := by
  obtain ⟨u, endedAt, hu, -, hcase⟩ := mine_some_user h
  refine ⟨u, hu, ?_⟩
  have key : ∀ (last : Time) (w : user) (hs : Option user),
      (w.BalanceSoloPending = (hp.prepare now u t0 tm1).BalanceSoloPending ∧
        w.BalanceT1Pending = (hp.prepare now u t0 tm1).BalanceT1Pending ∧
        w.BalanceT2Pending = (hp.prepare now u t0 tm1).BalanceT2Pending ∧
        w.BalanceSoloPendingApplied = (hp.prepare now u t0 tm1).BalanceSoloPendingApplied ∧
        w.BalanceT1PendingApplied = (hp.prepare now u t0 tm1).BalanceT1PendingApplied ∧
        w.BalanceT2PendingApplied = (hp.prepare now u t0 tm1).BalanceT2PendingApplied) →
      u' = (mineFrom cfg rate now u endedAt last w hs t0 tm1).updatedUser →
      pendingAppliedOrReset (hp.prepare now u t0 tm1) u' := by
    intro last w hs hf hu'
    obtain ⟨g1, g2, g3, g4, g5, g6⟩ := hf
    obtain ⟨⟨p1, p2, p3⟩, a1, a2, a3⟩ := mineFrom_pending cfg rate now u endedAt last w hs t0 tm1
    rw [← hu'] at p1 p2 p3 a1 a2 a3
    rw [g1, g4] at a1
    rw [g2, g5] at a2
    rw [g3, g6] at a3
    rw [g1] at p1
    rw [g2] at p2
    rw [g3] at p3
    refine ⟨⟨p1, ?_⟩, ⟨p2, ?_⟩, ⟨p3, ?_⟩⟩
    · rw [a1, p1]
      split_ifs with hz
      · exact Or.inr ⟨hz, rfl⟩
      · exact Or.inl rfl
    · rw [a2, p2]
      split_ifs with hz
      · exact Or.inr ⟨hz, rfl⟩
      · exact Or.inl rfl
    · rw [a3, p3]
      split_ifs with hz
      · exact Or.inr ⟨hz, rfl⟩
      · exact Or.inl rfl
  rcases hcase with ⟨hi, hu', -⟩ | ⟨-, r, hr, hu', -⟩
  · obtain ⟨-, -, -, -, -, hd, -, -⟩ := idleCondition_true hi
    subst hu'
    refine ⟨⟨rfl, Or.inl ?_⟩, ⟨rfl, Or.inl rfl⟩, ⟨rfl, Or.inl rfl⟩⟩
    exact (sub_eq_zero.mp hd).symm
  · rcases mineFull_some hr with ⟨s, -, -, hr'⟩ | ⟨l, p, -, -, -, hr'⟩ | ⟨l, -, -, hr'⟩
    all_goals
      rw [hr'] at hu'
      refine key _ _ _ ?_ hu'
      exact ⟨rfl, rfl, rfl, rfl, rfl, rfl⟩

unseal Rat.add Rat.mul Rat.inv Rat.sub in
theorem mine_pending_applied_witness :
    mine sampleConfig idleHelpers 1 sampleNow (some settledUser) none none =
        some (some settledUserTicked, some { settledUser with HistoryPart := "2023-11-14T21" }) ∧
      ∃ u, some settledUser = some u ∧
        pendingAppliedOrReset (idleHelpers.prepare sampleNow u none none) settledUserTicked :=
  ⟨by decide,
   mine_pending_applied sampleConfig idleHelpers 1 sampleNow (some settledUser) none none
     settledUserTicked (some { settledUser with HistoryPart := "2023-11-14T21" }) (by decide)⟩

unseal Rat.add Rat.mul Rat.inv Rat.sub in
/-- C3, as stated, fails on the idle short-circuit: an idle user with all balances zero, one
unapplied T1 pending amount and `BalanceTotalStandard = 7` is returned with the total still 7,
while the pre-staking split of its (zero) balances is `(0, 0)`. -/
theorem mine_totals_counterexample :
    mine sampleConfig idleHelpers 1 sampleNow (some idleUser) none none =
        some (some idleUserTicked, none) ∧
      ¬ totalsConsistent idleUserTicked := by
  decide

/-- C3, amended. Whenever `mine` returns an updated user: on the full path its two totals are
the pre-staking split of `BalanceSolo + BalanceT0 + BalanceT1 + BalanceT2` under its own
allocation and bonus; on the idle short-circuit the two totals are those of the clone `mine`
worked on, left as they were, so they are consistent exactly when they were before. -/
theorem mine_totals (cfg : config) (hp : Helpers) (rate : ℚ) (now : Time)
    (usr : Option user) (t0 tm1 : Option referral) (u' : user) (hist : Option user)
    (h : mine cfg hp rate now usr t0 tm1 = some (some u', hist)) :
    ∃ u endedAt, usr = some u ∧
      (hp.prepare now u t0 tm1).MiningSessionSoloEndedAt = some endedAt ∧
      (idleCondition (hp.prepare now u t0 tm1) endedAt now = false → totalsConsistent u') ∧
      (idleCondition (hp.prepare now u t0 tm1) endedAt now = true →
        u'.BalanceTotalStandard = (hp.prepare now u t0 tm1).BalanceTotalStandard ∧
        u'.BalanceTotalPreStaking = (hp.prepare now u t0 tm1).BalanceTotalPreStaking ∧
        (totalsConsistent u' ↔ totalsConsistent (hp.prepare now u t0 tm1))) := by
  obtain ⟨u, endedAt, hu, he, hcase⟩ := mine_some_user h
  refine ⟨u, endedAt, hu, he, ?_, ?_⟩
  · intro hi
    rcases hcase with ⟨hi', -, -⟩ | ⟨-, r, hr, hu', -⟩
    · rw [hi] at hi'
      exact absurd hi' (by decide)
    · subst hu'
      rcases mineFull_some hr with ⟨s, -, -, hr'⟩ | ⟨l, p, -, -, -, hr'⟩ | ⟨l, -, -, hr'⟩ <;>
        · rw [hr']
          exact mineFrom_totalsConsistent _ _ _ _ _ _ _ _ _ _
  · intro hi
    rcases hcase with ⟨-, hu', -⟩ | ⟨hi', -⟩
    · subst hu'
      exact ⟨rfl, rfl, Iff.rfl⟩
    · rw [hi] at hi'
      exact absurd hi' (by decide)

unseal Rat.add Rat.mul Rat.inv Rat.sub in
theorem mine_totals_witness :
    mine sampleConfig idleHelpers 1 sampleNow (some miningUser) none none =
        some (some miningUserTicked, some miningUserHistory) ∧
      ∃ u endedAt, some miningUser = some u ∧
        (idleHelpers.prepare sampleNow u none none).MiningSessionSoloEndedAt = some endedAt ∧
        (idleCondition (idleHelpers.prepare sampleNow u none none) endedAt sampleNow = false →
          totalsConsistent miningUserTicked) ∧
        (idleCondition (idleHelpers.prepare sampleNow u none none) endedAt sampleNow = true →
          miningUserTicked.BalanceTotalStandard =
            (idleHelpers.prepare sampleNow u none none).BalanceTotalStandard ∧
          miningUserTicked.BalanceTotalPreStaking =
            (idleHelpers.prepare sampleNow u none none).BalanceTotalPreStaking ∧
          (totalsConsistent miningUserTicked ↔
            totalsConsistent (idleHelpers.prepare sampleNow u none none))) :=
  ⟨by decide,
   mine_totals sampleConfig idleHelpers 1 sampleNow (some miningUser) none none
     miningUserTicked (some miningUserHistory) (by decide)⟩

theorem idleHelpers_keepsTimes : idleHelpers.keepsTimes :=
  fun _ _ _ _ => ⟨rfl, rfl, rfl⟩

/-- Under helpers that keep the instants, the full path never dereferences a nil instant. -/
theorem mineFull_isSome (cfg : config) (rate : ℚ) (now : Time) (usr : user) (endedAt : Time)
    (w : user) (t0 tm1 : Option referral) (s : Time)
    (hs : w.MiningSessionSoloStartedAt = some s)
    (hl : w.BalanceLastUpdatedAt = usr.BalanceLastUpdatedAt) :
    ∃ r, mineFull cfg rate now usr endedAt w t0 tm1 = some r := by
  unfold mineFull
  cases hw : w.BalanceLastUpdatedAt with
  | none => simp only [hs]; exact ⟨_, rfl⟩
  | some last =>
    simp only
    rw [← hl, hw]
    split_ifs
    · exact ⟨_, rfl⟩
    · exact ⟨_, rfl⟩

/-- C4. `mine` returns `(nil, nil)` whenever the user is nil or one of the two session instants
is unset, whatever the rate, `now`, T0 and T-1; and for a user with both set whose session has
not ended (`EndedAt > now`) it returns an updated user, the helpers `resurrect` and
`changeT0AndTMinus1Referrals` being taken to leave the instants of the user as they are. -/
theorem mine_nil_iff_no_session (cfg : config) (hp : Helpers) (rate : ℚ) (now : Time)
    (usr : Option user) (t0 tm1 : Option referral) :
    ((usr = none ∨ ∃ u, usr = some u ∧
        (u.MiningSessionSoloStartedAt = none ∨ u.MiningSessionSoloEndedAt = none)) →
      mine cfg hp rate now usr t0 tm1 = some (none, none)) ∧
    (hp.keepsTimes → ∀ u s e, usr = some u → u.MiningSessionSoloStartedAt = some s →
      u.MiningSessionSoloEndedAt = some e → e > now →
      ∃ u' hist, mine cfg hp rate now usr t0 tm1 = some (some u', hist)) := by
  constructor
  · rintro (rfl | ⟨u, rfl, hs | he⟩)
    · rfl
    · simp [mine, hs]
    · simp [mine, he]
  · intro hk u s e hu hs he hlt
    subst hu
    obtain ⟨k1, k2, k3⟩ := hk now u t0 tm1
    have hi : idleCondition (hp.prepare now u t0 tm1) e now = false := by
      unfold idleCondition
      have : decide (e < now) = false := decide_eq_false (not_lt.mpr (le_of_lt hlt))
      rw [this]
      rfl
    obtain ⟨r, hr⟩ := mineFull_isSome cfg rate now u e (hp.prepare now u t0 tm1) t0 tm1 s
      (k1.trans hs) k3
    refine ⟨r.updatedUser, r.history, ?_⟩
    simp only [mine, hs, he, Option.isNone_some, Bool.or_self, Bool.false_eq_true, if_false]
    unfold mineClone
    rw [k2.trans he]
    simp only [hi, Bool.false_eq_true, if_false, hr, Option.map_some']

unseal Rat.add Rat.mul Rat.inv Rat.sub in
theorem mine_nil_iff_no_session_witness :
    mine sampleConfig idleHelpers 1 sampleNow (some blankUser) none none = some (none, none) ∧
      ∃ u' hist, mine sampleConfig idleHelpers 1 sampleNow (some miningUser) none none =
        some (some u', hist) :=
  ⟨(mine_nil_iff_no_session sampleConfig idleHelpers 1 sampleNow (some blankUser) none none).1
      (Or.inr ⟨blankUser, rfl, Or.inl rfl⟩),
   (mine_nil_iff_no_session sampleConfig idleHelpers 1 sampleNow (some miningUser) none none).2
      idleHelpers_keepsTimes miningUser (sampleNow - nanosPerHour) (sampleNow + 23 * nanosPerHour)
      rfl rfl rfl (by decide)⟩

/-! ### History snapshot -/

/-- A call of `mine` on a user with a session that does not panic either took the idle
short-circuit, without history, or ran the full path. -/
theorem mine_session_cases {cfg : config} {hp : Helpers} {rate : ℚ} {now : Time} {u : user}
    {t0 tm1 : Option referral} {ou hist : Option user} {s e : Time}
    (hs : u.MiningSessionSoloStartedAt = some s) (he : u.MiningSessionSoloEndedAt = some e)
    (h : mine cfg hp rate now (some u) t0 tm1 = some (ou, hist)) :
    ∃ endedAt, (hp.prepare now u t0 tm1).MiningSessionSoloEndedAt = some endedAt ∧
      ((idleCondition (hp.prepare now u t0 tm1) endedAt now = true ∧ hist = none ∧
          (ou = none ∨ ou = some (idleUpdate (hp.prepare now u t0 tm1)))) ∨
       (idleCondition (hp.prepare now u t0 tm1) endedAt now = false ∧
          ∃ r, mineFull cfg rate now u endedAt (hp.prepare now u t0 tm1) t0 tm1 = some r ∧
            ou = some r.updatedUser ∧ hist = r.history)) := by
  simp only [mine, hs, he, Option.isNone_some, Bool.or_self, Bool.false_eq_true, if_false] at h
  unfold mineClone at h
  cases hw : (hp.prepare now u t0 tm1).MiningSessionSoloEndedAt with
  | none => rw [hw] at h; simp at h
  | some endedAt =>
    rw [hw] at h
    simp only at h
    refine ⟨endedAt, rfl, ?_⟩
    by_cases hi : idleCondition (hp.prepare now u t0 tm1) endedAt now = true
    · left
      rw [if_pos hi] at h
      by_cases hp2 : (hp.prepare now u t0 tm1).BalanceT1Pending -
          (hp.prepare now u t0 tm1).BalanceT1PendingApplied ≠ 0 ∨
        (hp.prepare now u t0 tm1).BalanceT2Pending -
          (hp.prepare now u t0 tm1).BalanceT2PendingApplied ≠ 0
      · rw [if_pos hp2] at h
        simp only [Option.some.injEq, Prod.mk.injEq] at h
        exact ⟨hi, h.2.symm, Or.inr h.1.symm⟩
      · rw [if_neg hp2] at h
        simp only [Option.some.injEq, Prod.mk.injEq] at h
        exact ⟨hi, h.2.symm, Or.inl h.1.symm⟩
    · right
      rw [if_neg hi] at h
      refine ⟨by simpa using hi, ?_⟩
      cases hr : mineFull cfg rate now u endedAt (hp.prepare now u t0 tm1) t0 tm1 with
      | none => rw [hr] at h; simp at h
      | some r =>
        rw [hr] at h
        simp only [Option.map_some', Option.some.injEq, Prod.mk.injEq] at h
        exact ⟨r, rfl, h.1.symm, h.2.symm⟩

/-- On the full path a history snapshot is produced exactly on a bucket change. -/
theorem mineFull_history {cfg : config} {rate : ℚ} {now : Time} {usr : user} {endedAt : Time}
    {w : user} {t0 tm1 : Option referral} {r : tickLocals}
    (h : mineFull cfg rate now usr endedAt w t0 tm1 = some r) :
    r.history.isSome = true ↔
      ∃ last, w.BalanceLastUpdatedAt = some last ∧ differentBucket cfg last now = true := by
  rcases mineFull_some h with ⟨s, hl, -, hr⟩ | ⟨l, p, hl, hb, -, hr⟩ | ⟨l, hl, hb, hr⟩
  · subst hr
    simp [mineFrom, hl]
  · subst hr
    simp only [mineFrom, Option.isSome_some, true_iff]
    exact ⟨l, hl, hb⟩
  · subst hr
    simp only [mineFrom, Option.isSome_none, Bool.false_eq_true, false_iff]
    rintro ⟨l', hl', hb'⟩
    rw [hl] at hl'
    cases hl'
    rw [hb] at hb'
    exact absurd hb' (by decide)

unseal Rat.add Rat.mul Rat.inv Rat.sub in
/-- C6, as stated, fails on the idle short-circuit: the idle user was last updated two hours
before `now`, in another hour bucket, and `mine` returns an updated user without history. -/
theorem mine_history_counterexample :
    idleUser.MiningSessionSoloStartedAt ≠ none ∧ idleUser.MiningSessionSoloEndedAt ≠ none ∧
      idleUser.BalanceLastUpdatedAt = some (sampleNow - 2 * nanosPerHour) ∧
      differentBucket sampleConfig (sampleNow - 2 * nanosPerHour) sampleNow = true ∧
      mine sampleConfig idleHelpers 1 sampleNow (some idleUser) none none =
        some (some idleUserTicked, none) := by
  decide

/-- C6, amended. For every call of `mine` on a user with a session set: on the idle
short-circuit no history is returned; on the full path a history snapshot is returned if and only
if the prior `BalanceLastUpdatedAt` (of the clone `mine` works on) is set and differs from `now`
in year, day of year or hour (or minute, in development mode). -/
theorem mine_history_iff (cfg : config) (hp : Helpers) (rate : ℚ) (now : Time) (u : user)
    (t0 tm1 : Option referral) (ou hist : Option user) (s e : Time)
    (hs : u.MiningSessionSoloStartedAt = some s) (he : u.MiningSessionSoloEndedAt = some e)
    (h : mine cfg hp rate now (some u) t0 tm1 = some (ou, hist)) :
    ∃ endedAt, (hp.prepare now u t0 tm1).MiningSessionSoloEndedAt = some endedAt ∧
      (idleCondition (hp.prepare now u t0 tm1) endedAt now = true → hist = none) ∧
      (idleCondition (hp.prepare now u t0 tm1) endedAt now = false →
        (hist.isSome = true ↔
          ∃ last, (hp.prepare now u t0 tm1).BalanceLastUpdatedAt = some last ∧
            differentBucket cfg last now = true)) := by
  obtain ⟨endedAt, hw, hcase⟩ := mine_session_cases hs he h
  refine ⟨endedAt, hw, ?_, ?_⟩
  · intro hi
    rcases hcase with ⟨-, hh, -⟩ | ⟨hi', -⟩
    · exact hh
    · rw [hi] at hi'
      exact absurd hi' (by decide)
  · intro hi
    rcases hcase with ⟨hi', -⟩ | ⟨-, r, hr, -, hh⟩
    · rw [hi] at hi'
      exact absurd hi' (by decide)
    · rw [hh]
      exact mineFull_history hr

unseal Rat.add Rat.mul Rat.inv Rat.sub in
theorem mine_history_iff_witness :
    mine sampleConfig idleHelpers 1 sampleNow (some miningUser) none none =
        some (some miningUserTicked, some miningUserHistory) ∧
      ∃ endedAt,
        (idleHelpers.prepare sampleNow miningUser none none).MiningSessionSoloEndedAt =
          some endedAt ∧
        (idleCondition (idleHelpers.prepare sampleNow miningUser none none) endedAt sampleNow = true →
          some miningUserHistory = none) ∧
        (idleCondition (idleHelpers.prepare sampleNow miningUser none none) endedAt sampleNow = false →
          ((some miningUserHistory).isSome = true ↔
            ∃ last, (idleHelpers.prepare sampleNow miningUser none none).BalanceLastUpdatedAt =
                some last ∧
              differentBucket sampleConfig last sampleNow = true)) :=
  ⟨by decide,
   mine_history_iff sampleConfig idleHelpers 1 sampleNow miningUser none none
     (some miningUserTicked) (some miningUserHistory) (sampleNow - nanosPerHour)
     (sampleNow + 23 * nanosPerHour) rfl rfl (by decide)⟩

/-! ### Minted amount of a tick -/

theorem Time.Sub_nonneg {last now : Time} (h : last ≤ now) : 0 ≤ Time.Sub now last := by
  have h' : (0 : Int) ≤ now - last := Int.sub_nonneg_of_le h
  show (0 : Int) ≤ Time.Sub now last
  unfold Time.Sub maxDuration minDuration
  split_ifs with h1 h2
  · decide
  · exact absurd (lt_of_le_of_lt h' h2) (by decide)
  · exact h'

theorem Duration.Hours_nonneg {d : Duration} (h : 0 ≤ d) : 0 ≤ Duration.Hours d := by
  unfold Duration.Hours nanosPerHour
  have : (0 : ℚ) ≤ (d : ℚ) := by exact_mod_cast h
  positivity

theorem clampT1Referrals_nonneg (u : user) : 0 ≤ (clampT1Referrals u).ActiveT1Referrals := by
  unfold clampT1Referrals
  split_ifs with h
  · exact le_refl 0
  · exact not_lt.mp h

theorem clampT2Referrals_nonneg (u : user) : 0 ≤ (clampT2Referrals u).ActiveT2Referrals := by
  unfold clampT2Referrals
  split_ifs with h
  · exact le_refl 0
  · exact not_lt.mp h

theorem clampT2Referrals_ActiveT1 (u : user) :
    (clampT2Referrals u).ActiveT1Referrals = u.ActiveT1Referrals := by
  unfold clampT2Referrals
  split_ifs <;> rfl

/-- With a non-negative rate, elapsed time and extra bonus, accrual mints a non-negative amount. -/
theorem accrue_minted_nonneg (cfg : config) (rate : ℚ) (now : Time) (hours : ℚ) (w : user)
    (t0 tm1 : Option referral) (hr : 0 ≤ rate) (hh : 0 ≤ hours) (hx : 0 ≤ w.ExtraBonus) :
    0 ≤ (accrue cfg rate now hours w t0 tm1).2 := by
  unfold accrue
  simp only
  refine add_nonneg ?_ (add_nonneg ?_ ?_)
  · split_ifs <;> positivity
  · refine div_nonneg (mul_nonneg (mul_nonneg (mul_nonneg (by norm_num) ?_) hr) hh) (by norm_num)
    rw [clampT2Referrals_ActiveT1]
    exact_mod_cast clampT1Referrals_nonneg _
  · refine div_nonneg (mul_nonneg (mul_nonneg (mul_nonneg (by norm_num) ?_) hr) hh) (by norm_num)
    exact_mod_cast clampT2Referrals_nonneg _

theorem accrueOrArm_minted_nonneg (cfg : config) (rate : ℚ) (now endedAt : Time) (hours : ℚ)
    (w : user) (t0 tm1 : Option referral) (hr : 0 ≤ rate) (hh : 0 ≤ hours)
    (hx : 0 ≤ w.ExtraBonus) : 0 ≤ (accrueOrArm cfg rate now endedAt hours w t0 tm1).2 := by
  unfold accrueOrArm
  split_ifs
  · exact accrue_minted_nonneg cfg rate now hours w t0 tm1 hr hh hx
  · exact le_refl 0

theorem classifyPending_fst (x : ℚ) (ms : ℚ × ℚ) : ms.1 ≤ (classifyPending x ms).1 := by
  unfold classifyPending
  split_ifs with h
  · exact le_refl _
  · have : 0 ≤ x := not_lt.mp h
    simp only
    linarith

/-- The local `mintedAmount` of the full path is non-negative for a non-negative rate, extra
bonus and elapsed time. -/
theorem mineFrom_mintedAmount_nonneg (cfg : config) (rate : ℚ) (now : Time) (usr : user)
    (endedAt last : Time) (w : user) (hist : Option user) (t0 tm1 : Option referral)
    (hr : 0 ≤ rate) (hl : last ≤ now) (hx : 0 ≤ w.ExtraBonus) :
    0 ≤ (mineFrom cfg rate now usr endedAt last w hist t0 tm1).mintedAmount := by
  have hh : 0 ≤ Duration.Hours (Time.Sub now last) :=
    Duration.Hours_nonneg (Time.Sub_nonneg hl)
  have h0 := accrueOrArm_minted_nonneg cfg rate now endedAt _ w t0 tm1 hr hh hx
  simp only [mineFrom]
  refine le_trans ?_ (classifyPending_fst _ _)
  refine le_trans ?_ (classifyPending_fst _ _)
  exact le_trans h0 (classifyPending_fst _ _)

/-- Both parts of the pre-staking split of a non-negative amount add up to a non-negative
amount, for a non-negative allocation and bonus. -/
theorem ApplyPreStaking_sum_nonneg {m a b : ℚ} (hm : 0 ≤ m) (ha : 0 ≤ a) (hb : 0 ≤ b) :
    0 ≤ (ApplyPreStaking m a b).1 + (ApplyPreStaking m a b).2 := by
  unfold ApplyPreStaking
  simp only
  have h1 : 0 ≤ m * a * b := mul_nonneg (mul_nonneg hm ha) hb
  have : m - m * a / 100 + m * a / 100 * (1 + b / 100) = m + m * a * b / 10000 := by ring
  rw [this]
  have : 0 ≤ m * a * b / 10000 := div_nonneg h1 (by norm_num)
  linarith

/-- The accumulator written by the full path: the accumulator of the clone plus both parts of
the pre-staking split of the local `mintedAmount`, under the allocation and bonus of the clone,
which the returned user keeps. -/
theorem mineFrom_minted (cfg : config) (rate : ℚ) (now : Time) (usr : user)
    (endedAt last : Time) (w : user) (hist : Option user) (t0 tm1 : Option referral) :
    let r := mineFrom cfg rate now usr endedAt last w hist t0 tm1
    r.updatedUser.PreStakingAllocation = w.PreStakingAllocation ∧
    r.updatedUser.PreStakingBonus = w.PreStakingBonus ∧
    r.updatedUser.BalanceTotalMinted = w.BalanceTotalMinted +
      ((ApplyPreStaking r.mintedAmount w.PreStakingAllocation w.PreStakingBonus).1 +
        (ApplyPreStaking r.mintedAmount w.PreStakingAllocation w.PreStakingBonus).2) := by
  obtain ⟨-, -, -, -, -, -, f7, f8, f9, -⟩ :=
    beforeReconciliation_frame cfg rate now endedAt (Duration.Hours (Time.Sub now last)) w t0 tm1
  simp only [mineFrom, f7, f8, f9]
  exact ⟨trivial, trivial, trivial⟩

unseal Rat.add Rat.mul Rat.inv Rat.sub in
/-- C5, as stated, fails in its rollover part: `drainedUserTicked` is produced by a tick at
`sampleNow`; the next tick, one hour later and so in another hour bucket, takes the idle
short-circuit and returns an updated user without any history. -/
theorem mine_minted_counterexample :
    mine sampleConfig idleHelpers 1 sampleNow (some drainedUser) none none =
        some (some drainedUserTicked, some { drainedUser with HistoryPart := "2023-11-14T20" }) ∧
      drainedUserTicked.BalanceLastUpdatedAt = some sampleNow ∧
      differentBucket sampleConfig sampleNow (sampleNow + nanosPerHour) = true ∧
      idleHelpers.prepare (sampleNow + nanosPerHour) drainedUserTicked none none =
        drainedUserTicked ∧
      mine sampleConfig idleHelpers 1 (sampleNow + nanosPerHour) (some drainedUserTicked) none none =
        some (some drainedUserTickedTwice, none) := by
  decide

/-- C5, amended. Let `u2` be the user returned by a tick at `now2` on a user `u1` last updated at
`last ≤ now2`, with a non-negative rate, extra bonus, pre-staking allocation and bonus, and
resurrection and rewiring leaving `u1` unchanged. If `now2` is in the bucket of `last`, then
`BalanceTotalMinted` has not decreased and no history is returned. If it is in another bucket
and the tick runs the full path, then history is returned and `BalanceTotalMinted` is exactly
what this tick minted (both parts of the pre-staking split of its non-negative `mintedAmount`);
if it is in another bucket and the tick takes the idle short-circuit, then no history is
returned and `BalanceTotalMinted` is left as it was. -/
theorem mine_minted_monotone (cfg : config) (hp : Helpers) (rate : ℚ) (now2 : Time) (u1 : user)
    (t0 tm1 : Option referral) (u2 : user) (hist : Option user) (last endedAt : Time)
    (hid : hp.prepare now2 u1 t0 tm1 = u1) (hrate : 0 ≤ rate)
    (hl : u1.BalanceLastUpdatedAt = some last) (hnow : last ≤ now2)
    (hx : 0 ≤ u1.ExtraBonus) (ha : 0 ≤ u1.PreStakingAllocation) (hb : 0 ≤ u1.PreStakingBonus)
    (he : u1.MiningSessionSoloEndedAt = some endedAt)
    (h : mine cfg hp rate now2 (some u1) t0 tm1 = some (some u2, hist)) :
    (differentBucket cfg last now2 = false →
      hist = none ∧ u1.BalanceTotalMinted ≤ u2.BalanceTotalMinted) ∧
    (differentBucket cfg last now2 = true →
      (idleCondition u1 endedAt now2 = false →
        hist.isSome = true ∧
        ∃ r, mineFull cfg rate now2 u1 endedAt u1 t0 tm1 = some r ∧ 0 ≤ r.mintedAmount ∧
          u2.BalanceTotalMinted =
            (ApplyPreStaking r.mintedAmount u2.PreStakingAllocation u2.PreStakingBonus).1 +
            (ApplyPreStaking r.mintedAmount u2.PreStakingAllocation u2.PreStakingBonus).2) ∧
      (idleCondition u1 endedAt now2 = true →
        hist = none ∧ u2.BalanceTotalMinted = u1.BalanceTotalMinted)) := by
  obtain ⟨u, e', hu, he', hcase⟩ := mine_some_user h
  cases hu
  rw [hid] at he' hcase
  rw [he] at he'
  cases he'
  rcases hcase with ⟨hi, hu2, hh⟩ | ⟨hi, r, hr, hu2, hh⟩
  · -- idle short-circuit
    subst hu2
    refine ⟨fun _ => ⟨hh, le_refl _⟩, fun _ => ⟨?_, fun _ => ⟨hh, rfl⟩⟩⟩
    intro hi'
    rw [hi] at hi'
    exact absurd hi' (by decide)
  · rcases mineFull_some hr with ⟨s, hl', -, -⟩ | ⟨l, p, hl', hb', -, hr'⟩ | ⟨l, hl', hb', hr'⟩
    · rw [hl] at hl'
      cases hl'
    · -- rollover
      rw [hl] at hl'
      cases hl'
      refine ⟨?_, fun _ => ⟨fun _ => ?_, ?_⟩⟩
      · intro hb''
        rw [hb'] at hb''
        exact absurd hb'' (by decide)
      · obtain ⟨m1, m2, m3⟩ := mineFrom_minted cfg rate now2 u1 endedAt last
          { u1 with BalanceTotalSlashed := 0, BalanceTotalMinted := 0 }
          (some { u1 with HistoryPart := historyPart cfg p }) t0 tm1
        have hm := mineFrom_mintedAmount_nonneg cfg rate now2 u1 endedAt last
          { u1 with BalanceTotalSlashed := 0, BalanceTotalMinted := 0 }
          (some { u1 with HistoryPart := historyPart cfg p }) t0 tm1 hrate hnow hx
        rw [← hr'] at m1 m2 m3 hm
        refine ⟨?_, r, hr, hm, ?_⟩
        · rw [hh, hr']
          rfl
        · rw [hu2, m1, m2, m3]
          simp only [zero_add]
      · intro hi'
        rw [hi] at hi'
        exact absurd hi' (by decide)
    · -- same bucket
      rw [hl] at hl'
      cases hl'
      refine ⟨fun _ => ?_, ?_⟩
      · obtain ⟨-, -, m3⟩ := mineFrom_minted cfg rate now2 u1 endedAt last u1 none t0 tm1
        have hm := mineFrom_mintedAmount_nonneg cfg rate now2 u1 endedAt last u1 none t0 tm1
          hrate hnow hx
        rw [← hr'] at m3 hm
        refine ⟨?_, ?_⟩
        · rw [hh, hr']
          rfl
        · rw [hu2, m3]
          have := ApplyPreStaking_sum_nonneg hm ha hb
          linarith
      · intro hb''
        rw [hb'] at hb''
        exact absurd hb'' (by decide)

unseal Rat.add Rat.mul Rat.inv Rat.sub in
theorem mine_minted_monotone_witness :
    mine sampleConfig idleHelpers 1 sampleNow (some miningUser) none none =
        some (some miningUserTicked, some miningUserHistory) ∧
      ((differentBucket sampleConfig (sampleNow - nanosPerHour) sampleNow = false →
        some miningUserHistory = none ∧
          miningUser.BalanceTotalMinted ≤ miningUserTicked.BalanceTotalMinted) ∧
      (differentBucket sampleConfig (sampleNow - nanosPerHour) sampleNow = true →
        (idleCondition miningUser (sampleNow + 23 * nanosPerHour) sampleNow = false →
          (some miningUserHistory).isSome = true ∧
          ∃ r, mineFull sampleConfig 1 sampleNow miningUser (sampleNow + 23 * nanosPerHour)
              miningUser none none = some r ∧ 0 ≤ r.mintedAmount ∧
            miningUserTicked.BalanceTotalMinted =
              (ApplyPreStaking r.mintedAmount miningUserTicked.PreStakingAllocation
                miningUserTicked.PreStakingBonus).1 +
              (ApplyPreStaking r.mintedAmount miningUserTicked.PreStakingAllocation
                miningUserTicked.PreStakingBonus).2) ∧
        (idleCondition miningUser (sampleNow + 23 * nanosPerHour) sampleNow = true →
          some miningUserHistory = none ∧
            miningUserTicked.BalanceTotalMinted = miningUser.BalanceTotalMinted))) :=
  ⟨by decide,
   mine_minted_monotone sampleConfig idleHelpers 1 sampleNow miningUser none none
     miningUserTicked (some miningUserHistory) (sampleNow - nanosPerHour)
     (sampleNow + 23 * nanosPerHour) rfl (by decide) rfl (by decide) (by decide) (by decide)
     (by decide) rfl (by decide)⟩

/-! ## Claims about `processEthereumCoinDistribution` -/

/-- With the collector not enabled the call folds the pending amounts and returns nil. -/
theorem closedGate_result (cfg : config) (ext : Collaborators) (u : user)
    (now : Time) (t0 tm1 : Option referral)
    (h : isCoinDistributionCollectorEnabled cfg ext now = false) :
    processEthereumCoinDistribution cfg ext u now t0 tm1 =
      some { u := closedGate u, records := none,
             balanceDistributedForT0 := 0, balanceDistributedForTMinus1 := 0 } := by
  simp [processEthereumCoinDistribution, h]

theorem absorbPending_fst (b : ℚ) (p : Option ℚ) : (absorbPending b p).1 = b + p.getD 0 := by
  cases p <;> simp [absorbPending]

theorem absorbPending_snd (b : ℚ) (p : Option ℚ) :
    (absorbPending b p).2 = p.map (fun _ => 0) := by
  cases p <;> simp [absorbPending]

theorem absorbPending_idem (b : ℚ) (p : Option ℚ) :
    absorbPending (absorbPending b p).1 (absorbPending b p).2 = absorbPending b p := by
  cases p <;> simp [absorbPending]

theorem closedGate_idem (u : user) : closedGate (closedGate u) = closedGate u := by
  simp only [closedGate, absorbPending_idem]

/-- C9. Gate idempotence: at a `now` at which the collector is not enabled, a first call and a
second call on the state the first one left both return `(nil, 0, 0)`, and the second call
leaves the user exactly as the first one left it. -/
theorem processEthereumCoinDistribution_closed_idempotent (cfg : config) (ext : Collaborators)
    (u : user) (now : Time) (t0 tm1 : Option referral)
    (h : isCoinDistributionCollectorEnabled cfg ext now = false) :
    ∃ r1 r2, processEthereumCoinDistribution cfg ext u now t0 tm1 = some r1 ∧
      processEthereumCoinDistribution cfg ext r1.u now t0 tm1 = some r2 ∧
      r2.u = r1.u ∧
      (r1.records = none ∧ r1.balanceDistributedForT0 = 0 ∧ r1.balanceDistributedForTMinus1 = 0) ∧
      (r2.records = none ∧ r2.balanceDistributedForT0 = 0 ∧ r2.balanceDistributedForTMinus1 = 0) :=
  ⟨_, _, closedGate_result cfg ext u now t0 tm1 h,
    closedGate_result cfg ext _ now t0 tm1 h,
    closedGate_idem u, ⟨rfl, rfl, rfl⟩, ⟨rfl, rfl, rfl⟩⟩

unseal Rat.add Rat.mul Rat.inv Rat.sub in
theorem processEthereumCoinDistribution_closed_idempotent_witness :
    processEthereumCoinDistribution sampleConfig closedCollaborators pendingUser sampleNow
        none none =
      some { u := pendingUserClosed, records := none,
             balanceDistributedForT0 := 0, balanceDistributedForTMinus1 := 0 } ∧
    processEthereumCoinDistribution sampleConfig closedCollaborators pendingUserClosed sampleNow
        none none =
      some { u := pendingUserClosed, records := none,
             balanceDistributedForT0 := 0, balanceDistributedForTMinus1 := 0 } ∧
    ∃ r1 r2, processEthereumCoinDistribution sampleConfig closedCollaborators pendingUser
          sampleNow none none = some r1 ∧
      processEthereumCoinDistribution sampleConfig closedCollaborators r1.u sampleNow
          none none = some r2 ∧
      r2.u = r1.u ∧
      (r1.records = none ∧ r1.balanceDistributedForT0 = 0 ∧ r1.balanceDistributedForTMinus1 = 0) ∧
      (r2.records = none ∧ r2.balanceDistributedForT0 = 0 ∧ r2.balanceDistributedForTMinus1 = 0) :=
  ⟨by decide, by decide,
   processEthereumCoinDistribution_closed_idempotent sampleConfig closedCollaborators pendingUser
     sampleNow none none rfl⟩

/-- C10. Gate closed: at a `now` at which the collector is not enabled the call returns
`(nil, 0, 0)`; each of `BalanceSoloEthereum`, `BalanceT0Ethereum`, `BalanceT1Ethereum` and
`BalanceT2Ethereum` grows by exactly its pending amount (by nothing when that is absent); every
pending field that was present becomes 0 (an absent one stays absent); and the three
last-processed marks are nil. -/
theorem processEthereumCoinDistribution_gate_closed (cfg : config) (ext : Collaborators)
    (u : user) (now : Time) (t0 tm1 : Option referral)
    (h : isCoinDistributionCollectorEnabled cfg ext now = false) :
    ∃ r, processEthereumCoinDistribution cfg ext u now t0 tm1 = some r ∧
      (r.records = none ∧ r.balanceDistributedForT0 = 0 ∧ r.balanceDistributedForTMinus1 = 0) ∧
      (r.u.BalanceSoloEthereum = u.BalanceSoloEthereum + u.BalanceSoloEthereumPending.getD 0 ∧
        r.u.BalanceT0Ethereum = u.BalanceT0Ethereum + u.BalanceT0EthereumPending.getD 0 ∧
        r.u.BalanceT1Ethereum = u.BalanceT1Ethereum + u.BalanceT1EthereumPending.getD 0 ∧
        r.u.BalanceT2Ethereum = u.BalanceT2Ethereum + u.BalanceT2EthereumPending.getD 0) ∧
      (r.u.BalanceSoloEthereumPending = u.BalanceSoloEthereumPending.map (fun _ => 0) ∧
        r.u.BalanceT0EthereumPending = u.BalanceT0EthereumPending.map (fun _ => 0) ∧
        r.u.BalanceT1EthereumPending = u.BalanceT1EthereumPending.map (fun _ => 0) ∧
        r.u.BalanceT2EthereumPending = u.BalanceT2EthereumPending.map (fun _ => 0)) ∧
      (r.u.SoloLastEthereumCoinDistributionProcessedAt = none ∧
        r.u.ForT0LastEthereumCoinDistributionProcessedAt = none ∧
        r.u.ForTMinus1LastEthereumCoinDistributionProcessedAt = none) :=
  ⟨_, closedGate_result cfg ext u now t0 tm1 h, ⟨rfl, rfl, rfl⟩,
    ⟨absorbPending_fst _ _, absorbPending_fst _ _, absorbPending_fst _ _, absorbPending_fst _ _⟩,
    ⟨absorbPending_snd _ _, absorbPending_snd _ _, absorbPending_snd _ _, absorbPending_snd _ _⟩,
    ⟨rfl, rfl, rfl⟩⟩

unseal Rat.add Rat.mul Rat.inv Rat.sub in
theorem processEthereumCoinDistribution_gate_closed_witness :
    pendingUser.BalanceSoloEthereumPending = some 7 ∧
    pendingUserClosed.BalanceSoloEthereum = pendingUser.BalanceSoloEthereum + 7 ∧
    processEthereumCoinDistribution sampleConfig closedCollaborators pendingUser sampleNow
        none none =
      some { u := pendingUserClosed, records := none,
             balanceDistributedForT0 := 0, balanceDistributedForTMinus1 := 0 } ∧
    ∃ r, processEthereumCoinDistribution sampleConfig closedCollaborators pendingUser sampleNow
        none none = some r ∧
      (r.records = none ∧ r.balanceDistributedForT0 = 0 ∧ r.balanceDistributedForTMinus1 = 0) ∧
      (r.u.BalanceSoloEthereum =
          pendingUser.BalanceSoloEthereum + pendingUser.BalanceSoloEthereumPending.getD 0 ∧
        r.u.BalanceT0Ethereum =
          pendingUser.BalanceT0Ethereum + pendingUser.BalanceT0EthereumPending.getD 0 ∧
        r.u.BalanceT1Ethereum =
          pendingUser.BalanceT1Ethereum + pendingUser.BalanceT1EthereumPending.getD 0 ∧
        r.u.BalanceT2Ethereum =
          pendingUser.BalanceT2Ethereum + pendingUser.BalanceT2EthereumPending.getD 0) ∧
      (r.u.BalanceSoloEthereumPending = pendingUser.BalanceSoloEthereumPending.map (fun _ => 0) ∧
        r.u.BalanceT0EthereumPending = pendingUser.BalanceT0EthereumPending.map (fun _ => 0) ∧
        r.u.BalanceT1EthereumPending = pendingUser.BalanceT1EthereumPending.map (fun _ => 0) ∧
        r.u.BalanceT2EthereumPending = pendingUser.BalanceT2EthereumPending.map (fun _ => 0)) ∧
      (r.u.SoloLastEthereumCoinDistributionProcessedAt = none ∧
        r.u.ForT0LastEthereumCoinDistributionProcessedAt = none ∧
        r.u.ForTMinus1LastEthereumCoinDistributionProcessedAt = none) :=
  ⟨rfl, by decide, by decide,
   processEthereumCoinDistribution_gate_closed sampleConfig closedCollaborators pendingUser
     sampleNow none none rfl⟩

/-! ### Effect of the stages on the user -/

/-- The standard part of a balance under a pre-staking allocation and bonus. -/
theorem ApplyPreStaking_fst (x a b : ℚ) : (ApplyPreStaking x a b).1 = x - x * a / 100 := rfl

theorem processEthereumCoinDistributionForSolo_user (cfg : config) (ext : Collaborators)
    (u : user) (now : Time) :
    ∃ p, (processEthereumCoinDistributionForSolo cfg ext u now).1 =
        { u with BalanceSoloEthereumPending := p } ∧
      (p = u.BalanceSoloEthereumPending ∨
        p = some (ethICE cfg ext now
          ((ApplyPreStaking u.BalanceSolo u.PreStakingAllocation u.PreStakingBonus).1 -
            u.BalanceSoloEthereum))) := by
  simp only [processEthereumCoinDistributionForSolo, ethereumDistributionDryRunModeEnabled]
  split_ifs
  · exact ⟨_, rfl, Or.inl rfl⟩
  · exact ⟨_, rfl, Or.inr rfl⟩
  · exact ⟨_, rfl, Or.inl rfl⟩

theorem processEthereumCoinDistributionForT0_user (cfg : config) (ext : Collaborators)
    (u : user) (now : Time) :
    ∃ p, (processEthereumCoinDistributionForT0 cfg ext u now).1 =
        { u with BalanceT0EthereumPending := p } ∧
      (p = u.BalanceT0EthereumPending ∨
        p = some (ethICE cfg ext now
          ((ApplyPreStaking u.BalanceT0 u.PreStakingAllocation u.PreStakingBonus).1 -
            u.BalanceT0Ethereum))) := by
  simp only [processEthereumCoinDistributionForT0, ethereumDistributionDryRunModeEnabled]
  split_ifs
  · exact ⟨_, rfl, Or.inl rfl⟩
  · exact ⟨_, rfl, Or.inr rfl⟩
  · exact ⟨_, rfl, Or.inl rfl⟩

theorem processEthereumCoinDistributionForForT0_user (cfg : config) (ext : Collaborators)
    (u : user) (t : referral) (now : Time) :
    ∃ e, (processEthereumCoinDistributionForForT0 cfg ext u t now).1 =
        { u with BalanceForT0Ethereum := e } ∧
      (e = u.BalanceForT0Ethereum ∨
        e = u.BalanceForT0Ethereum + ethICE cfg ext now
          ((ApplyPreStaking u.BalanceForT0 t.PreStakingAllocation t.PreStakingBonus).1 -
            u.BalanceForT0Ethereum)) := by
  simp only [processEthereumCoinDistributionForForT0, ethereumDistributionDryRunModeEnabled]
  split_ifs
  · exact ⟨_, rfl, Or.inl rfl⟩
  · exact ⟨_, rfl, Or.inr rfl⟩
  · exact ⟨_, rfl, Or.inl rfl⟩

theorem processEthereumCoinDistributionForForTMinus1_user (cfg : config) (ext : Collaborators)
    (u : user) (m : referral) (now : Time) :
    ∃ e, (processEthereumCoinDistributionForForTMinus1 cfg ext u m now).1 =
        { u with BalanceForTMinus1Ethereum := e } ∧
      (e = u.BalanceForTMinus1Ethereum ∨
        e = u.BalanceForTMinus1Ethereum + ethICE cfg ext now
          ((ApplyPreStaking u.BalanceForTMinus1 m.PreStakingAllocation m.PreStakingBonus).1 -
            u.BalanceForTMinus1Ethereum)) := by
  simp only [processEthereumCoinDistributionForForTMinus1, ethereumDistributionDryRunModeEnabled]
  split_ifs
  · exact ⟨_, rfl, Or.inl rfl⟩
  · exact ⟨_, rfl, Or.inr rfl⟩
  · exact ⟨_, rfl, Or.inl rfl⟩

theorem assignBalance_some {record : Option ByEarnerForReview} {b : ℚ}
    {record' : Option ByEarnerForReview} (h : assignBalance record b = some record') :
    record'.map parties = record.map parties := by
  cases record with
  | none => simp [assignBalance] at h
  | some r =>
    simp only [assignBalance, Option.some.injEq] at h
    subst h
    rfl

/-- The self stage writes the two pending fields of the solo and T0 buckets and the solo mark,
nothing else, and leaves the parties of the records as they are. -/
theorem selfStage_effect {cfg : config} {ext : Collaborators} {u : user} {now : Time}
    {t0 tm1 : Option referral} {st : stagedRecords} {u' : user} {st' : stagedRecords}
    (h : selfStage cfg ext u now t0 tm1 st = some (u', st')) :
    (∃ ps pt m, u' = { u with BalanceSoloEthereumPending := ps, BalanceT0EthereumPending := pt,
                              SoloLastEthereumCoinDistributionProcessedAt := m } ∧
      (ps = u.BalanceSoloEthereumPending ∨
        ps = some (ethICE cfg ext now
          ((ApplyPreStaking u.BalanceSolo u.PreStakingAllocation u.PreStakingBonus).1 -
            u.BalanceSoloEthereum))) ∧
      (pt = u.BalanceT0EthereumPending ∨
        pt = some (ethICE cfg ext now
          ((ApplyPreStaking u.BalanceT0 u.PreStakingAllocation u.PreStakingBonus).1 -
            u.BalanceT0Ethereum)))) ∧
    st'.parties = st.parties := by
  unfold selfStage at h
  by_cases hc : user.isEligibleForSelfForEthereumDistribution cfg ext u now = true
  · rw [if_pos hc] at h
    simp only at h
    obtain ⟨ps, hps, hps'⟩ := processEthereumCoinDistributionForSolo_user cfg ext u now
    cases hs : assignBalance st.soloCD (processEthereumCoinDistributionForSolo cfg ext u now).2 with
    | none => rw [hs] at h; simp at h
    | some soloCD =>
      rw [hs] at h
      simp only [Option.some_bind] at h
      have hsolo := assignBalance_some hs
      by_cases hc2 : (pairChainOk u t0 tm1 &&
          referral.isEligibleForReferralForEthereumDistribution cfg ext t0 now) = true
      · rw [if_pos hc2] at h
        obtain ⟨pt, hpt, hpt'⟩ := processEthereumCoinDistributionForT0_user cfg ext
          (processEthereumCoinDistributionForSolo cfg ext u now).1 now
        cases ht : assignBalance st.t0CD (processEthereumCoinDistributionForT0 cfg ext
            (processEthereumCoinDistributionForSolo cfg ext u now).1 now).2 with
        | none => rw [ht] at h; simp at h
        | some t0CD =>
          rw [ht] at h
          simp only [Option.some_bind, Option.some.injEq, Prod.mk.injEq] at h
          obtain ⟨h1, h2⟩ := h
          have ht0 := assignBalance_some ht
          refine ⟨⟨ps, pt, markFor now ((processEthereumCoinDistributionForSolo cfg ext u now).2 +
            (processEthereumCoinDistributionForT0 cfg ext
              (processEthereumCoinDistributionForSolo cfg ext u now).1 now).2), ?_, hps', ?_⟩, ?_⟩
          · rw [← h1, hpt, hps]
          · rw [hps] at hpt'
            exact hpt'
          · rw [← h2]
            simp only [stagedRecords.parties, hsolo, ht0]
      · rw [if_neg hc2] at h
        simp only [Option.some.injEq, Prod.mk.injEq] at h
        obtain ⟨h1, h2⟩ := h
        refine ⟨⟨ps, u.BalanceT0EthereumPending,
          markFor now (processEthereumCoinDistributionForSolo cfg ext u now).2, ?_, hps',
          Or.inl rfl⟩, ?_⟩
        · rw [← h1, hps]
        · rw [← h2]
          simp only [stagedRecords.parties, hsolo]
  · rw [if_neg hc] at h
    simp only [Option.some.injEq, Prod.mk.injEq] at h
    obtain ⟨h1, h2⟩ := h
    refine ⟨⟨u.BalanceSoloEthereumPending, u.BalanceT0EthereumPending, none, h1.symm,
      Or.inl rfl, Or.inl rfl⟩, ?_⟩
    rw [h2]

/-- The for-T0 stage writes `BalanceForT0Ethereum` and the for-T0 mark, nothing else, and leaves
the parties of the records as they are. -/
theorem forT0Stage_effect {cfg : config} {ext : Collaborators} {u : user} {now : Time}
    {t0 tm1 : Option referral} {st : stagedRecords} {u' : user} {st' : stagedRecords} {b : ℚ}
    (h : forT0Stage cfg ext u now t0 tm1 st = some (u', st', b)) :
    (∃ e m, u' = { u with BalanceForT0Ethereum := e,
                          ForT0LastEthereumCoinDistributionProcessedAt := m } ∧
      (e = u.BalanceForT0Ethereum ∨
        ∃ t, t0 = some t ∧ e = u.BalanceForT0Ethereum + ethICE cfg ext now
          ((ApplyPreStaking u.BalanceForT0 t.PreStakingAllocation t.PreStakingBonus).1 -
            u.BalanceForT0Ethereum))) ∧
    st'.parties = st.parties := by
  unfold forT0Stage at h
  cases t0 with
  | none =>
    simp only [Option.some.injEq, Prod.mk.injEq] at h
    obtain ⟨h1, h2, -⟩ := h
    exact ⟨⟨u.BalanceForT0Ethereum, none, h1.symm, Or.inl rfl⟩, by rw [h2]⟩
  | some t =>
    simp only at h
    by_cases hc : (pairChainOk u (some t) tm1 &&
        user.isEligibleForT0ForEthereumDistribution cfg ext u now t.ID &&
        referral.isEligibleForSelfForEthereumDistribution cfg ext (some t) now
          u.ForT0LastEthereumCoinDistributionProcessedAt) = true
    · rw [if_pos hc] at h
      obtain ⟨e, he, he'⟩ := processEthereumCoinDistributionForForT0_user cfg ext u t now
      cases ha : assignBalance st.forT0CD
          (processEthereumCoinDistributionForForT0 cfg ext u t now).2 with
      | none => rw [ha] at h; simp at h
      | some forT0CD =>
        rw [ha] at h
        simp only [Option.some_bind, Option.some.injEq, Prod.mk.injEq] at h
        obtain ⟨h1, h2, -⟩ := h
        have hp := assignBalance_some ha
        refine ⟨⟨e, markFor now (processEthereumCoinDistributionForForT0 cfg ext u t now).2,
          ?_, ?_⟩, ?_⟩
        · rw [← h1, he]
        · rcases he' with he' | he'
          · exact Or.inl he'
          · exact Or.inr ⟨t, rfl, he'⟩
        · rw [← h2]
          simp only [stagedRecords.parties, hp]
    · rw [if_neg hc] at h
      simp only [Option.some.injEq, Prod.mk.injEq] at h
      obtain ⟨h1, h2, -⟩ := h
      exact ⟨⟨u.BalanceForT0Ethereum, none, h1.symm, Or.inl rfl⟩, by rw [h2]⟩

/-- The for-T-1 stage writes `BalanceForTMinus1Ethereum` and the for-T-1 mark, nothing else, and
leaves the parties of the records as they are. -/
theorem forTMinus1Stage_effect {cfg : config} {ext : Collaborators} {u : user} {now : Time}
    {t0 tm1 : Option referral} {st : stagedRecords} {u' : user} {st' : stagedRecords} {b : ℚ}
    (h : forTMinus1Stage cfg ext u now t0 tm1 st = some (u', st', b)) :
    (∃ e m, u' = { u with BalanceForTMinus1Ethereum := e,
                          ForTMinus1LastEthereumCoinDistributionProcessedAt := m } ∧
      (e = u.BalanceForTMinus1Ethereum ∨
        ∃ t, tm1 = some t ∧ e = u.BalanceForTMinus1Ethereum + ethICE cfg ext now
          ((ApplyPreStaking u.BalanceForTMinus1 t.PreStakingAllocation t.PreStakingBonus).1 -
            u.BalanceForTMinus1Ethereum))) ∧
    st'.parties = st.parties := by
  unfold forTMinus1Stage at h
  cases tm1 with
  | none =>
    simp only [Option.some.injEq, Prod.mk.injEq] at h
    obtain ⟨h1, h2, -⟩ := h
    exact ⟨⟨u.BalanceForTMinus1Ethereum, none, h1.symm, Or.inl rfl⟩, by rw [h2]⟩
  | some t =>
    simp only at h
    by_cases hc : (tMinus1ChainOk u t0 (some t) &&
        user.isEligibleForTMinus1ForEthereumDistribution cfg ext u now t.ID &&
        referral.isEligibleForSelfForEthereumDistribution cfg ext (some t) now
          u.ForTMinus1LastEthereumCoinDistributionProcessedAt) = true
    · rw [if_pos hc] at h
      obtain ⟨e, he, he'⟩ := processEthereumCoinDistributionForForTMinus1_user cfg ext u t now
      cases ha : assignBalance st.forTMinus1CD
          (processEthereumCoinDistributionForForTMinus1 cfg ext u t now).2 with
      | none => rw [ha] at h; simp at h
      | some forTMinus1CD =>
        rw [ha] at h
        simp only [Option.some_bind, Option.some.injEq, Prod.mk.injEq] at h
        obtain ⟨h1, h2, -⟩ := h
        have hp := assignBalance_some ha
        refine ⟨⟨e, markFor now (processEthereumCoinDistributionForForTMinus1 cfg ext u t now).2,
          ?_, ?_⟩, ?_⟩
        · rw [← h1, he]
        · rcases he' with he' | he'
          · exact Or.inl he'
          · exact Or.inr ⟨t, rfl, he'⟩
        · rw [← h2]
          simp only [stagedRecords.parties, hp]
    · rw [if_neg hc] at h
      simp only [Option.some.injEq, Prod.mk.injEq] at h
      obtain ⟨h1, h2, -⟩ := h
      exact ⟨⟨u.BalanceForTMinus1Ethereum, none, h1.symm, Or.inl rfl⟩, by rw [h2]⟩

/-- With the collector enabled, a call that completes ran the three stages in a row on the
user with its pending fields cleared. -/
theorem processEthereumCoinDistribution_open {cfg : config} {ext : Collaborators} {u : user}
    {now : Time} {t0 tm1 : Option referral} {r : distributionResult}
    (hg : isCoinDistributionCollectorEnabled cfg ext now = true)
    (h : processEthereumCoinDistribution cfg ext u now t0 tm1 = some r) :
    ∃ u1 st1 u2 st2 b2 u3 st3 b3,
      selfStage cfg ext (clearEthereumPending u) now t0 tm1
        (stageRecords cfg (clearEthereumPending u) now t0 tm1) = some (u1, st1) ∧
      forT0Stage cfg ext u1 now t0 tm1 st1 = some (u2, st2, b2) ∧
      forTMinus1Stage cfg ext u2 now t0 tm1 st2 = some (u3, st3, b3) ∧
      r = { u := u3, records := some st3.toList,
            balanceDistributedForT0 := b2, balanceDistributedForTMinus1 := b3 } := by
  unfold processEthereumCoinDistribution at h
  simp only [hg, Bool.not_true, Bool.false_eq_true, if_false] at h
  cases h1 : selfStage cfg ext (clearEthereumPending u) now t0 tm1
      (stageRecords cfg (clearEthereumPending u) now t0 tm1) with
  | none => rw [h1] at h; simp at h
  | some s1 =>
    rw [h1] at h
    simp only [Option.some_bind] at h
    cases h2 : forT0Stage cfg ext s1.1 now t0 tm1 s1.2 with
    | none => rw [h2] at h; simp at h
    | some s2 =>
      rw [h2] at h
      simp only [Option.some_bind] at h
      cases h3 : forTMinus1Stage cfg ext s2.1 now t0 tm1 s2.2.1 with
      | none => rw [h3] at h; simp at h
      | some s3 =>
        rw [h3] at h
        simp only [Option.some_bind, Option.some.injEq] at h
        exact ⟨s1.1, s1.2, s2.1, s2.2.1, s2.2.2, s3.1, s3.2.1, s3.2.2, rfl, h2, h3, h.symm⟩

/-- The records created by the staging step are chain safe. -/
theorem stageRecords_chainSafe (cfg : config) (u : user) (now : Time) (t0 tm1 : Option referral) :
    chainSafe u.UserID (tMinus1Coincides u t0 tm1) (stageRecords cfg u now t0 tm1).parties := by
  unfold chainSafe stagedRecords.parties stageRecords tMinus1Coincides
  cases t0 with
  | none =>
    cases tm1 with
    | none => simp [parties, pairChainOk, tMinus1ChainOk, referralRecord]
    | some m => simp [parties, pairChainOk, tMinus1ChainOk, referralRecord]
  | some t =>
    cases tm1 with
    | none =>
      simp only [pairChainOk, tMinus1ChainOk, referralRecord]
      by_cases hr : user.couldHaveBeenEligibleForEthereumDistributionRecently cfg u now = true
      · by_cases ht : referral.couldHaveBeenEligibleForEthereumDistributionRecently cfg
            (some t) now = true
        · by_cases hne : t.UserID = u.UserID
          · simp [parties, hr, ht, hne]
          · simp [parties, hr, ht, hne, @eq_comm _ u.UserID t.UserID]
        · simp [parties, hr, ht]
      · simp [parties, hr]
    | some m =>
      simp only [pairChainOk, tMinus1ChainOk, referralRecord]
      by_cases hr : user.couldHaveBeenEligibleForEthereumDistributionRecently cfg u now = true
      · by_cases hne : t.UserID = u.UserID <;> by_cases hm : m.UserID = u.UserID <;>
          by_cases hmt : m.UserID = t.UserID <;>
          by_cases ht : referral.couldHaveBeenEligibleForEthereumDistributionRecently cfg
            (some t) now = true <;>
          by_cases hmr : referral.couldHaveBeenEligibleForEthereumDistributionRecently cfg
            (some m) now = true <;>
          simp [parties, hr, ht, hmr, hne, hm, hmt, @eq_comm _ u.UserID t.UserID,
            @eq_comm _ u.UserID m.UserID, @eq_comm _ t.UserID m.UserID]
      · simp [parties, hr]

/-- Chain safety of the four record pointers, read on the returned slice: its head is the solo
record, its tail holds the referral records. -/
theorem chainSafe_toList {userID : String} {coincides : Prop} {st : stagedRecords}
    (h : chainSafe userID coincides st.parties) :
    (∀ record ∈ st.toList.head?, record.UserID = userID ∧ record.EarnerUserID = userID) ∧
    (∀ record ∈ st.toList.tail, record.UserID ≠ record.EarnerUserID) ∧
    (coincides → st.toList.tail = []) := by
  obtain ⟨soloCD, t0CD, forT0CD, forTMinus1CD⟩ := st
  obtain ⟨h1, h2, h3, h4, h5, h6⟩ := h
  simp only [stagedRecords.parties] at h1 h2 h3 h4 h5 h6
  cases soloCD with
  | none =>
    obtain ⟨e1, e2, e3⟩ := h2 rfl
    rw [Option.map_eq_none'] at e1 e2 e3
    subst e1 e2 e3
    simp [stagedRecords.toList]
  | some solo =>
    have hs := h1 _ rfl
    simp only [parties, Prod.mk.injEq] at hs
    have ht : ∀ record ∈ t0CD.toList ++ forT0CD.toList ++ forTMinus1CD.toList,
        record.UserID ≠ record.EarnerUserID := by
      intro record hm
      simp only [List.mem_append, Option.mem_toList, Option.mem_def] at hm
      rcases hm with (hm | hm) | hm
      · exact h3 _ (by rw [hm]; rfl)
      · exact h4 _ (by rw [hm]; rfl)
      · exact h5 _ (by rw [hm]; rfl)
    refine ⟨?_, ?_, ?_⟩
    · intro record hm
      simp only [stagedRecords.toList, Option.toList, List.singleton_append, List.cons_append,
        List.head?_cons, Option.mem_def, Option.some.injEq] at hm
      subst hm
      exact hs
    · intro record hm
      simp only [stagedRecords.toList, Option.toList, List.singleton_append, List.cons_append,
        List.nil_append, List.tail_cons] at hm
      exact ht record (by simpa [Option.toList] using hm)
    · intro hc
      obtain ⟨e1, e2, e3⟩ := h6 hc
      rw [Option.map_eq_none'] at e1 e2 e3
      subst e1 e2 e3
      simp [stagedRecords.toList]

/-- C7. Chain safety: in the slice returned by `processEthereumCoinDistribution` the first
record, if any, is the user's own solo record, every other record (the T0 pair and the
for-T-1 record) has `UserID ≠ EarnerUserID`, and there is no such other record when T-1's
`UserID` equals the user's or T0's. -/
theorem processEthereumCoinDistribution_chain_safety (cfg : config) (ext : Collaborators)
    (u : user) (now : Time) (t0 tm1 : Option referral) (r : distributionResult)
    (records : List ByEarnerForReview)
    (h : processEthereumCoinDistribution cfg ext u now t0 tm1 = some r)
    (hr : r.records = some records) :
    (∀ record ∈ records.head?, record.UserID = u.UserID ∧ record.EarnerUserID = u.UserID) ∧
    (∀ record ∈ records.tail, record.UserID ≠ record.EarnerUserID) ∧
    (tMinus1Coincides u t0 tm1 → records.tail = []) := by
  by_cases hg : isCoinDistributionCollectorEnabled cfg ext now = true
  · obtain ⟨u1, st1, u2, st2, b2, u3, st3, b3, h1, h2, h3, hres⟩ :=
      processEthereumCoinDistribution_open hg h
    subst hres
    simp only [Option.some.injEq] at hr
    subst hr
    have hp : st3.parties = (stageRecords cfg (clearEthereumPending u) now t0 tm1).parties := by
      rw [(forTMinus1Stage_effect h3).2, (forT0Stage_effect h2).2, (selfStage_effect h1).2]
    have hsafe := stageRecords_chainSafe cfg (clearEthereumPending u) now t0 tm1
    rw [← hp] at hsafe
    exact chainSafe_toList hsafe
  · rw [closedGate_result cfg ext u now t0 tm1 (by simpa using hg)] at h
    simp only [Option.some.injEq] at h
    subst h
    simp at hr

unseal Rat.add Rat.mul Rat.inv Rat.sub in
theorem processEthereumCoinDistribution_chain_safety_witness :
    processEthereumCoinDistribution sampleConfig openCollaborators earningUser sampleNow
        (some sampleT0) (some sampleTMinus1) =
      some { u := earningUserDistributed, records := some earningUserRecords,
             balanceDistributedForT0 := 4, balanceDistributedForTMinus1 := 1 } ∧
    ((∀ record ∈ earningUserRecords.head?,
        record.UserID = earningUser.UserID ∧ record.EarnerUserID = earningUser.UserID) ∧
      (∀ record ∈ earningUserRecords.tail, record.UserID ≠ record.EarnerUserID) ∧
      (tMinus1Coincides earningUser (some sampleT0) (some sampleTMinus1) →
        earningUserRecords.tail = [])) :=
  ⟨by decide,
   processEthereumCoinDistribution_chain_safety sampleConfig openCollaborators earningUser
     sampleNow (some sampleT0) (some sampleTMinus1)
     { u := earningUserDistributed, records := some earningUserRecords,
       balanceDistributedForT0 := 4, balanceDistributedForTMinus1 := 1 }
     earningUserRecords (by decide) rfl⟩

/-! ### Distribution upper bound -/

theorem absorbPending_sum (b : ℚ) (p : Option ℚ) :
    (absorbPending b p).1 + (absorbPending b p).2.getD 0 = b + p.getD 0 := by
  cases p <;> simp [absorbPending]

/-! ## Fields after each step of the full path

One equation per step and per field read by the claims below: the six balances, the six slashing
rates, the two active-referral counts and the two session instants. -/

@[simp] theorem addSolo_BalanceSolo (u : user) (x : ℚ) :
    (addSolo u x).BalanceSolo = u.BalanceSolo + x := rfl

@[simp] theorem addSolo_BalanceT0 (u : user) (x : ℚ) :
    (addSolo u x).BalanceT0 = u.BalanceT0 := rfl

@[simp] theorem addSolo_BalanceT1 (u : user) (x : ℚ) :
    (addSolo u x).BalanceT1 = u.BalanceT1 := rfl

@[simp] theorem addSolo_BalanceT2 (u : user) (x : ℚ) :
    (addSolo u x).BalanceT2 = u.BalanceT2 := rfl

@[simp] theorem addSolo_BalanceForT0 (u : user) (x : ℚ) :
    (addSolo u x).BalanceForT0 = u.BalanceForT0 := rfl

@[simp] theorem addSolo_BalanceForTMinus1 (u : user) (x : ℚ) :
    (addSolo u x).BalanceForTMinus1 = u.BalanceForTMinus1 := rfl

@[simp] theorem addSolo_SlashingRateSolo (u : user) (x : ℚ) :
    (addSolo u x).SlashingRateSolo = u.SlashingRateSolo := rfl

@[simp] theorem addSolo_SlashingRateT0 (u : user) (x : ℚ) :
    (addSolo u x).SlashingRateT0 = u.SlashingRateT0 := rfl

@[simp] theorem addSolo_SlashingRateT1 (u : user) (x : ℚ) :
    (addSolo u x).SlashingRateT1 = u.SlashingRateT1 := rfl

@[simp] theorem addSolo_SlashingRateT2 (u : user) (x : ℚ) :
    (addSolo u x).SlashingRateT2 = u.SlashingRateT2 := rfl

@[simp] theorem addSolo_SlashingRateForT0 (u : user) (x : ℚ) :
    (addSolo u x).SlashingRateForT0 = u.SlashingRateForT0 := rfl

@[simp] theorem addSolo_SlashingRateForTMinus1 (u : user) (x : ℚ) :
    (addSolo u x).SlashingRateForTMinus1 = u.SlashingRateForTMinus1 := rfl

@[simp] theorem addSolo_ActiveT1Referrals (u : user) (x : ℚ) :
    (addSolo u x).ActiveT1Referrals = u.ActiveT1Referrals := rfl

@[simp] theorem addSolo_ActiveT2Referrals (u : user) (x : ℚ) :
    (addSolo u x).ActiveT2Referrals = u.ActiveT2Referrals := rfl

@[simp] theorem addSolo_MiningSessionSoloStartedAt (u : user) (x : ℚ) :
    (addSolo u x).MiningSessionSoloStartedAt = u.MiningSessionSoloStartedAt := rfl

@[simp] theorem addSolo_MiningSessionSoloEndedAt (u : user) (x : ℚ) :
    (addSolo u x).MiningSessionSoloEndedAt = u.MiningSessionSoloEndedAt := rfl

@[simp] theorem addT0_BalanceSolo (u : user) (x : ℚ) :
    (addT0 u x).BalanceSolo = u.BalanceSolo := rfl

@[simp] theorem addT0_BalanceT0 (u : user) (x : ℚ) :
    (addT0 u x).BalanceT0 = u.BalanceT0 + x := rfl

@[simp] theorem addT0_BalanceT1 (u : user) (x : ℚ) :
    (addT0 u x).BalanceT1 = u.BalanceT1 := rfl

@[simp] theorem addT0_BalanceT2 (u : user) (x : ℚ) :
    (addT0 u x).BalanceT2 = u.BalanceT2 := rfl

@[simp] theorem addT0_BalanceForT0 (u : user) (x : ℚ) :
    (addT0 u x).BalanceForT0 = u.BalanceForT0 + x := rfl

@[simp] theorem addT0_BalanceForTMinus1 (u : user) (x : ℚ) :
    (addT0 u x).BalanceForTMinus1 = u.BalanceForTMinus1 := rfl

@[simp] theorem addT0_SlashingRateSolo (u : user) (x : ℚ) :
    (addT0 u x).SlashingRateSolo = u.SlashingRateSolo := rfl

@[simp] theorem addT0_SlashingRateT0 (u : user) (x : ℚ) :
    (addT0 u x).SlashingRateT0 = u.SlashingRateT0 := rfl

@[simp] theorem addT0_SlashingRateT1 (u : user) (x : ℚ) :
    (addT0 u x).SlashingRateT1 = u.SlashingRateT1 := rfl

@[simp] theorem addT0_SlashingRateT2 (u : user) (x : ℚ) :
    (addT0 u x).SlashingRateT2 = u.SlashingRateT2 := rfl

@[simp] theorem addT0_SlashingRateForT0 (u : user) (x : ℚ) :
    (addT0 u x).SlashingRateForT0 = u.SlashingRateForT0 := rfl

@[simp] theorem addT0_SlashingRateForTMinus1 (u : user) (x : ℚ) :
    (addT0 u x).SlashingRateForTMinus1 = u.SlashingRateForTMinus1 := rfl

@[simp] theorem addT0_ActiveT1Referrals (u : user) (x : ℚ) :
    (addT0 u x).ActiveT1Referrals = u.ActiveT1Referrals := rfl

@[simp] theorem addT0_ActiveT2Referrals (u : user) (x : ℚ) :
    (addT0 u x).ActiveT2Referrals = u.ActiveT2Referrals := rfl

@[simp] theorem addT0_MiningSessionSoloStartedAt (u : user) (x : ℚ) :
    (addT0 u x).MiningSessionSoloStartedAt = u.MiningSessionSoloStartedAt := rfl

@[simp] theorem addT0_MiningSessionSoloEndedAt (u : user) (x : ℚ) :
    (addT0 u x).MiningSessionSoloEndedAt = u.MiningSessionSoloEndedAt := rfl

@[simp] theorem addForTMinus1_BalanceSolo (u : user) (x : ℚ) :
    (addForTMinus1 u x).BalanceSolo = u.BalanceSolo := rfl

@[simp] theorem addForTMinus1_BalanceT0 (u : user) (x : ℚ) :
    (addForTMinus1 u x).BalanceT0 = u.BalanceT0 := rfl

@[simp] theorem addForTMinus1_BalanceT1 (u : user) (x : ℚ) :
    (addForTMinus1 u x).BalanceT1 = u.BalanceT1 := rfl

@[simp] theorem addForTMinus1_BalanceT2 (u : user) (x : ℚ) :
    (addForTMinus1 u x).BalanceT2 = u.BalanceT2 := rfl

@[simp] theorem addForTMinus1_BalanceForT0 (u : user) (x : ℚ) :
    (addForTMinus1 u x).BalanceForT0 = u.BalanceForT0 := rfl

@[simp] theorem addForTMinus1_BalanceForTMinus1 (u : user) (x : ℚ) :
    (addForTMinus1 u x).BalanceForTMinus1 = u.BalanceForTMinus1 + x := rfl

@[simp] theorem addForTMinus1_SlashingRateSolo (u : user) (x : ℚ) :
    (addForTMinus1 u x).SlashingRateSolo = u.SlashingRateSolo := rfl

@[simp] theorem addForTMinus1_SlashingRateT0 (u : user) (x : ℚ) :
    (addForTMinus1 u x).SlashingRateT0 = u.SlashingRateT0 := rfl

@[simp] theorem addForTMinus1_SlashingRateT1 (u : user) (x : ℚ) :
    (addForTMinus1 u x).SlashingRateT1 = u.SlashingRateT1 := rfl

@[simp] theorem addForTMinus1_SlashingRateT2 (u : user) (x : ℚ) :
    (addForTMinus1 u x).SlashingRateT2 = u.SlashingRateT2 := rfl

@[simp] theorem addForTMinus1_SlashingRateForT0 (u : user) (x : ℚ) :
    (addForTMinus1 u x).SlashingRateForT0 = u.SlashingRateForT0 := rfl

@[simp] theorem addForTMinus1_SlashingRateForTMinus1 (u : user) (x : ℚ) :
    (addForTMinus1 u x).SlashingRateForTMinus1 = u.SlashingRateForTMinus1 := rfl

@[simp] theorem addForTMinus1_ActiveT1Referrals (u : user) (x : ℚ) :
    (addForTMinus1 u x).ActiveT1Referrals = u.ActiveT1Referrals := rfl

@[simp] theorem addForTMinus1_ActiveT2Referrals (u : user) (x : ℚ) :
    (addForTMinus1 u x).ActiveT2Referrals = u.ActiveT2Referrals := rfl

@[simp] theorem addForTMinus1_MiningSessionSoloStartedAt (u : user) (x : ℚ) :
    (addForTMinus1 u x).MiningSessionSoloStartedAt = u.MiningSessionSoloStartedAt := rfl

@[simp] theorem addForTMinus1_MiningSessionSoloEndedAt (u : user) (x : ℚ) :
    (addForTMinus1 u x).MiningSessionSoloEndedAt = u.MiningSessionSoloEndedAt := rfl

@[simp] theorem addTeam_BalanceSolo (u : user) (x y : ℚ) :
    (addTeam u x y).BalanceSolo = u.BalanceSolo := rfl

@[simp] theorem addTeam_BalanceT0 (u : user) (x y : ℚ) :
    (addTeam u x y).BalanceT0 = u.BalanceT0 := rfl

@[simp] theorem addTeam_BalanceT1 (u : user) (x y : ℚ) :
    (addTeam u x y).BalanceT1 = u.BalanceT1 + x := rfl

@[simp] theorem addTeam_BalanceT2 (u : user) (x y : ℚ) :
    (addTeam u x y).BalanceT2 = u.BalanceT2 + y := rfl

@[simp] theorem addTeam_BalanceForT0 (u : user) (x y : ℚ) :
    (addTeam u x y).BalanceForT0 = u.BalanceForT0 := rfl

@[simp] theorem addTeam_BalanceForTMinus1 (u : user) (x y : ℚ) :
    (addTeam u x y).BalanceForTMinus1 = u.BalanceForTMinus1 := rfl

@[simp] theorem addTeam_SlashingRateSolo (u : user) (x y : ℚ) :
    (addTeam u x y).SlashingRateSolo = u.SlashingRateSolo := rfl

@[simp] theorem addTeam_SlashingRateT0 (u : user) (x y : ℚ) :
    (addTeam u x y).SlashingRateT0 = u.SlashingRateT0 := rfl

@[simp] theorem addTeam_SlashingRateT1 (u : user) (x y : ℚ) :
    (addTeam u x y).SlashingRateT1 = u.SlashingRateT1 := rfl

@[simp] theorem addTeam_SlashingRateT2 (u : user) (x y : ℚ) :
    (addTeam u x y).SlashingRateT2 = u.SlashingRateT2 := rfl

@[simp] theorem addTeam_SlashingRateForT0 (u : user) (x y : ℚ) :
    (addTeam u x y).SlashingRateForT0 = u.SlashingRateForT0 := rfl

@[simp] theorem addTeam_SlashingRateForTMinus1 (u : user) (x y : ℚ) :
    (addTeam u x y).SlashingRateForTMinus1 = u.SlashingRateForTMinus1 := rfl

@[simp] theorem addTeam_ActiveT1Referrals (u : user) (x y : ℚ) :
    (addTeam u x y).ActiveT1Referrals = u.ActiveT1Referrals := rfl

@[simp] theorem addTeam_ActiveT2Referrals (u : user) (x y : ℚ) :
    (addTeam u x y).ActiveT2Referrals = u.ActiveT2Referrals := rfl

@[simp] theorem addTeam_MiningSessionSoloStartedAt (u : user) (x y : ℚ) :
    (addTeam u x y).MiningSessionSoloStartedAt = u.MiningSessionSoloStartedAt := rfl

@[simp] theorem addTeam_MiningSessionSoloEndedAt (u : user) (x y : ℚ) :
    (addTeam u x y).MiningSessionSoloEndedAt = u.MiningSessionSoloEndedAt := rfl

@[simp] theorem clampT1Referrals_BalanceSolo (u : user) :
    (clampT1Referrals u).BalanceSolo = u.BalanceSolo := by
  unfold clampT1Referrals; split_ifs <;> rfl

@[simp] theorem clampT1Referrals_BalanceT0 (u : user) :
    (clampT1Referrals u).BalanceT0 = u.BalanceT0 := by
  unfold clampT1Referrals; split_ifs <;> rfl

@[simp] theorem clampT1Referrals_BalanceT1 (u : user) :
    (clampT1Referrals u).BalanceT1 = u.BalanceT1 := by
  unfold clampT1Referrals; split_ifs <;> rfl

@[simp] theorem clampT1Referrals_BalanceT2 (u : user) :
    (clampT1Referrals u).BalanceT2 = u.BalanceT2 := by
  unfold clampT1Referrals; split_ifs <;> rfl

@[simp] theorem clampT1Referrals_BalanceForT0 (u : user) :
    (clampT1Referrals u).BalanceForT0 = u.BalanceForT0 := by
  unfold clampT1Referrals; split_ifs <;> rfl

@[simp] theorem clampT1Referrals_BalanceForTMinus1 (u : user) :
    (clampT1Referrals u).BalanceForTMinus1 = u.BalanceForTMinus1 := by
  unfold clampT1Referrals; split_ifs <;> rfl

@[simp] theorem clampT1Referrals_SlashingRateSolo (u : user) :
    (clampT1Referrals u).SlashingRateSolo = u.SlashingRateSolo := by
  unfold clampT1Referrals; split_ifs <;> rfl

@[simp] theorem clampT1Referrals_SlashingRateT0 (u : user) :
    (clampT1Referrals u).SlashingRateT0 = u.SlashingRateT0 := by
  unfold clampT1Referrals; split_ifs <;> rfl

@[simp] theorem clampT1Referrals_SlashingRateT1 (u : user) :
    (clampT1Referrals u).SlashingRateT1 = u.SlashingRateT1 := by
  unfold clampT1Referrals; split_ifs <;> rfl

@[simp] theorem clampT1Referrals_SlashingRateT2 (u : user) :
    (clampT1Referrals u).SlashingRateT2 = u.SlashingRateT2 := by
  unfold clampT1Referrals; split_ifs <;> rfl

@[simp] theorem clampT1Referrals_SlashingRateForT0 (u : user) :
    (clampT1Referrals u).SlashingRateForT0 = u.SlashingRateForT0 := by
  unfold clampT1Referrals; split_ifs <;> rfl

@[simp] theorem clampT1Referrals_SlashingRateForTMinus1 (u : user) :
    (clampT1Referrals u).SlashingRateForTMinus1 = u.SlashingRateForTMinus1 := by
  unfold clampT1Referrals; split_ifs <;> rfl

@[simp] theorem clampT1Referrals_ActiveT1Referrals (u : user) :
    (clampT1Referrals u).ActiveT1Referrals = (if u.ActiveT1Referrals < 0 then 0 else u.ActiveT1Referrals) := by
  unfold clampT1Referrals; split_ifs <;> rfl

@[simp] theorem clampT1Referrals_ActiveT2Referrals (u : user) :
    (clampT1Referrals u).ActiveT2Referrals = u.ActiveT2Referrals := by
  unfold clampT1Referrals; split_ifs <;> rfl

@[simp] theorem clampT1Referrals_MiningSessionSoloStartedAt (u : user) :
    (clampT1Referrals u).MiningSessionSoloStartedAt = u.MiningSessionSoloStartedAt := by
  unfold clampT1Referrals; split_ifs <;> rfl

@[simp] theorem clampT1Referrals_MiningSessionSoloEndedAt (u : user) :
    (clampT1Referrals u).MiningSessionSoloEndedAt = u.MiningSessionSoloEndedAt := by
  unfold clampT1Referrals; split_ifs <;> rfl

@[simp] theorem clampT2Referrals_BalanceSolo (u : user) :
    (clampT2Referrals u).BalanceSolo = u.BalanceSolo := by
  unfold clampT2Referrals; split_ifs <;> rfl

@[simp] theorem clampT2Referrals_BalanceT0 (u : user) :
    (clampT2Referrals u).BalanceT0 = u.BalanceT0 := by
  unfold clampT2Referrals; split_ifs <;> rfl

@[simp] theorem clampT2Referrals_BalanceT1 (u : user) :
    (clampT2Referrals u).BalanceT1 = u.BalanceT1 := by
  unfold clampT2Referrals; split_ifs <;> rfl

@[simp] theorem clampT2Referrals_BalanceT2 (u : user) :
    (clampT2Referrals u).BalanceT2 = u.BalanceT2 := by
  unfold clampT2Referrals; split_ifs <;> rfl

@[simp] theorem clampT2Referrals_BalanceForT0 (u : user) :
    (clampT2Referrals u).BalanceForT0 = u.BalanceForT0 := by
  unfold clampT2Referrals; split_ifs <;> rfl

@[simp] theorem clampT2Referrals_BalanceForTMinus1 (u : user) :
    (clampT2Referrals u).BalanceForTMinus1 = u.BalanceForTMinus1 := by
  unfold clampT2Referrals; split_ifs <;> rfl

@[simp] theorem clampT2Referrals_SlashingRateSolo (u : user) :
    (clampT2Referrals u).SlashingRateSolo = u.SlashingRateSolo := by
  unfold clampT2Referrals; split_ifs <;> rfl

@[simp] theorem clampT2Referrals_SlashingRateT0 (u : user) :
    (clampT2Referrals u).SlashingRateT0 = u.SlashingRateT0 := by
  unfold clampT2Referrals; split_ifs <;> rfl

@[simp] theorem clampT2Referrals_SlashingRateT1 (u : user) :
    (clampT2Referrals u).SlashingRateT1 = u.SlashingRateT1 := by
  unfold clampT2Referrals; split_ifs <;> rfl

@[simp] theorem clampT2Referrals_SlashingRateT2 (u : user) :
    (clampT2Referrals u).SlashingRateT2 = u.SlashingRateT2 := by
  unfold clampT2Referrals; split_ifs <;> rfl

@[simp] theorem clampT2Referrals_SlashingRateForT0 (u : user) :
    (clampT2Referrals u).SlashingRateForT0 = u.SlashingRateForT0 := by
  unfold clampT2Referrals; split_ifs <;> rfl

@[simp] theorem clampT2Referrals_SlashingRateForTMinus1 (u : user) :
    (clampT2Referrals u).SlashingRateForTMinus1 = u.SlashingRateForTMinus1 := by
  unfold clampT2Referrals; split_ifs <;> rfl

@[simp] theorem clampT2Referrals_ActiveT1Referrals (u : user) :
    (clampT2Referrals u).ActiveT1Referrals = u.ActiveT1Referrals := by
  unfold clampT2Referrals; split_ifs <;> rfl

@[simp] theorem clampT2Referrals_ActiveT2Referrals (u : user) :
    (clampT2Referrals u).ActiveT2Referrals = (if u.ActiveT2Referrals < 0 then 0 else u.ActiveT2Referrals) := by
  unfold clampT2Referrals; split_ifs <;> rfl

@[simp] theorem clampT2Referrals_MiningSessionSoloStartedAt (u : user) :
    (clampT2Referrals u).MiningSessionSoloStartedAt = u.MiningSessionSoloStartedAt := by
  unfold clampT2Referrals; split_ifs <;> rfl

@[simp] theorem clampT2Referrals_MiningSessionSoloEndedAt (u : user) :
    (clampT2Referrals u).MiningSessionSoloEndedAt = u.MiningSessionSoloEndedAt := by
  unfold clampT2Referrals; split_ifs <;> rfl

@[simp] theorem armSolo_BalanceSolo (u : user) :
    (armSolo u).BalanceSolo = u.BalanceSolo := by
  unfold armSolo; split_ifs <;> rfl

@[simp] theorem armSolo_BalanceT0 (u : user) :
    (armSolo u).BalanceT0 = u.BalanceT0 := by
  unfold armSolo; split_ifs <;> rfl

@[simp] theorem armSolo_BalanceT1 (u : user) :
    (armSolo u).BalanceT1 = u.BalanceT1 := by
  unfold armSolo; split_ifs <;> rfl

@[simp] theorem armSolo_BalanceT2 (u : user) :
    (armSolo u).BalanceT2 = u.BalanceT2 := by
  unfold armSolo; split_ifs <;> rfl

@[simp] theorem armSolo_BalanceForT0 (u : user) :
    (armSolo u).BalanceForT0 = u.BalanceForT0 := by
  unfold armSolo; split_ifs <;> rfl

@[simp] theorem armSolo_BalanceForTMinus1 (u : user) :
    (armSolo u).BalanceForTMinus1 = u.BalanceForTMinus1 := by
  unfold armSolo; split_ifs <;> rfl

@[simp] theorem armSolo_SlashingRateSolo (u : user) :
    (armSolo u).SlashingRateSolo = (if u.SlashingRateSolo = 0 then u.BalanceSolo / 60 / 24 else u.SlashingRateSolo) := by
  unfold armSolo; split_ifs <;> rfl

@[simp] theorem armSolo_SlashingRateT0 (u : user) :
    (armSolo u).SlashingRateT0 = u.SlashingRateT0 := by
  unfold armSolo; split_ifs <;> rfl

@[simp] theorem armSolo_SlashingRateT1 (u : user) :
    (armSolo u).SlashingRateT1 = u.SlashingRateT1 := by
  unfold armSolo; split_ifs <;> rfl

@[simp] theorem armSolo_SlashingRateT2 (u : user) :
    (armSolo u).SlashingRateT2 = u.SlashingRateT2 := by
  unfold armSolo; split_ifs <;> rfl

@[simp] theorem armSolo_SlashingRateForT0 (u : user) :
    (armSolo u).SlashingRateForT0 = u.SlashingRateForT0 := by
  unfold armSolo; split_ifs <;> rfl

@[simp] theorem armSolo_SlashingRateForTMinus1 (u : user) :
    (armSolo u).SlashingRateForTMinus1 = u.SlashingRateForTMinus1 := by
  unfold armSolo; split_ifs <;> rfl

@[simp] theorem armSolo_ActiveT1Referrals (u : user) :
    (armSolo u).ActiveT1Referrals = u.ActiveT1Referrals := by
  unfold armSolo; split_ifs <;> rfl

@[simp] theorem armSolo_ActiveT2Referrals (u : user) :
    (armSolo u).ActiveT2Referrals = u.ActiveT2Referrals := by
  unfold armSolo; split_ifs <;> rfl

@[simp] theorem armSolo_MiningSessionSoloStartedAt (u : user) :
    (armSolo u).MiningSessionSoloStartedAt = u.MiningSessionSoloStartedAt := by
  unfold armSolo; split_ifs <;> rfl

@[simp] theorem armSolo_MiningSessionSoloEndedAt (u : user) :
    (armSolo u).MiningSessionSoloEndedAt = u.MiningSessionSoloEndedAt := by
  unfold armSolo; split_ifs <;> rfl

@[simp] theorem armT0_BalanceSolo (u : user) :
    (armT0 u).BalanceSolo = u.BalanceSolo := by
  unfold armT0; split_ifs <;> rfl

@[simp] theorem armT0_BalanceT0 (u : user) :
    (armT0 u).BalanceT0 = u.BalanceT0 := by
  unfold armT0; split_ifs <;> rfl

@[simp] theorem armT0_BalanceT1 (u : user) :
    (armT0 u).BalanceT1 = u.BalanceT1 := by
  unfold armT0; split_ifs <;> rfl

@[simp] theorem armT0_BalanceT2 (u : user) :
    (armT0 u).BalanceT2 = u.BalanceT2 := by
  unfold armT0; split_ifs <;> rfl

@[simp] theorem armT0_BalanceForT0 (u : user) :
    (armT0 u).BalanceForT0 = u.BalanceForT0 := by
  unfold armT0; split_ifs <;> rfl

@[simp] theorem armT0_BalanceForTMinus1 (u : user) :
    (armT0 u).BalanceForTMinus1 = u.BalanceForTMinus1 := by
  unfold armT0; split_ifs <;> rfl

@[simp] theorem armT0_SlashingRateSolo (u : user) :
    (armT0 u).SlashingRateSolo = u.SlashingRateSolo := by
  unfold armT0; split_ifs <;> rfl

@[simp] theorem armT0_SlashingRateT0 (u : user) :
    (armT0 u).SlashingRateT0 = (if u.SlashingRateT0 = 0 then u.BalanceT0 / 60 / 24 else u.SlashingRateT0) := by
  unfold armT0; split_ifs <;> rfl

@[simp] theorem armT0_SlashingRateT1 (u : user) :
    (armT0 u).SlashingRateT1 = u.SlashingRateT1 := by
  unfold armT0; split_ifs <;> rfl

@[simp] theorem armT0_SlashingRateT2 (u : user) :
    (armT0 u).SlashingRateT2 = u.SlashingRateT2 := by
  unfold armT0; split_ifs <;> rfl

@[simp] theorem armT0_SlashingRateForT0 (u : user) :
    (armT0 u).SlashingRateForT0 = u.SlashingRateForT0 := by
  unfold armT0; split_ifs <;> rfl

@[simp] theorem armT0_SlashingRateForTMinus1 (u : user) :
    (armT0 u).SlashingRateForTMinus1 = u.SlashingRateForTMinus1 := by
  unfold armT0; split_ifs <;> rfl

@[simp] theorem armT0_ActiveT1Referrals (u : user) :
    (armT0 u).ActiveT1Referrals = u.ActiveT1Referrals := by
  unfold armT0; split_ifs <;> rfl

@[simp] theorem armT0_ActiveT2Referrals (u : user) :
    (armT0 u).ActiveT2Referrals = u.ActiveT2Referrals := by
  unfold armT0; split_ifs <;> rfl

@[simp] theorem armT0_MiningSessionSoloStartedAt (u : user) :
    (armT0 u).MiningSessionSoloStartedAt = u.MiningSessionSoloStartedAt := by
  unfold armT0; split_ifs <;> rfl

@[simp] theorem armT0_MiningSessionSoloEndedAt (u : user) :
    (armT0 u).MiningSessionSoloEndedAt = u.MiningSessionSoloEndedAt := by
  unfold armT0; split_ifs <;> rfl

@[simp] theorem armT1_BalanceSolo (u : user) :
    (armT1 u).BalanceSolo = u.BalanceSolo := by
  unfold armT1; split_ifs <;> rfl

@[simp] theorem armT1_BalanceT0 (u : user) :
    (armT1 u).BalanceT0 = u.BalanceT0 := by
  unfold armT1; split_ifs <;> rfl

@[simp] theorem armT1_BalanceT1 (u : user) :
    (armT1 u).BalanceT1 = u.BalanceT1 := by
  unfold armT1; split_ifs <;> rfl

@[simp] theorem armT1_BalanceT2 (u : user) :
    (armT1 u).BalanceT2 = u.BalanceT2 := by
  unfold armT1; split_ifs <;> rfl

@[simp] theorem armT1_BalanceForT0 (u : user) :
    (armT1 u).BalanceForT0 = u.BalanceForT0 := by
  unfold armT1; split_ifs <;> rfl

@[simp] theorem armT1_BalanceForTMinus1 (u : user) :
    (armT1 u).BalanceForTMinus1 = u.BalanceForTMinus1 := by
  unfold armT1; split_ifs <;> rfl

@[simp] theorem armT1_SlashingRateSolo (u : user) :
    (armT1 u).SlashingRateSolo = u.SlashingRateSolo := by
  unfold armT1; split_ifs <;> rfl

@[simp] theorem armT1_SlashingRateT0 (u : user) :
    (armT1 u).SlashingRateT0 = u.SlashingRateT0 := by
  unfold armT1; split_ifs <;> rfl

@[simp] theorem armT1_SlashingRateT1 (u : user) :
    (armT1 u).SlashingRateT1 = (if u.SlashingRateT1 = 0 then u.BalanceT1 / 60 / 24 else u.SlashingRateT1) := by
  unfold armT1; split_ifs <;> rfl

@[simp] theorem armT1_SlashingRateT2 (u : user) :
    (armT1 u).SlashingRateT2 = u.SlashingRateT2 := by
  unfold armT1; split_ifs <;> rfl

@[simp] theorem armT1_SlashingRateForT0 (u : user) :
    (armT1 u).SlashingRateForT0 = u.SlashingRateForT0 := by
  unfold armT1; split_ifs <;> rfl

@[simp] theorem armT1_SlashingRateForTMinus1 (u : user) :
    (armT1 u).SlashingRateForTMinus1 = u.SlashingRateForTMinus1 := by
  unfold armT1; split_ifs <;> rfl

@[simp] theorem armT1_ActiveT1Referrals (u : user) :
    (armT1 u).ActiveT1Referrals = u.ActiveT1Referrals := by
  unfold armT1; split_ifs <;> rfl

@[simp] theorem armT1_ActiveT2Referrals (u : user) :
    (armT1 u).ActiveT2Referrals = u.ActiveT2Referrals := by
  unfold armT1; split_ifs <;> rfl

@[simp] theorem armT1_MiningSessionSoloStartedAt (u : user) :
    (armT1 u).MiningSessionSoloStartedAt = u.MiningSessionSoloStartedAt := by
  unfold armT1; split_ifs <;> rfl

@[simp] theorem armT1_MiningSessionSoloEndedAt (u : user) :
    (armT1 u).MiningSessionSoloEndedAt = u.MiningSessionSoloEndedAt := by
  unfold armT1; split_ifs <;> rfl

@[simp] theorem armT2_BalanceSolo (u : user) :
    (armT2 u).BalanceSolo = u.BalanceSolo := by
  unfold armT2; split_ifs <;> rfl

@[simp] theorem armT2_BalanceT0 (u : user) :
    (armT2 u).BalanceT0 = u.BalanceT0 := by
  unfold armT2; split_ifs <;> rfl

@[simp] theorem armT2_BalanceT1 (u : user) :
    (armT2 u).BalanceT1 = u.BalanceT1 := by
  unfold armT2; split_ifs <;> rfl

@[simp] theorem armT2_BalanceT2 (u : user) :
    (armT2 u).BalanceT2 = u.BalanceT2 := by
  unfold armT2; split_ifs <;> rfl

@[simp] theorem armT2_BalanceForT0 (u : user) :
    (armT2 u).BalanceForT0 = u.BalanceForT0 := by
  unfold armT2; split_ifs <;> rfl

@[simp] theorem armT2_BalanceForTMinus1 (u : user) :
    (armT2 u).BalanceForTMinus1 = u.BalanceForTMinus1 := by
  unfold armT2; split_ifs <;> rfl

@[simp] theorem armT2_SlashingRateSolo (u : user) :
    (armT2 u).SlashingRateSolo = u.SlashingRateSolo := by
  unfold armT2; split_ifs <;> rfl

@[simp] theorem armT2_SlashingRateT0 (u : user) :
    (armT2 u).SlashingRateT0 = u.SlashingRateT0 := by
  unfold armT2; split_ifs <;> rfl

@[simp] theorem armT2_SlashingRateT1 (u : user) :
    (armT2 u).SlashingRateT1 = u.SlashingRateT1 := by
  unfold armT2; split_ifs <;> rfl

@[simp] theorem armT2_SlashingRateT2 (u : user) :
    (armT2 u).SlashingRateT2 = (if u.SlashingRateT2 = 0 then u.BalanceT2 / 60 / 24 else u.SlashingRateT2) := by
  unfold armT2; split_ifs <;> rfl

@[simp] theorem armT2_SlashingRateForT0 (u : user) :
    (armT2 u).SlashingRateForT0 = u.SlashingRateForT0 := by
  unfold armT2; split_ifs <;> rfl

@[simp] theorem armT2_SlashingRateForTMinus1 (u : user) :
    (armT2 u).SlashingRateForTMinus1 = u.SlashingRateForTMinus1 := by
  unfold armT2; split_ifs <;> rfl

@[simp] theorem armT2_ActiveT1Referrals (u : user) :
    (armT2 u).ActiveT1Referrals = u.ActiveT1Referrals := by
  unfold armT2; split_ifs <;> rfl

@[simp] theorem armT2_ActiveT2Referrals (u : user) :
    (armT2 u).ActiveT2Referrals = u.ActiveT2Referrals := by
  unfold armT2; split_ifs <;> rfl

@[simp] theorem armT2_MiningSessionSoloStartedAt (u : user) :
    (armT2 u).MiningSessionSoloStartedAt = u.MiningSessionSoloStartedAt := by
  unfold armT2; split_ifs <;> rfl

@[simp] theorem armT2_MiningSessionSoloEndedAt (u : user) :
    (armT2 u).MiningSessionSoloEndedAt = u.MiningSessionSoloEndedAt := by
  unfold armT2; split_ifs <;> rfl

@[simp] theorem armForT0_BalanceSolo (now : Time) (u : user) (t0 : Option referral) :
    (armForT0 now u t0).BalanceSolo = u.BalanceSolo := by
  unfold armForT0; split_ifs <;> rfl

@[simp] theorem armForT0_BalanceT0 (now : Time) (u : user) (t0 : Option referral) :
    (armForT0 now u t0).BalanceT0 = u.BalanceT0 := by
  unfold armForT0; split_ifs <;> rfl

@[simp] theorem armForT0_BalanceT1 (now : Time) (u : user) (t0 : Option referral) :
    (armForT0 now u t0).BalanceT1 = u.BalanceT1 := by
  unfold armForT0; split_ifs <;> rfl

@[simp] theorem armForT0_BalanceT2 (now : Time) (u : user) (t0 : Option referral) :
    (armForT0 now u t0).BalanceT2 = u.BalanceT2 := by
  unfold armForT0; split_ifs <;> rfl

@[simp] theorem armForT0_BalanceForT0 (now : Time) (u : user) (t0 : Option referral) :
    (armForT0 now u t0).BalanceForT0 = u.BalanceForT0 := by
  unfold armForT0; split_ifs <;> rfl

@[simp] theorem armForT0_BalanceForTMinus1 (now : Time) (u : user) (t0 : Option referral) :
    (armForT0 now u t0).BalanceForTMinus1 = u.BalanceForTMinus1 := by
  unfold armForT0; split_ifs <;> rfl

@[simp] theorem armForT0_SlashingRateSolo (now : Time) (u : user) (t0 : Option referral) :
    (armForT0 now u t0).SlashingRateSolo = u.SlashingRateSolo := by
  unfold armForT0; split_ifs <;> rfl

@[simp] theorem armForT0_SlashingRateT0 (now : Time) (u : user) (t0 : Option referral) :
    (armForT0 now u t0).SlashingRateT0 = u.SlashingRateT0 := by
  unfold armForT0; split_ifs <;> rfl

@[simp] theorem armForT0_SlashingRateT1 (now : Time) (u : user) (t0 : Option referral) :
    (armForT0 now u t0).SlashingRateT1 = u.SlashingRateT1 := by
  unfold armForT0; split_ifs <;> rfl

@[simp] theorem armForT0_SlashingRateT2 (now : Time) (u : user) (t0 : Option referral) :
    (armForT0 now u t0).SlashingRateT2 = u.SlashingRateT2 := by
  unfold armForT0; split_ifs <;> rfl

@[simp] theorem armForT0_SlashingRateForT0 (now : Time) (u : user) (t0 : Option referral) :
    (armForT0 now u t0).SlashingRateForT0 = (if (referral.endedBefore t0 now && decide (u.SlashingRateForT0 = 0)) = true then
        u.BalanceForT0 / 60 / 24 else u.SlashingRateForT0) := by
  unfold armForT0; split_ifs <;> rfl

@[simp] theorem armForT0_SlashingRateForTMinus1 (now : Time) (u : user) (t0 : Option referral) :
    (armForT0 now u t0).SlashingRateForTMinus1 = u.SlashingRateForTMinus1 := by
  unfold armForT0; split_ifs <;> rfl

@[simp] theorem armForT0_ActiveT1Referrals (now : Time) (u : user) (t0 : Option referral) :
    (armForT0 now u t0).ActiveT1Referrals = u.ActiveT1Referrals := by
  unfold armForT0; split_ifs <;> rfl

@[simp] theorem armForT0_ActiveT2Referrals (now : Time) (u : user) (t0 : Option referral) :
    (armForT0 now u t0).ActiveT2Referrals = u.ActiveT2Referrals := by
  unfold armForT0; split_ifs <;> rfl

@[simp] theorem armForT0_MiningSessionSoloStartedAt (now : Time) (u : user) (t0 : Option referral) :
    (armForT0 now u t0).MiningSessionSoloStartedAt = u.MiningSessionSoloStartedAt := by
  unfold armForT0; split_ifs <;> rfl

@[simp] theorem armForT0_MiningSessionSoloEndedAt (now : Time) (u : user) (t0 : Option referral) :
    (armForT0 now u t0).MiningSessionSoloEndedAt = u.MiningSessionSoloEndedAt := by
  unfold armForT0; split_ifs <;> rfl

@[simp] theorem armForTMinus1_BalanceSolo (now : Time) (u : user) (tm1 : Option referral) :
    (armForTMinus1 now u tm1).BalanceSolo = u.BalanceSolo := by
  unfold armForTMinus1; split_ifs <;> rfl

@[simp] theorem armForTMinus1_BalanceT0 (now : Time) (u : user) (tm1 : Option referral) :
    (armForTMinus1 now u tm1).BalanceT0 = u.BalanceT0 := by
  unfold armForTMinus1; split_ifs <;> rfl

@[simp] theorem armForTMinus1_BalanceT1 (now : Time) (u : user) (tm1 : Option referral) :
    (armForTMinus1 now u tm1).BalanceT1 = u.BalanceT1 := by
  unfold armForTMinus1; split_ifs <;> rfl

@[simp] theorem armForTMinus1_BalanceT2 (now : Time) (u : user) (tm1 : Option referral) :
    (armForTMinus1 now u tm1).BalanceT2 = u.BalanceT2 := by
  unfold armForTMinus1; split_ifs <;> rfl

@[simp] theorem armForTMinus1_BalanceForT0 (now : Time) (u : user) (tm1 : Option referral) :
    (armForTMinus1 now u tm1).BalanceForT0 = u.BalanceForT0 := by
  unfold armForTMinus1; split_ifs <;> rfl

@[simp] theorem armForTMinus1_BalanceForTMinus1 (now : Time) (u : user) (tm1 : Option referral) :
    (armForTMinus1 now u tm1).BalanceForTMinus1 = u.BalanceForTMinus1 := by
  unfold armForTMinus1; split_ifs <;> rfl

@[simp] theorem armForTMinus1_SlashingRateSolo (now : Time) (u : user) (tm1 : Option referral) :
    (armForTMinus1 now u tm1).SlashingRateSolo = u.SlashingRateSolo := by
  unfold armForTMinus1; split_ifs <;> rfl

@[simp] theorem armForTMinus1_SlashingRateT0 (now : Time) (u : user) (tm1 : Option referral) :
    (armForTMinus1 now u tm1).SlashingRateT0 = u.SlashingRateT0 := by
  unfold armForTMinus1; split_ifs <;> rfl

@[simp] theorem armForTMinus1_SlashingRateT1 (now : Time) (u : user) (tm1 : Option referral) :
    (armForTMinus1 now u tm1).SlashingRateT1 = u.SlashingRateT1 := by
  unfold armForTMinus1; split_ifs <;> rfl

@[simp] theorem armForTMinus1_SlashingRateT2 (now : Time) (u : user) (tm1 : Option referral) :
    (armForTMinus1 now u tm1).SlashingRateT2 = u.SlashingRateT2 := by
  unfold armForTMinus1; split_ifs <;> rfl

@[simp] theorem armForTMinus1_SlashingRateForT0 (now : Time) (u : user) (tm1 : Option referral) :
    (armForTMinus1 now u tm1).SlashingRateForT0 = u.SlashingRateForT0 := by
  unfold armForTMinus1; split_ifs <;> rfl

@[simp] theorem armForTMinus1_SlashingRateForTMinus1 (now : Time) (u : user) (tm1 : Option referral) :
    (armForTMinus1 now u tm1).SlashingRateForTMinus1 = (if (referral.endedBefore tm1 now && decide (u.SlashingRateForTMinus1 = 0)) = true then
        u.BalanceForTMinus1 / 60 / 24 else u.SlashingRateForTMinus1) := by
  unfold armForTMinus1; split_ifs <;> rfl

@[simp] theorem armForTMinus1_ActiveT1Referrals (now : Time) (u : user) (tm1 : Option referral) :
    (armForTMinus1 now u tm1).ActiveT1Referrals = u.ActiveT1Referrals := by
  unfold armForTMinus1; split_ifs <;> rfl

@[simp] theorem armForTMinus1_ActiveT2Referrals (now : Time) (u : user) (tm1 : Option referral) :
    (armForTMinus1 now u tm1).ActiveT2Referrals = u.ActiveT2Referrals := by
  unfold armForTMinus1; split_ifs <;> rfl

@[simp] theorem armForTMinus1_MiningSessionSoloStartedAt (now : Time) (u : user) (tm1 : Option referral) :
    (armForTMinus1 now u tm1).MiningSessionSoloStartedAt = u.MiningSessionSoloStartedAt := by
  unfold armForTMinus1; split_ifs <;> rfl

@[simp] theorem armForTMinus1_MiningSessionSoloEndedAt (now : Time) (u : user) (tm1 : Option referral) :
    (armForTMinus1 now u tm1).MiningSessionSoloEndedAt = u.MiningSessionSoloEndedAt := by
  unfold armForTMinus1; split_ifs <;> rfl

@[simp] theorem slash_BalanceSolo (hours : ℚ) (u : user) :
    (slash hours u).1.BalanceSolo = u.BalanceSolo - u.SlashingRateSolo * hours := rfl

@[simp] theorem slash_BalanceT0 (hours : ℚ) (u : user) :
    (slash hours u).1.BalanceT0 = u.BalanceT0 - u.SlashingRateT0 * hours := rfl

@[simp] theorem slash_BalanceT1 (hours : ℚ) (u : user) :
    (slash hours u).1.BalanceT1 = u.BalanceT1 - u.SlashingRateT1 * hours := rfl

@[simp] theorem slash_BalanceT2 (hours : ℚ) (u : user) :
    (slash hours u).1.BalanceT2 = u.BalanceT2 - u.SlashingRateT2 * hours := rfl

@[simp] theorem slash_BalanceForT0 (hours : ℚ) (u : user) :
    (slash hours u).1.BalanceForT0 = u.BalanceForT0 - u.SlashingRateForT0 * hours := rfl

@[simp] theorem slash_BalanceForTMinus1 (hours : ℚ) (u : user) :
    (slash hours u).1.BalanceForTMinus1 = u.BalanceForTMinus1 - u.SlashingRateForTMinus1 * hours := rfl

@[simp] theorem slash_SlashingRateSolo (hours : ℚ) (u : user) :
    (slash hours u).1.SlashingRateSolo = u.SlashingRateSolo := rfl

@[simp] theorem slash_SlashingRateT0 (hours : ℚ) (u : user) :
    (slash hours u).1.SlashingRateT0 = u.SlashingRateT0 := rfl

@[simp] theorem slash_SlashingRateT1 (hours : ℚ) (u : user) :
    (slash hours u).1.SlashingRateT1 = u.SlashingRateT1 := rfl

@[simp] theorem slash_SlashingRateT2 (hours : ℚ) (u : user) :
    (slash hours u).1.SlashingRateT2 = u.SlashingRateT2 := rfl

@[simp] theorem slash_SlashingRateForT0 (hours : ℚ) (u : user) :
    (slash hours u).1.SlashingRateForT0 = u.SlashingRateForT0 := rfl

@[simp] theorem slash_SlashingRateForTMinus1 (hours : ℚ) (u : user) :
    (slash hours u).1.SlashingRateForTMinus1 = u.SlashingRateForTMinus1 := rfl

@[simp] theorem slash_ActiveT1Referrals (hours : ℚ) (u : user) :
    (slash hours u).1.ActiveT1Referrals = u.ActiveT1Referrals := rfl

@[simp] theorem slash_ActiveT2Referrals (hours : ℚ) (u : user) :
    (slash hours u).1.ActiveT2Referrals = u.ActiveT2Referrals := rfl

@[simp] theorem slash_MiningSessionSoloStartedAt (hours : ℚ) (u : user) :
    (slash hours u).1.MiningSessionSoloStartedAt = u.MiningSessionSoloStartedAt := rfl

@[simp] theorem slash_MiningSessionSoloEndedAt (hours : ℚ) (u : user) :
    (slash hours u).1.MiningSessionSoloEndedAt = u.MiningSessionSoloEndedAt := rfl

/-! ## Fields after accrual -/

theorem accrue_fields (cfg : config) (rate : ℚ) (now : Time) (hours : ℚ) (w : user)
    (t0 tm1 : Option referral) :
    let a := (accrue cfg rate now hours w t0 tm1).1
    (a.BalanceSolo = w.BalanceSolo + soloAccrual cfg rate now hours w ∧
      a.BalanceT0 = w.BalanceT0 + t0Accrual rate now hours t0 ∧
      a.BalanceT1 = w.BalanceT1 +
        25 * (clampCount w.ActiveT1Referrals : ℚ) * rate * hours / 100 ∧
      a.BalanceT2 = w.BalanceT2 +
        5 * (clampCount w.ActiveT2Referrals : ℚ) * rate * hours / 100 ∧
      a.BalanceForT0 = w.BalanceForT0 + t0Accrual rate now hours t0 ∧
      a.BalanceForTMinus1 = w.BalanceForTMinus1 + tMinus1Accrual rate now hours tm1) ∧
    (a.SlashingRateSolo = w.SlashingRateSolo ∧ a.SlashingRateT0 = w.SlashingRateT0 ∧
      a.SlashingRateT1 = w.SlashingRateT1 ∧ a.SlashingRateT2 = w.SlashingRateT2 ∧
      a.SlashingRateForT0 = w.SlashingRateForT0 ∧
      a.SlashingRateForTMinus1 = w.SlashingRateForTMinus1) ∧
    (a.ActiveT1Referrals = clampCount w.ActiveT1Referrals ∧
      a.ActiveT2Referrals = clampCount w.ActiveT2Referrals) ∧
    (a.MiningSessionSoloStartedAt = w.MiningSessionSoloStartedAt ∧
      a.MiningSessionSoloEndedAt = w.MiningSessionSoloEndedAt) := by
  simp only [accrue, soloAccrual, t0Accrual, tMinus1Accrual, clampCount]
  by_cases h0 : referral.activeAt t0 now = true <;>
    by_cases h1 : referral.activeAt tm1 now = true <;>
    simp [h0, h1]

/-! ## Fields written by the full path -/

/-- The six balances, six slashing rates, two counts and the instants of the user the full path
returns, from the user `a` that lines 53-96 leave and the pending fields of the clone. -/
theorem mineFrom_fields (cfg : config) (rate : ℚ) (now : Time) (usr : user)
    (endedAt last : Time) (w : user) (hist : Option user) (t0 tm1 : Option referral) :
    let h := elapsedHours now last
    let a := (accrueOrArm cfg rate now endedAt h w t0 tm1).1
    let u' := (mineFrom cfg rate now usr endedAt last w hist t0 tm1).updatedUser
    (u'.BalanceSolo = clampZero (a.BalanceSolo - a.SlashingRateSolo * h +
        (w.BalanceSoloPending - w.BalanceSoloPendingApplied)) ∧
      u'.BalanceT0 = clampZero (a.BalanceT0 - a.SlashingRateT0 * h) ∧
      u'.BalanceT1 = clampZero (a.BalanceT1 - a.SlashingRateT1 * h +
        (w.BalanceT1Pending - w.BalanceT1PendingApplied)) ∧
      u'.BalanceT2 = clampZero (a.BalanceT2 - a.SlashingRateT2 * h +
        (w.BalanceT2Pending - w.BalanceT2PendingApplied)) ∧
      u'.BalanceForT0 = clampZero (a.BalanceForT0 -
        armedRate (referral.endedBefore t0 now) a.BalanceForT0 a.SlashingRateForT0 * h) ∧
      u'.BalanceForTMinus1 = clampZero (a.BalanceForTMinus1 -
        armedRate (referral.endedBefore tm1 now) a.BalanceForTMinus1
          a.SlashingRateForTMinus1 * h)) ∧
    (u'.SlashingRateSolo = a.SlashingRateSolo ∧ u'.SlashingRateT0 = a.SlashingRateT0 ∧
      u'.SlashingRateT1 = a.SlashingRateT1 ∧ u'.SlashingRateT2 = a.SlashingRateT2 ∧
      u'.SlashingRateForT0 =
        armedRate (referral.endedBefore t0 now) a.BalanceForT0 a.SlashingRateForT0 ∧
      u'.SlashingRateForTMinus1 =
        armedRate (referral.endedBefore tm1 now) a.BalanceForTMinus1 a.SlashingRateForTMinus1) ∧
    (u'.ActiveT1Referrals = a.ActiveT1Referrals ∧ u'.ActiveT2Referrals = a.ActiveT2Referrals) ∧
    (u'.MiningSessionSoloStartedAt = a.MiningSessionSoloStartedAt ∧
      u'.MiningSessionSoloEndedAt = a.MiningSessionSoloEndedAt ∧
      u'.BalanceLastUpdatedAt = some now) := by
  have fr :=
    beforeReconciliation_frame cfg rate now endedAt (Duration.Hours (Time.Sub now last)) w t0 tm1
  simp only [sameLedgerInputs, armForRates] at fr
  obtain ⟨f1, f2, f3, f4, f5, f6, -, -, -, -⟩ := fr
  simp only [mineFrom, elapsedHours, armedRate, f1, f2, f3, f4, f5, f6,
    armForRates, slash_BalanceSolo, slash_BalanceT0, slash_BalanceT1, slash_BalanceT2,
    slash_BalanceForT0, slash_BalanceForTMinus1, slash_SlashingRateSolo, slash_SlashingRateT0,
    slash_SlashingRateT1, slash_SlashingRateT2, slash_SlashingRateForT0,
    slash_SlashingRateForTMinus1, slash_ActiveT1Referrals, slash_ActiveT2Referrals,
    slash_MiningSessionSoloStartedAt, slash_MiningSessionSoloEndedAt,
    armForTMinus1_BalanceSolo, armForTMinus1_BalanceT0, armForTMinus1_BalanceT1,
    armForTMinus1_BalanceT2, armForTMinus1_BalanceForT0, armForTMinus1_BalanceForTMinus1,
    armForTMinus1_SlashingRateSolo, armForTMinus1_SlashingRateT0, armForTMinus1_SlashingRateT1,
    armForTMinus1_SlashingRateT2, armForTMinus1_SlashingRateForT0,
    armForTMinus1_SlashingRateForTMinus1, armForTMinus1_ActiveT1Referrals,
    armForTMinus1_ActiveT2Referrals, armForTMinus1_MiningSessionSoloStartedAt,
    armForTMinus1_MiningSessionSoloEndedAt,
    armForT0_BalanceSolo, armForT0_BalanceT0, armForT0_BalanceT1, armForT0_BalanceT2,
    armForT0_BalanceForT0, armForT0_BalanceForTMinus1, armForT0_SlashingRateSolo,
    armForT0_SlashingRateT0, armForT0_SlashingRateT1, armForT0_SlashingRateT2,
    armForT0_SlashingRateForT0, armForT0_SlashingRateForTMinus1, armForT0_ActiveT1Referrals,
    armForT0_ActiveT2Referrals, armForT0_MiningSessionSoloStartedAt,
    armForT0_MiningSessionSoloEndedAt]
  exact ⟨⟨trivial, trivial, trivial, trivial, trivial, trivial⟩,
    ⟨trivial, trivial, trivial, trivial, trivial, trivial⟩, ⟨trivial, trivial⟩,
    ⟨trivial, trivial, trivial⟩⟩

theorem classifyPending_chain (a b c m s : ℚ) :
    classifyPending c (classifyPending b (classifyPending a (m, s))) =
      (m + mintedPart a + mintedPart b + mintedPart c,
        s + slashedPart a + slashedPart b + slashedPart c) := by
  unfold classifyPending mintedPart slashedPart
  split_ifs <;> simp

/-- The two local amounts of the full path: `mintedAmount` is what lines 53-96 minted plus the
non-negative unapplied pending amounts; `slashedAmount` is zero when the totals of the input
user are zero, and otherwise the four slashing rates times the elapsed hours plus the negative
unapplied pending amounts (with their sign). -/
theorem mineFrom_amounts (cfg : config) (rate : ℚ) (now : Time) (usr : user)
    (endedAt last : Time) (w : user) (hist : Option user) (t0 tm1 : Option referral) :
    let h := elapsedHours now last
    let acc := accrueOrArm cfg rate now endedAt h w t0 tm1
    let r := mineFrom cfg rate now usr endedAt last w hist t0 tm1
    r.mintedAmount = acc.2 + mintedPart (w.BalanceSoloPending - w.BalanceSoloPendingApplied) +
        mintedPart (w.BalanceT1Pending - w.BalanceT1PendingApplied) +
        mintedPart (w.BalanceT2Pending - w.BalanceT2PendingApplied) ∧
    r.slashedAmount =
      (if usr.BalanceTotalPreStaking + usr.BalanceTotalStandard = 0 then 0
       else (acc.1.SlashingRateSolo + acc.1.SlashingRateT0 + acc.1.SlashingRateT1 +
            acc.1.SlashingRateT2) * h +
          slashedPart (w.BalanceSoloPending - w.BalanceSoloPendingApplied) +
          slashedPart (w.BalanceT1Pending - w.BalanceT1PendingApplied) +
          slashedPart (w.BalanceT2Pending - w.BalanceT2PendingApplied)) := by
  have fr := sameLedgerInputs_trans
    (armForRates_frame now
      (accrueOrArm cfg rate now endedAt (Duration.Hours (Time.Sub now last)) w t0 tm1).1 t0 tm1)
    (accrueOrArm_frame cfg rate now endedAt (Duration.Hours (Time.Sub now last)) w t0 tm1)
  simp only [sameLedgerInputs, armForRates] at fr
  obtain ⟨f1, f2, f3, f4, f5, f6, -, -, -, -⟩ := fr
  simp only [mineFrom, elapsedHours, classifyPending_chain, slash, f1, f2, f3, f4, f5, f6,
    armForRates, armForTMinus1_SlashingRateSolo, armForTMinus1_SlashingRateT0,
    armForTMinus1_SlashingRateT1, armForTMinus1_SlashingRateT2, armForT0_SlashingRateSolo,
    armForT0_SlashingRateT0, armForT0_SlashingRateT1, armForT0_SlashingRateT2]
  exact ⟨trivial, trivial⟩

/-- The accumulator of slashed amounts written by the full path. -/
theorem mineFrom_slashed (cfg : config) (rate : ℚ) (now : Time) (usr : user)
    (endedAt last : Time) (w : user) (hist : Option user) (t0 tm1 : Option referral) :
    let r := mineFrom cfg rate now usr endedAt last w hist t0 tm1
    r.updatedUser.BalanceTotalSlashed = w.BalanceTotalSlashed +
      ((ApplyPreStaking r.slashedAmount w.PreStakingAllocation w.PreStakingBonus).1 +
        (ApplyPreStaking r.slashedAmount w.PreStakingAllocation w.PreStakingBonus).2) := by
  obtain ⟨-, -, -, -, -, -, f7, f8, -, f10⟩ :=
    beforeReconciliation_frame cfg rate now endedAt (Duration.Hours (Time.Sub now last)) w t0 tm1
  simp only [mineFrom, f7, f8, f10]

/-! ## The full path, by the state of the session -/

theorem accrue_minted (cfg : config) (rate : ℚ) (now : Time) (hours : ℚ) (w : user)
    (t0 tm1 : Option referral) :
    (accrue cfg rate now hours w t0 tm1).2 = activeMinted cfg rate now hours w t0 := by
  have hc := (accrue_fields cfg rate now hours w t0 tm1).2.2.1
  simp only [accrue, soloAccrual, t0Accrual, activeMinted, clampCount] at hc ⊢
  by_cases h0 : referral.activeAt t0 now = true <;>
    by_cases h1 : referral.activeAt tm1 now = true <;>
    simp [h0, h1, clampT1Referrals, clampT2Referrals, addT0, addSolo, addForTMinus1] <;>
    split_ifs <;> simp

theorem accrueOrArm_active {cfg : config} {rate : ℚ} {now endedAt : Time} (hours : ℚ) (w : user)
    (t0 tm1 : Option referral) (h : endedAt > now) :
    accrueOrArm cfg rate now endedAt hours w t0 tm1 = accrue cfg rate now hours w t0 tm1 := by
  unfold accrueOrArm
  rw [if_pos h]

theorem accrueOrArm_ended {cfg : config} {rate : ℚ} {now endedAt : Time} (hours : ℚ) (w : user)
    (t0 tm1 : Option referral) (h : ¬ endedAt > now) :
    accrueOrArm cfg rate now endedAt hours w t0 tm1 = (armT2 (armT1 (armT0 (armSolo w))), 0) := by
  unfold accrueOrArm
  rw [if_neg h]

/-- The full path while the session is active: accrual, then slashing at the rates the user came
with. -/
theorem mineFrom_active (cfg : config) (rate : ℚ) (now : Time) (usr : user)
    {endedAt : Time} (last : Time) (w : user) (hist : Option user) (t0 tm1 : Option referral)
    (hact : endedAt > now) :
    activeTickFields cfg rate now (elapsedHours now last) w
        (mineFrom cfg rate now usr endedAt last w hist t0 tm1).updatedUser t0 tm1 ∧
      (mineFrom cfg rate now usr endedAt last w hist t0 tm1).mintedAmount =
        activeMinted cfg rate now (elapsedHours now last) w t0 + pendingMinted w := by
  have hf := mineFrom_fields cfg rate now usr endedAt last w hist t0 tm1
  have ha := accrue_fields cfg rate now (elapsedHours now last) w t0 tm1
  have hm := (mineFrom_amounts cfg rate now usr endedAt last w hist t0 tm1).1
  simp only [accrueOrArm_active _ _ _ _ hact] at hf hm
  simp only at ha
  obtain ⟨⟨a1, a2, a3, a4, a5, a6⟩, ⟨b1, b2, b3, b4, b5, b6⟩, ⟨c1, c2⟩, -⟩ := ha
  rw [a1, a2, a3, a4, a5, a6, b1, b2, b3, b4, b5, b6, c1, c2] at hf
  obtain ⟨hb, hr, hc, -⟩ := hf
  refine ⟨⟨hb, hr, hc⟩, ?_⟩
  rw [hm, accrue_minted, pendingMinted]
  ring

/-- The full path when the session is over: the four slashing rates are armed, then every
balance is slashed. -/
theorem mineFrom_ended (cfg : config) (rate : ℚ) (now : Time) (usr : user)
    {endedAt : Time} (last : Time) (w : user) (hist : Option user) (t0 tm1 : Option referral)
    (hend : ¬ endedAt > now) :
    endedTickFields now (elapsedHours now last) w
        (mineFrom cfg rate now usr endedAt last w hist t0 tm1).updatedUser t0 tm1 ∧
      (mineFrom cfg rate now usr endedAt last w hist t0 tm1).mintedAmount = pendingMinted w := by
  have hf := mineFrom_fields cfg rate now usr endedAt last w hist t0 tm1
  have hm := (mineFrom_amounts cfg rate now usr endedAt last w hist t0 tm1).1
  simp only [accrueOrArm_ended _ _ _ _ hend] at hf hm
  obtain ⟨hb, hr, hc, -⟩ := hf
  obtain ⟨r1, r2, r3, r4, r5, r6⟩ := hr
  obtain ⟨b1, b2, b3, b4, b5, b6⟩ := hb
  have e1 : (armT2 (armT1 (armT0 (armSolo w)))).SlashingRateSolo =
      armedRate true w.BalanceSolo w.SlashingRateSolo := by
    simp only [armT2_SlashingRateSolo, armT1_SlashingRateSolo, armT0_SlashingRateSolo]
    unfold armSolo armedRate
    split_ifs <;> simp_all
  have e2 : (armT2 (armT1 (armT0 (armSolo w)))).SlashingRateT0 =
      armedRate true w.BalanceT0 w.SlashingRateT0 := by
    simp only [armT2_SlashingRateT0, armT1_SlashingRateT0]
    unfold armT0 armedRate
    simp only [armSolo_SlashingRateT0, armSolo_BalanceT0]
    split_ifs <;> simp_all
  have e3 : (armT2 (armT1 (armT0 (armSolo w)))).SlashingRateT1 =
      armedRate true w.BalanceT1 w.SlashingRateT1 := by
    simp only [armT2_SlashingRateT1]
    unfold armT1 armedRate
    simp only [armT0_SlashingRateT1, armT0_BalanceT1, armSolo_SlashingRateT1, armSolo_BalanceT1]
    split_ifs <;> simp_all
  have e4 : (armT2 (armT1 (armT0 (armSolo w)))).SlashingRateT2 =
      armedRate true w.BalanceT2 w.SlashingRateT2 := by
    unfold armT2 armedRate
    simp only [armT1_SlashingRateT2, armT1_BalanceT2, armT0_SlashingRateT2, armT0_BalanceT2,
      armSolo_SlashingRateT2, armSolo_BalanceT2]
    split_ifs <;> simp_all
  simp only [armT2_BalanceSolo, armT1_BalanceSolo, armT0_BalanceSolo, armSolo_BalanceSolo,
    armT2_BalanceT0, armT1_BalanceT0, armT0_BalanceT0, armSolo_BalanceT0,
    armT2_BalanceT1, armT1_BalanceT1, armT0_BalanceT1, armSolo_BalanceT1,
    armT2_BalanceT2, armT1_BalanceT2, armT0_BalanceT2, armSolo_BalanceT2,
    armT2_BalanceForT0, armT1_BalanceForT0, armT0_BalanceForT0, armSolo_BalanceForT0,
    armT2_BalanceForTMinus1, armT1_BalanceForTMinus1, armT0_BalanceForTMinus1,
    armSolo_BalanceForTMinus1,
    armT2_SlashingRateForT0, armT1_SlashingRateForT0, armT0_SlashingRateForT0,
    armSolo_SlashingRateForT0,
    armT2_SlashingRateForTMinus1, armT1_SlashingRateForTMinus1, armT0_SlashingRateForTMinus1,
    armSolo_SlashingRateForTMinus1,
    armT2_ActiveT1Referrals, armT1_ActiveT1Referrals, armT0_ActiveT1Referrals,
    armSolo_ActiveT1Referrals,
    armT2_ActiveT2Referrals, armT1_ActiveT2Referrals, armT0_ActiveT2Referrals,
    armSolo_ActiveT2Referrals] at b1 b2 b3 b4 b5 b6 r1 r2 r3 r4 r5 r6 hc
  rw [e1] at r1
  rw [e2] at r2
  rw [e3] at r3
  rw [e4] at r4
  rw [← r5] at b5
  rw [← r6] at b6
  rw [e1, ← r1] at b1
  rw [e2, ← r2] at b2
  rw [e3, ← r3] at b3
  rw [e4, ← r4] at b4
  refine ⟨⟨⟨r1, r2, r3, r4, r5, r6⟩, ⟨b1, b2, b3, b4, b5, b6⟩, hc⟩, ?_⟩
  rw [hm, pendingMinted]
  ring
/-- The aggregates and housekeeping fields written by the full path, from the clone it is run
on. -/
theorem mineFrom_aggregates (cfg : config) (rate : ℚ) (now : Time) (usr : user)
    (endedAt last : Time) (w : user) (hist : Option user) (t0 tm1 : Option referral) :
    tickAggregates usr w (mineFrom cfg rate now usr endedAt last w hist t0 tm1).updatedUser now
      false (mineFrom cfg rate now usr endedAt last w hist t0 tm1).mintedAmount
      (mineFrom cfg rate now usr endedAt last w hist t0 tm1).slashedAmount
      (elapsedHours now last) := by
  have hm := mineFrom_minted cfg rate now usr endedAt last w hist t0 tm1
  have hs := mineFrom_slashed cfg rate now usr endedAt last w hist t0 tm1
  have ha := (mineFrom_amounts cfg rate now usr endedAt last w hist t0 tm1).2
  have hf := mineFrom_fields cfg rate now usr endedAt last w hist t0 tm1
  have ht := mineFrom_totalsConsistent cfg rate now usr endedAt last w hist t0 tm1
  have hfr := accrueOrArm_frame cfg rate now endedAt (elapsedHours now last) w t0 tm1
  simp only at hm hs ha hf
  obtain ⟨-, ⟨r1, r2, r3, r4, -, -⟩, -, i1, i2, i3⟩ := hf
  obtain ⟨m1, m2, m3⟩ := hm
  have j1 : (accrueOrArm cfg rate now endedAt (elapsedHours now last) w t0
      tm1).1.MiningSessionSoloStartedAt = w.MiningSessionSoloStartedAt ∧
      (accrueOrArm cfg rate now endedAt (elapsedHours now last) w t0
      tm1).1.MiningSessionSoloEndedAt = w.MiningSessionSoloEndedAt := by
    unfold accrueOrArm
    split_ifs
    · exact (accrue_fields cfg rate now (elapsedHours now last) w t0 tm1).2.2.2
    · simp only [armT2_MiningSessionSoloStartedAt, armT1_MiningSessionSoloStartedAt,
        armT0_MiningSessionSoloStartedAt, armSolo_MiningSessionSoloStartedAt,
        armT2_MiningSessionSoloEndedAt, armT1_MiningSessionSoloEndedAt,
        armT0_MiningSessionSoloEndedAt, armSolo_MiningSessionSoloEndedAt, and_self]
  refine ⟨m1, m2, ht, ?_, ?_, ?_, i3, i1.trans j1.1, i2.trans j1.2⟩
  · rw [m3]; simp [splitSum]
  · rw [hs]; simp [splitSum]
  · rw [ha, r1, r2, r3, r4, pendingSlashed]
    split_ifs
    · rfl
    · ring

theorem activeTickFields_congr {cfg : config} {rate : ℚ} {now : Time} {h : ℚ} {w' w u' : user}
    {t0 tm1 : Option referral} (hs : sameTickInputs w' w)
    (ha : activeTickFields cfg rate now h w' u' t0 tm1) :
    activeTickFields cfg rate now h w u' t0 tm1 := by
  obtain ⟨⟨e1, e2, e3, e4, e5, e6⟩, ⟨e7, e8, e9, e10, e11, e12⟩, ⟨e13, e14⟩,
    ⟨e15, e16, e17, e18, e19, e20⟩, -, -, e23, e24, -, -⟩ := hs
  simp only [activeTickFields, soloAccrual, extraBonusActive, e1, e2, e3, e4, e5, e6, e7, e8, e9,
    e10, e11, e12, e13, e14, e15, e16, e17, e18, e19, e20, e23, e24] at ha ⊢
  exact ha

theorem endedTickFields_congr {now : Time} {h : ℚ} {w' w u' : user}
    {t0 tm1 : Option referral} (hs : sameTickInputs w' w)
    (ha : endedTickFields now h w' u' t0 tm1) : endedTickFields now h w u' t0 tm1 := by
  obtain ⟨⟨e1, e2, e3, e4, e5, e6⟩, ⟨e7, e8, e9, e10, e11, e12⟩, ⟨e13, e14⟩,
    ⟨e15, e16, e17, e18, e19, e20⟩, -⟩ := hs
  simp only [endedTickFields, e1, e2, e3, e4, e5, e6, e7, e8, e9,
    e10, e11, e12, e13, e14, e15, e16, e17, e18, e19, e20] at ha ⊢
  exact ha

theorem pendingMinted_congr {w' w : user} (hs : sameTickInputs w' w) :
    pendingMinted w' = pendingMinted w := by
  obtain ⟨-, -, -, ⟨e15, e16, e17, e18, e19, e20⟩, -⟩ := hs
  simp only [pendingMinted, e15, e16, e17, e18, e19, e20]

theorem activeMinted_congr {cfg : config} {rate : ℚ} {now : Time} {h : ℚ} {w' w : user}
    {t0 : Option referral} (hs : sameTickInputs w' w) :
    activeMinted cfg rate now h w' t0 = activeMinted cfg rate now h w t0 := by
  obtain ⟨-, -, ⟨e13, e14⟩, -, -, -, e23, e24, -, -⟩ := hs
  simp only [activeMinted, soloAccrual, extraBonusActive, e13, e14, e23, e24]

theorem tickAggregates_congr {usr w' w u' : user} {now : Time} {m s h : ℚ} (b : Bool)
    (hs : sameTickInputs w' w)
    (hm : w'.BalanceTotalMinted = if b then 0 else w.BalanceTotalMinted)
    (hl : w'.BalanceTotalSlashed = if b then 0 else w.BalanceTotalSlashed)
    (ha : tickAggregates usr w' u' now false m s h) : tickAggregates usr w u' now b m s h := by
  obtain ⟨-, -, -, ⟨e15, e16, e17, e18, e19, e20⟩, e21, e22, -, -, e25, e26⟩ := hs
  simp only [tickAggregates, pendingSlashed, hm, hl, e15, e16, e17, e18, e19, e20, e21, e22,
    e25, e26, Bool.false_eq_true, if_false] at ha ⊢
  exact ha

theorem mineFrom_tick (cfg : config) (rate : ℚ) (now : Time) (usr : user)
    (endedAt last : Time) (w' : user) (hist : Option user) (t0 tm1 : Option referral)
    (w : user) (b : Bool) (hs : sameTickInputs w' w)
    (hm : w'.BalanceTotalMinted = if b then 0 else w.BalanceTotalMinted)
    (hl : w'.BalanceTotalSlashed = if b then 0 else w.BalanceTotalSlashed) :
    (endedAt > now →
      activeTickFields cfg rate now (elapsedHours now last) w
          (mineFrom cfg rate now usr endedAt last w' hist t0 tm1).updatedUser t0 tm1 ∧
        (mineFrom cfg rate now usr endedAt last w' hist t0 tm1).mintedAmount =
          activeMinted cfg rate now (elapsedHours now last) w t0 + pendingMinted w) ∧
    (¬ endedAt > now →
      endedTickFields now (elapsedHours now last) w
          (mineFrom cfg rate now usr endedAt last w' hist t0 tm1).updatedUser t0 tm1 ∧
        (mineFrom cfg rate now usr endedAt last w' hist t0 tm1).mintedAmount =
          pendingMinted w) ∧
    tickAggregates usr w (mineFrom cfg rate now usr endedAt last w' hist t0 tm1).updatedUser now
      b (mineFrom cfg rate now usr endedAt last w' hist t0 tm1).mintedAmount
      (mineFrom cfg rate now usr endedAt last w' hist t0 tm1).slashedAmount
      (elapsedHours now last) := by
  refine ⟨?_, ?_, ?_⟩
  · intro hact
    have h1 := mineFrom_active cfg rate now usr last w' hist t0 tm1 hact
    exact ⟨activeTickFields_congr hs h1.1,
      by rw [h1.2, activeMinted_congr hs, pendingMinted_congr hs]⟩
  · intro hend
    have h1 := mineFrom_ended cfg rate now usr last w' hist t0 tm1 hend
    exact ⟨endedTickFields_congr hs h1.1, by rw [h1.2, pendingMinted_congr hs]⟩
  · exact tickAggregates_congr b hs hm hl
      (mineFrom_aggregates cfg rate now usr endedAt last w' hist t0 tm1)

/-- The full path of `mine`, from the prepared clone `w`: the instant the elapsed time is
measured from, when a history snapshot is taken, the balances, rates and counts by the state of
the session, and the aggregates. -/
theorem mineFull_tick {cfg : config} {rate : ℚ} {now : Time} {usr : user} {endedAt : Time}
    {w : user} {t0 tm1 : Option referral} {r : tickLocals}
    (h : mineFull cfg rate now usr endedAt w t0 tm1 = some r) :
    ∃ last, tickStart w last ∧
      (r.history.isSome = true ↔
        ∃ l, w.BalanceLastUpdatedAt = some l ∧ differentBucket cfg l now = true) ∧
      (endedAt > now →
        activeTickFields cfg rate now (elapsedHours now last) w r.updatedUser t0 tm1 ∧
          r.mintedAmount = activeMinted cfg rate now (elapsedHours now last) w t0 +
            pendingMinted w) ∧
      (¬ endedAt > now →
        endedTickFields now (elapsedHours now last) w r.updatedUser t0 tm1 ∧
          r.mintedAmount = pendingMinted w) ∧
      tickAggregates usr w r.updatedUser now r.history.isSome r.mintedAmount r.slashedAmount
        (elapsedHours now last) := by
  have hh := mineFull_history h
  have refl6 : ∀ a : user, sameTickInputs a a := fun a =>
    ⟨⟨rfl, rfl, rfl, rfl, rfl, rfl⟩, ⟨rfl, rfl, rfl, rfl, rfl, rfl⟩, ⟨rfl, rfl⟩,
      ⟨rfl, rfl, rfl, rfl, rfl, rfl⟩, rfl, rfl, rfl, rfl, rfl, rfl⟩
  rcases mineFull_some h with ⟨s, hl, hs, hr⟩ | ⟨l, p, hl, hb, -, hr⟩ | ⟨l, hl, hb, hr⟩
  · have hi : r.history.isSome = false := by rw [hr]; rfl
    refine ⟨s, Or.inr ⟨hl, hs⟩, hh, ?_⟩
    rw [hi, hr]
    exact mineFrom_tick cfg rate now usr endedAt s _ none t0 tm1 w false
      ⟨⟨rfl, rfl, rfl, rfl, rfl, rfl⟩, ⟨rfl, rfl, rfl, rfl, rfl, rfl⟩, ⟨rfl, rfl⟩,
        ⟨rfl, rfl, rfl, rfl, rfl, rfl⟩, rfl, rfl, rfl, rfl, rfl, rfl⟩ rfl rfl
  · have hi : r.history.isSome = true := by rw [hr]; rfl
    refine ⟨l, Or.inl hl, hh, ?_⟩
    rw [hi, hr]
    exact mineFrom_tick cfg rate now usr endedAt l _ _ t0 tm1 w true
      ⟨⟨rfl, rfl, rfl, rfl, rfl, rfl⟩, ⟨rfl, rfl, rfl, rfl, rfl, rfl⟩, ⟨rfl, rfl⟩,
        ⟨rfl, rfl, rfl, rfl, rfl, rfl⟩, rfl, rfl, rfl, rfl, rfl, rfl⟩ rfl rfl
  · have hi : r.history.isSome = false := by rw [hr]; rfl
    refine ⟨l, Or.inl hl, hh, ?_⟩
    rw [hi, hr]
    exact mineFrom_tick cfg rate now usr endedAt l w none t0 tm1 w false (refl6 w) rfl rfl

/-! ## Claims about one tick of `mine` -/

/-- A call of `mine` that returns a user: the idle short-circuit, or the full path with its
balances, rates, counts and aggregates. -/
theorem mine_tick {cfg : config} {hp : Helpers} {rate : ℚ} {now : Time} {u : user}
    {t0 tm1 : Option referral} {u' : user} {hist : Option user} {endedAt : Time}
    (h : mine cfg hp rate now (some u) t0 tm1 = some (some u', hist))
    (he : (hp.prepare now u t0 tm1).MiningSessionSoloEndedAt = some endedAt) :
    (idleCondition (hp.prepare now u t0 tm1) endedAt now = true ∧
        u' = idleUpdate (hp.prepare now u t0 tm1) ∧ hist = none) ∨
    (idleCondition (hp.prepare now u t0 tm1) endedAt now = false ∧
      ∃ last m s, tickStart (hp.prepare now u t0 tm1) last ∧
        (hist.isSome = true ↔ ∃ l, (hp.prepare now u t0 tm1).BalanceLastUpdatedAt = some l ∧
          differentBucket cfg l now = true) ∧
        (endedAt > now →
          activeTickFields cfg rate now (elapsedHours now last) (hp.prepare now u t0 tm1) u'
              t0 tm1 ∧
            m = activeMinted cfg rate now (elapsedHours now last) (hp.prepare now u t0 tm1) t0 +
              pendingMinted (hp.prepare now u t0 tm1)) ∧
        (¬ endedAt > now →
          endedTickFields now (elapsedHours now last) (hp.prepare now u t0 tm1) u' t0 tm1 ∧
            m = pendingMinted (hp.prepare now u t0 tm1)) ∧
        tickAggregates u (hp.prepare now u t0 tm1) u' now hist.isSome m s
          (elapsedHours now last)) := by
  obtain ⟨u0, e0, hu, he0, hcase⟩ := mine_some_user h
  cases hu
  rw [he] at he0
  cases he0
  rcases hcase with hi | ⟨hi, r, hr, hu', hh⟩
  · exact Or.inl hi
  · right
    refine ⟨hi, ?_⟩
    obtain ⟨last, hl, h1, h2, h3, h4⟩ := mineFull_tick hr
    subst hu' hh
    exact ⟨last, r.mintedAmount, r.slashedAmount, hl, h1, h2, h3, h4⟩

theorem clampCount_nonneg (n : Int) : 0 ≤ clampCount n := by
  unfold clampCount
  split_ifs with h
  · exact le_refl 0
  · exact not_lt.mp h

unseal Rat.add Rat.mul Rat.inv Rat.sub in
/-- C14, as stated, fails when the session has ended: `miscountedUser` comes with
`ActiveT1Referrals = -1` and `ActiveT2Referrals = -2`, its session ended one hour before
`sampleNow`, and the updated user `mine` returns still has both counts negative. -/
theorem mine_counts_counterexample :
    mine sampleConfig idleHelpers 1 sampleNow (some miscountedUser) none none =
        some (some miscountedUserTicked,
          some { miscountedUser with HistoryPart := "2023-11-14T21" }) ∧
      miscountedUserTicked.ActiveT1Referrals < 0 ∧ miscountedUserTicked.ActiveT2Referrals < 0 := by
  decide

/-- C14, amended. Whenever `mine` returns an updated user: if the session of the clone `mine`
works on is still active at `now`, both active-referral counts are clamped, so they are the
counts of the clone when those are not negative and `0` otherwise; if the session has ended,
on the full path and on the idle short-circuit alike, both counts are returned as the clone
has them. -/
theorem mine_counts (cfg : config) (hp : Helpers) (rate : ℚ) (now : Time) (u : user)
    (t0 tm1 : Option referral) (u' : user) (hist : Option user) (endedAt : Time)
    (h : mine cfg hp rate now (some u) t0 tm1 = some (some u', hist))
    (he : (hp.prepare now u t0 tm1).MiningSessionSoloEndedAt = some endedAt) :
    (endedAt > now →
      u'.ActiveT1Referrals = clampCount (hp.prepare now u t0 tm1).ActiveT1Referrals ∧
      u'.ActiveT2Referrals = clampCount (hp.prepare now u t0 tm1).ActiveT2Referrals ∧
      0 ≤ u'.ActiveT1Referrals ∧ 0 ≤ u'.ActiveT2Referrals) ∧
    (¬ endedAt > now →
      u'.ActiveT1Referrals = (hp.prepare now u t0 tm1).ActiveT1Referrals ∧
      u'.ActiveT2Referrals = (hp.prepare now u t0 tm1).ActiveT2Referrals) := by
  rcases mine_tick h he with ⟨hi, hu', -⟩ | ⟨-, last, m, s, -, -, hact, hend, -⟩
  · have hlt := (idleCondition_true hi).1
    subst hu'
    refine ⟨fun hgt => absurd hlt (not_lt.mpr (le_of_lt hgt)), fun _ => ⟨rfl, rfl⟩⟩
  · refine ⟨fun hgt => ?_, fun hle => ?_⟩
    · obtain ⟨⟨-, -, c1, c2⟩, -⟩ := hact hgt
      exact ⟨c1, c2, c1 ▸ clampCount_nonneg _, c2 ▸ clampCount_nonneg _⟩
    · obtain ⟨⟨-, -, c1, c2⟩, -⟩ := hend hle
      exact ⟨c1, c2⟩

unseal Rat.add Rat.mul Rat.inv Rat.sub in
theorem mine_counts_witness :
    mine sampleConfig idleHelpers 1 sampleNow (some miningUser) none none =
        some (some miningUserTicked, some miningUserHistory) ∧
      ((sampleNow + 23 * nanosPerHour > sampleNow →
        miningUserTicked.ActiveT1Referrals =
          clampCount (idleHelpers.prepare sampleNow miningUser none none).ActiveT1Referrals ∧
        miningUserTicked.ActiveT2Referrals =
          clampCount (idleHelpers.prepare sampleNow miningUser none none).ActiveT2Referrals ∧
        0 ≤ miningUserTicked.ActiveT1Referrals ∧ 0 ≤ miningUserTicked.ActiveT2Referrals) ∧
      (¬ sampleNow + 23 * nanosPerHour > sampleNow →
        miningUserTicked.ActiveT1Referrals =
          (idleHelpers.prepare sampleNow miningUser none none).ActiveT1Referrals ∧
        miningUserTicked.ActiveT2Referrals =
          (idleHelpers.prepare sampleNow miningUser none none).ActiveT2Referrals)) :=
  ⟨by decide,
   mine_counts sampleConfig idleHelpers 1 sampleNow miningUser none none miningUserTicked
     (some miningUserHistory) (sampleNow + 23 * nanosPerHour) (by decide) rfl⟩

theorem clampZero_eq_max (x : ℚ) : clampZero x = max 0 x := by
  unfold clampZero
  split_ifs with h
  · exact (max_eq_left (le_of_lt h)).symm
  · exact (max_eq_right (not_lt.mp h)).symm

theorem armedRate_true (balance rate : ℚ) :
    armedRate true balance rate = if rate = 0 then balance / 60 / 24 else rate := by
  simp [armedRate]

set_option maxRecDepth 4096 in
unseal Rat.add Rat.mul Rat.inv Rat.sub in
/-- C20, as stated, fails in float64 in its last clause: the session of `residueUser` ended 1440
hours before `sampleNow`, when the user was last updated; its slashing rate is zero, there is no
pending delta and its `BalanceSolo` is the float64 `1234.5678`. Lines 84-86 arm the rate
`1234.5678 / 60 / 24`, rounded after each division; line 113 subtracts the rounded product of
that rate and 1440, which is `1234.5677999999998`, and `BalanceSolo` is left at `2⁻⁴²`, not at
`0`; the clamp of line 146 keeps it. -/
theorem mine_post_session_slashing_counterexample :
    (residueUser.MiningSessionSoloEndedAt = some (sampleNow - 1440 * nanosPerHour) ∧
      sampleNow - 1440 * nanosPerHour ≤ sampleNow ∧
      idleCondition residueUser (sampleNow - 1440 * nanosPerHour) sampleNow = false) ∧
    (residueUser.BalanceLastUpdatedAt = some (sampleNow - 1440 * nanosPerHour) ∧
      elapsedHours sampleNow (sampleNow - 1440 * nanosPerHour) = 1440) ∧
    (residueUser.SlashingRateSolo = 0 ∧
      residueUser.BalanceSoloPending - residueUser.BalanceSoloPendingApplied = 0) ∧
    roundFloat64 residueUser.BalanceSolo = residueUser.BalanceSolo ∧
    float64.slashedSolo 1440 residueUser =
      (7722220950060573 / 9007199254740992, 1 / 4398046511104) ∧
    (float64.slashedSolo 1440 residueUser).2 ≠ 0 :=
  ⟨by decide, by decide, by decide, by decide, by decide, by decide⟩

/-- C20, amended. On the full path with the session over, each of the four primary slashing
rates that was zero becomes `balance / 60 / 24` and a non-zero one is left as it is; with no
pending delta the updated balance is `max 0 (balance - rate * Δh)`, at 1440 hours as at any
other `Δh`. -/
theorem mine_post_session_slashing (cfg : config) (hp : Helpers) (rate : ℚ) (now : Time)
    (u : user) (t0 tm1 : Option referral) (u' : user) (hist : Option user) (endedAt : Time)
    (h : mine cfg hp rate now (some u) t0 tm1 = some (some u', hist))
    (he : (hp.prepare now u t0 tm1).MiningSessionSoloEndedAt = some endedAt)
    (hover : endedAt ≤ now)
    (hidle : idleCondition (hp.prepare now u t0 tm1) endedAt now = false) :
    slashedAfterSession now (hp.prepare now u t0 tm1) u' := by
  rcases mine_tick h he with ⟨hi, -, -⟩ | ⟨-, last, m, s, hl, -, -, hend, -⟩
  · rw [hidle] at hi
    exact absurd hi (by decide)
  · obtain ⟨⟨⟨r1, r2, r3, r4, -, -⟩, ⟨b1, b2, b3, b4, -, -⟩, -⟩, -⟩ := hend (not_lt.mpr hover)
    rw [armedRate_true] at r1 r2 r3 r4
    rw [clampZero_eq_max] at b1 b2 b3 b4
    have e1 : (hp.prepare now u t0 tm1).BalanceSoloPending -
        (hp.prepare now u t0 tm1).BalanceSoloPendingApplied = 0 →
        u'.BalanceSolo = max 0 ((hp.prepare now u t0 tm1).BalanceSolo -
          u'.SlashingRateSolo * elapsedHours now last) := by
      intro hz
      rw [b1, hz, add_zero]
    have e3 : (hp.prepare now u t0 tm1).BalanceT1Pending -
        (hp.prepare now u t0 tm1).BalanceT1PendingApplied = 0 →
        u'.BalanceT1 = max 0 ((hp.prepare now u t0 tm1).BalanceT1 -
          u'.SlashingRateT1 * elapsedHours now last) := by
      intro hz
      rw [b3, hz, add_zero]
    have e4 : (hp.prepare now u t0 tm1).BalanceT2Pending -
        (hp.prepare now u t0 tm1).BalanceT2PendingApplied = 0 →
        u'.BalanceT2 = max 0 ((hp.prepare now u t0 tm1).BalanceT2 -
          u'.SlashingRateT2 * elapsedHours now last) := by
      intro hz
      rw [b4, hz, add_zero]
    exact ⟨last, hl, ⟨r1, r2, r3, r4⟩, ⟨e1, b2, e3, e4⟩⟩

unseal Rat.add Rat.mul Rat.inv Rat.sub in
theorem mine_post_session_slashing_witness :
    (mine sampleConfig idleHelpers 1 sampleNow (some lapsedUser) none none =
        some (some lapsedUserTicked, some lapsedUserHistory) ∧
      lapsedUser.BalanceSolo = 24 ∧ lapsedUserTicked.SlashingRateSolo = 24 / 1440 ∧
      lapsedUserTicked.BalanceSolo = 24 - 24 / 1440) ∧
    slashedAfterSession sampleNow (idleHelpers.prepare sampleNow lapsedUser none none)
      lapsedUserTicked :=
  ⟨by decide,
   mine_post_session_slashing sampleConfig idleHelpers 1 sampleNow lapsedUser none none
     lapsedUserTicked (some lapsedUserHistory) (sampleNow - nanosPerHour) (by decide) rfl
     (by decide) (by decide)⟩

/-- The converse of `mine_some_user` on the full path: when the full path returns, `mine`
returns its user and its history. -/
theorem mine_of_mineFull {cfg : config} {hp : Helpers} {rate : ℚ} {now : Time} {u : user}
    {t0 tm1 : Option referral} {r : tickLocals} {s e endedAt : Time}
    (hs : u.MiningSessionSoloStartedAt = some s) (he0 : u.MiningSessionSoloEndedAt = some e)
    (he : (hp.prepare now u t0 tm1).MiningSessionSoloEndedAt = some endedAt)
    (hi : idleCondition (hp.prepare now u t0 tm1) endedAt now = false)
    (hr : mineFull cfg rate now u endedAt (hp.prepare now u t0 tm1) t0 tm1 = some r) :
    mine cfg hp rate now (some u) t0 tm1 = some (some r.updatedUser, r.history) := by
  simp only [mine, hs, he0, Option.isNone_some, Bool.or_self, Bool.false_eq_true, if_false]
  unfold mineClone
  rw [he]
  simp only [hi, Bool.false_eq_true, if_false, hr, Option.map_some']

theorem idleCondition_active {w : user} {endedAt now : Time} (h : endedAt > now) :
    idleCondition w endedAt now = false := by
  cases hi : idleCondition w endedAt now with
  | false => rfl
  | true => exact absurd (idleCondition_true hi).1 (not_lt.mpr (le_of_lt h))

theorem elapsedHours_nonneg {last now : Time} (h : last ≤ now) : 0 ≤ elapsedHours now last :=
  Duration.Hours_nonneg (Time.Sub_nonneg h)

theorem clampZero_of_nonneg {x : ℚ} (h : 0 ≤ x) : clampZero x = x := by
  unfold clampZero
  rw [if_neg (not_lt.mpr h)]

unseal Rat.add Rat.mul Rat.inv Rat.sub in
/-- C15, as stated, fails when the session starts after `now`: `earlyUser` is fresh, its session
is active at `sampleNow` and starts one hour later, so the elapsed time is minus one hour; with
rate 1 the claim gives `BalanceSolo = -1`, while `mine` clamps the solo balance to `0` and
records `-1` as minted. -/
theorem mine_fresh_user_counterexample :
    freshUser earlyUser ∧
      earlyUser.MiningSessionSoloStartedAt = some (sampleNow + nanosPerHour) ∧
      earlyUser.MiningSessionSoloEndedAt = some (sampleNow + 25 * nanosPerHour) ∧
      sampleNow + 25 * nanosPerHour > sampleNow ∧
      mine sampleConfig idleHelpers 1 sampleNow (some earlyUser) none none =
        some (some earlyUserTicked, none) ∧
      1 * elapsedHours sampleNow (sampleNow + nanosPerHour) = -1 ∧
      earlyUserTicked.BalanceSolo = 0 ∧ earlyUserTicked.BalanceTotalMinted = -1 := by
  decide

/-- C15, amended. For every rate `≥ 0` and every fresh user whose session started at or before
`now` and ends after `now`, with T0 and T-1 absent and helpers that leave the user as it is,
`mine` returns an updated user and no history; the elapsed time is measured from
`MiningSessionSoloStartedAt`; `BalanceSolo`, `BalanceTotalStandard` and `BalanceTotalMinted` are
all `rate * Δh`, `BalanceTotalPreStaking` is `0` and `BalanceLastUpdatedAt` is `now`. -/
theorem mine_fresh_user (cfg : config) (hp : Helpers) (rate : ℚ) (now : Time) (u : user)
    (s e : Time) (hrate : 0 ≤ rate) (hfresh : freshUser u)
    (hprep : hp.prepare now u none none = u)
    (hs : u.MiningSessionSoloStartedAt = some s) (he : u.MiningSessionSoloEndedAt = some e)
    (hact : e > now) (hstarted : s ≤ now) :
    ∃ u', mine cfg hp rate now (some u) none none = some (some u', none) ∧
      u'.BalanceSolo = rate * elapsedHours now s ∧
      u'.BalanceTotalStandard = rate * elapsedHours now s ∧
      u'.BalanceTotalPreStaking = 0 ∧
      u'.BalanceTotalMinted = rate * elapsedHours now s ∧
      u'.BalanceLastUpdatedAt = some now := by
  obtain ⟨hl, ⟨b1, b2, b3, b4, b5, b6, b7⟩, ⟨r1, r2, r3, r4, r5, r6⟩,
    ⟨p1, p2, p3, p4, p5, p6⟩, ⟨c1, c2⟩, ⟨x1, x2⟩, ha, hb⟩ := hfresh
  have he' : (hp.prepare now u none none).MiningSessionSoloEndedAt = some e := by rw [hprep, he]
  have hi : idleCondition (hp.prepare now u none none) e now = false := idleCondition_active hact
  obtain ⟨r, hr⟩ := mineFull_isSome cfg rate now u e (hp.prepare now u none none) none none s
    (by rw [hprep, hs]) (by rw [hprep])
  have hm := mine_of_mineFull hs he he' hi hr
  obtain ⟨last, hst, hh, hactive, -, hagg⟩ := mineFull_tick hr
  rw [hprep] at hst hh hactive hagg
  have hlast : last = s := by
    rcases hst with h1 | ⟨-, h2⟩
    · rw [hl] at h1; cases h1
    · rw [hs] at h2; cases h2; rfl
  subst hlast
  have hnone : r.history = none := by
    cases hx : r.history with
    | none => rfl
    | some x =>
      have := hh.mp (by rw [hx]; rfl)
      obtain ⟨l, h1, -⟩ := this
      rw [hl] at h1
      cases h1
  obtain ⟨⟨⟨a1, a2, a3, a4, -, -⟩, -, -⟩, hminted⟩ := hactive hact
  obtain ⟨g1, g2, g3, g4, -, -, g7, -, -⟩ := hagg
  have hh0 := elapsedHours_nonneg hstarted
  have hsolo : soloAccrual cfg rate now (elapsedHours now last) u =
      rate * elapsedHours now last := by
    simp [soloAccrual, extraBonusActive, x2]
  have ht0 : t0Accrual rate now (elapsedHours now last) none = 0 := by
    simp [t0Accrual, referral.activeAt]
  rw [b1, r1, p1, p4, hsolo] at a1
  rw [b2, r2, ht0] at a2
  rw [b3, r3, p2, p5, c1] at a3
  rw [b4, r4, p3, p6, c2] at a4
  have a1' : r.updatedUser.BalanceSolo = rate * elapsedHours now last := by
    rw [a1]
    have : (0 : ℚ) + rate * elapsedHours now last - 0 * elapsedHours now last + (0 - 0) =
        rate * elapsedHours now last := by ring
    rw [this]
    exact clampZero_of_nonneg (mul_nonneg hrate hh0)
  have a2' : r.updatedUser.BalanceT0 = 0 := by
    rw [a2]; simp [clampZero]
  have a3' : r.updatedUser.BalanceT1 = 0 := by
    rw [a3]; simp [clampZero, clampCount]
  have a4' : r.updatedUser.BalanceT2 = 0 := by
    rw [a4]; simp [clampZero, clampCount]
  have hmint : r.mintedAmount = rate * elapsedHours now last := by
    rw [hminted]
    simp [activeMinted, pendingMinted, mintedPart, hsolo, ht0, clampCount, c1, c2, p1, p2, p3,
      p4, p5, p6]
  unfold totalsConsistent at g3
  rw [g1, g2, ha, hb, a1', a2', a3', a4'] at g3
  simp only [ApplyPreStaking, Prod.mk.injEq] at g3
  refine ⟨r.updatedUser, by rw [hm, hnone], a1', ?_, ?_, ?_, g7⟩
  · rw [g3.1]; ring
  · rw [g3.2]; ring
  · rw [g4, hnone, hmint, b7, ha, hb]
    simp [splitSum, ApplyPreStaking]

unseal Rat.add Rat.mul Rat.inv Rat.sub in
theorem mine_fresh_user_witness :
    (0 : ℚ) ≤ 1 ∧ freshUser newUser ∧ sampleNow + 23 * nanosPerHour > sampleNow ∧
      sampleNow - nanosPerHour ≤ sampleNow ∧ elapsedHours sampleNow (sampleNow - nanosPerHour) = 1 ∧
      ∃ u', mine sampleConfig idleHelpers 1 sampleNow (some newUser) none none =
          some (some u', none) ∧
        u'.BalanceSolo = 1 * elapsedHours sampleNow (sampleNow - nanosPerHour) ∧
        u'.BalanceTotalStandard = 1 * elapsedHours sampleNow (sampleNow - nanosPerHour) ∧
        u'.BalanceTotalPreStaking = 0 ∧
        u'.BalanceTotalMinted = 1 * elapsedHours sampleNow (sampleNow - nanosPerHour) ∧
        u'.BalanceLastUpdatedAt = some sampleNow :=
  ⟨by decide, by decide, by decide, by decide, by decide,
   mine_fresh_user sampleConfig idleHelpers 1 sampleNow newUser (sampleNow - nanosPerHour)
     (sampleNow + 23 * nanosPerHour) (by decide) (by decide) rfl rfl rfl (by decide)
     (by decide)⟩

theorem extraBonusActive_iff (cfg : config) (now : Time) (w : user) :
    extraBonusActive cfg now w = true ↔
      ∃ s, w.ExtraBonusStartedAt = some s ∧ now < s + cfg.ExtraBonusesDuration := by
  unfold extraBonusActive
  cases w.ExtraBonusStartedAt with
  | none => simp
  | some s => simp

unseal Rat.add Rat.mul Rat.inv Rat.sub in
/-- C18, as stated, fails when `now` is earlier than `ExtraBonusStartedAt`: the window of
`bonusUserEarly` starts half an hour after `sampleNow`, so it is not active as the claim defines
it and the claim gives an increase of `rate * Δh = 1`; `mine` adds the bonus all the same and
`BalanceSolo` increases by `(100 + 100) * 1 * 1 / 100 = 2`. -/
theorem mine_extra_bonus_counterexample :
    bonusUserEarly.ExtraBonusStartedAt = some (sampleNow + 1800000000000) ∧
      ¬ (sampleNow + 1800000000000 ≤ sampleNow) ∧
      bonusUserEarly.MiningSessionSoloEndedAt = some (sampleNow + 23 * nanosPerHour) ∧
      bonusUserEarly.SlashingRateSolo = 0 ∧
      bonusUserEarly.BalanceSoloPending - bonusUserEarly.BalanceSoloPendingApplied = 0 ∧
      bonusUserEarly.BalanceLastUpdatedAt = some (sampleNow - nanosPerHour) ∧
      mine sampleConfig idleHelpers 1 sampleNow (some bonusUserEarly) none none =
        some (some bonusUserEarlyTicked,
          some { bonusUserEarly with HistoryPart := "2023-11-14T21" }) ∧
      1 * elapsedHours sampleNow (sampleNow - nanosPerHour) = 1 ∧
      bonusUserEarlyTicked.BalanceSolo - bonusUserEarly.BalanceSolo = 2 := by
  decide

/-- C18, amended. For every tick with the session active, zero slashing rate and zero pending
delta on the solo channel, the amount added to `BalanceSolo` is
`(100 + ExtraBonus) * rate * Δh / 100` exactly when `ExtraBonusStartedAt` is set and
`now < ExtraBonusStartedAt + ExtraBonuses.Duration`, also when `now` is earlier than
`ExtraBonusStartedAt`, and `rate * Δh` in every other case; the updated balance is `max 0` of
the sum. -/
theorem mine_extra_bonus (cfg : config) (hp : Helpers) (rate : ℚ) (now : Time)
    (u : user) (t0 tm1 : Option referral) (u' : user) (hist : Option user) (endedAt : Time)
    (h : mine cfg hp rate now (some u) t0 tm1 = some (some u', hist))
    (he : (hp.prepare now u t0 tm1).MiningSessionSoloEndedAt = some endedAt)
    (hact : endedAt > now)
    (hrate : (hp.prepare now u t0 tm1).SlashingRateSolo = 0)
    (hdelta : (hp.prepare now u t0 tm1).BalanceSoloPending -
      (hp.prepare now u t0 tm1).BalanceSoloPendingApplied = 0) :
    extraBonusAccrued cfg rate now (hp.prepare now u t0 tm1) u' := by
  rcases mine_tick h he with ⟨hi, -, -⟩ | ⟨-, last, m, s, hl, -, hactive, -, -⟩
  · rw [idleCondition_active hact] at hi
    exact absurd hi (by decide)
  · obtain ⟨⟨⟨b1, -⟩, -, -⟩, -⟩ := hactive hact
    rw [hrate, hdelta, zero_mul, sub_zero, add_zero, clampZero_eq_max] at b1
    refine ⟨last, hl, ?_, ?_⟩
    · intro hw
      have hs : soloAccrual cfg rate now (elapsedHours now last) (hp.prepare now u t0 tm1) =
          (100 + (hp.prepare now u t0 tm1).ExtraBonus) * rate * elapsedHours now last / 100 := by
        unfold soloAccrual
        rw [if_pos ((extraBonusActive_iff cfg now _).mpr hw)]
      rw [hs] at b1
      exact b1
    · intro hw
      have hs : soloAccrual cfg rate now (elapsedHours now last) (hp.prepare now u t0 tm1) =
          rate * elapsedHours now last := by
        unfold soloAccrual
        rw [if_neg (fun hc => hw ((extraBonusActive_iff cfg now _).mp hc))]
      rw [hs] at b1
      exact b1

unseal Rat.add Rat.mul Rat.inv Rat.sub in
theorem mine_extra_bonus_witness :
    (mine sampleConfig idleHelpers 1 sampleNow (some bonusUser) none none =
        some (some bonusUserTicked, some { bonusUser with HistoryPart := "2023-11-14T21" }) ∧
      bonusUserTicked.BalanceSolo = 2) ∧
    extraBonusAccrued sampleConfig 1 sampleNow (idleHelpers.prepare sampleNow bonusUser none none)
      bonusUserTicked :=
  ⟨by decide,
   mine_extra_bonus sampleConfig idleHelpers 1 sampleNow bonusUser none none bonusUserTicked
     (some { bonusUser with HistoryPart := "2023-11-14T21" }) (sampleNow + 23 * nanosPerHour)
     (by decide) rfl (by decide) rfl (by decide)⟩

unseal Rat.add Rat.mul Rat.inv Rat.sub in
/-- C13 at a failing input. `adjustedUser` satisfies every precondition of the claim and has an
unapplied solo pending amount of `-5`; lines 131-132 add that amount, with its sign, to
`slashedAmount`, and the updated user comes out with `BalanceTotalSlashed = -5`. -/
theorem mine_slashed_total_negative :
    nonnegLedger 6 sampleNow adjustedUser ∧
      adjustedUser.BalanceSoloPending - adjustedUser.BalanceSoloPendingApplied = -5 ∧
      mine sampleConfig idleHelpers 6 sampleNow (some adjustedUser) none none =
        some (some adjustedUserTicked, none) ∧
      adjustedUserTicked.BalanceTotalSlashed = -5 ∧
      ¬ (0 ≤ adjustedUserTicked.BalanceTotalSlashed) := by
  decide
/-! ### Ticking twice at the same instant -/

theorem differentBucket_self (cfg : config) (t : Time) : differentBucket cfg t t = false := by
  simp [differentBucket]

theorem elapsedHours_self (now : Time) : elapsedHours now now = 0 := by
  have h : Time.Sub now now = 0 := by
    show Time.Sub now now = (0 : Int)
    unfold Time.Sub
    rw [sub_self]
    rfl
  unfold elapsedHours
  rw [h]
  simp [Duration.Hours]

theorem soloAccrual_zero (cfg : config) (rate : ℚ) (now : Time) (w : user) :
    soloAccrual cfg rate now 0 w = 0 := by
  unfold soloAccrual
  split_ifs <;> simp

theorem t0Accrual_zero (rate : ℚ) (now : Time) (t0 : Option referral) :
    t0Accrual rate now 0 t0 = 0 := by
  unfold t0Accrual
  split_ifs <;> simp

theorem tMinus1Accrual_zero (rate : ℚ) (now : Time) (tm1 : Option referral) :
    tMinus1Accrual rate now 0 tm1 = 0 := by
  unfold tMinus1Accrual
  split_ifs <;> simp

/-- A call of `mine` that returns something was given a user with both session instants. -/
theorem mine_some_session {cfg : config} {hp : Helpers} {rate : ℚ} {now : Time} {u : user}
    {t0 tm1 : Option referral} {u' : user} {hist : Option user}
    (h : mine cfg hp rate now (some u) t0 tm1 = some (some u', hist)) :
    ∃ s e, u.MiningSessionSoloStartedAt = some s ∧ u.MiningSessionSoloEndedAt = some e := by
  cases hs : u.MiningSessionSoloStartedAt with
  | none => simp [mine, hs] at h
  | some s =>
    cases he : u.MiningSessionSoloEndedAt with
    | none => simp [mine, he] at h
    | some e => exact ⟨s, e, rfl, rfl⟩

/-- The result of `mine` on the idle short-circuit. -/
theorem mine_of_idle {cfg : config} {hp : Helpers} {rate : ℚ} {now : Time} {u : user}
    {t0 tm1 : Option referral} {s e endedAt : Time}
    (hs : u.MiningSessionSoloStartedAt = some s) (he0 : u.MiningSessionSoloEndedAt = some e)
    (he : (hp.prepare now u t0 tm1).MiningSessionSoloEndedAt = some endedAt)
    (hi : idleCondition (hp.prepare now u t0 tm1) endedAt now = true) :
    mine cfg hp rate now (some u) t0 tm1 = some (none, none) ∨
      mine cfg hp rate now (some u) t0 tm1 =
        some (some (idleUpdate (hp.prepare now u t0 tm1)), none) := by
  simp only [mine, hs, he0, Option.isNone_some, Bool.or_self, Bool.false_eq_true, if_false]
  unfold mineClone
  rw [he]
  simp only [hi, if_true]
  split_ifs
  · exact Or.inr rfl
  · exact Or.inl rfl

/-- The six balances of the user the full path returns are not negative. -/
theorem tick_balances_nonneg {cfg : config} {rate : ℚ} {now : Time} {h : ℚ} {w u' : user}
    {t0 tm1 : Option referral} {endedAt : Time}
    (hact : endedAt > now → activeTickFields cfg rate now h w u' t0 tm1)
    (hend : ¬ endedAt > now → endedTickFields now h w u' t0 tm1) :
    0 ≤ u'.BalanceSolo ∧ 0 ≤ u'.BalanceT0 ∧ 0 ≤ u'.BalanceT1 ∧ 0 ≤ u'.BalanceT2 ∧
      0 ≤ u'.BalanceForT0 ∧ 0 ≤ u'.BalanceForTMinus1 := by
  by_cases hc : endedAt > now
  · obtain ⟨⟨b1, b2, b3, b4, b5, b6⟩, -⟩ := hact hc
    rw [b1, b2, b3, b4, b5, b6]
    exact ⟨clampZero_nonneg _, clampZero_nonneg _, clampZero_nonneg _, clampZero_nonneg _,
      clampZero_nonneg _, clampZero_nonneg _⟩
  · obtain ⟨-, ⟨b1, b2, b3, b4, b5, b6⟩, -⟩ := hend hc
    rw [b1, b2, b3, b4, b5, b6]
    exact ⟨clampZero_nonneg _, clampZero_nonneg _, clampZero_nonneg _, clampZero_nonneg _,
      clampZero_nonneg _, clampZero_nonneg _⟩

/-- A tick of zero hours on a user without unapplied pending amounts and without negative
balances leaves the six balances as they are. -/
theorem tick_zero_hours {cfg : config} {rate : ℚ} {now : Time} {w u' : user}
    {t0 tm1 : Option referral} {endedAt : Time}
    (hact : endedAt > now → activeTickFields cfg rate now 0 w u' t0 tm1)
    (hend : ¬ endedAt > now → endedTickFields now 0 w u' t0 tm1)
    (hp1 : w.BalanceSoloPending - w.BalanceSoloPendingApplied = 0)
    (hp2 : w.BalanceT1Pending - w.BalanceT1PendingApplied = 0)
    (hp3 : w.BalanceT2Pending - w.BalanceT2PendingApplied = 0)
    (hn : 0 ≤ w.BalanceSolo ∧ 0 ≤ w.BalanceT0 ∧ 0 ≤ w.BalanceT1 ∧ 0 ≤ w.BalanceT2 ∧
      0 ≤ w.BalanceForT0 ∧ 0 ≤ w.BalanceForTMinus1) :
    u'.BalanceSolo = w.BalanceSolo ∧ u'.BalanceT0 = w.BalanceT0 ∧ u'.BalanceT1 = w.BalanceT1 ∧
      u'.BalanceT2 = w.BalanceT2 ∧ u'.BalanceForT0 = w.BalanceForT0 ∧
      u'.BalanceForTMinus1 = w.BalanceForTMinus1 := by
  obtain ⟨n1, n2, n3, n4, n5, n6⟩ := hn
  by_cases hc : endedAt > now
  · obtain ⟨⟨b1, b2, b3, b4, b5, b6⟩, -⟩ := hact hc
    rw [hp1, soloAccrual_zero] at b1
    rw [t0Accrual_zero] at b2 b5
    rw [hp2] at b3
    rw [hp3] at b4
    rw [tMinus1Accrual_zero] at b6
    simp only [mul_zero, add_zero, sub_zero, zero_div] at b1 b2 b3 b4 b5 b6
    rw [clampZero_of_nonneg n1] at b1
    rw [clampZero_of_nonneg n2] at b2
    rw [clampZero_of_nonneg n3] at b3
    rw [clampZero_of_nonneg n4] at b4
    rw [clampZero_of_nonneg n5] at b5
    rw [clampZero_of_nonneg n6] at b6
    exact ⟨b1, b2, b3, b4, b5, b6⟩
  · obtain ⟨-, ⟨b1, b2, b3, b4, b5, b6⟩, -⟩ := hend hc
    rw [hp1] at b1
    rw [hp2] at b3
    rw [hp3] at b4
    simp only [mul_zero, add_zero, sub_zero] at b1 b2 b3 b4 b5 b6
    rw [clampZero_of_nonneg n1] at b1
    rw [clampZero_of_nonneg n2] at b2
    rw [clampZero_of_nonneg n3] at b3
    rw [clampZero_of_nonneg n4] at b4
    rw [clampZero_of_nonneg n5] at b5
    rw [clampZero_of_nonneg n6] at b6
    exact ⟨b1, b2, b3, b4, b5, b6⟩

unseal Rat.add Rat.mul Rat.inv Rat.sub in
/-- C16, as stated, fails: the first tick of `settledUser` at `sampleNow` returns
`settledUserTicked`, with `BalanceSolo = 1`, `BalanceSoloPending = 5` and
`BalanceSoloPendingApplied` reset to `0`; a second tick at the same instant credits the pending
amount 5 again and returns `BalanceSolo = 6` and `BalanceTotalStandard = 6`. -/
theorem mine_same_instant_counterexample :
    mine sampleConfig idleHelpers 1 sampleNow (some settledUser) none none =
        some (some settledUserTicked, some { settledUser with HistoryPart := "2023-11-14T21" }) ∧
      mine sampleConfig idleHelpers 1 sampleNow (some settledUserTicked) none none =
        some (some settledUserTickedTwice, none) ∧
      settledUserTicked.BalanceSolo = 1 ∧ settledUserTickedTwice.BalanceSolo = 6 ∧
      settledUserTicked.BalanceTotalStandard = 1 ∧
      settledUserTickedTwice.BalanceTotalStandard = 6 := by
  decide

/-- C16, amended. Let `u1` be the user a tick at `now` returns, resurrection and rewiring
leaving users as they are, and let `u1` carry no unapplied pending amount on its three
channels (which fails when the tick reset a `PendingApplied` whose `Pending` is not zero).
Then ticking `u1` again at `now` returns without history, and either returns no user or a user
whose six balances and two totals are those of `u1`. -/
theorem mine_same_instant (cfg : config) (hp : Helpers) (rate : ℚ) (now : Time)
    (u : user) (t0 tm1 : Option referral) (u1 : user) (hist : Option user)
    (hprep : ∀ x, hp.prepare now x t0 tm1 = x)
    (h : mine cfg hp rate now (some u) t0 tm1 = some (some u1, hist))
    (hp1 : u1.BalanceSoloPending - u1.BalanceSoloPendingApplied = 0)
    (hp2 : u1.BalanceT1Pending - u1.BalanceT1PendingApplied = 0)
    (hp3 : u1.BalanceT2Pending - u1.BalanceT2PendingApplied = 0) :
    mine cfg hp rate now (some u1) t0 tm1 = some (none, none) ∨
      ∃ u2, mine cfg hp rate now (some u1) t0 tm1 = some (some u2, none) ∧
        sameBalances u2 u1 := by
  obtain ⟨s, e, hs, he⟩ := mine_some_session h
  have hew : (hp.prepare now u t0 tm1).MiningSessionSoloEndedAt = some e := by rw [hprep, he]
  have hidle : ∀ (x : user) (hxs : x.MiningSessionSoloStartedAt = some s)
      (hxe : x.MiningSessionSoloEndedAt = some e) (hxi : idleCondition x e now = true),
      mine cfg hp rate now (some x) t0 tm1 = some (none, none) ∨
        ∃ u2, mine cfg hp rate now (some x) t0 tm1 = some (some u2, none) ∧
          sameBalances u2 x := by
    intro x hxs hxe hxi
    have hxe' : (hp.prepare now x t0 tm1).MiningSessionSoloEndedAt = some e := by
      rw [hprep, hxe]
    have hxi' : idleCondition (hp.prepare now x t0 tm1) e now = true := by rw [hprep, hxi]
    rcases @mine_of_idle cfg hp rate now x t0 tm1 s e e hxs hxe hxe' hxi' with hm | hm
    · exact Or.inl hm
    · refine Or.inr ⟨_, hm, ?_⟩
      rw [hprep]
      exact ⟨rfl, rfl, rfl, rfl, rfl, rfl, rfl, rfl⟩
  rcases mine_tick h hew with ⟨hi, hu1, -⟩ | ⟨-, last, m, sl, -, -, hact, hend, hagg⟩
  · rw [hprep] at hi hu1
    subst hu1
    exact hidle (idleUpdate u) hs he hi
  · rw [hprep] at hact hend hagg
    obtain ⟨g1, g2, g3, -, -, -, g7, g8, g9⟩ := hagg
    have hn := tick_balances_nonneg (fun hc => (hact hc).1) (fun hc => (hend hc).1)
    have hs1 : u1.MiningSessionSoloStartedAt = some s := by rw [g8, hs]
    have he1 : u1.MiningSessionSoloEndedAt = some e := by rw [g9, he]
    cases hi2 : idleCondition u1 e now with
    | true => exact hidle u1 hs1 he1 hi2
    | false =>
      right
      have he1' : (hp.prepare now u1 t0 tm1).MiningSessionSoloEndedAt = some e := by
        rw [hprep, he1]
      obtain ⟨r2, hr2⟩ := mineFull_isSome cfg rate now u1 e (hp.prepare now u1 t0 tm1) t0 tm1 s
        (by rw [hprep, hs1]) (by rw [hprep])
      have hm2 := mine_of_mineFull hs1 he1 he1' (by rw [hprep, hi2]) hr2
      obtain ⟨last2, hst2, hh2, hact2, hend2, hagg2⟩ := mineFull_tick hr2
      rw [hprep] at hst2 hh2 hact2 hend2 hagg2
      have hlast : last2 = now := by
        rcases hst2 with h1 | ⟨h1, -⟩
        · rw [g7] at h1; cases h1; rfl
        · rw [g7] at h1; cases h1
      subst hlast
      have hnone : r2.history = none := by
        cases hx : r2.history with
        | none => rfl
        | some x =>
          obtain ⟨l, h1, h2⟩ := hh2.mp (by rw [hx]; rfl)
          rw [g7] at h1
          cases h1
          rw [differentBucket_self] at h2
          exact absurd h2 (by decide)
      rw [elapsedHours_self] at hact2 hend2 hagg2
      obtain ⟨k1, k2, k3, -⟩ := hagg2
      obtain ⟨z1, z2, z3, z4, z5, z6⟩ :=
        tick_zero_hours (fun hc => (hact2 hc).1) (fun hc => (hend2 hc).1) hp1 hp2 hp3 hn
      refine ⟨r2.updatedUser, by rw [hm2, hnone], z1, z2, z3, z4, z5, z6, ?_⟩
      unfold totalsConsistent at g3 k3
      rw [k1, k2, z1, z2, z3, z4, ← g3] at k3
      simp only [Prod.mk.injEq] at k3
      exact k3

unseal Rat.add Rat.mul Rat.inv Rat.sub in
theorem mine_same_instant_witness :
    (mine sampleConfig idleHelpers 1 sampleNow (some miningUser) none none =
        some (some miningUserTicked, some miningUserHistory) ∧
      mine sampleConfig idleHelpers 1 sampleNow (some miningUserTicked) none none =
        some (some miningUserTicked, none)) ∧
    (mine sampleConfig idleHelpers 1 sampleNow (some miningUserTicked) none none =
        some (none, none) ∨
      ∃ u2, mine sampleConfig idleHelpers 1 sampleNow (some miningUserTicked) none none =
          some (some u2, none) ∧ sameBalances u2 miningUserTicked) :=
  ⟨by decide,
   mine_same_instant sampleConfig idleHelpers 1 sampleNow miningUser none none miningUserTicked
     (some miningUserHistory) (fun _ => rfl) (by decide) (by decide) (by decide) (by decide)⟩

/-! ## Eligibility for T0 and T-1 -/

/-- C17, as stated, fails: the referral-side predicate is evaluated on the user, not on the
referrer. With a predicate that only rejects the denied country "xx": `deniedUser` is from "xx"
and its referrer `sampleT0` is not, so the claim gives eligible, and the method returns
`false`; `miningUser` is not from "xx" and its referrer `deniedT0` is, so the claim gives not
eligible, and the method returns `true`. -/
theorem isEligibleForT0ForEthereumDistribution_counterexample :
    (eligibleForT0AsSpecified denyingConfig countryCollaborators (some deniedUser) sampleT0
          sampleNow = true ∧
        isEligibleForT0ForEthereumDistribution denyingConfig countryCollaborators
          (some deniedUser) sampleNow sampleT0.ID = false) ∧
      (eligibleForT0AsSpecified denyingConfig countryCollaborators (some miningUser) deniedT0
          sampleNow = false ∧
        isEligibleForT0ForEthereumDistribution denyingConfig countryCollaborators
          (some miningUser) sampleNow deniedT0.ID = true) := by
  decide

/-- C17, amended. `isEligibleForT0ForEthereumDistribution(now, idT0)` holds exactly when the
user exists with a non-zero ID, `IsEligibleForEthereumDistributionNow` holds on `idT0` with the
user's `ForT0LastEthereumCoinDistributionProcessedAt`, and the user itself passes the
referral-side predicate (address "skip", zero required streaks, balance 0.1 against a minimum
of zero), evaluated on the user's country, KYC state and session; symmetrically for T-1 with
`ForTMinus1LastEthereumCoinDistributionProcessedAt`. -/
theorem isEligibleForT0ForEthereumDistribution_iff (cfg : config) (ext : Collaborators)
    (ou : Option user) (now : Time) (idT0 idTMinus1 : Int) :
    (isEligibleForT0ForEthereumDistribution cfg ext ou now idT0 = true ↔
      ∃ u, ou = some u ∧ u.ID ≠ 0 ∧
        ext.IsEligibleForEthereumDistributionNow idT0 now
          u.ForT0LastEthereumCoinDistributionProcessedAt
          cfg.coinDistributionCollectorSettings.StartDate
          cfg.EthereumDistributionFrequencyMin cfg.EthereumDistributionFrequencyMax = true ∧
        ext.IsEligibleForEthereumDistribution 0 (1 / 10) 0 "skip" u.Country
          cfg.coinDistributionCollectorSettings.DeniedCountries now
          (currentCoinDistributionCollectingEndedAt cfg)
          u.MiningSessionSoloStartedAt u.MiningSessionSoloEndedAt
          cfg.coinDistributionCollectorSettings.EndDate u.KYCState
          cfg.MiningSessionDurationMax
          cfg.EthereumDistributionFrequencyMin cfg.EthereumDistributionFrequencyMax = true) ∧
    (isEligibleForTMinus1ForEthereumDistribution cfg ext ou now idTMinus1 = true ↔
      ∃ u, ou = some u ∧ u.ID ≠ 0 ∧
        ext.IsEligibleForEthereumDistributionNow idTMinus1 now
          u.ForTMinus1LastEthereumCoinDistributionProcessedAt
          cfg.coinDistributionCollectorSettings.StartDate
          cfg.EthereumDistributionFrequencyMin cfg.EthereumDistributionFrequencyMax = true ∧
        ext.IsEligibleForEthereumDistribution 0 (1 / 10) 0 "skip" u.Country
          cfg.coinDistributionCollectorSettings.DeniedCountries now
          (currentCoinDistributionCollectingEndedAt cfg)
          u.MiningSessionSoloStartedAt u.MiningSessionSoloEndedAt
          cfg.coinDistributionCollectorSettings.EndDate u.KYCState
          cfg.MiningSessionDurationMax
          cfg.EthereumDistributionFrequencyMin cfg.EthereumDistributionFrequencyMax = true) := by
  cases ou with
  | none =>
    simp [isEligibleForT0ForEthereumDistribution, isEligibleForTMinus1ForEthereumDistribution]
  | some u =>
    simp [isEligibleForT0ForEthereumDistribution, isEligibleForTMinus1ForEthereumDistribution,
      user.isEligibleForT0ForEthereumDistribution, user.isEligibleForTMinus1ForEthereumDistribution,
      user.isEligibleForReferralForEthereumDistribution, and_assoc]

/-! ## Last-processed marks -/

theorem markFor_eq (now : Time) (b : ℚ) : markFor now b = if 0 < b then some now else none := by
  simp [markFor, ethereumDistributionDryRunModeEnabled]

theorem balanceOf_assign {record record' : Option ByEarnerForReview} {b : ℚ}
    (h : assignBalance record b = some record') : balanceOf record' = b := by
  cases record with
  | none => simp [assignBalance] at h
  | some r =>
    simp only [assignBalance, Option.some.injEq] at h
    subst h
    rfl

theorem forSolo_marks (cfg : config) (ext : Collaborators) (u : user) (now : Time) :
    (processEthereumCoinDistributionForSolo cfg ext u now).1.UserID = u.UserID ∧
    (processEthereumCoinDistributionForSolo cfg ext u now).1.BalanceT0 = u.BalanceT0 ∧
    (processEthereumCoinDistributionForSolo cfg ext u now).1.BalanceT0Ethereum =
      u.BalanceT0Ethereum ∧
    (processEthereumCoinDistributionForSolo cfg ext u now).1.PreStakingAllocation =
      u.PreStakingAllocation ∧
    (processEthereumCoinDistributionForSolo cfg ext u now).1.PreStakingBonus =
      u.PreStakingBonus := by
  simp only [processEthereumCoinDistributionForSolo]
  split_ifs <;> exact ⟨rfl, rfl, rfl, rfl, rfl⟩

/-- The solo mark after the stage for the user itself, by the balances of the solo record and
of the T0 record; the other two pointers are not touched. -/
theorem selfStage_marks {cfg : config} {ext : Collaborators} {u : user} {now : Time}
    {t0 tm1 : Option referral} {st : stagedRecords} {u' : user} {st' : stagedRecords}
    (h : selfStage cfg ext u now t0 tm1 st = some (u', st'))
    (h1 : balanceOf st.t0CD = 0) :
    u'.SoloLastEthereumCoinDistributionProcessedAt =
      (if user.isEligibleForSelfForEthereumDistribution cfg ext u now = true ∧
          0 < balanceOf st'.soloCD + balanceOf st'.t0CD then some now else none) ∧
    st'.forT0CD = st.forT0CD ∧ st'.forTMinus1CD = st.forTMinus1CD := by
  unfold selfStage at h
  by_cases he : user.isEligibleForSelfForEthereumDistribution cfg ext u now = true
  · rw [if_pos he] at h
    simp only at h
    cases ha : assignBalance st.soloCD (processEthereumCoinDistributionForSolo cfg ext u now).2 with
    | none => rw [ha] at h; simp at h
    | some soloCD =>
      rw [ha] at h
      simp only [Option.some_bind] at h
      have hb := balanceOf_assign ha
      by_cases hp : (pairChainOk u t0 tm1 &&
          referral.isEligibleForReferralForEthereumDistribution cfg ext t0 now) = true
      · rw [if_pos hp] at h
        cases ha2 : assignBalance st.t0CD (processEthereumCoinDistributionForT0 cfg ext
            (processEthereumCoinDistributionForSolo cfg ext u now).1 now).2 with
        | none => rw [ha2] at h; simp at h
        | some t0CD =>
          rw [ha2] at h
          simp only [Option.some_bind, Option.some.injEq, Prod.mk.injEq] at h
          have hb2 := balanceOf_assign ha2
          obtain ⟨hu, hs⟩ := h
          subst hu hs
          simp only [hb, hb2, he, true_and, markFor_eq]
      · rw [if_neg hp] at h
        simp only [Option.some.injEq, Prod.mk.injEq] at h
        obtain ⟨hu, hs⟩ := h
        subst hu hs
        simp only [hb, h1, add_zero, he, true_and, markFor_eq]
  · rw [if_neg he] at h
    simp only [Option.some.injEq, Prod.mk.injEq] at h
    obtain ⟨hu, hs⟩ := h
    subst hu hs
    rw [if_neg (fun hc => he hc.1)]
    exact ⟨rfl, rfl, rfl⟩

/-- The mark for T0 after the stage for T0, by the returned amount; the solo mark and the other
three pointers are not touched. -/
theorem forT0Stage_marks {cfg : config} {ext : Collaborators} {u : user} {now : Time}
    {t0 tm1 : Option referral} {st : stagedRecords} {u' : user} {st' : stagedRecords} {b : ℚ}
    (h : forT0Stage cfg ext u now t0 tm1 st = some (u', st', b)) :
    u'.ForT0LastEthereumCoinDistributionProcessedAt = (if 0 < b then some now else none) ∧
    u'.SoloLastEthereumCoinDistributionProcessedAt =
      u.SoloLastEthereumCoinDistributionProcessedAt ∧
    st'.soloCD = st.soloCD ∧ st'.t0CD = st.t0CD ∧ st'.forTMinus1CD = st.forTMinus1CD := by
  unfold forT0Stage at h
  cases t0 with
  | none =>
    simp only [Option.some.injEq, Prod.mk.injEq] at h
    obtain ⟨hu, hs, hb⟩ := h
    subst hu hs hb
    simp
  | some t =>
    simp only at h
    by_cases hc : (pairChainOk u (some t) tm1 &&
        user.isEligibleForT0ForEthereumDistribution cfg ext u now t.ID &&
        referral.isEligibleForSelfForEthereumDistribution cfg ext (some t) now
          u.ForT0LastEthereumCoinDistributionProcessedAt) = true
    · rw [if_pos hc] at h
      cases ha : assignBalance st.forT0CD
          (processEthereumCoinDistributionForForT0 cfg ext u t now).2 with
      | none => rw [ha] at h; simp at h
      | some forT0CD =>
        rw [ha] at h
        simp only [Option.some_bind, Option.some.injEq, Prod.mk.injEq] at h
        obtain ⟨hu, hs, hb⟩ := h
        obtain ⟨e, he, -⟩ := processEthereumCoinDistributionForForT0_user cfg ext u t now
        rw [he] at hu
        subst hu hs hb
        simp only [markFor_eq, ethereumDistributionDryRunModeEnabled, Bool.not_false,
          Bool.true_and, decide_eq_true_eq, gt_iff_lt]
        refine ⟨?_, trivial, trivial, trivial, trivial⟩
        by_cases hpos : 0 < (processEthereumCoinDistributionForForT0 cfg ext u t now).2
        · simp [hpos]
        · simp [hpos]
    · rw [if_neg hc] at h
      simp only [Option.some.injEq, Prod.mk.injEq] at h
      obtain ⟨hu, hs, hb⟩ := h
      subst hu hs hb
      simp

/-- The mark for T-1 after the stage for T-1, by the returned amount; the other two marks and
the other three pointers are not touched. -/
theorem forTMinus1Stage_marks {cfg : config} {ext : Collaborators} {u : user} {now : Time}
    {t0 tm1 : Option referral} {st : stagedRecords} {u' : user} {st' : stagedRecords} {b : ℚ}
    (h : forTMinus1Stage cfg ext u now t0 tm1 st = some (u', st', b)) :
    u'.ForTMinus1LastEthereumCoinDistributionProcessedAt = (if 0 < b then some now else none) ∧
    u'.SoloLastEthereumCoinDistributionProcessedAt =
      u.SoloLastEthereumCoinDistributionProcessedAt ∧
    u'.ForT0LastEthereumCoinDistributionProcessedAt =
      u.ForT0LastEthereumCoinDistributionProcessedAt ∧
    st'.soloCD = st.soloCD ∧ st'.t0CD = st.t0CD ∧ st'.forT0CD = st.forT0CD := by
  unfold forTMinus1Stage at h
  cases tm1 with
  | none =>
    simp only [Option.some.injEq, Prod.mk.injEq] at h
    obtain ⟨hu, hs, hb⟩ := h
    subst hu hs hb
    simp
  | some m =>
    simp only at h
    by_cases hc : (tMinus1ChainOk u t0 (some m) &&
        user.isEligibleForTMinus1ForEthereumDistribution cfg ext u now m.ID &&
        referral.isEligibleForSelfForEthereumDistribution cfg ext (some m) now
          u.ForTMinus1LastEthereumCoinDistributionProcessedAt) = true
    · rw [if_pos hc] at h
      cases ha : assignBalance st.forTMinus1CD
          (processEthereumCoinDistributionForForTMinus1 cfg ext u m now).2 with
      | none => rw [ha] at h; simp at h
      | some forTMinus1CD =>
        rw [ha] at h
        simp only [Option.some_bind, Option.some.injEq, Prod.mk.injEq] at h
        obtain ⟨hu, hs, hb⟩ := h
        obtain ⟨e, he, -⟩ := processEthereumCoinDistributionForForTMinus1_user cfg ext u m now
        rw [he] at hu
        subst hu hs hb
        simp only [markFor_eq, ethereumDistributionDryRunModeEnabled, Bool.not_false,
          Bool.true_and, decide_eq_true_eq, gt_iff_lt]
        refine ⟨?_, trivial, trivial, trivial, trivial, trivial⟩
        by_cases hpos : 0 < (processEthereumCoinDistributionForForTMinus1 cfg ext u m now).2
        · simp [hpos]
        · simp [hpos]
    · rw [if_neg hc] at h
      simp only [Option.some.injEq, Prod.mk.injEq] at h
      obtain ⟨hu, hs, hb⟩ := h
      subst hu hs hb
      simp

/-- The records created by the staging step: the solo record and the T0 record are on the
account of the user, the other two are on the account of a referrer that is not the user, and
the T0 record has balance zero. -/
theorem stageRecords_own (cfg : config) (u : user) (now : Time) (t0 tm1 : Option referral) :
    ownRecords u.UserID (stageRecords cfg u now t0 tm1).parties ∧
      balanceOf (stageRecords cfg u now t0 tm1).t0CD = 0 := by
  unfold ownRecords stagedRecords.parties stageRecords balanceOf
  cases t0 with
  | none =>
    cases tm1 with
    | none => simp [parties, pairChainOk, tMinus1ChainOk, referralRecord]
    | some m => simp [parties, pairChainOk, tMinus1ChainOk, referralRecord]
  | some t =>
    cases tm1 with
    | none =>
      simp only [pairChainOk, tMinus1ChainOk, referralRecord]
      by_cases hr : user.couldHaveBeenEligibleForEthereumDistributionRecently cfg u now = true
      · by_cases ht : referral.couldHaveBeenEligibleForEthereumDistributionRecently cfg
            (some t) now = true
        · by_cases hne : t.UserID = u.UserID
          · simp [parties, hr, ht, hne]
          · simp [parties, hr, ht, hne, @eq_comm _ u.UserID t.UserID]
        · simp [parties, hr, ht]
      · simp [parties, hr]
    | some m =>
      simp only [pairChainOk, tMinus1ChainOk, referralRecord]
      by_cases hr : user.couldHaveBeenEligibleForEthereumDistributionRecently cfg u now = true
      · by_cases hne : t.UserID = u.UserID <;> by_cases hm : m.UserID = u.UserID <;>
          by_cases hmt : m.UserID = t.UserID <;>
          by_cases ht : referral.couldHaveBeenEligibleForEthereumDistributionRecently cfg
            (some t) now = true <;>
          by_cases hmr : referral.couldHaveBeenEligibleForEthereumDistributionRecently cfg
            (some m) now = true <;>
          simp [parties, hr, ht, hmr, hne, hm, hmt, @eq_comm _ u.UserID t.UserID,
            @eq_comm _ u.UserID m.UserID, @eq_comm _ t.UserID m.UserID]
      · simp [parties, hr]

/-- On the returned slice, the balances of the records on the account of the user add up to the
balance of the solo record plus the balance of the T0 record. -/
theorem selfRecordsBalance_toList {userID : String} {st : stagedRecords}
    (h : ownRecords userID st.parties) :
    selfRecordsBalance userID (some st.toList) = balanceOf st.soloCD + balanceOf st.t0CD := by
  obtain ⟨soloCD, t0CD, forT0CD, forTMinus1CD⟩ := st
  obtain ⟨h1, h2, h3, h4⟩ := h
  simp only [stagedRecords.parties] at h1 h2 h3 h4
  have e1 : ∀ r, soloCD = some r → r.UserID = userID := fun r hr => h1 _ (by rw [hr]; rfl)
  have e2 : ∀ r, t0CD = some r → r.UserID = userID := fun r hr => h2 _ (by rw [hr]; rfl)
  have e3 : ∀ r, forT0CD = some r → r.UserID ≠ userID := fun r hr => h3 _ (by rw [hr]; rfl)
  have e4 : ∀ r, forTMinus1CD = some r → r.UserID ≠ userID := fun r hr => h4 _ (by rw [hr]; rfl)
  have f1 : ((soloCD.toList.filter (fun r => r.UserID == userID)).map
      (fun r => r.Balance)).sum = balanceOf soloCD := by
    cases soloCD with
    | none => rfl
    | some r => simp [Option.toList, List.filter, e1 r rfl, balanceOf]
  have f2 : ((t0CD.toList.filter (fun r => r.UserID == userID)).map
      (fun r => r.Balance)).sum = balanceOf t0CD := by
    cases t0CD with
    | none => rfl
    | some r => simp [Option.toList, List.filter, e2 r rfl, balanceOf]
  have f3 : ((forT0CD.toList.filter (fun r => r.UserID == userID)).map
      (fun r => r.Balance)).sum = 0 := by
    cases forT0CD with
    | none => rfl
    | some r =>
      have hne : (r.UserID == userID) = false := by simpa using e3 r rfl
      simp [Option.toList, List.filter, hne]
  have f4 : ((forTMinus1CD.toList.filter (fun r => r.UserID == userID)).map
      (fun r => r.Balance)).sum = 0 := by
    cases forTMinus1CD with
    | none => rfl
    | some r =>
      have hne : (r.UserID == userID) = false := by simpa using e4 r rfl
      simp [Option.toList, List.filter, hne]
  simp only [selfRecordsBalance, stagedRecords.toList, List.filter_append, List.map_append,
    List.sum_append, f1, f2, f3, f4, add_zero]

/-- C11. After every call of `processEthereumCoinDistribution` that completes, each of the
three last-processed marks is `now` or nil; the solo mark is `now` exactly when the user is
self-eligible and the balance of the solo record plus the balance of the T0 record is positive;
the mark for T0 is `now` exactly when the returned `balanceDistributedForT0` is positive, and
the mark for T-1 exactly when the returned `balanceDistributedForTMinus1` is positive. -/
theorem processEthereumCoinDistribution_marks (cfg : config) (ext : Collaborators) (u : user)
    (now : Time) (t0 tm1 : Option referral) (r : distributionResult)
    (h : processEthereumCoinDistribution cfg ext u now t0 tm1 = some r) :
    marksFollowBalances cfg ext u now r := by
  cases hg : isCoinDistributionCollectorEnabled cfg ext now with
  | false =>
    rw [closedGate_result cfg ext u now t0 tm1 hg] at h
    simp only [Option.some.injEq] at h
    subst h
    simp [marksFollowBalances, closedGate, selfRecordsBalance]
  | true =>
    obtain ⟨u1, st1, u2, st2, b2, u3, st3, b3, h1, h2, h3, hr⟩ :=
      processEthereumCoinDistribution_open hg h
    subst hr
    obtain ⟨hown, hz⟩ := stageRecords_own cfg (clearEthereumPending u) now t0 tm1
    obtain ⟨m1, -, -⟩ := selfStage_marks h1 hz
    obtain ⟨m2, m2s, k1, k2, -⟩ := forT0Stage_marks h2
    obtain ⟨m3, m3s, m3t, l1, l2, -⟩ := forTMinus1Stage_marks h3
    have p1 := (selfStage_effect h1).2
    have p2 := (forT0Stage_effect h2).2
    have p3 := (forTMinus1Stage_effect h3).2
    have hown3 : ownRecords u.UserID st3.parties := by
      rw [p3, p2, p1]
      exact hown
    have hsum := selfRecordsBalance_toList hown3
    rw [l1, l2, k1, k2] at hsum
    have hsolo : u3.SoloLastEthereumCoinDistributionProcessedAt =
        (if user.isEligibleForSelfForEthereumDistribution cfg ext u now = true ∧
          0 < selfRecordsBalance u.UserID (some st3.toList) then some now else none) := by
      rw [m3s, m2s, m1, hsum]
      rfl
    have hfor : u3.ForT0LastEthereumCoinDistributionProcessedAt =
        (if 0 < b2 then some now else none) := by
      rw [m3t, m2]
    simp only [marksFollowBalances]
    rw [hsolo, hfor, m3]
    refine ⟨⟨?_, ?_, ?_⟩, ?_, ?_, ?_⟩
    · split_ifs
      · exact Or.inl rfl
      · exact Or.inr rfl
    · split_ifs
      · exact Or.inl rfl
      · exact Or.inr rfl
    · split_ifs
      · exact Or.inl rfl
      · exact Or.inr rfl
    · split_ifs with hc
      · exact ⟨fun _ => hc, fun _ => rfl⟩
      · exact ⟨fun hx => (by cases hx), fun hx => absurd hx hc⟩
    · split_ifs with hc
      · exact ⟨fun _ => hc, fun _ => rfl⟩
      · exact ⟨fun hx => (by cases hx), fun hx => absurd hx hc⟩
    · split_ifs with hc
      · exact ⟨fun _ => hc, fun _ => rfl⟩
      · exact ⟨fun hx => (by cases hx), fun hx => absurd hx hc⟩

unseal Rat.add Rat.mul Rat.inv Rat.sub in
theorem processEthereumCoinDistribution_marks_witness :
    processEthereumCoinDistribution sampleConfig openCollaborators earningUser sampleNow
        (some sampleT0) (some sampleTMinus1) =
      some { u := earningUserDistributed, records := some earningUserRecords,
             balanceDistributedForT0 := 4, balanceDistributedForTMinus1 := 1 } ∧
    marksFollowBalances sampleConfig openCollaborators earningUser sampleNow
      { u := earningUserDistributed, records := some earningUserRecords,
        balanceDistributedForT0 := 4, balanceDistributedForTMinus1 := 1 } :=
  ⟨by decide,
   processEthereumCoinDistribution_marks sampleConfig openCollaborators earningUser sampleNow
     (some sampleT0) (some sampleTMinus1) _ (by decide)⟩

/-! ## The worker manager -/

theorem incr64_of_lt {k : Int} (h0 : 0 ≤ k) (h1 : k + 1 < 9223372036854775808) :
    incr64 k = k + 1 := by
  unfold incr64
  omega

theorem finishCycle_cancelled {s : managerState} (h : s.cancelled = true) :
    (finishCycle s).notified = s.notified ∧ (finishCycle s).cancelled = true := by
  unfold finishCycle
  rw [if_pos h]
  exact ⟨rfl, h⟩

theorem enterEndBarrier_cancelled {s : managerState} (h : s.cancelled = true) :
    (enterEndBarrier s).notified = s.notified ∧ (enterEndBarrier s).cancelled = true := by
  unfold enterEndBarrier
  rw [if_pos h]
  exact finishCycle_cancelled h

/-- Once `ctx` is cancelled, a step never notifies, and `ctx` stays cancelled. -/
theorem managerStep_cancelled (workers : Int) {s : managerState} (e : managerEvent)
    (h : s.cancelled = true) :
    (managerStep workers s e).notified = s.notified ∧
      (managerStep workers s e).cancelled = true := by
  obtain ⟨p, c, cy, nt⟩ := s
  simp only at h
  subst h
  cases e <;> cases p <;> simp [managerStep, enterEndBarrier, finishCycle]

/-- Once `ctx` is cancelled, no run notifies. -/
theorem managerRun_cancelled (workers : Int) (es : List managerEvent) :
    ∀ s : managerState, s.cancelled = true →
      (managerRun workers s es).notified = s.notified := by
  induction es with
  | nil => intro s _; rfl
  | cons e es ih =>
    intro s h
    obtain ⟨h1, h2⟩ := managerStep_cancelled workers e h
    show (managerRun workers (managerStep workers s e) es).notified = s.notified
    rw [ih _ h2, h1]

theorem managerRun_append (workers : Int) (s : managerState) (es1 es2 : List managerEvent) :
    managerRun workers s (es1 ++ es2) = managerRun workers (managerRun workers s es1) es2 := by
  simp [managerRun, List.foldl_append]

theorem managerInv_mono {workers : Int} {n : Nat} {s : managerState}
    (h : managerInv workers n s) : managerInv workers (n + 1) s := by
  obtain ⟨p, c, cy, nt⟩ := s
  obtain ⟨h1, h2⟩ := h
  refine ⟨h1, ?_⟩
  cases p with
  | idle => trivial
  | returned => trivial
  | startBarrier k =>
    obtain ⟨j, hk, hj1, hjn, hc⟩ := h2
    exact ⟨j, hk, hj1, Nat.le_succ_of_le hjn, hc⟩
  | endBarrier k =>
    obtain ⟨j, hk, hjn, hw, hc⟩ := h2
    exact ⟨j, hk, Nat.le_succ_of_le hjn, hw, hc⟩

theorem managerInv_returned {workers : Int} {n : Nat} {c : Bool} {cy : List managerEvent}
    {nt : List (List managerEvent)} (h : ∀ x ∈ nt, x = fullCycle workers) :
    managerInv workers n
      { phase := managerPhase.returned, cancelled := c, cycle := cy, notified := nt } :=
  ⟨h, trivial⟩

/-- A step keeps the invariant, as long as the counters cannot overflow. -/
theorem managerStep_inv (workers : Int) {n : Nat} {s : managerState} (e : managerEvent)
    (hn : (n : Int) + 1 < 9223372036854775808) (h : managerInv workers n s) :
    managerInv workers (n + 1) (managerStep workers s e) := by
  have hmono := managerInv_mono h
  obtain ⟨p, c, cy, nt⟩ := s
  obtain ⟨h1, h2⟩ := h
  simp only at h1
  cases e with
  | cancel =>
    obtain ⟨-, m2⟩ := hmono
    exact ⟨h1, m2⟩
  | done =>
    simp only [managerStep]
    split_ifs
    · exact managerInv_returned h1
    · exact hmono
  | started =>
    cases p with
    | idle =>
      simp only [managerStep, enterEndBarrier, finishCycle]
      cases c with
      | true => exact managerInv_returned h1
      | false =>
        exact ⟨h1, 1, rfl, le_refl 1, Nat.succ_le_succ (Nat.zero_le n), rfl⟩
    | endBarrier k => exact hmono
    | returned => exact hmono
    | startBarrier k =>
      obtain ⟨j, hk, hj1, hjn, hc⟩ := h2
      simp only at hc
      subst hk hc
      have hi : incr64 (j : Int) = ((j + 1 : Nat) : Int) := by
        rw [incr64_of_lt (by omega) (by omega)]
        push_cast
        rfl
      simp only [managerStep, enterEndBarrier, finishCycle, hi]
      by_cases hw : ((j + 1 : Nat) : Int) = workers
      · rw [if_pos hw]
        cases c with
        | true => exact managerInv_returned h1
        | false =>
          refine ⟨h1, 0, rfl, Nat.zero_le _, by omega, ?_⟩
          have ht : workers.toNat = j + 1 := by omega
          simp only [ht, List.replicate_zero, List.append_nil]
          exact (List.replicate_succ' j managerEvent.started).symm
      · rw [if_neg hw]
        cases c with
        | true => exact managerInv_returned h1
        | false =>
          refine ⟨h1, j + 1, rfl, by omega, by omega, ?_⟩
          exact (List.replicate_succ' j managerEvent.started).symm
  | ended =>
    cases p with
    | idle => exact hmono
    | startBarrier k => exact hmono
    | returned => exact hmono
    | endBarrier k =>
      obtain ⟨j, hk, hjn, hw0, hc⟩ := h2
      simp only at hc
      subst hk hc
      have hi : incr64 (j : Int) = ((j + 1 : Nat) : Int) := by
        rw [incr64_of_lt (by omega) (by omega)]
        push_cast
        rfl
      simp only [managerStep, finishCycle, hi]
      by_cases hw : ((j + 1 : Nat) : Int) = workers
      · rw [if_pos hw]
        cases c with
        | true => exact managerInv_returned h1
        | false =>
          refine ⟨?_, trivial⟩
          intro x hx
          simp only [Bool.false_eq_true, if_false, List.mem_append, List.mem_singleton] at hx
          rcases hx with hx | hx
          · exact h1 x hx
          · have ht : workers.toNat = j + 1 := by omega
            rw [hx, fullCycle, ht, List.append_assoc, List.replicate_succ' j managerEvent.ended]
      · rw [if_neg hw]
        cases c with
        | true => exact managerInv_returned h1
        | false =>
          simp only [Bool.false_eq_true, if_false]
          refine ⟨h1, j + 1, rfl, by omega, hw0, ?_⟩
          simp only [List.append_assoc, List.replicate_succ' j managerEvent.ended]

/-- A run keeps the invariant, as long as the counters cannot overflow. -/
theorem managerRun_inv (workers : Int) (es : List managerEvent) :
    ∀ (n : Nat) (s : managerState), (n : Int) + es.length < 9223372036854775808 →
      managerInv workers n s → managerInv workers (n + es.length) (managerRun workers s es) := by
  induction es with
  | nil => intro n s _ h; exact h
  | cons e es ih =>
    intro n s hn h
    simp only [List.length_cons, Nat.cast_add, Nat.cast_one] at hn
    have hs := managerStep_inv workers e (by omega) h
    have := ih (n + 1) (managerStep workers s e) (by push_cast; omega) hs
    rw [List.length_cons, show n + (es.length + 1) = n + 1 + es.length by omega]
    exact this

theorem managerInit_inv (workers : Int) (c : Bool) : managerInv workers 0 (managerInit c) := by
  refine ⟨fun x hx => by simp [managerInit] at hx, ?_⟩
  cases c <;> trivial

/-- C12. Barrier conservation of the worker manager, over the sequence of signals it receives
(fewer than `2 ^ 63`, so that no `int64` counter overflows): every call of
`notifyCoinDistributionCollectionCycleEnded` closes a cycle in which the manager received
exactly `Workers` started signals followed by exactly `Workers` ended signals; and once `ctx`
is cancelled the manager never notifies again, whatever it receives afterwards. -/
theorem manager_barrier_conservation (workers : Int) (cancelled : Bool)
    (es : List managerEvent) (hlen : (es.length : Int) < 9223372036854775808) :
    (∀ c ∈ (managerRun workers (managerInit cancelled) es).notified, c = fullCycle workers) ∧
    (∀ es1 es2, es = es1 ++ es2 →
      (managerRun workers (managerInit cancelled) es1).cancelled = true →
      (managerRun workers (managerInit cancelled) es).notified =
        (managerRun workers (managerInit cancelled) es1).notified) := by
  refine ⟨?_, ?_⟩
  · have h := managerRun_inv workers es 0 (managerInit cancelled) (by push_cast; omega)
      (managerInit_inv workers cancelled)
    exact h.1
  · intro es1 es2 he hc
    rw [he, managerRun_append]
    exact managerRun_cancelled workers es2 _ hc

theorem manager_barrier_conservation_witness :
    (managerRun 2 (managerInit false)
        [managerEvent.started, managerEvent.started, managerEvent.ended,
          managerEvent.ended]).notified =
        [[managerEvent.started, managerEvent.started, managerEvent.ended,
          managerEvent.ended]] ∧
      (managerRun 2 (managerInit false)
        [managerEvent.started, managerEvent.started, managerEvent.ended, managerEvent.cancel,
          managerEvent.ended]).notified = [] ∧
      ((∀ c ∈ (managerRun 2 (managerInit false)
          [managerEvent.started, managerEvent.started, managerEvent.ended,
            managerEvent.ended]).notified, c = fullCycle 2) ∧
        (∀ es1 es2,
          [managerEvent.started, managerEvent.started, managerEvent.ended,
            managerEvent.ended] = es1 ++ es2 →
          (managerRun 2 (managerInit false) es1).cancelled = true →
          (managerRun 2 (managerInit false)
            [managerEvent.started, managerEvent.started, managerEvent.ended,
              managerEvent.ended]).notified =
            (managerRun 2 (managerInit false) es1).notified)) :=
  ⟨by decide, by decide,
   manager_barrier_conservation 2 false
     [managerEvent.started, managerEvent.started, managerEvent.ended, managerEvent.ended]
     (by decide)⟩

/-! ## Phantom slashing -/

theorem splitSum_zero (a b : ℚ) : splitSum 0 a b = 0 := by
  simp [splitSum, ApplyPreStaking]

/-- C21. On the full path, when the two totals of the input user add up to zero, the tick adds
nothing to `BalanceTotalSlashed`: it is the value of the clone `mine` works on when no history
snapshot is taken and `0` when one is, while the balances are still reduced by their slashing
rates. -/
theorem mine_phantom_slashing (cfg : config) (hp : Helpers) (rate : ℚ) (now : Time)
    (u : user) (t0 tm1 : Option referral) (u' : user) (hist : Option user) (endedAt : Time)
    (h : mine cfg hp rate now (some u) t0 tm1 = some (some u', hist))
    (he : (hp.prepare now u t0 tm1).MiningSessionSoloEndedAt = some endedAt)
    (hfull : idleCondition (hp.prepare now u t0 tm1) endedAt now = false)
    (hzero : u.BalanceTotalPreStaking + u.BalanceTotalStandard = 0) :
    phantomSlashingSuppressed cfg rate now endedAt (hp.prepare now u t0 tm1) u' t0 tm1
      hist.isSome := by
  rcases mine_tick h he with ⟨hi, -, -⟩ | ⟨-, last, m, s, hl, -, hact, hend, hagg⟩
  · rw [hfull] at hi
    exact absurd hi (by decide)
  · obtain ⟨-, -, -, -, g5, g6, -⟩ := hagg
    rw [if_pos hzero] at g6
    rw [g6, splitSum_zero, add_zero] at g5
    exact ⟨g5, last, hl, fun hc => (hact hc).1, fun hc => (hend hc).1⟩

unseal Rat.add Rat.mul Rat.inv Rat.sub in
theorem mine_phantom_slashing_witness :
    (mine sampleConfig idleHelpers 1 sampleNow (some unbookedUser) none none =
        some (some unbookedUserTicked, none) ∧
      unbookedUser.BalanceTotalSlashed = 3 ∧ unbookedUserTicked.BalanceTotalSlashed = 3 ∧
      unbookedUserTicked.BalanceSolo < unbookedUser.BalanceSolo) ∧
    phantomSlashingSuppressed sampleConfig 1 sampleNow (sampleNow - nanosPerHour)
      (idleHelpers.prepare sampleNow unbookedUser none none) unbookedUserTicked none none
      (none : Option user).isSome :=
  ⟨by decide,
   mine_phantom_slashing sampleConfig idleHelpers 1 sampleNow unbookedUser none none
     unbookedUserTicked none (sampleNow - nanosPerHour) (by decide) rfl (by decide)
     (by decide)⟩

/-! ## The idle short-circuit -/

theorem idleCondition_of_idleLedger {w : user} {endedAt now : Time}
    (h : idleLedger w endedAt now) : idleCondition w endedAt now = true := by
  obtain ⟨h1, h2, h3, h4, h5, h6, h7, h8⟩ := h
  simp [idleCondition, h1, h2, h3, h4, h5, h6, h7, h8]

unseal Rat.add Rat.mul Rat.inv Rat.sub in
/-- C22, as stated, fails in its last part: `idleUser` meets the conditions of the idle
short-circuit and has a T1 pending delta of `1`; `mine` returns it with
`BalanceT1PendingApplied = BalanceT1Pending = 1`, and `BalanceT1` is still `0`, not
`max 0 (0 + 1) = 1`. -/
theorem mine_idle_counterexample :
    idleLedger idleUser (sampleNow - nanosPerHour) sampleNow ∧
      idleUser.MiningSessionSoloEndedAt = some (sampleNow - nanosPerHour) ∧
      idleUser.BalanceT1Pending - idleUser.BalanceT1PendingApplied = 1 ∧
      mine sampleConfig idleHelpers 1 sampleNow (some idleUser) none none =
        some (some idleUserTicked, none) ∧
      idleUserTicked.BalanceT1PendingApplied = idleUserTicked.BalanceT1Pending ∧
      idleUserTicked.BalanceT1 = 0 ∧
      max 0 (idleUser.BalanceT1 +
        (idleUser.BalanceT1Pending - idleUser.BalanceT1PendingApplied)) = 1 := by
  decide

/-- C22, amended. For every user with both session instants whose clone meets the conditions of
the idle short-circuit, `mine` returns `(nil, nil)` when both the T1 and the T2 pending deltas
are zero; otherwise it returns `(updated, nil)`, where `updated` is the clone with
`BalanceT1PendingApplied` set to `BalanceT1Pending` and `BalanceT2PendingApplied` set to
`BalanceT2Pending` and nothing else changed: the deltas are marked as applied and are not added
to `BalanceT1` and `BalanceT2`, which stay `0`. -/
theorem mine_idle (cfg : config) (hp : Helpers) (rate : ℚ) (now : Time) (u : user)
    (t0 tm1 : Option referral) (s e endedAt : Time)
    (hs : u.MiningSessionSoloStartedAt = some s) (he0 : u.MiningSessionSoloEndedAt = some e)
    (he : (hp.prepare now u t0 tm1).MiningSessionSoloEndedAt = some endedAt)
    (hidle : idleLedger (hp.prepare now u t0 tm1) endedAt now) :
    ((hp.prepare now u t0 tm1).BalanceT1Pending -
          (hp.prepare now u t0 tm1).BalanceT1PendingApplied = 0 ∧
        (hp.prepare now u t0 tm1).BalanceT2Pending -
          (hp.prepare now u t0 tm1).BalanceT2PendingApplied = 0 →
      mine cfg hp rate now (some u) t0 tm1 = some (none, none)) ∧
    (¬ ((hp.prepare now u t0 tm1).BalanceT1Pending -
          (hp.prepare now u t0 tm1).BalanceT1PendingApplied = 0 ∧
        (hp.prepare now u t0 tm1).BalanceT2Pending -
          (hp.prepare now u t0 tm1).BalanceT2PendingApplied = 0) →
      ∃ u', mine cfg hp rate now (some u) t0 tm1 = some (some u', none) ∧
        u' = { hp.prepare now u t0 tm1 with
               BalanceT1PendingApplied := (hp.prepare now u t0 tm1).BalanceT1Pending,
               BalanceT2PendingApplied := (hp.prepare now u t0 tm1).BalanceT2Pending } ∧
        u'.BalanceT1PendingApplied = u'.BalanceT1Pending ∧
        u'.BalanceT2PendingApplied = u'.BalanceT2Pending ∧
        u'.BalanceT1 = 0 ∧ u'.BalanceT2 = 0) := by
  have hi := idleCondition_of_idleLedger hidle
  obtain ⟨-, -, -, z1, z2, -⟩ := hidle
  have hm : mine cfg hp rate now (some u) t0 tm1 =
      (if (hp.prepare now u t0 tm1).BalanceT1Pending -
            (hp.prepare now u t0 tm1).BalanceT1PendingApplied ≠ 0 ∨
          (hp.prepare now u t0 tm1).BalanceT2Pending -
            (hp.prepare now u t0 tm1).BalanceT2PendingApplied ≠ 0 then
        some (some (idleUpdate (hp.prepare now u t0 tm1)), none)
      else some (none, none)) := by
    simp only [mine, hs, he0, Option.isNone_some, Bool.or_self, Bool.false_eq_true, if_false]
    unfold mineClone
    rw [he]
    simp only [hi, if_true]
  refine ⟨?_, ?_⟩
  · rintro ⟨d1, d2⟩
    rw [hm, if_neg]
    rw [d1, d2]
    simp
  · intro hd
    refine ⟨idleUpdate (hp.prepare now u t0 tm1), ?_, rfl, rfl, rfl, z1, z2⟩
    rw [hm, if_pos]
    by_contra hc
    rw [not_or, not_not, not_not] at hc
    exact hd hc

unseal Rat.add Rat.mul Rat.inv Rat.sub in
theorem mine_idle_witness :
    idleLedger (idleHelpers.prepare sampleNow idleUser none none) (sampleNow - nanosPerHour)
        sampleNow ∧
      mine sampleConfig idleHelpers 1 sampleNow (some idleUserSettled) none none =
        some (none, none) ∧
      ((idleHelpers.prepare sampleNow idleUser none none).BalanceT1Pending -
            (idleHelpers.prepare sampleNow idleUser none none).BalanceT1PendingApplied = 0 ∧
          (idleHelpers.prepare sampleNow idleUser none none).BalanceT2Pending -
            (idleHelpers.prepare sampleNow idleUser none none).BalanceT2PendingApplied = 0 →
        mine sampleConfig idleHelpers 1 sampleNow (some idleUser) none none =
          some (none, none)) ∧
      (¬ ((idleHelpers.prepare sampleNow idleUser none none).BalanceT1Pending -
            (idleHelpers.prepare sampleNow idleUser none none).BalanceT1PendingApplied = 0 ∧
          (idleHelpers.prepare sampleNow idleUser none none).BalanceT2Pending -
            (idleHelpers.prepare sampleNow idleUser none none).BalanceT2PendingApplied = 0) →
        ∃ u', mine sampleConfig idleHelpers 1 sampleNow (some idleUser) none none =
            some (some u', none) ∧
          u' = { idleHelpers.prepare sampleNow idleUser none none with
                 BalanceT1PendingApplied :=
                   (idleHelpers.prepare sampleNow idleUser none none).BalanceT1Pending,
                 BalanceT2PendingApplied :=
                   (idleHelpers.prepare sampleNow idleUser none none).BalanceT2Pending } ∧
          u'.BalanceT1PendingApplied = u'.BalanceT1Pending ∧
          u'.BalanceT2PendingApplied = u'.BalanceT2Pending ∧
          u'.BalanceT1 = 0 ∧ u'.BalanceT2 = 0) :=
  ⟨by decide, by decide,
   mine_idle sampleConfig idleHelpers 1 sampleNow idleUser none none
     (sampleNow - 25 * nanosPerHour) (sampleNow - nanosPerHour) (sampleNow - nanosPerHour)
     rfl rfl rfl (by decide)⟩

/-! ## The solo distribution amount -/

theorem forSolo_amount (cfg : config) (ext : Collaborators) (u : user) (now : Time) :
    (processEthereumCoinDistributionForSolo cfg ext u now).2 =
      if 0 < soloEthICE cfg ext u now then soloEthICE cfg ext u now else 0 := by
  simp only [processEthereumCoinDistributionForSolo, soloEthICE, ApplyPreStaking_fst]
  by_cases h1 : ethICE cfg ext now
      (u.BalanceSolo - u.BalanceSolo * u.PreStakingAllocation / 100 - u.BalanceSoloEthereum) ≤ 0
  · rw [if_pos h1, if_neg (not_lt.mpr h1)]
  · rw [if_neg h1, if_pos (not_le.mp h1)]
    simp [ethereumDistributionDryRunModeEnabled]

/-- The solo record after the stage for the user itself, when the user is self-eligible: it is
the staged record with the solo amount as its balance. The pointers of the two records for the
referrers are not touched. -/
theorem selfStage_records {cfg : config} {ext : Collaborators} {u : user} {now : Time}
    {t0 tm1 : Option referral} {st : stagedRecords} {u' : user} {st' : stagedRecords}
    (h : selfStage cfg ext u now t0 tm1 st = some (u', st')) :
    st'.forT0CD = st.forT0CD ∧ st'.forTMinus1CD = st.forTMinus1CD ∧
    (user.isEligibleForSelfForEthereumDistribution cfg ext u now = true →
      ∃ r0, st.soloCD = some r0 ∧
        st'.soloCD = some { r0 with
          Balance := (processEthereumCoinDistributionForSolo cfg ext u now).2 }) := by
  unfold selfStage at h
  by_cases he : user.isEligibleForSelfForEthereumDistribution cfg ext u now = true
  · rw [if_pos he] at h
    simp only at h
    cases hr0 : st.soloCD with
    | none =>
      rw [hr0] at h
      simp [assignBalance] at h
    | some r0 =>
      have ha : assignBalance st.soloCD (processEthereumCoinDistributionForSolo cfg ext u now).2 =
          some (some { r0 with
            Balance := (processEthereumCoinDistributionForSolo cfg ext u now).2 }) := by
        rw [hr0]
        rfl
      rw [ha] at h
      simp only [Option.some_bind] at h
      by_cases hp : (pairChainOk u t0 tm1 &&
          referral.isEligibleForReferralForEthereumDistribution cfg ext t0 now) = true
      · rw [if_pos hp] at h
        cases ha2 : assignBalance st.t0CD (processEthereumCoinDistributionForT0 cfg ext
            (processEthereumCoinDistributionForSolo cfg ext u now).1 now).2 with
        | none => rw [ha2] at h; simp at h
        | some t0CD =>
          rw [ha2] at h
          simp only [Option.some_bind, Option.some.injEq, Prod.mk.injEq] at h
          obtain ⟨-, hs⟩ := h
          subst hs
          exact ⟨rfl, rfl, fun _ => ⟨r0, rfl, rfl⟩⟩
      · rw [if_neg hp] at h
        simp only [Option.some.injEq, Prod.mk.injEq] at h
        obtain ⟨-, hs⟩ := h
        subst hs
        exact ⟨rfl, rfl, fun _ => ⟨r0, rfl, rfl⟩⟩
  · rw [if_neg he] at h
    simp only [Option.some.injEq, Prod.mk.injEq] at h
    obtain ⟨-, hs⟩ := h
    subst hs
    exact ⟨rfl, rfl, fun hc => absurd hc he⟩

theorem stageRecords_soloCD (cfg : config) (u : user) (now : Time) (t0 tm1 : Option referral)
    (r0 : ByEarnerForReview) (h : (stageRecords cfg u now t0 tm1).soloCD = some r0) :
    r0.UserID = u.UserID ∧ r0.EarnerUserID = u.UserID := by
  have hs := (stageRecords_chainSafe cfg u now t0 tm1).1 (parties r0)
    (by simp only [stagedRecords.parties, h, Option.map_some'])
  simp only [parties, Prod.mk.injEq] at hs
  exact hs

unseal Rat.add Rat.mul Rat.inv Rat.sub in
/-- C23, as stated, fails for a non-zero allocation: `stakedUser` has `BalanceSolo = 10`,
nothing distributed yet and `PreStakingAllocation = 50`; with a collector that is enabled, finds
everybody eligible and releases the whole amount it is given, the claim gives a solo record of
`10`, and the record returned has `Balance = 5`, the standard half of the solo balance. -/
theorem processEthereumCoinDistribution_solo_amount_counterexample :
    isCoinDistributionCollectorEnabled sampleConfig openCollaborators sampleNow = true ∧
      user.isEligibleForSelfForEthereumDistribution sampleConfig openCollaborators stakedUser
        sampleNow = true ∧
      (0 ≤ stakedUser.PreStakingAllocation ∧ stakedUser.PreStakingAllocation ≤ 100) ∧
      ethICE sampleConfig openCollaborators sampleNow
        (stakedUser.BalanceSolo - stakedUser.BalanceSoloEthereum) = 10 ∧
      processEthereumCoinDistribution sampleConfig openCollaborators stakedUser sampleNow
          none none =
        some { u := stakedUserDistributed, records := some [stakedUserRecord],
               balanceDistributedForT0 := 0, balanceDistributedForTMinus1 := 0 } ∧
      stakedUserRecord.Balance = 5 := by
  decide

/-- C23, amended. For every self-eligible user with the collector enabled, on every call that
completes, the first record returned is the solo record of the user and its `Balance` is
`ethICE(standard - BalanceSoloEthereum)` when that value is positive and `0` otherwise, where
`standard = BalanceSolo - BalanceSolo * PreStakingAllocation / 100` is the standard part of the
pre-staking split of the solo balance; for allocation `0` this is
`ethICE(BalanceSolo - BalanceSoloEthereum)`. -/
theorem processEthereumCoinDistribution_solo_amount (cfg : config) (ext : Collaborators)
    (u : user) (now : Time) (t0 tm1 : Option referral) (r : distributionResult)
    (hg : isCoinDistributionCollectorEnabled cfg ext now = true)
    (hel : user.isEligibleForSelfForEthereumDistribution cfg ext u now = true)
    (h : processEthereumCoinDistribution cfg ext u now t0 tm1 = some r) :
    (∃ record rest, r.records = some (record :: rest) ∧
      record.UserID = u.UserID ∧ record.EarnerUserID = u.UserID ∧
      record.Balance =
        (if 0 < soloEthICE cfg ext u now then soloEthICE cfg ext u now else 0)) ∧
    (u.PreStakingAllocation = 0 →
      soloEthICE cfg ext u now = ethICE cfg ext now (u.BalanceSolo - u.BalanceSoloEthereum)) := by
  refine ⟨?_, ?_⟩
  · obtain ⟨u1, st1, u2, st2, b2, u3, st3, b3, h1, h2, h3, hres⟩ :=
      processEthereumCoinDistribution_open hg h
    subst hres
    obtain ⟨-, -, hsolo⟩ := selfStage_records h1
    obtain ⟨r0, hr0, hr1⟩ := hsolo hel
    obtain ⟨hu, hearn⟩ := stageRecords_soloCD cfg (clearEthereumPending u) now t0 tm1 r0 hr0
    obtain ⟨-, -, k1, -⟩ := forT0Stage_marks h2
    obtain ⟨-, -, -, l1, -⟩ := forTMinus1Stage_marks h3
    have h3solo : st3.soloCD = some { r0 with
        Balance := (processEthereumCoinDistributionForSolo cfg ext (clearEthereumPending u)
          now).2 } := by
      rw [l1, k1, hr1]
    have hlist : st3.toList =
        { r0 with Balance := (processEthereumCoinDistributionForSolo cfg ext
            (clearEthereumPending u) now).2 } ::
          ((st3.t0CD.toList ++ st3.forT0CD.toList) ++ st3.forTMinus1CD.toList) := by
      unfold stagedRecords.toList
      rw [h3solo]
      rfl
    exact ⟨_, _, congrArg some hlist, hu, hearn,
      forSolo_amount cfg ext (clearEthereumPending u) now⟩
  · intro ha
    simp only [soloEthICE, ha, mul_zero, zero_div, sub_zero]

unseal Rat.add Rat.mul Rat.inv Rat.sub in
theorem processEthereumCoinDistribution_solo_amount_witness :
    soloEthICE sampleConfig openCollaborators stakedUser sampleNow = 5 ∧
    ((∃ record rest, (some [stakedUserRecord] : Option (List ByEarnerForReview)) =
          some (record :: rest) ∧
        record.UserID = stakedUser.UserID ∧ record.EarnerUserID = stakedUser.UserID ∧
        record.Balance =
          (if 0 < soloEthICE sampleConfig openCollaborators stakedUser sampleNow then
            soloEthICE sampleConfig openCollaborators stakedUser sampleNow else 0)) ∧
      (stakedUser.PreStakingAllocation = 0 →
        soloEthICE sampleConfig openCollaborators stakedUser sampleNow =
          ethICE sampleConfig openCollaborators sampleNow
            (stakedUser.BalanceSolo - stakedUser.BalanceSoloEthereum))) :=
  ⟨by decide,
   processEthereumCoinDistribution_solo_amount sampleConfig openCollaborators stakedUser
     sampleNow none none
     { u := stakedUserDistributed, records := some [stakedUserRecord],
       balanceDistributedForT0 := 0, balanceDistributedForTMinus1 := 0 }
     (by decide) (by decide) (by decide)⟩

/-! ## Assignments through the record pointers -/

theorem user_eligibleForSelf_recently {cfg : config} {ext : Collaborators} {u : user} {now : Time}
    (hrec : eligibleOnlyRecently cfg ext now)
    (h : user.isEligibleForSelfForEthereumDistribution cfg ext u now = true) :
    endedRecently cfg u.MiningSessionSoloEndedAt now = true := by
  simp only [user.isEligibleForSelfForEthereumDistribution, Bool.and_eq_true] at h
  exact hrec _ _ _ _ _ _ _ _ h.2

theorem user_eligibleForReferral_recently {cfg : config} {ext : Collaborators} {u : user}
    {now : Time} (hrec : eligibleOnlyRecently cfg ext now)
    (h : user.isEligibleForReferralForEthereumDistribution cfg ext u now = true) :
    endedRecently cfg u.MiningSessionSoloEndedAt now = true :=
  hrec _ _ _ _ _ _ _ _ h

theorem referral_eligibleForSelf_recently {cfg : config} {ext : Collaborators} {t : referral}
    {now : Time} {last : Option Time} (hrec : eligibleOnlyRecently cfg ext now)
    (h : referral.isEligibleForSelfForEthereumDistribution cfg ext (some t) now last = true) :
    referral.couldHaveBeenEligibleForEthereumDistributionRecently cfg (some t) now = true := by
  simp only [referral.isEligibleForSelfForEthereumDistribution, Bool.and_eq_true] at h
  exact hrec _ _ _ _ _ _ _ _ h.2

theorem referral_eligibleForReferral_recently {cfg : config} {ext : Collaborators} {t : referral}
    {now : Time} (hrec : eligibleOnlyRecently cfg ext now)
    (h : referral.isEligibleForReferralForEthereumDistribution cfg ext (some t) now = true) :
    referral.couldHaveBeenEligibleForEthereumDistributionRecently cfg (some t) now = true := by
  simp only [referral.isEligibleForReferralForEthereumDistribution, Bool.and_eq_true] at h
  exact hrec _ _ _ _ _ _ _ _ h.2

/-- The pointers the staging step sets. -/
theorem stageRecords_isSome (cfg : config) (u : user) (now : Time) (t0 tm1 : Option referral) :
    (user.couldHaveBeenEligibleForEthereumDistributionRecently cfg u now = true →
      ∃ r, (stageRecords cfg u now t0 tm1).soloCD = some r) ∧
    (∀ t, t0 = some t →
      user.couldHaveBeenEligibleForEthereumDistributionRecently cfg u now = true →
      referral.couldHaveBeenEligibleForEthereumDistributionRecently cfg t0 now = true →
      pairChainOk u t0 tm1 = true →
      (∃ r, (stageRecords cfg u now t0 tm1).t0CD = some r) ∧
        ∃ r, (stageRecords cfg u now t0 tm1).forT0CD = some r) ∧
    (∀ m, tm1 = some m →
      user.couldHaveBeenEligibleForEthereumDistributionRecently cfg u now = true →
      referral.couldHaveBeenEligibleForEthereumDistributionRecently cfg tm1 now = true →
      tMinus1ChainOk u t0 tm1 = true →
      ∃ r, (stageRecords cfg u now t0 tm1).forTMinus1CD = some r) := by
  refine ⟨?_, ?_, ?_⟩
  · intro hr
    simp only [stageRecords, hr, if_true]
    exact ⟨_, rfl⟩
  · intro t ht hr hrt hp
    subst ht
    simp only [stageRecords, hr, hrt, hp, Bool.and_self, if_true]
    exact ⟨⟨_, rfl⟩, ⟨_, rfl⟩⟩
  · intro m hm hr hrm hp
    subst hm
    simp only [stageRecords, hr, hrm, hp, Bool.and_self, if_true]
    exact ⟨_, rfl⟩

theorem selfStage_completes {cfg : config} {ext : Collaborators} {u : user} {now : Time}
    {t0 tm1 : Option referral} {st : stagedRecords}
    (hsolo : user.isEligibleForSelfForEthereumDistribution cfg ext u now = true →
      ∃ r, st.soloCD = some r)
    (hpair : user.isEligibleForSelfForEthereumDistribution cfg ext u now = true →
      (pairChainOk u t0 tm1 &&
        referral.isEligibleForReferralForEthereumDistribution cfg ext t0 now) = true →
      ∃ r, st.t0CD = some r) :
    ∃ res, selfStage cfg ext u now t0 tm1 st = some res := by
  unfold selfStage
  by_cases he : user.isEligibleForSelfForEthereumDistribution cfg ext u now = true
  · rw [if_pos he]
    obtain ⟨r, hr⟩ := hsolo he
    simp only [hr, assignBalance, Option.some_bind]
    by_cases hp : (pairChainOk u t0 tm1 &&
        referral.isEligibleForReferralForEthereumDistribution cfg ext t0 now) = true
    · rw [if_pos hp]
      obtain ⟨r1, hr1⟩ := hpair he hp
      simp only [hr1, Option.some_bind]
      exact ⟨_, rfl⟩
    · rw [if_neg hp]
      exact ⟨_, rfl⟩
  · rw [if_neg he]
    exact ⟨_, rfl⟩

theorem forT0Stage_completes {cfg : config} {ext : Collaborators} {u : user} {now : Time}
    {t0 tm1 : Option referral} {st : stagedRecords}
    (hfor : ∀ t, t0 = some t →
      (pairChainOk u t0 tm1 &&
        user.isEligibleForT0ForEthereumDistribution cfg ext u now t.ID &&
        referral.isEligibleForSelfForEthereumDistribution cfg ext t0 now
          u.ForT0LastEthereumCoinDistributionProcessedAt) = true →
      ∃ r, st.forT0CD = some r) :
    ∃ res, forT0Stage cfg ext u now t0 tm1 st = some res := by
  unfold forT0Stage
  cases t0 with
  | none => exact ⟨_, rfl⟩
  | some t =>
    simp only
    by_cases hc : (pairChainOk u (some t) tm1 &&
        user.isEligibleForT0ForEthereumDistribution cfg ext u now t.ID &&
        referral.isEligibleForSelfForEthereumDistribution cfg ext (some t) now
          u.ForT0LastEthereumCoinDistributionProcessedAt) = true
    · rw [if_pos hc]
      obtain ⟨r, hr⟩ := hfor t rfl hc
      simp only [hr, assignBalance, Option.some_bind]
      exact ⟨_, rfl⟩
    · rw [if_neg hc]
      exact ⟨_, rfl⟩

theorem forTMinus1Stage_completes {cfg : config} {ext : Collaborators} {u : user} {now : Time}
    {t0 tm1 : Option referral} {st : stagedRecords}
    (hfor : ∀ m, tm1 = some m →
      (tMinus1ChainOk u t0 tm1 &&
        user.isEligibleForTMinus1ForEthereumDistribution cfg ext u now m.ID &&
        referral.isEligibleForSelfForEthereumDistribution cfg ext tm1 now
          u.ForTMinus1LastEthereumCoinDistributionProcessedAt) = true →
      ∃ r, st.forTMinus1CD = some r) :
    ∃ res, forTMinus1Stage cfg ext u now t0 tm1 st = some res := by
  unfold forTMinus1Stage
  cases tm1 with
  | none => exact ⟨_, rfl⟩
  | some m =>
    simp only
    by_cases hc : (tMinus1ChainOk u t0 (some m) &&
        user.isEligibleForTMinus1ForEthereumDistribution cfg ext u now m.ID &&
        referral.isEligibleForSelfForEthereumDistribution cfg ext (some m) now
          u.ForTMinus1LastEthereumCoinDistributionProcessedAt) = true
    · rw [if_pos hc]
      obtain ⟨r, hr⟩ := hfor m rfl hc
      simp only [hr, assignBalance, Option.some_bind]
      exact ⟨_, rfl⟩
    · rw [if_neg hc]
      exact ⟨_, rfl⟩

theorem pairChainOk_congr {a b : user} (h : a.UserID = b.UserID) (t0 tm1 : Option referral) :
    pairChainOk a t0 tm1 = pairChainOk b t0 tm1 := by
  unfold pairChainOk
  rw [h]

theorem tMinus1ChainOk_congr {a b : user} (h : a.UserID = b.UserID) (t0 tm1 : Option referral) :
    tMinus1ChainOk a t0 tm1 = tMinus1ChainOk b t0 tm1 := by
  unfold tMinus1ChainOk
  rw [h]

unseal Rat.add Rat.mul Rat.inv Rat.sub in
/-- C24, as stated, fails: the session of `dormantUser` ended 60 days before `sampleNow`, so the
staging step creates no solo record; with a collector that is enabled and an eligibility
predicate that finds everybody eligible the user is self-eligible, line 247 assigns
`soloCD.Balance` through the nil pointer, and the call does not complete. -/
theorem processEthereumCoinDistribution_completes_counterexample :
    isCoinDistributionCollectorEnabled sampleConfig openCollaborators sampleNow = true ∧
      user.couldHaveBeenEligibleForEthereumDistributionRecently sampleConfig dormantUser
        sampleNow = false ∧
      (stageRecords sampleConfig (clearEthereumPending dormantUser) sampleNow none none).soloCD =
        none ∧
      user.isEligibleForSelfForEthereumDistribution sampleConfig openCollaborators dormantUser
        sampleNow = true ∧
      processEthereumCoinDistribution sampleConfig openCollaborators dormantUser sampleNow
        none none = none := by
  decide

/-- C24, amended. With the collector enabled, for every user, T0, T-1 and `now`, and for every
outcome of the external predicates in which the eligibility predicate holds only for a session
end that passes `couldHaveBeenEligibleForEthereumDistributionRecently`, every record
`processEthereumCoinDistribution` assigns a `Balance` to was created in the staging step: the
call completes, and the records it returns are the staged ones with only their balances
assigned. -/
theorem processEthereumCoinDistribution_completes (cfg : config) (ext : Collaborators)
    (u : user) (now : Time) (t0 tm1 : Option referral)
    (hg : isCoinDistributionCollectorEnabled cfg ext now = true)
    (hrec : eligibleOnlyRecently cfg ext now) :
    completesOnStaged cfg ext u now t0 tm1 := by
  obtain ⟨p0, pp, pm⟩ := stageRecords_isSome cfg (clearEthereumPending u) now t0 tm1
  -- the stage for the user itself
  obtain ⟨⟨u1, st1⟩, h1⟩ := @selfStage_completes cfg ext (clearEthereumPending u) now t0 tm1
    (stageRecords cfg (clearEthereumPending u) now t0 tm1)
    (fun he => p0 (user_eligibleForSelf_recently hrec he))
    (fun he hp => by
      rw [Bool.and_eq_true] at hp
      cases t0 with
      | none => simp [pairChainOk] at hp
      | some t =>
        exact (pp t rfl (user_eligibleForSelf_recently hrec he)
          (referral_eligibleForReferral_recently hrec hp.2) hp.1).1)
  obtain ⟨⟨ps, pt, m1, e1, -, -⟩, hp1⟩ := selfStage_effect h1
  obtain ⟨f1, f2, -⟩ := selfStage_records h1
  have hU1 : u1.UserID = (clearEthereumPending u).UserID := by rw [e1]
  have hE1 : u1.MiningSessionSoloEndedAt =
      (clearEthereumPending u).MiningSessionSoloEndedAt := by rw [e1]
  -- the stage for T0
  obtain ⟨⟨u2, st2, b2⟩, h2⟩ := @forT0Stage_completes cfg ext u1 now t0 tm1 st1
    (fun t ht hc => by
      simp only [Bool.and_eq_true] at hc
      obtain ⟨⟨c1, c2⟩, c3⟩ := hc
      simp only [user.isEligibleForT0ForEthereumDistribution, Bool.and_eq_true] at c2
      have hr := user_eligibleForReferral_recently hrec c2.2
      rw [hE1] at hr
      rw [pairChainOk_congr hU1] at c1
      subst ht
      rw [f1]
      exact (pp t rfl hr (referral_eligibleForSelf_recently hrec c3) c1).2)
  obtain ⟨⟨e0, m2, e2, -⟩, hp2⟩ := forT0Stage_effect h2
  obtain ⟨-, -, -, -, k3⟩ := forT0Stage_marks h2
  have hU2 : u2.UserID = (clearEthereumPending u).UserID := by rw [e2, ← hU1]
  have hE2 : u2.MiningSessionSoloEndedAt =
      (clearEthereumPending u).MiningSessionSoloEndedAt := by rw [e2, ← hE1]
  -- the stage for T-1
  obtain ⟨⟨u3, st3, b3⟩, h3⟩ := @forTMinus1Stage_completes cfg ext u2 now t0 tm1 st2
    (fun m hm hc => by
      simp only [Bool.and_eq_true] at hc
      obtain ⟨⟨c1, c2⟩, c3⟩ := hc
      simp only [user.isEligibleForTMinus1ForEthereumDistribution, Bool.and_eq_true] at c2
      have hr := user_eligibleForReferral_recently hrec c2.2
      rw [hE2] at hr
      rw [tMinus1ChainOk_congr hU2] at c1
      subst hm
      rw [k3, f2]
      exact pm m rfl hr (referral_eligibleForSelf_recently hrec c3) c1)
  obtain ⟨-, hp3⟩ := forTMinus1Stage_effect h3
  refine ⟨{ u := u3, records := some st3.toList, balanceDistributedForT0 := b2,
            balanceDistributedForTMinus1 := b3 }, st3, ?_, rfl, ?_⟩
  · unfold processEthereumCoinDistribution
    simp only [hg, Bool.not_true, Bool.false_eq_true, if_false, h1, Option.some_bind, h2, h3]
  · rw [hp3, hp2, hp1]

unseal Rat.add Rat.mul Rat.inv Rat.sub in
theorem processEthereumCoinDistribution_completes_witness :
    isCoinDistributionCollectorEnabled sampleConfig recentCollaborators sampleNow = true ∧
      processEthereumCoinDistribution sampleConfig recentCollaborators earningUser sampleNow
          (some sampleT0) (some sampleTMinus1) =
        some { u := earningUserDistributed, records := some earningUserRecords,
               balanceDistributedForT0 := 4, balanceDistributedForTMinus1 := 1 } ∧
      completesOnStaged sampleConfig recentCollaborators earningUser sampleNow (some sampleT0)
        (some sampleTMinus1) :=
  ⟨by decide, by decide,
   processEthereumCoinDistribution_completes sampleConfig recentCollaborators earningUser
     sampleNow (some sampleT0) (some sampleTMinus1) (by decide)
     (fun _ _ _ _ _ _ _ _ h => h)⟩

/-! ## Referral distribution conservation -/

/-- The staging step keeps the records of the two referrers on different accounts, and creates
every record with balance zero. -/
theorem stageRecords_apart (cfg : config) (u : user) (now : Time) (t0 tm1 : Option referral) :
    referrersApart t0 tm1 (stageRecords cfg u now t0 tm1).parties ∧
      balanceOf (stageRecords cfg u now t0 tm1).forT0CD = 0 ∧
      balanceOf (stageRecords cfg u now t0 tm1).forTMinus1CD = 0 := by
  unfold referrersApart stagedRecords.parties stageRecords balanceOf
  cases t0 with
  | none =>
    cases tm1 with
    | none => simp [parties, pairChainOk, tMinus1ChainOk, referralRecord]
    | some m => simp [parties, pairChainOk, tMinus1ChainOk, referralRecord]
  | some t =>
    cases tm1 with
    | none =>
      simp only [pairChainOk, tMinus1ChainOk, referralRecord]
      by_cases hr : user.couldHaveBeenEligibleForEthereumDistributionRecently cfg u now = true
      · by_cases ht : referral.couldHaveBeenEligibleForEthereumDistributionRecently cfg
            (some t) now = true
        · by_cases hne : t.UserID = u.UserID
          · simp [parties, hr, ht, hne]
          · simp [parties, hr, ht, hne, @eq_comm _ u.UserID t.UserID]
        · simp [parties, hr, ht]
      · simp [parties, hr]
    | some m =>
      simp only [pairChainOk, tMinus1ChainOk, referralRecord]
      by_cases hr : user.couldHaveBeenEligibleForEthereumDistributionRecently cfg u now = true
      · by_cases hne : t.UserID = u.UserID <;> by_cases hm : m.UserID = u.UserID <;>
          by_cases hmt : m.UserID = t.UserID <;>
          by_cases ht : referral.couldHaveBeenEligibleForEthereumDistributionRecently cfg
            (some t) now = true <;>
          by_cases hmr : referral.couldHaveBeenEligibleForEthereumDistributionRecently cfg
            (some m) now = true <;>
          simp [parties, hr, ht, hmr, hne, hm, hmt, @eq_comm _ u.UserID t.UserID,
            @eq_comm _ u.UserID m.UserID, @eq_comm _ t.UserID m.UserID]
      · simp [parties, hr]

theorem mem_toList {st : stagedRecords} {record : ByEarnerForReview}
    (h : record ∈ st.toList) :
    st.soloCD = some record ∨ st.t0CD = some record ∨ st.forT0CD = some record ∨
      st.forTMinus1CD = some record := by
  simp only [stagedRecords.toList, List.mem_append, Option.mem_toList, Option.mem_def] at h
  rcases h with (h | h | h) | h
  · exact Or.inl h
  · exact Or.inr (Or.inl h)
  · exact Or.inr (Or.inr (Or.inl h))
  · exact Or.inr (Or.inr (Or.inr h))

/-- The two outcomes of `processEthereumCoinDistributionForForT0`. -/
theorem forForT0_cases (cfg : config) (ext : Collaborators) (u : user) (t : referral)
    (now : Time) :
    processEthereumCoinDistributionForForT0 cfg ext u t now = (u, 0) ∨
    ∃ e, 0 < e ∧ processEthereumCoinDistributionForForT0 cfg ext u t now =
      ({ u with BalanceForT0Ethereum := u.BalanceForT0Ethereum + e }, e) := by
  simp only [processEthereumCoinDistributionForForT0, ethereumDistributionDryRunModeEnabled]
  split_ifs with h1 h2
  · exact Or.inl rfl
  · exact Or.inr ⟨_, not_le.mp h1, rfl⟩
  · simp at h2

/-- The two outcomes of `processEthereumCoinDistributionForForTMinus1`. -/
theorem forForTMinus1_cases (cfg : config) (ext : Collaborators) (u : user) (m : referral)
    (now : Time) :
    processEthereumCoinDistributionForForTMinus1 cfg ext u m now = (u, 0) ∨
    ∃ e, 0 < e ∧ processEthereumCoinDistributionForForTMinus1 cfg ext u m now =
      ({ u with BalanceForTMinus1Ethereum := u.BalanceForTMinus1Ethereum + e }, e) := by
  simp only [processEthereumCoinDistributionForForTMinus1, ethereumDistributionDryRunModeEnabled]
  split_ifs with h1 h2
  · exact Or.inl rfl
  · exact Or.inr ⟨_, not_le.mp h1, rfl⟩
  · simp at h2

/-- The amount returned by the stage for T0 is what the stage added to `BalanceForT0Ethereum`,
is not negative, and is the balance of the record for T0. -/
theorem forT0Stage_amount {cfg : config} {ext : Collaborators} {u : user} {now : Time}
    {t0 tm1 : Option referral} {st : stagedRecords} {u' : user} {st' : stagedRecords} {b : ℚ}
    (h : forT0Stage cfg ext u now t0 tm1 st = some (u', st', b))
    (hz : balanceOf st.forT0CD = 0) :
    u'.BalanceForT0Ethereum = u.BalanceForT0Ethereum + b ∧ 0 ≤ b ∧
      balanceOf st'.forT0CD = b ∧
      u'.BalanceForTMinus1Ethereum = u.BalanceForTMinus1Ethereum := by
  unfold forT0Stage at h
  cases t0 with
  | none =>
    simp only [Option.some.injEq, Prod.mk.injEq] at h
    obtain ⟨hu, hs, hb⟩ := h
    subst hu hs hb
    simp [hz]
  | some t =>
    simp only at h
    by_cases hc : (pairChainOk u (some t) tm1 &&
        user.isEligibleForT0ForEthereumDistribution cfg ext u now t.ID &&
        referral.isEligibleForSelfForEthereumDistribution cfg ext (some t) now
          u.ForT0LastEthereumCoinDistributionProcessedAt) = true
    · rw [if_pos hc] at h
      cases ha : assignBalance st.forT0CD
          (processEthereumCoinDistributionForForT0 cfg ext u t now).2 with
      | none => rw [ha] at h; simp at h
      | some forT0CD =>
        rw [ha] at h
        simp only [Option.some_bind, Option.some.injEq, Prod.mk.injEq] at h
        obtain ⟨hu, hs, hb⟩ := h
        have hbal := balanceOf_assign ha
        rcases forForT0_cases cfg ext u t now with hcase | ⟨e, he, hcase⟩
        · rw [hcase] at hu hb hbal
          subst hu hs hb
          simp [hbal]
        · rw [hcase] at hu hb hbal
          subst hu hs hb
          simp [hbal, he, le_of_lt he, ethereumDistributionDryRunModeEnabled]
    · rw [if_neg hc] at h
      simp only [Option.some.injEq, Prod.mk.injEq] at h
      obtain ⟨hu, hs, hb⟩ := h
      subst hu hs hb
      simp [hz]

/-- The amount returned by the stage for T-1 is what the stage added to
`BalanceForTMinus1Ethereum`, is not negative, and is the balance of the record for T-1. -/
theorem forTMinus1Stage_amount {cfg : config} {ext : Collaborators} {u : user} {now : Time}
    {t0 tm1 : Option referral} {st : stagedRecords} {u' : user} {st' : stagedRecords} {b : ℚ}
    (h : forTMinus1Stage cfg ext u now t0 tm1 st = some (u', st', b))
    (hz : balanceOf st.forTMinus1CD = 0) :
    u'.BalanceForTMinus1Ethereum = u.BalanceForTMinus1Ethereum + b ∧ 0 ≤ b ∧
      balanceOf st'.forTMinus1CD = b ∧
      u'.BalanceForT0Ethereum = u.BalanceForT0Ethereum := by
  unfold forTMinus1Stage at h
  cases tm1 with
  | none =>
    simp only [Option.some.injEq, Prod.mk.injEq] at h
    obtain ⟨hu, hs, hb⟩ := h
    subst hu hs hb
    simp [hz]
  | some m =>
    simp only at h
    by_cases hc : (tMinus1ChainOk u t0 (some m) &&
        user.isEligibleForTMinus1ForEthereumDistribution cfg ext u now m.ID &&
        referral.isEligibleForSelfForEthereumDistribution cfg ext (some m) now
          u.ForTMinus1LastEthereumCoinDistributionProcessedAt) = true
    · rw [if_pos hc] at h
      cases ha : assignBalance st.forTMinus1CD
          (processEthereumCoinDistributionForForTMinus1 cfg ext u m now).2 with
      | none => rw [ha] at h; simp at h
      | some forTMinus1CD =>
        rw [ha] at h
        simp only [Option.some_bind, Option.some.injEq, Prod.mk.injEq] at h
        obtain ⟨hu, hs, hb⟩ := h
        have hbal := balanceOf_assign ha
        rcases forForTMinus1_cases cfg ext u m now with hcase | ⟨e, he, hcase⟩
        · rw [hcase] at hu hb hbal
          subst hu hs hb
          simp [hbal]
        · rw [hcase] at hu hb hbal
          subst hu hs hb
          simp [hbal, he, le_of_lt he, ethereumDistributionDryRunModeEnabled]
    · rw [if_neg hc] at h
      simp only [Option.some.injEq, Prod.mk.injEq] at h
      obtain ⟨hu, hs, hb⟩ := h
      subst hu hs hb
      simp [hz]

unseal Rat.add Rat.mul Rat.inv Rat.sub in
/-- C27, as stated, fails in float64: `referringUser` has the float64 `0.1` as
`BalanceForT0Ethereum`, and `fixedCollaborators` release the float64 `0.2`. The call returns
`0.2` for T0; line 334 stores the float64 sum `0.1 + 0.2`, which is `0.30000000000000004`, and
that balance less the one before the call is not the returned amount, neither as an exact
difference nor as the float64 difference `0.20000000000000004`. -/
theorem processEthereumCoinDistribution_referral_conservation_counterexample :
    roundFloat64 referringUser.BalanceForT0Ethereum = referringUser.BalanceForT0Ethereum ∧
    (processEthereumCoinDistribution sampleConfig fixedCollaborators referringUser sampleNow
        (some sampleT0) none).map (fun r => r.balanceDistributedForT0) =
      some (roundFloat64 (2 / 10)) ∧
    float64.processEthereumCoinDistributionForForT0 sampleConfig fixedCollaborators referringUser
        sampleT0 sampleNow = (referringUserPaid, roundFloat64 (2 / 10)) ∧
    referringUserPaid.BalanceForT0Ethereum - referringUser.BalanceForT0Ethereum ≠
      roundFloat64 (2 / 10) ∧
    float64.sub referringUserPaid.BalanceForT0Ethereum referringUser.BalanceForT0Ethereum ≠
      roundFloat64 (2 / 10) :=
  ⟨by decide, by decide, by decide, by decide, by decide⟩

/-- C27, amended. For every call of `processEthereumCoinDistribution` that completes, with the
collector enabled or not: `BalanceForT0Ethereum` after the call is `BalanceForT0Ethereum`
before it plus the returned `balanceDistributedForT0`, `BalanceForTMinus1Ethereum` after the
call is `BalanceForTMinus1Ethereum` before it plus the returned `balanceDistributedForTMinus1`,
both amounts are `≥ 0`, and a returned record on the account of T0, or of T-1, earned by the
user has the matching returned amount as its `Balance`. -/
theorem processEthereumCoinDistribution_referral_conservation (cfg : config)
    (ext : Collaborators) (u : user) (now : Time) (t0 tm1 : Option referral)
    (r : distributionResult)
    (h : processEthereumCoinDistribution cfg ext u now t0 tm1 = some r) :
    referralAmountsConserved u t0 tm1 r := by
  cases hg : isCoinDistributionCollectorEnabled cfg ext now with
  | false =>
    rw [closedGate_result cfg ext u now t0 tm1 hg] at h
    simp only [Option.some.injEq] at h
    subst h
    simp [referralAmountsConserved, closedGate]
  | true =>
    obtain ⟨u1, st1, u2, st2, b2, u3, st3, b3, h1, h2, h3, hr⟩ :=
      processEthereumCoinDistribution_open hg h
    subst hr
    obtain ⟨hown, -⟩ := stageRecords_own cfg (clearEthereumPending u) now t0 tm1
    obtain ⟨hapart, z1, z2⟩ := stageRecords_apart cfg (clearEthereumPending u) now t0 tm1
    obtain ⟨⟨ps, pt, m1, e1, -, -⟩, p1⟩ := selfStage_effect h1
    obtain ⟨f1, f2, -⟩ := selfStage_records h1
    obtain ⟨-, -, -, -, k3⟩ := forT0Stage_marks h2
    obtain ⟨-, -, -, -, -, l3⟩ := forTMinus1Stage_marks h3
    have p2 := (forT0Stage_effect h2).2
    have p3 := (forTMinus1Stage_effect h3).2
    obtain ⟨a1, a2, a3, a4⟩ := forT0Stage_amount h2 (by rw [f1]; exact z1)
    obtain ⟨c1, c2, c3, c4⟩ := forTMinus1Stage_amount h3 (by rw [k3, f2]; exact z2)
    have hp : st3.parties = (stageRecords cfg (clearEthereumPending u) now t0 tm1).parties := by
      rw [p3, p2, p1]
    rw [← hp] at hown hapart
    obtain ⟨o1, o2, -, -⟩ := hown
    obtain ⟨q1, q2⟩ := hapart
    simp only [stagedRecords.parties] at o1 o2 q1 q2
    have s0 : u1.BalanceForT0Ethereum = u.BalanceForT0Ethereum := by rw [e1]; rfl
    have s1 : u1.BalanceForTMinus1Ethereum = u.BalanceForTMinus1Ethereum := by rw [e1]; rfl
    have hT0 : u3.BalanceForT0Ethereum = u.BalanceForT0Ethereum + b2 := by
      rw [c4, a1, s0]
    have hTm : u3.BalanceForTMinus1Ethereum = u.BalanceForTMinus1Ethereum + b3 := by
      rw [c1, a4, s1]
    have hb2 : balanceOf st3.forT0CD = b2 := by rw [l3, a3]
    refine ⟨hT0, hTm, a2, c2, ?_, ?_⟩
    · intro records t hrec ht hne record hmem hpar
      simp only [Option.some.injEq] at hrec
      subst hrec
      simp only [parties, Prod.mk.injEq] at hpar
      rcases mem_toList hmem with hx | hx | hx | hx
      · have := o1 (parties record) (by rw [hx]; rfl)
        simp only [parties] at this
        exact absurd (hpar.1.symm.trans this) hne
      · have := o2 (parties record) (by rw [hx]; rfl)
        simp only [parties] at this
        exact absurd (hpar.1.symm.trans this) hne
      · rw [hx] at hb2
        exact hb2
      · have := q2 (parties record) (by rw [hx]; rfl) t ht
        simp only [parties] at this
        exact absurd hpar.1 this
    · intro records m hrec hm hne record hmem hpar
      simp only [Option.some.injEq] at hrec
      subst hrec
      simp only [parties, Prod.mk.injEq] at hpar
      rcases mem_toList hmem with hx | hx | hx | hx
      · have := o1 (parties record) (by rw [hx]; rfl)
        simp only [parties] at this
        exact absurd (hpar.1.symm.trans this) hne
      · have := o2 (parties record) (by rw [hx]; rfl)
        simp only [parties] at this
        exact absurd (hpar.1.symm.trans this) hne
      · have := q1 (parties record) (by rw [hx]; rfl) m hm
        simp only [parties] at this
        exact absurd hpar.1 this
      · rw [hx] at c3
        exact c3

unseal Rat.add Rat.mul Rat.inv Rat.sub in
theorem processEthereumCoinDistribution_referral_conservation_witness :
    processEthereumCoinDistribution sampleConfig openCollaborators earningUser sampleNow
        (some sampleT0) (some sampleTMinus1) =
      some { u := earningUserDistributed, records := some earningUserRecords,
             balanceDistributedForT0 := 4, balanceDistributedForTMinus1 := 1 } ∧
    referralAmountsConserved earningUser (some sampleT0) (some sampleTMinus1)
      { u := earningUserDistributed, records := some earningUserRecords,
        balanceDistributedForT0 := 4, balanceDistributedForTMinus1 := 1 } :=
  ⟨by decide,
   processEthereumCoinDistribution_referral_conservation sampleConfig openCollaborators
     earningUser sampleNow (some sampleT0) (some sampleTMinus1) _ (by decide)⟩

/-! ## The start barrier -/

theorem managerStuck_mono {n : Nat} {s : managerState} (h : managerStuck n s) :
    managerStuck (n + 1) s := by
  obtain ⟨p, c, cy, nt⟩ := s
  obtain ⟨h1, h2⟩ := h
  refine ⟨h1, ?_⟩
  cases p with
  | idle => trivial
  | returned => trivial
  | endBarrier k => exact h2
  | startBarrier k =>
    obtain ⟨j, hk, hj1, hjn⟩ := h2
    exact ⟨j, hk, hj1, Nat.le_succ_of_le hjn⟩

/-- With `cfg.Workers = 1` a step keeps the manager out of the end barrier, as long as the
counter cannot overflow. -/
theorem managerStep_stuck {n : Nat} {s : managerState} (e : managerEvent)
    (hn : (n : Int) + 1 < 9223372036854775808) (h : managerStuck n s) :
    managerStuck (n + 1) (managerStep 1 s e) := by
  have hmono := managerStuck_mono h
  obtain ⟨p, c, cy, nt⟩ := s
  obtain ⟨h1, h2⟩ := h
  simp only at h1
  subst h1
  cases e with
  | cancel =>
    obtain ⟨-, m2⟩ := hmono
    exact ⟨rfl, m2⟩
  | done =>
    simp only [managerStep]
    split_ifs
    · exact ⟨rfl, trivial⟩
    · exact hmono
  | ended =>
    cases p with
    | idle => exact hmono
    | startBarrier k => exact hmono
    | returned => exact hmono
    | endBarrier k => exact absurd h2 id
  | started =>
    cases p with
    | endBarrier k => exact absurd h2 id
    | returned => exact hmono
    | idle =>
      simp only [managerStep, enterEndBarrier, finishCycle]
      cases c with
      | true => exact ⟨rfl, trivial⟩
      | false => exact ⟨rfl, 1, rfl, le_refl 1, Nat.succ_le_succ (Nat.zero_le n)⟩
    | startBarrier k =>
      obtain ⟨j, hk, hj1, hjn⟩ := h2
      subst hk
      have hi : incr64 (j : Int) = ((j + 1 : Nat) : Int) := by
        rw [incr64_of_lt (by omega) (by omega)]
        push_cast
        rfl
      have hw : ¬ ((j + 1 : Nat) : Int) = 1 := by omega
      simp only [managerStep, enterEndBarrier, finishCycle, hi]
      rw [if_neg hw]
      cases c with
      | true => exact ⟨rfl, trivial⟩
      | false =>
        simp only [Bool.false_eq_true, if_false]
        exact ⟨rfl, j + 1, rfl, by omega, by omega⟩

theorem managerRun_stuck (es : List managerEvent) :
    ∀ (n : Nat) (s : managerState), (n : Int) + es.length < 9223372036854775808 →
      managerStuck n s → managerStuck (n + es.length) (managerRun 1 s es) := by
  induction es with
  | nil => intro n s _ h; exact h
  | cons e es ih =>
    intro n s hn h
    simp only [List.length_cons, Nat.cast_add, Nat.cast_one] at hn
    have hs := managerStep_stuck e (by omega) h
    have := ih (n + 1) (managerStep 1 s e) (by push_cast; omega) hs
    rw [List.length_cons, show n + (es.length + 1) = n + 1 + es.length by omega]
    exact this

/-- With `cfg.Workers = 1` the manager never reaches the end barrier and never notifies,
whatever it receives (fewer than `2 ^ 63` events, so that the counter does not overflow). -/
theorem managerRun_single_worker (es : List managerEvent)
    (hlen : (es.length : Int) < 9223372036854775808) :
    (managerRun 1 (managerInit false) es).notified = [] ∧
      ∀ k, (managerRun 1 (managerInit false) es).phase ≠ managerPhase.endBarrier k := by
  have h := managerRun_stuck es 0 (managerInit false) (by push_cast; omega) ⟨rfl, trivial⟩
  obtain ⟨h1, h2⟩ := h
  refine ⟨h1, ?_⟩
  intro k hk
  rw [hk] at h2
  exact h2

/-- C25 at a failing input, `cfg.Workers = 1`. After the started signal that opens the cycle the
manager waits in the start barrier with `workersStarted = 1`; the claim has the barrier complete
there, without any further signal. A further started signal makes `workersStarted` 2, which is
compared with `cfg.Workers` only then, and every later one moves it further away; ended signals
are not received; nothing is ever notified. With `cfg.Workers = 2` the barrier completes on the
second started signal, as the claim says. -/
theorem manager_start_barrier_single_worker :
    (managerRun 1 (managerInit false) [managerEvent.started]).phase =
        managerPhase.startBarrier 1 ∧
      (managerRun 1 (managerInit false)
        [managerEvent.started, managerEvent.started]).phase = managerPhase.startBarrier 2 ∧
      (managerRun 1 (managerInit false)
        [managerEvent.started, managerEvent.started, managerEvent.started]).phase =
          managerPhase.startBarrier 3 ∧
      (managerRun 1 (managerInit false)
        [managerEvent.started, managerEvent.ended]).phase = managerPhase.startBarrier 1 ∧
      (managerRun 1 (managerInit false)
        [managerEvent.started, managerEvent.started, managerEvent.ended,
          managerEvent.ended]).notified = [] ∧
      (managerRun 2 (managerInit false)
        [managerEvent.started, managerEvent.started]).phase = managerPhase.endBarrier 0 := by
  decide

theorem managerRun_snoc (workers : Int) (s : managerState) (es : List managerEvent)
    (e : managerEvent) :
    managerRun workers s (es ++ [e]) = managerStep workers (managerRun workers s es) e := by
  rw [managerRun_append]
  rfl

/-- With at least two workers, the manager that received `j` started signals, fewer than
`cfg.Workers`, waits in the start barrier with `workersStarted = j`. -/
theorem managerRun_start_barrier_waits (workers : Int)
    (hmax : workers < 9223372036854775808) :
    ∀ j : Nat, 1 ≤ j → (j : Int) < workers →
      managerRun workers (managerInit false) (List.replicate j managerEvent.started) =
        { phase := managerPhase.startBarrier j, cancelled := false,
          cycle := List.replicate j managerEvent.started, notified := [] } := by
  intro j
  induction j with
  | zero => intro h; omega
  | succ j ih =>
    intro _ hlt
    by_cases hj : j = 0
    · subst hj
      rfl
    · have hprev := ih (by omega) (by push_cast at hlt; omega)
      rw [List.replicate_succ', managerRun_snoc, hprev]
      have hi : incr64 (j : Int) = ((j + 1 : Nat) : Int) := by
        rw [incr64_of_lt (by omega) (by push_cast at hlt; omega)]
        push_cast
        rfl
      have hne : ¬ ((j + 1 : Nat) : Int) = workers := by omega
      simp only [managerStep, hi]
      rw [if_neg hne]
      simp only [Bool.false_eq_true, if_false]

/-- With at least two workers the start barrier completes on the started signal number
`cfg.Workers`, and the manager proceeds to the end barrier. -/
theorem managerRun_start_barrier_completes (workers : Int) (hw : 2 ≤ workers)
    (hmax : workers < 9223372036854775808) :
    managerRun workers (managerInit false)
        (List.replicate workers.toNat managerEvent.started) =
      { phase := managerPhase.endBarrier 0, cancelled := false,
        cycle := List.replicate workers.toNat managerEvent.started, notified := [] } := by
  obtain ⟨j, hj⟩ : ∃ j : Nat, workers.toNat = j + 1 := ⟨workers.toNat - 1, by omega⟩
  have hprev := managerRun_start_barrier_waits workers hmax j (by omega) (by omega)
  rw [hj, List.replicate_succ', managerRun_snoc, hprev]
  have hi : incr64 (j : Int) = workers := by
    rw [incr64_of_lt (by omega) (by omega)]
    omega
  simp only [managerStep, hi, if_true, enterEndBarrier, Bool.false_eq_true, if_false]
/-! ## Ledger conservation -/

unseal Rat.add Rat.mul Rat.inv Rat.sub in
/-- C26 at a failing input. `adjustedUser` has no pre-staking, consistent totals of 10 and an
unapplied solo pending amount of `-5`; the tick at `sampleNow` with rate 6 takes no history
snapshot and no balance is clamped. The standard total changes by `-4` (one unit mined, five
taken back), while minted minus slashed changes by `1 - (-5) = 6`: lines 131-132 recorded the
five as `-5` slashed. With the pending amount `+5` of `settledUserTicked` the two changes agree. -/
theorem mine_conservation_negative_delta :
    (adjustedUser.PreStakingAllocation = 0 ∧ adjustedUser.PreStakingBonus = 0 ∧
      adjustedUser.BalanceTotalStandard =
        adjustedUser.BalanceSolo + adjustedUser.BalanceT0 + adjustedUser.BalanceT1 +
          adjustedUser.BalanceT2 ∧
      0 < adjustedUser.BalanceTotalStandard ∧
      adjustedUser.BalanceSoloPending - adjustedUser.BalanceSoloPendingApplied = -5) ∧
    mine sampleConfig idleHelpers 6 sampleNow (some adjustedUser) none none =
      some (some adjustedUserTicked, none) ∧
    (adjustedUserTicked.BalanceSolo = 6 ∧ adjustedUserTicked.BalanceT0 = 0 ∧
      adjustedUserTicked.BalanceT1 = 0 ∧ adjustedUserTicked.BalanceT2 = 0) ∧
    adjustedUserTicked.BalanceTotalStandard - adjustedUser.BalanceTotalStandard = -4 ∧
    (adjustedUserTicked.BalanceTotalMinted - adjustedUser.BalanceTotalMinted) -
      (adjustedUserTicked.BalanceTotalSlashed - adjustedUser.BalanceTotalSlashed) = 6 ∧
    (mine sampleConfig idleHelpers 1 sampleNow (some settledUserTicked) none none =
        some (some settledUserTickedTwice, none) ∧
      settledUserTickedTwice.BalanceTotalStandard - settledUserTicked.BalanceTotalStandard =
        (settledUserTickedTwice.BalanceTotalMinted - settledUserTicked.BalanceTotalMinted) -
          (settledUserTickedTwice.BalanceTotalSlashed -
            settledUserTicked.BalanceTotalSlashed)) := by
  decide

/-! ## The rounding of float64, on samples -/

set_option maxRecDepth 4096 in
unseal Rat.add Rat.mul Rat.inv Rat.sub in
/-- Sample values of `roundFloat64`: `0.1` and `1/3` are rounded to 53 bits, integers below
`2 ^ 53` are kept, a tie goes to the even neighbour (`2 ^ 53 + 1` down, `2 ^ 53 + 3` up), the
sign is kept, and a float64 is left as it is. -/
theorem roundFloat64_samples :
    roundFloat64 0 = 0 ∧ roundFloat64 1 = 1 ∧ roundFloat64 1440 = 1440 ∧
    roundFloat64 (1 / 10) = 3602879701896397 / 36028797018963968 ∧
    roundFloat64 (1 / 3) = 6004799503160661 / 18014398509481984 ∧
    roundFloat64 (-298 / 100) = -6710363444782039 / 2251799813685248 ∧
    roundFloat64 9007199254740993 = 9007199254740992 ∧
    roundFloat64 9007199254740995 = 9007199254740996 ∧
    roundFloat64 (roundFloat64 (1 / 10)) = roundFloat64 (1 / 10) :=
  ⟨by decide, by decide, by decide, by decide, by decide, by decide, by decide, by decide,
    by decide⟩

/-! ## Distribution upper bound, as the code keeps it -/

/-- The two outcomes of `processEthereumCoinDistributionForForT0`, with the amount. -/
theorem forForT0_released (cfg : config) (ext : Collaborators) (u : user) (t : referral)
    (now : Time) :
    processEthereumCoinDistributionForForT0 cfg ext u t now = (u, 0) ∨
    ∃ e, e = ethICE cfg ext now
        ((ApplyPreStaking u.BalanceForT0 t.PreStakingAllocation t.PreStakingBonus).1 -
          u.BalanceForT0Ethereum) ∧ 0 < e ∧
      processEthereumCoinDistributionForForT0 cfg ext u t now =
        ({ u with BalanceForT0Ethereum := u.BalanceForT0Ethereum + e }, e) := by
  simp only [processEthereumCoinDistributionForForT0, ethereumDistributionDryRunModeEnabled]
  split_ifs with h1 h2
  · exact Or.inl rfl
  · exact Or.inr ⟨_, rfl, not_le.mp h1, rfl⟩
  · simp at h2

/-- The two outcomes of `processEthereumCoinDistributionForForTMinus1`, with the amount. -/
theorem forForTMinus1_released (cfg : config) (ext : Collaborators) (u : user) (m : referral)
    (now : Time) :
    processEthereumCoinDistributionForForTMinus1 cfg ext u m now = (u, 0) ∨
    ∃ e, e = ethICE cfg ext now
        ((ApplyPreStaking u.BalanceForTMinus1 m.PreStakingAllocation m.PreStakingBonus).1 -
          u.BalanceForTMinus1Ethereum) ∧ 0 < e ∧
      processEthereumCoinDistributionForForTMinus1 cfg ext u m now =
        ({ u with BalanceForTMinus1Ethereum := u.BalanceForTMinus1Ethereum + e }, e) := by
  simp only [processEthereumCoinDistributionForForTMinus1, ethereumDistributionDryRunModeEnabled]
  split_ifs with h1 h2
  · exact Or.inl rfl
  · exact Or.inr ⟨_, rfl, not_le.mp h1, rfl⟩
  · simp at h2

/-- The stage for T0 leaves `BalanceForT0Ethereum` at what it was plus the returned amount, and
the returned amount is zero or what `CalculateEthereumDistributionICEBalance` released. -/
theorem forT0Stage_returned {cfg : config} {ext : Collaborators} {u : user} {now : Time}
    {t0 tm1 : Option referral} {st : stagedRecords} {u' : user} {st' : stagedRecords} {b : ℚ}
    (h : forT0Stage cfg ext u now t0 tm1 st = some (u', st', b)) :
    u'.BalanceForT0Ethereum = u.BalanceForT0Ethereum + b ∧
      (b = 0 ∨ ∃ t, t0 = some t ∧ b = ethICE cfg ext now
        ((ApplyPreStaking u.BalanceForT0 t.PreStakingAllocation t.PreStakingBonus).1 -
          u.BalanceForT0Ethereum)) := by
  unfold forT0Stage at h
  cases t0 with
  | none =>
    simp only [Option.some.injEq, Prod.mk.injEq] at h
    obtain ⟨hu, hs, hb⟩ := h
    subst hu hs hb
    simp
  | some t =>
    simp only at h
    by_cases hc : (pairChainOk u (some t) tm1 &&
        user.isEligibleForT0ForEthereumDistribution cfg ext u now t.ID &&
        referral.isEligibleForSelfForEthereumDistribution cfg ext (some t) now
          u.ForT0LastEthereumCoinDistributionProcessedAt) = true
    · rw [if_pos hc] at h
      cases ha : assignBalance st.forT0CD
          (processEthereumCoinDistributionForForT0 cfg ext u t now).2 with
      | none => rw [ha] at h; simp at h
      | some forT0CD =>
        rw [ha] at h
        simp only [Option.some_bind, Option.some.injEq, Prod.mk.injEq] at h
        obtain ⟨hu, hs, hb⟩ := h
        rcases forForT0_released cfg ext u t now with hcase | ⟨e, hee, he, hcase⟩
        · rw [hcase] at hu hb
          subst hu hs hb
          simp
        · rw [hcase] at hu hb
          have hb' : b = e := by
            rw [← hb]
            simp [he, ethereumDistributionDryRunModeEnabled]
          subst hu
          rw [hb']
          exact ⟨rfl, Or.inr ⟨_, rfl, hee⟩⟩
    · rw [if_neg hc] at h
      simp only [Option.some.injEq, Prod.mk.injEq] at h
      obtain ⟨hu, hs, hb⟩ := h
      subst hu hs hb
      simp

/-- The stage for T-1 leaves `BalanceForTMinus1Ethereum` at what it was plus the returned
amount, and the returned amount is zero or what `CalculateEthereumDistributionICEBalance`
released. -/
theorem forTMinus1Stage_returned {cfg : config} {ext : Collaborators} {u : user} {now : Time}
    {t0 tm1 : Option referral} {st : stagedRecords} {u' : user} {st' : stagedRecords} {b : ℚ}
    (h : forTMinus1Stage cfg ext u now t0 tm1 st = some (u', st', b)) :
    u'.BalanceForTMinus1Ethereum = u.BalanceForTMinus1Ethereum + b ∧
      (b = 0 ∨ ∃ m, tm1 = some m ∧ b = ethICE cfg ext now
        ((ApplyPreStaking u.BalanceForTMinus1 m.PreStakingAllocation m.PreStakingBonus).1 -
          u.BalanceForTMinus1Ethereum)) := by
  unfold forTMinus1Stage at h
  cases tm1 with
  | none =>
    simp only [Option.some.injEq, Prod.mk.injEq] at h
    obtain ⟨hu, hs, hb⟩ := h
    subst hu hs hb
    simp
  | some m =>
    simp only at h
    by_cases hc : (tMinus1ChainOk u t0 (some m) &&
        user.isEligibleForTMinus1ForEthereumDistribution cfg ext u now m.ID &&
        referral.isEligibleForSelfForEthereumDistribution cfg ext (some m) now
          u.ForTMinus1LastEthereumCoinDistributionProcessedAt) = true
    · rw [if_pos hc] at h
      cases ha : assignBalance st.forTMinus1CD
          (processEthereumCoinDistributionForForTMinus1 cfg ext u m now).2 with
      | none => rw [ha] at h; simp at h
      | some forTMinus1CD =>
        rw [ha] at h
        simp only [Option.some_bind, Option.some.injEq, Prod.mk.injEq] at h
        obtain ⟨hu, hs, hb⟩ := h
        rcases forForTMinus1_released cfg ext u m now with hcase | ⟨e, hee, he, hcase⟩
        · rw [hcase] at hu hb
          subst hu hs hb
          simp
        · rw [hcase] at hu hb
          have hb' : b = e := by
            rw [← hb]
            simp [he, ethereumDistributionDryRunModeEnabled]
          subst hu
          rw [hb']
          exact ⟨rfl, Or.inr ⟨_, rfl, hee⟩⟩
    · rw [if_neg hc] at h
      simp only [Option.some.injEq, Prod.mk.injEq] at h
      obtain ⟨hu, hs, hb⟩ := h
      subst hu hs hb
      simp

/-- The standard part of an amount `≥ 0` at an allocation `≥ 0` is at most the amount. -/
theorem ApplyPreStaking_fst_le {amount a : ℚ} (b : ℚ) (ha : 0 ≤ a) (hx : 0 ≤ amount) :
    (ApplyPreStaking amount a b).1 ≤ amount := by
  rw [ApplyPreStaking_fst]
  exact sub_le_self _ (div_nonneg (mul_nonneg hx ha) (by norm_num))

unseal Rat.add Rat.mul Rat.inv Rat.sub in
/-- C8, as stated, fails in float64, for a bucket within the bound and a balance that is not
negative: `partlyPaidUser` has the float64 `2.98` as `BalanceSolo`, the float64 `0.95` as
`BalanceSoloEthereum`, no pending amount and nothing pre-staked; the collector is enabled, the
call completes and stages a solo amount, and the release function returns its argument. Line
300 computes `2.98 - 0.95`, which float64 rounds up to `2.0300000000000002`; that amount is
staged, and `BalanceSoloEthereum + BalanceSoloEthereumPending` exceeds `BalanceSolo`, as an
exact sum (by `2⁻⁵²`) and as the float64 sum `2.9800000000000004`. -/
theorem processEthereumCoinDistribution_upper_bound_counterexample :
    (∀ x fmin fmax n e,
      openCollaborators.CalculateEthereumDistributionICEBalance x fmin fmax n e ≤ x) ∧
    (0 ≤ partlyPaidUser.PreStakingAllocation ∧ partlyPaidUser.PreStakingAllocation ≤ 100) ∧
    (roundFloat64 partlyPaidUser.BalanceSolo = partlyPaidUser.BalanceSolo ∧
      roundFloat64 partlyPaidUser.BalanceSoloEthereum = partlyPaidUser.BalanceSoloEthereum) ∧
    (0 ≤ partlyPaidUser.BalanceSoloEthereum ∧
      0 ≤ partlyPaidUser.BalanceSoloEthereumPending.getD 0 ∧
      partlyPaidUser.BalanceSoloEthereum + partlyPaidUser.BalanceSoloEthereumPending.getD 0 ≤
        partlyPaidUser.BalanceSolo) ∧
    (isCoinDistributionCollectorEnabled sampleConfig openCollaborators sampleNow = true ∧
      (processEthereumCoinDistribution sampleConfig openCollaborators partlyPaidUser sampleNow
          none none).map (fun r => r.u.BalanceSoloEthereumPending.isSome) = some true) ∧
    float64.processEthereumCoinDistributionForSolo sampleConfig openCollaborators partlyPaidUser
        sampleNow = (partlyPaidUserStaged, 2285576810890527 / 1125899906842624) ∧
    ¬ (partlyPaidUserStaged.BalanceSoloEthereum +
        partlyPaidUserStaged.BalanceSoloEthereumPending.getD 0 ≤
      partlyPaidUserStaged.BalanceSolo) ∧
    ¬ (float64.add partlyPaidUserStaged.BalanceSoloEthereum
        (partlyPaidUserStaged.BalanceSoloEthereumPending.getD 0) ≤
      partlyPaidUserStaged.BalanceSolo) :=
  ⟨fun _ _ _ _ _ => le_refl _, by decide, by decide, by decide, by decide, by decide, by decide,
    by decide⟩

/-- C8, amended. Assume `CalculateEthereumDistributionICEBalance(x, ...) ≤ x`. After a call that
completes the four balances are as they were. With the collector not enabled, a bucket with
`Ethereum + EthereumPending ≤ Balance` on input (an absent pending amount counting as 0) still
satisfies it: the pending amount was added to the Ethereum balance. With the collector
enabled, the Ethereum balances of Solo and T0 are as they were and a pending amount that is
staged is at most the standard part of the balance less the Ethereum balance, the difference
the code computes; the Ethereum balances of ForT0 and ForTMinus1 are what they were plus the
returned amount, which is zero or at most that difference. The standard part is at most the
balance when neither the balance nor the allocation is negative. -/
theorem processEthereumCoinDistribution_upper_bound (cfg : config) (ext : Collaborators)
    (u : user) (now : Time) (t0 tm1 : Option referral) (r : distributionResult)
    (hcalc : ∀ x fmin fmax n e, ext.CalculateEthereumDistributionICEBalance x fmin fmax n e ≤ x)
    (h : processEthereumCoinDistribution cfg ext u now t0 tm1 = some r) :
    stagedWithinStandard (isCoinDistributionCollectorEnabled cfg ext now) u t0 tm1 r := by
  have hstd : (0 ≤ u.PreStakingAllocation →
      (0 ≤ u.BalanceSolo →
        (ApplyPreStaking u.BalanceSolo u.PreStakingAllocation u.PreStakingBonus).1 ≤
          u.BalanceSolo) ∧
      (0 ≤ u.BalanceT0 →
        (ApplyPreStaking u.BalanceT0 u.PreStakingAllocation u.PreStakingBonus).1 ≤
          u.BalanceT0)) ∧
    (∀ t, t0 = some t → 0 ≤ t.PreStakingAllocation → 0 ≤ u.BalanceForT0 →
      (ApplyPreStaking u.BalanceForT0 t.PreStakingAllocation t.PreStakingBonus).1 ≤
        u.BalanceForT0) ∧
    (∀ m, tm1 = some m → 0 ≤ m.PreStakingAllocation → 0 ≤ u.BalanceForTMinus1 →
      (ApplyPreStaking u.BalanceForTMinus1 m.PreStakingAllocation m.PreStakingBonus).1 ≤
        u.BalanceForTMinus1) :=
    ⟨fun ha => ⟨ApplyPreStaking_fst_le _ ha, ApplyPreStaking_fst_le _ ha⟩,
     fun t _ ha hb => ApplyPreStaking_fst_le _ ha hb,
     fun m _ ha hb => ApplyPreStaking_fst_le _ ha hb⟩
  cases hg : isCoinDistributionCollectorEnabled cfg ext now with
  | false =>
    rw [closedGate_result cfg ext u now t0 tm1 hg] at h
    simp only [Option.some.injEq] at h
    subst h
    refine ⟨⟨rfl, rfl, rfl, rfl⟩, fun _ => ⟨?_, ?_, rfl, rfl⟩,
      fun hc => absurd hc (by decide), hstd⟩
    · intro hle
      show (absorbPending u.BalanceSoloEthereum u.BalanceSoloEthereumPending).1 +
        (absorbPending u.BalanceSoloEthereum u.BalanceSoloEthereumPending).2.getD 0 ≤ u.BalanceSolo
      rw [absorbPending_sum]
      exact hle
    · intro hle
      show (absorbPending u.BalanceT0Ethereum u.BalanceT0EthereumPending).1 +
        (absorbPending u.BalanceT0Ethereum u.BalanceT0EthereumPending).2.getD 0 ≤ u.BalanceT0
      rw [absorbPending_sum]
      exact hle
  | true =>
    obtain ⟨u1, st1, u2, st2, b2, u3, st3, b3, h1, h2, h3, hres⟩ :=
      processEthereumCoinDistribution_open hg h
    obtain ⟨⟨ps, pt, m1, e1, hps, hpt⟩, -⟩ := selfStage_effect h1
    obtain ⟨⟨f0, m2, e2, -⟩, -⟩ := forT0Stage_effect h2
    obtain ⟨⟨fm, m3, e3, -⟩, -⟩ := forTMinus1Stage_effect h3
    obtain ⟨a1, a2⟩ := forT0Stage_returned h2
    obtain ⟨c1, c2⟩ := forTMinus1Stage_returned h3
    have k1 : u3.BalanceForT0Ethereum = u2.BalanceForT0Ethereum := by rw [e3]
    have k2 : u2.BalanceForTMinus1Ethereum = u1.BalanceForTMinus1Ethereum := by rw [e2]
    have k3 : u1.BalanceForT0Ethereum = u.BalanceForT0Ethereum := by rw [e1]; rfl
    have k4 : u1.BalanceForTMinus1Ethereum = u.BalanceForTMinus1Ethereum := by rw [e1]; rfl
    have k5 : u1.BalanceForT0 = u.BalanceForT0 := by rw [e1]; rfl
    have k6 : u2.BalanceForTMinus1 = u.BalanceForTMinus1 := by rw [e2, e1]; rfl
    rw [k3] at a1 a2
    rw [k5] at a2
    rw [k2, k4] at c1 c2
    rw [k6] at c2
    subst hres
    refine ⟨?_, fun hc => absurd hc (by decide), fun _ => ⟨⟨?_, ?_⟩, ⟨?_, ?_⟩, ⟨?_, ?_⟩, ?_, ?_⟩,
      hstd⟩
    · subst e3 e2 e1
      exact ⟨rfl, rfl, rfl, rfl⟩
    · subst e3 e2 e1
      rfl
    · intro p hp
      have hp' : ps = some p := by subst e3 e2 e1; exact hp
      rcases hps with hn | hs
      · rw [hn] at hp'
        exact absurd hp' (by simp [clearEthereumPending])
      · rw [hs] at hp'
        simp only [Option.some.injEq] at hp'
        rw [← hp']
        exact hcalc _ _ _ _ _
    · subst e3 e2 e1
      rfl
    · intro p hp
      have hp' : pt = some p := by subst e3 e2 e1; exact hp
      rcases hpt with hn | hs
      · rw [hn] at hp'
        exact absurd hp' (by simp [clearEthereumPending])
      · rw [hs] at hp'
        simp only [Option.some.injEq] at hp'
        rw [← hp']
        exact hcalc _ _ _ _ _
    · show u3.BalanceForT0Ethereum = u.BalanceForT0Ethereum + b2
      rw [k1, a1]
    · rcases a2 with hz | ⟨t, ht, hb⟩
      · exact Or.inl hz
      · exact Or.inr ⟨t, ht, by rw [hb]; exact hcalc _ _ _ _ _⟩
    · show u3.BalanceForTMinus1Ethereum = u.BalanceForTMinus1Ethereum + b3
      rw [c1]
    · rcases c2 with hz | ⟨m, hm, hb⟩
      · exact Or.inl hz
      · exact Or.inr ⟨m, hm, by rw [hb]; exact hcalc _ _ _ _ _⟩

unseal Rat.add Rat.mul Rat.inv Rat.sub in
theorem processEthereumCoinDistribution_upper_bound_witness :
    (∀ x fmin fmax n e,
      openCollaborators.CalculateEthereumDistributionICEBalance x fmin fmax n e ≤ x) ∧
    processEthereumCoinDistribution sampleConfig openCollaborators earningUser sampleNow
        (some sampleT0) (some sampleTMinus1) =
      some { u := earningUserDistributed, records := some earningUserRecords,
             balanceDistributedForT0 := 4, balanceDistributedForTMinus1 := 1 } ∧
    stagedWithinStandard (isCoinDistributionCollectorEnabled sampleConfig openCollaborators sampleNow)
      earningUser (some sampleT0) (some sampleTMinus1)
      { u := earningUserDistributed, records := some earningUserRecords,
        balanceDistributedForT0 := 4, balanceDistributedForTMinus1 := 1 } :=
  ⟨fun _ _ _ _ _ => le_refl _, by decide,
   processEthereumCoinDistribution_upper_bound sampleConfig openCollaborators earningUser
     sampleNow (some sampleT0) (some sampleTMinus1) _ (fun _ _ _ _ _ => le_refl _) (by decide)⟩

end Freezer
